import Mathlib

/-! # A crawler for job listings: robots policy, page budget and the job pipeline

A shallow embedding of the JavaScript sources

* `src/utils/robotsChecker.js` (namespace `RobotsChecker`),
* `src/utils/validator.js` (`isValid`),
* `src/utils/reporter.js` (namespace `Reporter`),
* `src/adapters/profesiaAdapter.js` (namespace `ProfesiaAdapter`),
* `src/main.js` (`requestHandler`),
* `src/utils/parsers/profesiaParser.js` (namespace `ProfesiaParser`: the salary and the
  posting date),

followed by theorems about them.

Conventions:

* A JavaScript string is a Lean `String`.  Operations are written on the list of characters
  (`String.data`) so that they evaluate inside the kernel.  Where JavaScript works on UTF-16 code
  units (regular expressions without the `u` flag), the string is first turned into its code
  units by `Js.utf16`.
* `String.prototype.toLowerCase` follows the Unicode case tables, which are not available here;
  it is a parameter `toLowerCase : String → String` of every definition that calls it.
  `Js.asciiLower` is the instance used on concrete ASCII inputs.
* `RegExp` is modelled on a fragment of the pattern syntax, see `RegExp.parse`.  A pattern that
  JavaScript rejects raises `RegExpError.syntaxError`; a pattern that uses syntax beyond the
  fragment yields `RegExpError.outsideModel`, which says nothing about what JavaScript does.
  The regular-expression literals of the parser are given by their syntax trees and matched by
  the backtracking matcher of namespace `Pattern`.
* A function that can throw returns `Except`; `try`/`catch` is `Except.tryCatch`.
* Asynchronous code is cut at its `await`s: the state records where every started callback is
  suspended and an explicit schedule says which one the event loop resumes next.
-/

/-! ## JavaScript strings -/

namespace Js

/-- Characters removed by `String.prototype.trim`: the WhiteSpace and LineTerminator
productions of ECMAScript. -/
def isTrimChar (c : Char) : Bool :=
  let n := c.toNat
  n = 0x09 || n = 0x0A || n = 0x0B || n = 0x0C || n = 0x0D || n = 0x20 || n = 0xA0 ||
  n = 0x1680 || (0x2000 ≤ n && n ≤ 0x200A) || n = 0x2028 || n = 0x2029 || n = 0x202F ||
  n = 0x205F || n = 0x3000 || n = 0xFEFF

/-- The text with leading and trailing `isTrimChar` characters removed (`s.trim()`). -/
def trim (s : String) : String :=
  ⟨((s.data.dropWhile isTrimChar).reverse.dropWhile isTrimChar).reverse⟩

/-- Pieces of a character list between occurrences of `sep`; never empty. -/
def splitOnChar (sep : Char) : List Char → List (List Char)
  | [] => [[]]
  | c :: cs =>
    if c = sep then [] :: splitOnChar sep cs
    else
      match splitOnChar sep cs with
      | [] => [[c]]
      | p :: ps => (c :: p) :: ps

/-- The call `s.split(sep)` for a one-character separator. -/
def split (sep : Char) (s : String) : List String :=
  (splitOnChar sep s.data).map String.mk

/-- The call `parts.join(sep)`. -/
def join (sep : String) : List String → String
  | [] => ""
  | [p] => p
  | p :: q :: ps => p ++ sep ++ join sep (q :: ps)

/-- The call `s.startsWith(p)`. -/
def startsWith (s p : String) : Bool :=
  p.data.isPrefixOf s.data

/-- The call `s.includes(sub)`. -/
def includes (s sub : String) : Bool :=
  s.data.tails.any fun rest => sub.data.isPrefixOf rest

/-- The call `s.replace(/c/g, r)`: every occurrence of the character `c` becomes `r`
(`r` holds no replacement pattern). -/
def replaceAll (c : Char) (r : String) (s : String) : String :=
  ⟨(s.data.map fun x => if x = c then r.data else [x]).flatten⟩

/-- Lower-casing of the ASCII letters; agrees with `toLowerCase` on ASCII text. -/
def asciiLower (s : String) : String :=
  ⟨s.data.map Char.toLower⟩

/-- UTF-16 code units of one character. -/
def charUnits (c : Char) : List Nat :=
  if c.toNat < 0x10000 then [c.toNat]
  else [0xD800 + (c.toNat - 0x10000) / 0x400, 0xDC00 + (c.toNat - 0x10000) % 0x400]

/-- UTF-16 code units of a string, the sequence a JavaScript engine sees. -/
def utf16 (s : String) : List Nat :=
  (s.data.map charUnits).flatten

end Js

/-! ## Regular expressions (a fragment of `RegExp` without flags) -/

/-- Ways in which `new RegExp(source)` does not deliver a usable expression here. -/
inductive RegExpError
  /-- JavaScript throws a `SyntaxError`. -/
  | syntaxError
  /-- The source uses syntax this model does not cover (classes, braces, look-around,
  escapes other than an escaped syntax character). -/
  | outsideModel
  deriving DecidableEq, Repr

deriving instance DecidableEq for Except

namespace RegExp

/-- Abstract syntax.  Groups are kept only through their nesting; captures are not recorded
because `test` does not read them. -/
inductive Node
  | empty
  /-- One given code unit. -/
  | unit (u : Nat)
  /-- The atom `.`. -/
  | dot
  /-- The assertion `^`. -/
  | bol
  /-- The assertion `$`. -/
  | eol
  | seq (a b : Node)
  | alt (a b : Node)
  | star (a : Node)
  deriving DecidableEq, Repr

/-- Sequence of the given terms, in order. -/
def seqOf : List Node → Node
  | [] => .empty
  | t :: ts => .seq t (seqOf ts)

/-- Disjunction of the given alternatives, in order. -/
def altOf : List Node → Node
  | [] => .empty
  | [a] => a
  | a :: b :: rest => .alt a (altOf (b :: rest))

/-- A disjunction under construction: the alternatives closed by `|` (oldest first) and the
terms of the open alternative (newest first). -/
structure Frame where
  alts : List Node
  terms : List Node
  deriving DecidableEq, Repr

/-- The disjunction a frame stands for once its last alternative is closed. -/
def Frame.close (f : Frame) : Node :=
  altOf (f.alts ++ [seqOf f.terms.reverse])

/-- What the parser has just read, which decides what a quantifier may attach to. -/
inductive Last
  /-- Nothing quantifiable: start of an alternative, an assertion, a lazy quantifier. -/
  | none
  /-- An atom: a quantifier applies to it. -/
  | atom
  /-- A quantified atom: only the lazy mark `?` may follow. -/
  | quantified
  deriving DecidableEq, Repr

/-- The syntax characters `^ $ \ . * + ? ( ) [ ] { } |` as code units. -/
def isSyntaxUnit (u : Nat) : Bool :=
  u = 94 || u = 36 || u = 92 || u = 46 || u = 42 || u = 43 || u = 63 || u = 40 || u = 41 ||
  u = 91 || u = 93 || u = 123 || u = 125 || u = 124

/-- Replace the newest term `t` of the frame by `q t`. -/
def Frame.quantify (f : Frame) (q : Node → Node) : Frame :=
  match f.terms with
  | [] => f
  | t :: ts => { f with terms := q t :: ts }

/-- Add a term to the open alternative. -/
def Frame.push (f : Frame) (t : Node) : Frame :=
  { f with terms := t :: f.terms }

/-- What an unfinished construct is waiting for. -/
inductive Pending
  | none
  /-- A backslash was read. -/
  | escape
  /-- An opening parenthesis was read. -/
  | group
  /-- The two characters `(?` were read. -/
  | groupMark
  deriving DecidableEq, Repr

/-- Parser state: `cur` is the innermost open disjunction, `stack` the enclosing ones. -/
structure PState where
  cur : Frame
  stack : List Frame
  last : Last
  pending : Pending
  deriving DecidableEq, Repr

/-- A character read in the ordinary position (not right after `\`, `(` or `(?`). -/
def stepPlain (s : PState) (u : Nat) : Except RegExpError PState :=
  if u = 40 then .ok ⟨⟨[], []⟩, s.cur :: s.stack, .none, .group⟩
  else if u = 41 then
    match s.stack with
    | [] => .error .syntaxError
    | parent :: stack2 => .ok ⟨parent.push s.cur.close, stack2, .atom, .none⟩
  else if u = 124 then
    .ok ⟨⟨s.cur.alts ++ [seqOf s.cur.terms.reverse], []⟩, s.stack, .none, .none⟩
  else if u = 94 then .ok ⟨s.cur.push .bol, s.stack, .none, .none⟩
  else if u = 36 then .ok ⟨s.cur.push .eol, s.stack, .none, .none⟩
  else if u = 46 then .ok ⟨s.cur.push .dot, s.stack, .atom, .none⟩
  else if u = 42 then
    match s.last with
    | .atom => .ok ⟨s.cur.quantify .star, s.stack, .quantified, .none⟩
    | _ => .error .syntaxError
  else if u = 43 then
    match s.last with
    | .atom => .ok ⟨s.cur.quantify fun t => .seq t (.star t), s.stack, .quantified, .none⟩
    | _ => .error .syntaxError
  else if u = 63 then
    match s.last with
    | .atom => .ok ⟨s.cur.quantify fun t => .alt t .empty, s.stack, .quantified, .none⟩
    | .quantified => .ok ⟨s.cur, s.stack, .none, .none⟩
    | .none => .error .syntaxError
  else if u = 92 then .ok { s with pending := .escape }
  else if u = 91 || u = 93 || u = 123 || u = 125 then .error .outsideModel
  else .ok ⟨s.cur.push (.unit u), s.stack, .atom, .none⟩

/-- One code unit of the source.

Covered: literal characters, `.`, `^`, `$`, `|`, groups `( )` and `(?: )`, the quantifiers
`*`, `+`, `?` with an optional lazy mark, and a backslash before a syntax character or `/`.
A quantifier with nothing to repeat and an unmatched `)` are syntax errors.  Everything else is
outside the model. -/
def step (s : PState) (u : Nat) : Except RegExpError PState :=
  match s.pending with
  | .none => stepPlain s u
  | .escape =>
    if isSyntaxUnit u || u = 47 then .ok ⟨s.cur.push (.unit u), s.stack, .atom, .none⟩
    else .error .outsideModel
  | .group =>
    if u = 63 then .ok { s with pending := .groupMark }
    else stepPlain { s with pending := .none } u
  | .groupMark =>
    if u = 58 then .ok { s with pending := .none }
    else .error .outsideModel

/-- End of the source: a trailing backslash and an unclosed group are syntax errors. -/
def finish (s : PState) : Except RegExpError Node :=
  match s.pending, s.stack with
  | .none, [] => .ok s.cur.close
  | _, _ => .error .syntaxError

/-- One left-to-right pass over the code units of the source. -/
def parse : List Nat → PState → Except RegExpError Node
  | [], s => finish s
  | u :: rest, s =>
    match step s u with
    | .error e => .error e
    | .ok s2 => parse rest s2

/-- The state before the first character. -/
def start : PState :=
  ⟨⟨[], []⟩, [], .none, .none⟩

/-- Line terminators, which `.` does not match. -/
def isLineTerminator (u : Nat) : Bool :=
  u = 0x0A || u = 0x0D || u = 0x2028 || u = 0x2029

/-- Zero or more rounds of `f`, each round consuming at least one code unit (a round that
consumes nothing adds no end point).  `fuel` bounds the number of rounds. -/
def iterate (f : List Nat → List (List Nat)) : Nat → List Nat → List (List Nat)
  | 0, rest => [rest]
  | fuel + 1, rest =>
    rest :: (((f rest).filter fun r => r.length < rest.length).map (iterate f fuel)).flatten

/-- All ways to match the node at the front of `rest`, each given by what remains of the
input afterwards.  `total` is the length of the whole input, so that `rest.length = total`
says "at the start". -/
def Node.ends (total : Nat) : Node → List Nat → List (List Nat)
  | .empty, rest => [rest]
  | .unit u, rest =>
    match rest with
    | [] => []
    | x :: xs => if x = u then [xs] else []
  | .dot, rest =>
    match rest with
    | [] => []
    | x :: xs => if isLineTerminator x then [] else [xs]
  | .bol, rest => if rest.length = total then [rest] else []
  | .eol, rest => if rest.length = 0 then [rest] else []
  | .seq a b, rest => ((a.ends total rest).map (b.ends total)).flatten
  | .alt a b, rest => a.ends total rest ++ b.ends total rest
  | .star a, rest => iterate (a.ends total) rest.length rest

end RegExp

/-- A compiled regular expression. -/
structure RegExp where
  node : RegExp.Node
  deriving DecidableEq, Repr

/-- The constructor `new RegExp(source)`. -/
def RegExp.create (source : String) : Except RegExpError RegExp :=
  (RegExp.parse (Js.utf16 source) RegExp.start).map RegExp.mk

/-- The call `regex.test(input)` for an expression without flags: some position of the input
starts a match. -/
def RegExp.test (regex : RegExp) (input : String) : Bool :=
  let units := Js.utf16 input
  units.tails.any fun rest => !(regex.node.ends units.length rest).isEmpty

/-! ## `src/utils/robotsChecker.js` -/

namespace RobotsChecker

/-- The value stored for one user agent: `{ allow: [], disallow: [] }`. -/
structure AgentRules where
  allow : List String
  disallow : List String
  deriving DecidableEq, Repr

/-- The `Map` from lower-cased user-agent token to its rules, in insertion order. -/
abbrev RuleSet := List (String × AgentRules)

/-- The call `rules.get(key)`; `none` is `undefined`. -/
def RuleSet.get (rules : RuleSet) (key : String) : Option AgentRules :=
  List.lookup key rules

/-- The call `rules.has(key)`. -/
def RuleSet.has (rules : RuleSet) (key : String) : Bool :=
  (RuleSet.get rules key).isSome

/-- The call `rules.set(key, value)`: an existing key keeps its place. -/
def RuleSet.set : RuleSet → String → AgentRules → RuleSet
  | [], key, value => [(key, value)]
  | (k, v) :: rest, key, value =>
    if k = key then (k, value) :: rest else (k, v) :: RuleSet.set rest key value

/-- The statement `rules.get(key)[ruleType].push(value)` for `ruleType` one of `'allow'` and
`'disallow'`: the array of the entry stored under `key` grows by `value`. -/
def RuleSet.pushRule : RuleSet → String → String → String → RuleSet
  | [], _, _, _ => []
  | (k, v) :: rest, key, ruleType, value =>
    if k = key then
      (k, if ruleType = "disallow" then { v with disallow := v.disallow ++ [value] }
          else { v with allow := v.allow ++ [value] }) :: rest
    else (k, v) :: RuleSet.pushRule rest key ruleType value

/-- Loop state of `parseRobots`: the map and `currentUserAgent` (`none` is `null`). -/
structure ParseState where
  rules : RuleSet
  currentUserAgent : Option String
  deriving DecidableEq, Repr

/-- Truthiness of `currentUserAgent`: neither `null` nor the empty string. -/
def truthyAgent : Option String → Bool
  | none => false
  | some s => s ≠ ""

/-- Body of the `for (const line of lines)` loop of `parseRobots`, for one trimmed line. -/
def parseLine (toLowerCase : String → String) (st : ParseState) (line : String) : ParseState :=
  if Js.startsWith line "#" || line = "" then st
  else
    match Js.split ':' line with
    | [] => st
    | directive :: valueParts =>
      let value := Js.trim (Js.join ":" valueParts)
      if toLowerCase directive = "user-agent" then
        let currentUserAgent := toLowerCase value
        if RuleSet.has st.rules currentUserAgent then
          ⟨st.rules, some currentUserAgent⟩
        else
          ⟨RuleSet.set st.rules currentUserAgent ⟨[], []⟩, some currentUserAgent⟩
      else if truthyAgent st.currentUserAgent &&
          (toLowerCase directive = "disallow" || toLowerCase directive = "allow") then
        match st.currentUserAgent with
        | none => st
        | some agent =>
          let ruleType := toLowerCase directive
          ⟨RuleSet.pushRule st.rules agent ruleType value, st.currentUserAgent⟩
      else st

/-- The method `parseRobots(text)`. -/
def parseRobots (toLowerCase : String → String) (text : String) : RuleSet :=
  let lines := (Js.split '\n' text).map Js.trim
  (lines.foldl (parseLine toLowerCase) ⟨[], none⟩).rules

/-- The method `matchesPattern(path, pattern)`.  The second `replace` maps `$` to `$`. -/
def matchesPattern (path pattern : String) : Except RegExpError Bool :=
  if pattern = "/" then .ok (decide (path = "/"))
  else
    let regexPattern := Js.replaceAll '$' "$" (Js.replaceAll '*' ".*" pattern)
    match RegExp.create ("^" ++ regexPattern) with
    | .error e => .error e
    | .ok regex => .ok (regex.test path)

/-- The inner loop of `checkRules` over `specificRules.allow`, followed by `return false`. -/
def allowLoop (path : String) : List String → Except RegExpError Bool
  | [] => .ok false
  | allowPattern :: rest =>
    match matchesPattern path allowPattern with
    | .error e => .error e
    | .ok true => .ok true
    | .ok false => allowLoop path rest

/-- The outer loop of `checkRules` over `specificRules.disallow`, followed by `return true`. -/
def disallowLoop (path : String) (allow : List String) : List String → Except RegExpError Bool
  | [] => .ok true
  | disallowPattern :: rest =>
    if disallowPattern = "" then disallowLoop path allow rest
    else
      match matchesPattern path disallowPattern with
      | .error e => .error e
      | .ok true => allowLoop path allow
      | .ok false => disallowLoop path allow rest

/-- The expression `rules.get(userAgent.toLowerCase()) || rules.get('*')`; an entry is an
object, hence truthy. -/
def specificRules (toLowerCase : String → String) (rules : RuleSet) (userAgent : String) :
    Option AgentRules :=
  match RuleSet.get rules (toLowerCase userAgent) with
  | some entry => some entry
  | none => RuleSet.get rules "*"

/-- The method `checkRules(path, rules, userAgent)`; `true` is "allowed". -/
def checkRules (toLowerCase : String → String) (path : String) (rules : RuleSet)
    (userAgent : String) : Except RegExpError Bool :=
  match specificRules toLowerCase rules userAgent with
  | none => .ok true
  | some entry => disallowLoop path entry.allow entry.disallow

/-! ### The evaluation as the specification words it -/

/-- A pattern that does not plainly fail to match: it matches, or evaluating it raises. -/
def decides (path pattern : String) : Bool :=
  match matchesPattern path pattern with
  | .ok false => false
  | _ => true

/-- The reference evaluation.  Select the entry of the lower-cased agent, else the entry of
`*`, else allow.  Drop the empty patterns of the disallow list and take the first of the others
that matches; when there is none, allow.  Otherwise allow exactly when some pattern of the allow
list matches as well.  Patterns are tried in declared order, so the first one that raises
before a verdict is reached makes the evaluation raise. -/
def referenceEvaluation (toLowerCase : String → String) (path : String) (rules : RuleSet)
    (userAgent : String) : Except RegExpError Bool :=
  match (RuleSet.get rules (toLowerCase userAgent)).orElse fun _ => RuleSet.get rules "*" with
  | none => .ok true
  | some entry =>
    match (entry.disallow.filter fun p => p ≠ "").find? (decides path) with
    | none => .ok true
    | some hit =>
      match matchesPattern path hit with
      | .error e => .error e
      | .ok _ =>
        match entry.allow.find? (decides path) with
        | none => .ok false
        | some a => matchesPattern path a

end RobotsChecker

/-! ### Grouping of rule lines as the specification words it -/

namespace RobotsChecker

/-- The lines of a robots.txt text: split at line feeds, each piece trimmed. -/
def robotsLines (text : String) : List String :=
  (Js.split '\n' text).map Js.trim

/-- A line that is neither blank nor a comment. -/
def isRecord (line : String) : Bool :=
  !(Js.startsWith line "#" || line = "")

/-- The directive of a line: the text before its first colon (the whole line when it has
none). -/
def directiveOf (line : String) : String :=
  ⟨line.data.takeWhile fun c => c ≠ ':'⟩

/-- The value of a line: everything after its first colon, trimmed (empty when it has
none). -/
def valueOf (line : String) : String :=
  Js.trim ⟨(line.data.dropWhile fun c => c ≠ ':').drop 1⟩

/-- The token a line declares when it is a `User-agent` line. -/
def declares (toLowerCase : String → String) (line : String) : Option String :=
  if isRecord line && toLowerCase (directiveOf line) = "user-agent" then
    some (toLowerCase (valueOf line))
  else none

/-- The token declared by the last `User-agent` line among `before`. -/
def lastDeclared (toLowerCase : String → String) (before : List String) : Option String :=
  (before.filterMap (declares toLowerCase)).getLast?

/-- A line that is a rule of the given kind (`allow` or `disallow`), matched
case-insensitively. -/
def isRule (toLowerCase : String → String) (kind : String) (line : String) : Bool :=
  isRecord line && toLowerCase (directiveOf line) = kind

/-- The values, in file order, of the rule lines of the given kind whose most recent preceding
`User-agent` line declared `token`.  Every line is paired with the lines before it. -/
def groupedValues (toLowerCase : String → String) (kind token : String)
    (lines : List String) : List String :=
  ((lines.zip lines.inits).filter fun lb =>
      isRule toLowerCase kind lb.1 && lastDeclared toLowerCase lb.2 = some token).map
    fun lb => valueOf lb.1

end RobotsChecker

namespace RobotsChecker

/-- As `groupedValues`, for lines that follow the lines `before`. -/
def groupedAfter (toLowerCase : String → String) (kind token : String)
    (before lines : List String) : List String :=
  ((lines.zip (lines.inits.map fun i => before ++ i)).filter fun lb =>
      isRule toLowerCase kind lb.1 && lastDeclared toLowerCase lb.2 = some token).map
    fun lb => valueOf lb.1

end RobotsChecker

namespace RobotsChecker

/-- The entry expected under a token: the lists already stored, extended by the values `a`
and `d` met later; a token not stored yet gets an entry only if it is declared. -/
def expectEntry (stored : Option AgentRules) (declared : Bool) (a d : List String) :
    Option AgentRules :=
  match stored with
  | some r => some ⟨r.allow ++ a, r.disallow ++ d⟩
  | none => if declared then some ⟨a, d⟩ else none

end RobotsChecker

/-! ### Wildcards as the specification words them -/

namespace RobotsChecker

/-- The code unit of `*`. -/
def starUnit : Nat := 42

/-- `WildMatch pattern text`: the text is the pattern read as a wildcard, where `*` stands for
any (possibly empty) run of code units and every other code unit stands for itself. -/
inductive WildMatch : List Nat → List Nat → Prop
  | nil : WildMatch [] []
  | unit (u : Nat) (pattern text : List Nat) :
      u ≠ starUnit → WildMatch pattern text → WildMatch (u :: pattern) (u :: text)
  | star (pattern skipped text : List Nat) :
      WildMatch pattern text → WildMatch (starUnit :: pattern) (skipped ++ text)

/-- A character with a meaning in regular expressions: one of `^ $ \ . * + ? ( ) [ ] { } |`. -/
def isRegExpSyntax (c : Char) : Bool :=
  RegExp.isSyntaxUnit c.toNat

/-- A pattern in which `*` is the only character with a meaning in regular expressions. -/
def IsPlainWildcard (pattern : String) : Prop :=
  ∀ c ∈ pattern.data, c = '*' ∨ isRegExpSyntax c = false

/-- A text without line terminators (line feed, carriage return, U+2028, U+2029). -/
def HasNoLineTerminator (text : String) : Prop :=
  ∀ c ∈ text.data, RegExp.isLineTerminator c.toNat = false

/-- The regular-expression source of a plain wildcard, on code units: `*` becomes `.*`. -/
def translateUnits (units : List Nat) : List Nat :=
  (units.map fun u => if u = starUnit then [46, 42] else [u]).flatten

/-- The term a code unit of a plain wildcard stands for. -/
def termOf (u : Nat) : RegExp.Node :=
  if u = starUnit then .star .dot else .unit u

end RobotsChecker

/-! ## Records and the validator (`src/utils/validator.js`) -/

/-- The values a field of a job record can hold.

A number is an integer or `NaN` (the parser produces integers); an array holds strings; `obj`
is any other object, given by the text its conversion to a string yields. `undefined` also
stands for an absent property. -/
inductive JsVal
  | undefined
  | null
  | bool (b : Bool)
  | num (n : Int)
  | nan
  | str (s : String)
  | arr (items : List String)
  | obj (text : String)
  deriving DecidableEq, Repr

namespace JsVal

/-- Truthiness, as tested by `if (v)` and `v && ...`. -/
def truthy : JsVal → Bool
  | undefined => false
  | null => false
  | bool b => b
  | num n => n ≠ 0
  | nan => false
  | str s => s ≠ ""
  | arr _ => true
  | obj _ => true

/-- The test `typeof v === 'string'`. -/
def isString : JsVal → Bool
  | str _ => true
  | _ => false

/-- The test `typeof v === 'number'`. -/
def isNumber : JsVal → Bool
  | num _ => true
  | nan => true
  | _ => false

/-- The test `Array.isArray(v)`. -/
def isArray : JsVal → Bool
  | arr _ => true
  | _ => false

/-- The property key a value turns into when it indexes an object (`ToPropertyKey`). -/
def toPropertyKey : JsVal → String
  | undefined => "undefined"
  | null => "null"
  | bool b => if b then "true" else "false"
  | num n => toString n
  | nan => "NaN"
  | str s => s
  | arr items => Js.join "," items
  | obj text => text

end JsVal

/-- The object returned by `parseProfesia`, and any object handed to `isValid` or `addJob`. -/
structure JobData where
  jobId : JsVal
  jobTitle : JsVal
  companyName : JsVal
  companyUrl : JsVal
  location : JsVal
  salaryMin : JsVal
  salaryMax : JsVal
  salaryCurrency : JsVal
  salaryPeriod : JsVal
  employmentType : JsVal
  tags : JsVal
  postedAt : JsVal
  jobUrl : JsVal
  description : JsVal
  deriving DecidableEq, Repr

/-- The built-ins and the library whose results the program only consumes. -/
structure Host where
  /-- The cheerio queries and the text extraction of `parseProfesia` on a page; `none` when
  they throw. The fields `jobId` and `jobUrl` of the result are not used. -/
  extract : String → Option JobData
  /-- Whether `new URL(v)` returns (rather than throws). -/
  validUrl : JsVal → Bool
  /-- The time value of `new Date(v)`; `none` is `NaN`, an invalid date. -/
  dateTime : JsVal → Option Int

/-- A thrown exception or a rejected promise. -/
inductive JsError
  /-- Something was thrown. -/
  | thrown
  /-- An awaited promise is still pending when the schedule ends. -/
  | pending
  deriving DecidableEq, Repr

/-- The test `typeof v !== 'string' || v.trim() === ''` of the required-field loop. -/
def isBlankField (v : JsVal) : Bool :=
  match v with
  | .str s => Js.trim s = ""
  | _ => true

/-- The block "Validate postedAt (if present)" of `isValid`: a date that does not parse or
lies after `now` is replaced by `null`. -/
def normalisePostedAt (host : Host) (now : Int) (jobData : JobData) : JobData :=
  if jobData.postedAt.truthy && jobData.postedAt ≠ .null then
    match host.dateTime jobData.postedAt with
    | none => { jobData with postedAt := .null }
    | some date => if date > now then { jobData with postedAt := .null } else jobData
  else jobData

/-- The block "Validate tags" of `isValid`: a truthy value that is not an array is replaced by
the empty array. -/
def normaliseTags (jobData : JobData) : JobData :=
  if jobData.tags.truthy && !jobData.tags.isArray then { jobData with tags := .arr [] }
  else jobData

/-- The function `isValid(jobData)` for an object `jobData`, run when the clock reads `now`.
Returns the verdict and the object as the call leaves it. -/
def isValid (host : Host) (now : Int) (jobData : JobData) : Bool × JobData :=
  -- Required fields (all must be non-empty strings)
  if isBlankField jobData.jobTitle || isBlankField jobData.jobId ||
      isBlankField jobData.jobUrl || isBlankField jobData.location then (false, jobData)
  -- Validate jobUrl
  else if !host.validUrl jobData.jobUrl then (false, jobData)
  -- Validate companyUrl (if present)
  else if jobData.companyUrl.truthy && !host.validUrl jobData.companyUrl then (false, jobData)
  else
    -- Validate postedAt (if present), then tags
    let jobData2 := normaliseTags (normalisePostedAt host now jobData)
    -- Validate salary fields (if present)
    if (jobData2.salaryMin.truthy && !jobData2.salaryMin.isNumber) ||
        (jobData2.salaryMax.truthy && !jobData2.salaryMax.isNumber) then (false, jobData2)
    else (true, jobData2)

/-! ## `src/utils/reporter.js` -/

/-- A value stored in one of the counting objects: a number, or the string that results when
the key names a member inherited from `Object.prototype` (the member's text followed by
`ones` characters `1`). -/
inductive Count
  | num (n : Nat)
  | text (ones : Nat)
  deriving DecidableEq, Repr

/-- The own properties of a counting object (`{}` at the start), in insertion order. -/
abbrev Counts := List (String × Count)

/-- An entry pushed to `salaries`. -/
structure Salary where
  min : JsVal
  max : JsVal
  currency : JsVal
  period : JsVal
  deriving DecidableEq, Repr

/-- The fields of a `Reporter`. -/
structure Reporter where
  totalJobs : Nat
  duplicates : Nat
  failed : Nat
  locations : Counts
  tags : Counts
  companies : Counts
  salaries : List Salary
  employmentTypes : Counts
  startTime : Option Int
  endTime : Option Int
  failedUrls : List String
  deriving DecidableEq, Repr

namespace Reporter

/-- The state after `new Reporter(config)`. -/
def fresh : Reporter :=
  ⟨0, 0, 0, [], [], [], [], [], none, none, []⟩

/-- Names that every object inherits from `Object.prototype` as functions. -/
def inheritedFunctions : List String :=
  ["constructor", "hasOwnProperty", "isPrototypeOf", "propertyIsEnumerable", "toLocaleString",
   "toString", "valueOf", "__defineGetter__", "__defineSetter__", "__lookupGetter__",
   "__lookupSetter__"]

/-- Replace the value of an own property. -/
def setOwn : Counts → String → Count → Counts
  | [], key, value => [(key, value)]
  | (k, v) :: rest, key, value =>
    if k = key then (k, value) :: rest else (k, v) :: setOwn rest key value

/-- The statement `counts[key] = (counts[key] || 0) + 1`.

An own property holding a number is incremented; an absent key starts at 1. A key that names
an inherited function reads as that function, which is truthy, and `+ 1` appends to its text;
the key `__proto__` reads as an object and the assignment of a string to it is ignored. -/
def bump (counts : Counts) (key : String) : Counts :=
  match List.lookup key counts with
  | some (.num n) => setOwn counts key (.num (n + 1))
  | some (.text ones) => setOwn counts key (.text (ones + 1))
  | none =>
    if key = "__proto__" then counts
    else if key ∈ inheritedFunctions then setOwn counts key (.text 1)
    else setOwn counts key (.num 1)

/-- The statement `if (v) counts[v] = (counts[v] || 0) + 1`. -/
def bumpIfTruthy (counts : Counts) (v : JsVal) : Counts :=
  if v.truthy then bump counts v.toPropertyKey else counts

/-- The method `addJob(job)`. -/
def addJob (r : Reporter) (job : JobData) : Reporter :=
  { r with
    totalJobs := r.totalJobs + 1
    locations := bumpIfTruthy r.locations job.location
    tags :=
      match job.tags with
      | .arr items => items.foldl bump r.tags
      | _ => r.tags
    companies := bumpIfTruthy r.companies job.companyName
    salaries :=
      if job.salaryMin.isNumber && job.salaryMax.isNumber then
        r.salaries ++ [⟨job.salaryMin, job.salaryMax, job.salaryCurrency, job.salaryPeriod⟩]
      else r.salaries
    employmentTypes := bumpIfTruthy r.employmentTypes job.employmentType }

/-- The method `addDuplicate()`. -/
def addDuplicate (r : Reporter) : Reporter :=
  { r with duplicates := r.duplicates + 1 }

/-- The method `addFailed(url)` for `url` a string or `null` (`none`). -/
def addFailed (r : Reporter) (url : Option String) : Reporter :=
  { r with
    failed := r.failed + 1
    failedUrls :=
      match url with
      | some u => if u ≠ "" then r.failedUrls ++ [u] else r.failedUrls
      | none => r.failedUrls }

end Reporter

/-! ## `src/adapters/profesiaAdapter.js` -/

/-- A JavaScript `Set` of strings, in insertion order. -/
abbrev StrSet := List String

/-- The call `set.add(x)`. -/
def StrSet.add (set : StrSet) (x : String) : StrSet :=
  if x ∈ set then set else set ++ [x]

namespace ProfesiaAdapter

/-- The method `parse(html, jobId, jobUrl)`, that is `parseProfesia`: the extracted fields with
`jobId` and `jobUrl` passed through. -/
def parse (host : Host) (html jobId jobUrl : String) : Except JsError JobData :=
  match host.extract html with
  | none => .error .thrown
  | some fields => .ok { fields with jobId := .str jobId, jobUrl := .str jobUrl }

/-- An `a` element as the page queries see it: its `id` and `href` properties, empty when the
attribute is missing. -/
structure Anchor where
  id : String
  href : String
  deriving DecidableEq, Repr

/-- A candidate `{ id: a.id || null, url: a.href || null }`; `none` is `null`. -/
structure Job where
  id : Option String
  url : Option String
  deriving DecidableEq, Repr

/-- The expression `s || null` for a string. -/
def orNull (s : String) : Option String :=
  if s = "" then none else some s

/-- The mapping inside `page.$$eval('li.list-row h2 a', ...)`. -/
def jobOf (a : Anchor) : Job :=
  ⟨orNull a.id, orNull a.href⟩

/-- What the outside world answers to one candidate. -/
structure Fate where
  /-- The value `robotsChecker.isAllowed(job.url)` resolves to. -/
  allowed : Bool
  /-- The body of the response `gotScraping(job.url)` resolves to; `none` when it rejects. -/
  response : Option String
  /-- The clock when `isValid` runs. -/
  now : Int
  /-- Whether `dataset.pushData(jobData)` resolves (rather than rejects). -/
  pushOk : Bool
  deriving DecidableEq, Repr

/-- The way a callback of `jobs.map(async job => ...)` ended. -/
inductive Outcome
  /-- The `return` after `reporter.addFailed(job.url)` in the first `if`. -/
  | skipped
  /-- The `return` after `reporter.addDuplicate()`. -/
  | duplicate
  /-- The end of the `try` block when `isValid` returned `false`. -/
  | dropped
  /-- The end of the `try` block after `dataset.pushData` resolved. -/
  | saved
  /-- The end of the `catch` block; `afterAddJob` tells whether `reporter.addJob` had run. -/
  | caught (afterAddJob : Bool)
  deriving DecidableEq, Repr

/-- Where a callback stands: suspended at one of its three `await`s, or finished. -/
inductive Phase
  /-- At `await robotsChecker.isAllowed(job.url)`. -/
  | awaitRobots
  /-- At `await gotScraping(job.url)`. -/
  | awaitFetch
  /-- At `await dataset.pushData(jobData)`. -/
  | awaitPush
  | done (outcome : Outcome)
  deriving DecidableEq, Repr

/-- One started callback. -/
structure Task where
  job : Job
  fate : Fate
  phase : Phase
  deriving DecidableEq, Repr

/-- The objects shared by all callbacks, and the callbacks started so far. -/
structure Crawl where
  jobIdSet : StrSet
  reporter : Reporter
  /-- The arguments of `dataset.pushData`, in call order. -/
  dataset : List JobData
  /-- The arguments of `gotScraping`, in call order. -/
  requests : List String
  tasks : List Task
  deriving DecidableEq, Repr

/-- The state at the start of `main`: empty sets, a fresh reporter, an empty dataset. -/
def Crawl.fresh : Crawl :=
  ⟨[], Reporter.fresh, [], [], []⟩

/-- The test `!v` for a string or `null`. -/
def falsy : Option String → Bool
  | none => true
  | some s => s = ""

/-- The callback up to its first `await`.  When `!job.url || !job.id` holds the condition is
decided without calling `isAllowed` and the callback ends at once. -/
def startJob (s : Crawl) (row : Anchor × Fate) : Crawl :=
  let job := jobOf row.1
  if falsy job.url || falsy job.id then
    { s with
      reporter := s.reporter.addFailed job.url
      tasks := s.tasks ++ [⟨job, row.2, .done .skipped⟩] }
  else
    { s with tasks := s.tasks ++ [⟨job, row.2, .awaitRobots⟩] }

/-- The callback from the moment `isAllowed` resolved up to the call of `gotScraping`. -/
def afterRobots (s : Crawl) (t : Task) (id url : String) : Crawl × Phase :=
  -- Skip if missing URL/ID or not allowed by robots.txt
  if !t.fate.allowed then
    ({ s with reporter := s.reporter.addFailed (some url) }, .done .skipped)
  -- Skip if duplicate
  else if id ∈ s.jobIdSet then
    ({ s with reporter := s.reporter.addDuplicate }, .done .duplicate)
  else
    ({ s with jobIdSet := StrSet.add s.jobIdSet id, requests := s.requests ++ [url] },
      .awaitFetch)

/-- The statements of the `try` block from the moment `gotScraping` settled up to the call of
`dataset.pushData`. -/
def tryAfterFetch (host : Host) (s : Crawl) (t : Task) (id url : String) :
    Except JsError (Crawl × Phase) :=
  match t.fate.response with
  | none => .error .thrown
  | some html =>
    match parse host html id url with
    | .error e => .error e
    | .ok jobData =>
      let checked := isValid host t.fate.now jobData
      -- Validate and save
      if checked.1 then
        .ok ({ s with
                reporter := s.reporter.addJob checked.2
                dataset := s.dataset ++ [checked.2] }, .awaitPush)
      else .ok (s, .done .dropped)

/-- The statements of the `try` block from the moment `dataset.pushData` settled. -/
def tryAfterPush (s : Crawl) (t : Task) : Except JsError (Crawl × Phase) :=
  if t.fate.pushOk then .ok (s, .done .saved) else .error .thrown

/-- The `catch (err)` block. -/
def catchBlock (s : Crawl) (url : String) (afterAddJob : Bool) : Except JsError (Crawl × Phase) :=
  .ok ({ s with reporter := s.reporter.addFailed (some url) }, .done (.caught afterAddJob))

/-- The callback of task `t` from its current `await` to the next one or to its end.  An error
that leaves this function rejects the callback. -/
def continueTask (host : Host) (s : Crawl) (t : Task) : Except JsError (Crawl × Phase) :=
  match t.job.id, t.job.url with
  | some id, some url =>
    match t.phase with
    | .awaitRobots => .ok (afterRobots s t id url)
    | .awaitFetch => (tryAfterFetch host s t id url).tryCatch fun _ => catchBlock s url false
    | .awaitPush => (tryAfterPush s t).tryCatch fun _ => catchBlock s url true
    | .done outcome => .ok (s, .done outcome)
  | _, _ => .ok (s, t.phase)

/-- The event loop resumes the callback with index `i` (nothing happens when there is no such
callback or it has finished). -/
def resume (host : Host) (s : Crawl) (i : Nat) : Except JsError Crawl :=
  match s.tasks[i]? with
  | none => .ok s
  | some t =>
    match continueTask host s t with
    | .error e => .error e
    | .ok (s2, phase) => .ok { s2 with tasks := s2.tasks.set i { t with phase := phase } }

/-- The event loop resumes callbacks in the order of `schedule`; a rejected callback rejects
the surrounding `Promise.all`. -/
def runSchedule (host : Host) : List Nat → Crawl → Except JsError Crawl
  | [], s => .ok s
  | i :: rest, s =>
    match resume host s i with
    | .error e => .error e
    | .ok s2 => runSchedule host rest s2

/-- Whether every callback from index `first` on has finished. -/
def settledFrom (first : Nat) (s : Crawl) : Bool :=
  (s.tasks.drop first).all fun t =>
    match t.phase with
    | .done _ => true
    | _ => false

/-- The method `processJobsOnPage` once `page.$$eval` has delivered the anchors `rows`: every
callback is started in order, the event loop then follows `schedule`, and `Promise.all`
resolves when all callbacks of this page have finished.  The result is the state reached and
how the call completes. -/
def processJobsOnPage (host : Host) (rows : List (Anchor × Fate)) (schedule : List Nat)
    (s : Crawl) : Crawl × Except JsError Unit :=
  let started := rows.foldl startJob s
  match runSchedule host schedule started with
  | .error e => (started, .error e)
  | .ok s2 => (s2, if settledFrom s.tasks.length s2 then .ok () else .error .pending)

/-- The page budget and what it governs. -/
structure Frontier where
  visitedUrls : StrSet
  /-- The field `enqueuedCount.value`. -/
  enqueuedCount : Nat
  /-- The URLs passed to `enqueueLinks`, in call order. -/
  enqueued : List String
  deriving DecidableEq, Repr

/-- What the page queries of `enqueueNextPages` deliver. -/
structure PageLinks where
  /-- The `href` of `li > a.next`; `none` when the query fails (`.catch(() => null)`). -/
  next : Option String
  /-- All `a` elements of the page. -/
  anchors : List Anchor
  deriving DecidableEq, Repr

/-- The filter and map inside `page.$$eval('a', ...)`: links with `praca` in the address, no
`detail` in it and no id. -/
def offerLinks (anchors : List Anchor) : List String :=
  (anchors.filter fun a =>
    a.href ≠ "" && Js.includes a.href "praca" && !Js.includes a.href "detail" &&
      decide (a.id = "")).map fun a => a.href

/-- The `for (const href of offerLinks)` loop.  `isAllowed` is what the robots check resolves
to and `enqueueOk` tells whether `enqueueLinks` resolves for a URL. -/
def offerLoop (maxPages : Int) (isAllowed enqueueOk : String → Bool) :
    List String → Frontier → Frontier × Except JsError Unit
  | [], f => (f, .ok ())
  | href :: rest, f =>
    if (f.enqueuedCount : Int) ≥ maxPages then (f, .ok ())
    else if !decide (href ∈ f.visitedUrls) && isAllowed href then
      let f2 : Frontier :=
        { visitedUrls := StrSet.add f.visitedUrls href
          enqueuedCount := f.enqueuedCount + 1
          enqueued := f.enqueued ++ [href] }
      if enqueueOk href then offerLoop maxPages isAllowed enqueueOk rest f2
      else (f2, .error .thrown)
    else offerLoop maxPages isAllowed enqueueOk rest f

/-- The method `enqueueNextPages`; `maxPages` is `config.max_pages`. -/
def enqueueNextPages (maxPages : Int) (isAllowed enqueueOk : String → Bool)
    (links : PageLinks) (f : Frontier) : Frontier × Except JsError Unit :=
  if !falsy links.next && isAllowed (links.next.getD "") then
    let nextUrl := links.next.getD ""
    let f2 : Frontier :=
      { f with enqueuedCount := f.enqueuedCount + 1, enqueued := f.enqueued ++ [nextUrl] }
    (f2, if enqueueOk nextUrl then .ok () else .error .thrown)
  else
    offerLoop maxPages isAllowed enqueueOk (offerLinks links.anchors) f

end ProfesiaAdapter

/-! ## `src/main.js` -/

open ProfesiaAdapter in
/-- One visit of a listing page: the request and everything the outside world answers while
its handler runs. -/
structure Listing where
  /-- The field `request.url`. -/
  url : String
  /-- The anchors `page.$$eval('li.list-row h2 a', ...)` delivers, each with the answers its
  callback will get; `none` when the query rejects. -/
  rows : Option (List (Anchor × Fate))
  /-- The order in which the event loop resumes the job callbacks. -/
  schedule : List Nat
  links : PageLinks
  /-- What `robotsChecker.isAllowed` resolves to for a pagination link. -/
  isAllowed : String → Bool
  /-- Whether `enqueueLinks` resolves for a URL. -/
  enqueueOk : String → Bool

open ProfesiaAdapter in
/-- The state holders created in `main`. -/
structure Run where
  crawl : Crawl
  frontier : Frontier
  deriving DecidableEq, Repr

open ProfesiaAdapter in
/-- The state holders as `main` creates them. -/
def Run.fresh : Run :=
  ⟨Crawl.fresh, ⟨[], 0, []⟩⟩

open ProfesiaAdapter in
/-- The `requestHandler` of `createCrawler`; `maxPages` is `config.max_pages`.  The result is
the state the handler leaves and how it completes. -/
def requestHandler (host : Host) (maxPages : Int) (page : Listing) (st : Run) :
    Run × Except JsError Unit :=
  let frontier1 : Frontier :=
    { st.frontier with visitedUrls := StrSet.add st.frontier.visitedUrls page.url }
  match page.rows with
  | none => (⟨st.crawl, frontier1⟩, .error .thrown)
  | some rows =>
    match processJobsOnPage host rows page.schedule st.crawl with
    | (crawl2, .error e) => (⟨crawl2, frontier1⟩, .error e)
    | (crawl2, .ok _) =>
      if (frontier1.enqueuedCount : Int) ≥ maxPages then (⟨crawl2, frontier1⟩, .ok ())
      else
        let r := enqueueNextPages maxPages page.isAllowed page.enqueueOk page.links frontier1
        (⟨crawl2, r.1⟩, r.2)

/-- The handler invoked for one page after the other, each invocation running to its
completion (whatever that is) before the next starts. -/
def handleAll (host : Host) (maxPages : Int) : List Listing → Run → Run
  | [], st => st
  | page :: rest, st => handleAll host maxPages rest (requestHandler host maxPages page st).1

/-! ## Notions used to state the properties -/

namespace ProfesiaAdapter

/-- The budget invariant: every increment of the counter went with one URL handed to
`enqueueLinks`, and the counter is within the budget. -/
def WithinBudget (maxPages : Int) (f : Frontier) : Prop :=
  f.enqueued.length = f.enqueuedCount ∧ (f.enqueuedCount : Int) ≤ maxPages

/-- Phases of a callback that has put its identifier into `jobIdSet`. -/
def Phase.holdsId : Phase → Bool
  | .awaitRobots => false
  | .awaitFetch => true
  | .awaitPush => true
  | .done .skipped => false
  | .done .duplicate => false
  | .done _ => true

/-- Phases of a callback that has called `reporter.addJob` and `dataset.pushData`. -/
def Phase.reported : Phase → Bool
  | .awaitPush => true
  | .done .saved => true
  | .done (.caught true) => true
  | _ => false

/-- Phases of a callback that has called `reporter.addFailed`. -/
def Phase.failed : Phase → Bool
  | .done .skipped => true
  | .done (.caught _) => true
  | _ => false

/-- Phases of a callback that has called `reporter.addDuplicate`. -/
def Phase.isDuplicate : Phase → Bool
  | .done .duplicate => true
  | _ => false

/-- Whether a callback has finished. -/
def Phase.isDone : Phase → Bool
  | .done _ => true
  | _ => false

/-- The task list with the phase of task `i` (which is `t`) replaced. -/
def setPhase (s : Crawl) (i : Nat) (t : Task) (phase : Phase) : List Task :=
  s.tasks.set i { t with phase := phase }

/-- The transitions of one resumption, one constructor for each path through the callback.
In every constructor but `idle`, `t` is the task with index `i`, suspended, with identifier
`id` and address `url`. -/
inductive Step (host : Host) (s : Crawl) (i : Nat) : Crawl → Prop
  /-- No such callback, or it has finished (or it has no identifier or address, which does
  not happen to a suspended callback). -/
  | idle :
      (∀ t, s.tasks[i]? = some t →
        t.phase.isDone = true ∨ t.job.id = none ∨ t.job.url = none) →
      Step host s i s
  /-- The robots check said no. -/
  | denied (t : Task) (id url : String) :
      s.tasks[i]? = some t → t.job.id = some id → t.job.url = some url →
      t.phase = .awaitRobots → t.fate.allowed = false →
      Step host s i
        { s with
          reporter := s.reporter.addFailed (some url)
          tasks := setPhase s i t (.done .skipped) }
  /-- The identifier is in `jobIdSet` already. -/
  | duplicate (t : Task) (id url : String) :
      s.tasks[i]? = some t → t.job.id = some id → t.job.url = some url →
      t.phase = .awaitRobots → t.fate.allowed = true → id ∈ s.jobIdSet →
      Step host s i
        { s with
          reporter := s.reporter.addDuplicate
          tasks := setPhase s i t (.done .duplicate) }
  /-- The identifier is new: it is added and the detail page requested. -/
  | claimed (t : Task) (id url : String) :
      s.tasks[i]? = some t → t.job.id = some id → t.job.url = some url →
      t.phase = .awaitRobots → t.fate.allowed = true → id ∉ s.jobIdSet →
      Step host s i
        { s with
          jobIdSet := s.jobIdSet ++ [id]
          requests := s.requests ++ [url]
          tasks := setPhase s i t .awaitFetch }
  /-- The request was rejected, or parsing the response threw. -/
  | fetchFailed (t : Task) (id url : String) :
      s.tasks[i]? = some t → t.job.id = some id → t.job.url = some url →
      t.phase = .awaitFetch →
      (t.fate.response = none ∨
        ∃ html e, t.fate.response = some html ∧ parse host html id url = .error e) →
      Step host s i
        { s with
          reporter := s.reporter.addFailed (some url)
          tasks := setPhase s i t (.done (.caught false)) }
  /-- The record did not pass `isValid`. -/
  | dropped (t : Task) (id url html : String) (jobData : JobData) :
      s.tasks[i]? = some t → t.job.id = some id → t.job.url = some url →
      t.phase = .awaitFetch → t.fate.response = some html →
      parse host html id url = .ok jobData →
      (isValid host t.fate.now jobData).1 = false →
      Step host s i { s with tasks := setPhase s i t (.done .dropped) }
  /-- The record passed `isValid`: it is reported and handed to the sink. -/
  | pushed (t : Task) (id url html : String) (jobData : JobData) :
      s.tasks[i]? = some t → t.job.id = some id → t.job.url = some url →
      t.phase = .awaitFetch → t.fate.response = some html →
      parse host html id url = .ok jobData →
      (isValid host t.fate.now jobData).1 = true →
      Step host s i
        { s with
          reporter := s.reporter.addJob (isValid host t.fate.now jobData).2
          dataset := s.dataset ++ [(isValid host t.fate.now jobData).2]
          tasks := setPhase s i t .awaitPush }
  /-- The sink accepted the record. -/
  | saved (t : Task) (id url : String) :
      s.tasks[i]? = some t → t.job.id = some id → t.job.url = some url →
      t.phase = .awaitPush → t.fate.pushOk = true →
      Step host s i { s with tasks := setPhase s i t (.done .saved) }
  /-- The sink rejected the record. -/
  | pushFailed (t : Task) (id url : String) :
      s.tasks[i]? = some t → t.job.id = some id → t.job.url = some url →
      t.phase = .awaitPush → t.fate.pushOk = false →
      Step host s i
        { s with
          reporter := s.reporter.addFailed (some url)
          tasks := setPhase s i t (.done (.caught true)) }

/-- The identifiers put into `jobIdSet` by the callbacks, in task order. -/
def claimedIds (tasks : List Task) : List String :=
  tasks.filterMap fun t => if t.phase.holdsId then t.job.id else none

/-- The identifiers of the records handed to the sink by the callbacks, in task order. -/
def reportedIds (tasks : List Task) : List String :=
  tasks.filterMap fun t => if t.phase.reported then t.job.id else none

/-- A candidate that the first `if` of the callback turns away: no address, no identifier,
or not allowed by robots.txt. -/
def turnedAway (job : Job) (fate : Fate) : Bool :=
  falsy job.url || falsy job.id || !fate.allowed

/-- The phase of a task fits its candidate: a candidate without address or identifier is
skipped at once, a disallowed one never gets past the robots check, and only a candidate that
is turned away is skipped. -/
structure Task.Coherent (t : Task) : Prop where
  missing : (falsy t.job.url || falsy t.job.id) = true → t.phase = .done .skipped
  present : t.phase ≠ .done .skipped → ∃ id url, t.job.id = some id ∧ t.job.url = some url
  denied : t.fate.allowed = false → t.phase = .awaitRobots ∨ t.phase = .done .skipped
  skipped : t.phase = .done .skipped → turnedAway t.job t.fate = true

/-- The bookkeeping that links a state `s` to the state `s0` in which no callback had been
started: every counter has grown by the number of callbacks that took the matching path, and
`jobIdSet` has grown by the identifiers of the callbacks that passed the duplicate check,
which are distinct and new. -/
structure Accounted (s0 s : Crawl) : Prop where
  failed : s.reporter.failed = s0.reporter.failed + s.tasks.countP fun t => t.phase.failed
  duplicates :
    s.reporter.duplicates = s0.reporter.duplicates + s.tasks.countP fun t => t.phase.isDuplicate
  totalJobs :
    s.reporter.totalJobs = s0.reporter.totalJobs + s.tasks.countP fun t => t.phase.reported
  pushed : s.dataset.length = s0.dataset.length + s.tasks.countP fun t => t.phase.reported
  pushedIds :
    (s.dataset.map fun r => r.jobId).Perm
      ((s0.dataset.map fun r => r.jobId) ++ (reportedIds s.tasks).map JsVal.str)
  idsNodup : (claimedIds s.tasks).Nodup
  idsNew : ∀ x ∈ claimedIds s.tasks, x ∉ s0.jobIdSet
  idsMem : ∀ x, x ∈ s.jobIdSet ↔ x ∈ s0.jobIdSet ∨ x ∈ claimedIds s.tasks
  duplicateSeen :
    ∀ t ∈ s.tasks, t.phase = .done .duplicate → ∃ id, t.job.id = some id ∧ id ∈ s.jobIdSet
  coherent : ∀ t ∈ s.tasks, t.Coherent

/-- The states the shared objects can be in after `s0`: pages are started and callbacks are
resumed in any order, also callbacks of different pages in turn. -/
inductive Reachable (host : Host) (s0 : Crawl) : Crawl → Prop
  | start : Reachable host s0 s0
  | page (s : Crawl) (rows : List (Anchor × Fate)) :
      Reachable host s0 s → Reachable host s0 (rows.foldl startJob s)
  | resume (s s2 : Crawl) (i : Nat) :
      Reachable host s0 s → resume host s i = .ok s2 → Reachable host s0 s2

/-- A candidate to which nothing goes wrong: the request is answered, the answer parses into a
record that passes `isValid`, and the sink accepts it. -/
def Lucky (host : Host) (job : Job) (fate : Fate) : Prop :=
  ∀ id url, job.id = some id → job.url = some url →
    ∃ html jobData, fate.response = some html ∧ parse host html id url = .ok jobData ∧
      (isValid host fate.now jobData).1 = true ∧ fate.pushOk = true

/-- No lucky candidate has been dropped or has ended in the `catch` block. -/
def NoLoss (host : Host) (s : Crawl) : Prop :=
  ∀ t ∈ s.tasks, Lucky host t.job t.fate →
    t.phase ≠ .done .dropped ∧ ∀ b, t.phase ≠ .done (.caught b)

/-- The candidate and the answers of a task, which never change. -/
def Task.key (t : Task) : Job × Fate :=
  (t.job, t.fate)

/-- The identifiers of the candidates that get past the first `if`, in page order. -/
def remainingIds (rows : List (Anchor × Fate)) : List String :=
  rows.filterMap fun row =>
    if turnedAway (jobOf row.1) row.2 then none else (jobOf row.1).id

/-- How many identifiers of the list were seen already, before the list or earlier in it. -/
def seenCount : List String → List String → Nat
  | _, [] => 0
  | seen, id :: rest =>
    if id ∈ seen then seenCount seen rest + 1 else seenCount (id :: seen) rest

/-- How many identifiers of the list are new when they come up: the number of distinct
identifiers of the list that are not in `seen`. -/
def newCount : List String → List String → Nat
  | _, [] => 0
  | seen, id :: rest =>
    if id ∈ seen then newCount seen rest else newCount (id :: seen) rest + 1

/-- The number of `await`s a callback in the given phase may still have to pass. -/
def Phase.rank : Phase → Nat
  | .awaitRobots => 3
  | .awaitFetch => 2
  | .awaitPush => 1
  | .done _ => 0

/-- A schedule that resumes each of the callbacks `first`, ..., `first + n - 1` three times,
enough for each to pass its three `await`s. -/
def drain (first n : Nat) : List Nat :=
  List.range' first n ++ List.range' first n ++ List.range' first n

end ProfesiaAdapter

/-! ### Concrete inputs -/

namespace Examples

open ProfesiaAdapter

/-- A record with a title and a location and nothing else. -/
def fields : JobData :=
  { jobId := .undefined, jobTitle := .str "Developer", companyName := .null,
    companyUrl := .null, location := .str "Bratislava", salaryMin := .null, salaryMax := .null,
    salaryCurrency := .null, salaryPeriod := .null, employmentType := .null, tags := .arr [],
    postedAt := .null, jobUrl := .undefined, description := .null }

/-- A host whose pages all yield `fields`, for which a string is a valid URL when it starts
with `https://`, and which reads no date. -/
def host : Host :=
  { extract := fun _ => some fields
    validUrl := fun v =>
      match v with
      | .str s => Js.startsWith s "https://"
      | _ => false
    dateTime := fun _ => none }

/-- A listing page without job rows whose next link is allowed. -/
def listing : Listing :=
  { url := "https://www.profesia.sk/praca/"
    rows := some []
    schedule := []
    links := ⟨some "https://www.profesia.sk/praca/?page_num=2", []⟩
    isAllowed := fun _ => true
    enqueueOk := fun _ => true }

/-- The answers to a candidate to which nothing goes wrong. -/
def goodFate : Fate :=
  { allowed := true, response := some "<html></html>", now := 0, pushOk := true }

/-- Three job rows: the first is disallowed by robots.txt, the identifier of the second has
been seen, the third is new. -/
def threeRows : List (Anchor × Fate) :=
  [(⟨"J1", "https://www.profesia.sk/praca/a/O1"⟩, { goodFate with allowed := false }),
   (⟨"J2", "https://www.profesia.sk/praca/b/O2"⟩, goodFate),
   (⟨"J3", "https://www.profesia.sk/praca/c/O3"⟩, goodFate)]

/-- Two job rows that share one identifier. -/
def twinRows : List (Anchor × Fate) :=
  [(⟨"J7", "https://www.profesia.sk/praca/a/O7"⟩, goodFate),
   (⟨"J7", "https://www.profesia.sk/praca/a/O7?search=1"⟩, goodFate)]

/-- A start state in which the identifier `J2` has been seen. -/
def seenOne : Crawl :=
  { Crawl.fresh with jobIdSet := ["J2"] }

end Examples

/-! ## The robots cache (`isAllowed`, `fetchRobots`, `logRobotsInfo`) -/

/-- The properties of a `URL` object that the checker reads. -/
structure Url where
  /-- The scheme followed by a colon, as in `https:`. -/
  protocol : String
  host : String
  pathname : String
  deriving DecidableEq, Repr

/-- How the request for a robots.txt file ends. -/
inductive Fetched
  /-- The call `fetch(robotsUrl)` rejects. -/
  | failed
  /-- The call resolves with a response whose `ok` is false. -/
  | notOk
  /-- The call resolves with a response whose `ok` is true; `text` is what `response.text()`
  resolves to, `none` when it rejects. -/
  | ok (text : Option String)
  deriving DecidableEq, Repr

/-- Whether a request delivered a body. -/
def Fetched.delivered : Fetched → Bool
  | .ok (some _) => true
  | _ => false

/-- The `Map` held in `robotsCache`, in insertion order.  The value `none` is `null`, the
entry of a host whose robots.txt could not be loaded. -/
abbrev RobotsCache := List (String × Option RobotsChecker.RuleSet)

/-- The call `robotsCache.get(key)`; the outer `none` is `undefined`. -/
def RobotsCache.get (cache : RobotsCache) (key : String) : Option (Option RobotsChecker.RuleSet) :=
  List.lookup key cache

/-- The call `robotsCache.has(key)`. -/
def RobotsCache.has (cache : RobotsCache) (key : String) : Bool :=
  (RobotsCache.get cache key).isSome

/-- The call `robotsCache.set(key, value)`: an existing key keeps its place. -/
def RobotsCache.set : RobotsCache → String → Option RobotsChecker.RuleSet → RobotsCache
  | [], key, value => [(key, value)]
  | (k, v) :: rest, key, value =>
    if k = key then (k, value) :: rest else (k, v) :: RobotsCache.set rest key value

/-- The fields of a `RobotsChecker`, together with a record of the requests it has made. -/
structure RobotsChecker where
  robotsCache : RobotsCache
  /-- The field `VERBOSE`; it decides only what `logRobotsInfo` prints. -/
  VERBOSE : Bool
  /-- The arguments of `fetch` so far, in call order, each with the way the request ended.
  This is not a field of the class. -/
  fetched : List (String × Fetched)
  deriving DecidableEq, Repr

namespace RobotsChecker

/-- The state after `new RobotsChecker()`. -/
def fresh (VERBOSE : Bool) : RobotsChecker :=
  ⟨[], VERBOSE, []⟩

/-- The template string that names the robots.txt file of a URL. -/
def robotsUrlOf (urlObj : Url) : String :=
  urlObj.protocol ++ "//" ++ urlObj.host ++ "/robots.txt"

/-- The `try` block of `fetchRobots`; `net` is how the request ends. -/
def fetchRobotsTry (toLowerCase : String → String) (net : Fetched) (robotsUrl : String)
    (c : RobotsChecker) : RobotsChecker × Except JsError Unit :=
  let c1 := { c with fetched := c.fetched ++ [(robotsUrl, net)] }
  match net with
  | .failed => (c1, .error .thrown)
  | .notOk => ({ c1 with robotsCache := c1.robotsCache.set robotsUrl none }, .ok ())
  | .ok none => (c1, .error .thrown)
  | .ok (some text) =>
    let rules := parseRobots toLowerCase text
    ({ c1 with robotsCache := c1.robotsCache.set robotsUrl (some rules) }, .ok ())

/-- The method `fetchRobots(robotsUrl)`, run to its end.  The `catch` block stores `null`. -/
def fetchRobots (toLowerCase : String → String) (net : Fetched) (robotsUrl : String)
    (c : RobotsChecker) : RobotsChecker × Except JsError Unit :=
  match fetchRobotsTry toLowerCase net robotsUrl c with
  | (c2, .ok u) => (c2, .ok u)
  | (c2, .error _) => ({ c2 with robotsCache := c2.robotsCache.set robotsUrl none }, .ok ())

/-- The statements `if (!this.robotsCache.has(robotsUrl)) await this.fetchRobots(robotsUrl)`
shared by `isAllowed` and `logRobotsInfo`. -/
def ensureFetched (toLowerCase : String → String) (net : Fetched) (robotsUrl : String)
    (c : RobotsChecker) : RobotsChecker × Except JsError Unit :=
  if !c.robotsCache.has robotsUrl then fetchRobots toLowerCase net robotsUrl c
  else (c, .ok ())

/-- The call `this.checkRules(urlObj.pathname, rules, userAgent)` as `isAllowed` makes it.

The parameter `userAgent` defaults to `'*'` when the argument is `undefined`.  A value that
is not a string has no method `toLowerCase`, so the call throws.  A pattern the regular
expressions reject makes the call throw.  For a pattern beyond the modelled fragment of
regular expressions the call returns or throws; `beyond` is the boolean `isAllowed` then
ends with. -/
def checkRulesCall (toLowerCase : String → String) (beyond : String → RuleSet → String → Bool)
    (pathname : String) (rules : RuleSet) (userAgent : JsVal) : Except JsError Bool :=
  let agent : JsVal := if userAgent = .undefined then .str "*" else userAgent
  match agent with
  | .str name =>
    match checkRules toLowerCase pathname rules name with
    | .ok allowed => .ok allowed
    | .error .syntaxError => .error .thrown
    | .error .outsideModel => .ok (beyond pathname rules name)
  | _ => .error .thrown

/-- The `try` block of `isAllowed`; `parseUrl` is `new URL(url)`, `none` when it throws, and
`net` is how the request for robots.txt ends if one is made. -/
def isAllowedTry (parseUrl : String → Option Url) (toLowerCase : String → String)
    (beyond : String → RuleSet → String → Bool) (net : Fetched) (url : String)
    (userAgent : JsVal) (c : RobotsChecker) : RobotsChecker × Except JsError Bool :=
  match parseUrl url with
  | none => (c, .error .thrown)
  | some urlObj =>
    let robotsUrl := robotsUrlOf urlObj
    -- Check cache
    match ensureFetched toLowerCase net robotsUrl c with
    | (c1, .error e) => (c1, .error e)
    | (c1, .ok _) =>
      match c1.robotsCache.get robotsUrl with
      | some (some rules) =>
        (c1, checkRulesCall toLowerCase beyond urlObj.pathname rules userAgent)
      -- If robots.txt could not be loaded, treat as allowed
      | _ => (c1, .ok true)

/-- The method `isAllowed(url, userAgent)`, run to its end: the state it leaves and the way
the promise settles.  The `catch` block returns `true`. -/
def isAllowed (parseUrl : String → Option Url) (toLowerCase : String → String)
    (beyond : String → RuleSet → String → Bool) (net : Fetched) (url : String)
    (userAgent : JsVal) (c : RobotsChecker) : RobotsChecker × Except JsError Bool :=
  match isAllowedTry parseUrl toLowerCase beyond net url userAgent c with
  | (c2, .ok allowed) => (c2, .ok allowed)
  -- On error, treat as allowed
  | (c2, .error _) => (c2, .ok true)

/-- The `try` block of `logRobotsInfo`; what it prints is left out. -/
def logRobotsInfoTry (parseUrl : String → Option Url) (toLowerCase : String → String)
    (net : Fetched) (url : String) (c : RobotsChecker) : RobotsChecker × Except JsError Unit :=
  match parseUrl url with
  | none => (c, .error .thrown)
  | some urlObj => ensureFetched toLowerCase net (robotsUrlOf urlObj) c

/-- The method `logRobotsInfo(url)`, run to its end.  The `catch` block only prints. -/
def logRobotsInfo (parseUrl : String → Option Url) (toLowerCase : String → String)
    (net : Fetched) (url : String) (c : RobotsChecker) : RobotsChecker × Except JsError Unit :=
  match logRobotsInfoTry parseUrl toLowerCase net url c with
  | (c2, _) => (c2, .ok ())

/-- A call made on a checker, with the way the network would answer during it. -/
inductive Call
  | isAllowed (url : String) (userAgent : JsVal) (net : Fetched)
  | logRobotsInfo (url : String) (net : Fetched)
  deriving DecidableEq, Repr

/-- The state a call leaves when it has run to its end. -/
def perform (parseUrl : String → Option Url) (toLowerCase : String → String)
    (beyond : String → RuleSet → String → Bool) (c : RobotsChecker) : Call → RobotsChecker
  | .isAllowed url userAgent net =>
    (isAllowed parseUrl toLowerCase beyond net url userAgent c).1
  | .logRobotsInfo url net => (logRobotsInfo parseUrl toLowerCase net url c).1

/-- Calls made one after the other, each running to its end before the next starts. -/
def performAll (parseUrl : String → Option Url) (toLowerCase : String → String)
    (beyond : String → RuleSet → String → Bool) (calls : List Call) (c : RobotsChecker) :
    RobotsChecker :=
  calls.foldl (perform parseUrl toLowerCase beyond) c

/-- The value `fetchRobots` stores for a request that ended as `net`. -/
def storedFor (toLowerCase : String → String) : Fetched → Option RuleSet
  | .ok (some text) => some (parseRobots toLowerCase text)
  | _ => none

end RobotsChecker

namespace Examples

/-- A reader of URLs of the form `https://host/path` (anything else is rejected). -/
def parseUrl (url : String) : Option Url :=
  if Js.startsWith url "https://" then
    match Js.splitOnChar '/' (url.data.drop 8) with
    | host :: path => some ⟨"https:", ⟨host⟩, "/" ++ Js.join "/" (path.map String.mk)⟩
    | [] => none
  else none

/-- A robots.txt body with a pattern that is not a regular expression. -/
def brokenBody : String :=
  "User-agent: *\nDisallow: /a(b"

/-- A robots.txt body that closes `/private` except for `/private/open`. -/
def closedBody : String :=
  "User-agent: *\nDisallow: /private\nAllow: /private/open"

end Examples

/-! ## The summary (`printSummary` of `src/utils/reporter.js`) -/

namespace Reporter

/-- The number a property key stands for when it is an array index: a decimal numeral
without a leading zero (or `0` itself) whose value is below `2^32 - 1`. -/
def arrayIndex (key : String) : Option Nat :=
  match key.data with
  | [] => none
  | c :: cs =>
    if (c :: cs).all (fun d => 48 ≤ d.toNat && d.toNat ≤ 57) && (c ≠ '0' || cs.isEmpty) then
      let value := (c :: cs).foldl (fun acc d => 10 * acc + (d.toNat - 48)) 0
      if value < 4294967295 then some value else none
    else none

/-- The order of array indices among property keys. -/
def indexLe (a b : String × Count) : Prop :=
  (arrayIndex a.1).getD 0 ≤ (arrayIndex b.1).getD 0

instance : DecidableRel indexLe :=
  fun a b => inferInstanceAs (Decidable ((arrayIndex a.1).getD 0 ≤ (arrayIndex b.1).getD 0))

/-- The call `Object.entries(counts)`: the own properties whose key is an array index come
first, in ascending numeric order, the others follow in the order of their creation. -/
def entries (counts : Counts) : List (String × Count) :=
  (counts.filter fun e => (arrayIndex e.1).isSome).insertionSort indexLe ++
    counts.filter fun e => (arrayIndex e.1).isNone

/-- The entries with their numbers; `none` when some value is not a number. -/
def numbered : List (String × Count) → Option (List (String × Nat))
  | [] => some []
  | (key, .num n) :: rest => (numbered rest).map fun es => (key, n) :: es
  | (_, .text _) :: _ => none

/-- The order the comparison function `(a, b) => b[1] - a[1]` asks for: `a` may stand before
`b` when its count is not smaller. -/
def countGe (a b : String × Nat) : Prop :=
  a.2 ≥ b.2

instance : DecidableRel countGe :=
  fun a b => inferInstanceAs (Decidable (a.2 ≥ b.2))

/-- The expression `Object.entries(counts).sort((a, b) => b[1] - a[1]).slice(0, n)` of
`printSummary`.  `Array.prototype.sort` is stable.  When a value is not a number the
comparison function yields `NaN`, the order is then left to the implementation and the result
is `none`. -/
def top (n : Nat) (counts : Counts) : Option (List (String × Nat)) :=
  (numbered (entries counts)).map fun es => (es.insertionSort countGe).take n

/-- The constant `topLocations` of `printSummary`. -/
def topLocations (r : Reporter) : Option (List (String × Nat)) :=
  top 5 r.locations

/-- The constant `topTags` of `printSummary`. -/
def topTags (r : Reporter) : Option (List (String × Nat)) :=
  top 5 r.tags

/-- The constant `topCompanies` of `printSummary`. -/
def topCompanies (r : Reporter) : Option (List (String × Nat)) :=
  top 5 r.companies

end Reporter

/-! ## Notions used to state the properties of the cache, the pagination and the summary -/

namespace RobotsChecker

/-- The cache agrees with the record of requests: no robots.txt file was requested twice, and
the cache holds for every requested file what `fetchRobots` stores for the way the request
ended. -/
structure Consistent (toLowerCase : String → String) (c : RobotsChecker) : Prop where
  once : (c.fetched.map Prod.fst).Nodup
  stored : ∀ entry ∈ c.fetched,
    c.robotsCache.get entry.1 = some (storedFor toLowerCase entry.2)

end RobotsChecker

namespace ProfesiaAdapter

/-- The addresses of `hrefs` that are not in `seen`, each at its first occurrence only. -/
def unvisited (seen : List String) : List String → List String
  | [] => []
  | href :: rest =>
    if href ∈ seen then unvisited seen rest else href :: unvisited (seen ++ [href]) rest

/-- The pagination candidates the fallback path may enqueue within the budget: those allowed
by robots.txt and not visited, each once, as many as the budget has room for. -/
def chosenLinks (maxPages : Int) (isAllowed : String → Bool) (links : PageLinks)
    (f : Frontier) : List String :=
  (unvisited f.visitedUrls ((offerLinks links.anchors).filter isAllowed)).take
    (maxPages - f.enqueuedCount).toNat

end ProfesiaAdapter

namespace Examples

/-- A start page without a next link that links to the second and the third listing page. -/
def startPage : Listing :=
  { url := "https://www.profesia.sk/praca/"
    rows := some []
    schedule := []
    links := ⟨none, [⟨"", "https://www.profesia.sk/praca/?page_num=2"⟩,
                     ⟨"", "https://www.profesia.sk/praca/?page_num=3"⟩]⟩
    isAllowed := fun _ => true
    enqueueOk := fun _ => true }

/-- The second listing page; its next link leads to the third. -/
def secondPage : Listing :=
  { url := "https://www.profesia.sk/praca/?page_num=2"
    rows := some []
    schedule := []
    links := ⟨some "https://www.profesia.sk/praca/?page_num=3", []⟩
    isAllowed := fun _ => true
    enqueueOk := fun _ => true }

/-- A frontier whose budget of one page is used up. -/
def spent : ProfesiaAdapter.Frontier :=
  ⟨["https://www.profesia.sk/praca/"], 1, ["https://www.profesia.sk/praca/?page_num=2"]⟩

/-- Anchors of a page: two to listing pages (one of them twice), one to a job detail, one with
an id, one elsewhere. -/
def anchors : List ProfesiaAdapter.Anchor :=
  [⟨"", "https://www.profesia.sk/praca/?page_num=2"⟩,
   ⟨"", "https://www.profesia.sk/praca/detail/1"⟩,
   ⟨"", "https://www.profesia.sk/praca/?page_num=2"⟩,
   ⟨"x", "https://www.profesia.sk/praca/?page_num=5"⟩,
   ⟨"", "https://www.profesia.sk/firmy/"⟩,
   ⟨"", "https://www.profesia.sk/praca/?page_num=3"⟩,
   ⟨"", "https://www.profesia.sk/praca/?page_num=4"⟩]

end Examples

/-- The number in a value of a counting object (zero for a text). -/
def Count.number : Count → Nat
  | .num n => n
  | .text _ => 0

namespace Reporter

/-- The key under which `addJob` counts a field: the property key of a truthy value. -/
def keyOf (v : JsVal) : Option String :=
  if v.truthy then some v.toPropertyKey else none

/-- The tags `addJob` counts for a record: the items of `tags` when it is an array. -/
def tagsOf (job : JobData) : List String :=
  match job.tags with
  | .arr items => items
  | _ => []

/-- The entry `addJob` appends to `salaries` for a record, if any. -/
def salaryOf (job : JobData) : Option Salary :=
  if job.salaryMin.isNumber && job.salaryMax.isNumber then
    some ⟨job.salaryMin, job.salaryMax, job.salaryCurrency, job.salaryPeriod⟩
  else none

/-- What reading `counts[key]` yields for a key counted `n` times: nothing when `n` is zero,
the number otherwise. -/
def tally (n : Nat) : Option Count :=
  if n = 0 then none else some (.num n)

/-- A key that names no member of `Object.prototype`. -/
def IsPlainKey (key : String) : Prop :=
  key ≠ "__proto__" ∧ key ∉ inheritedFunctions

instance (key : String) : Decidable (IsPlainKey key) :=
  inferInstanceAs (Decidable (key ≠ "__proto__" ∧ key ∉ inheritedFunctions))

/-- What one more count does to the value read under a key. -/
def increment : Option Count → Option Count
  | none => some (.num 1)
  | some (.num n) => some (.num (n + 1))
  | some (.text ones) => some (.text (ones + 1))

/-- What makes `top` the list of the `limit` most frequent entries of `all`, a list of keys
with their counts: it has `limit` entries or all there are, its counts do not increase, no
entry left out has a larger count than a listed one, and entries with equal counts stand in
the order they have in `all`, the first of them being the ones listed. -/
structure Ranked (limit : Nat) (all top : List (String × Nat)) : Prop where
  length : top.length = min limit all.length
  listed : ∀ e ∈ top, e ∈ all
  sorted : top.Pairwise fun a b => a.2 ≥ b.2
  complete : ∀ e ∈ all, e ∉ top → ∀ l ∈ top, e.2 ≤ l.2
  ties : ∀ count : Nat,
    top.filter (fun e => e.2 = count) <+: all.filter (fun e => e.2 = count)

end Reporter

namespace Examples

/-- Three records: two in Bratislava with tags, one in a place named `10`. -/
def records : List JobData :=
  [{ fields with tags := .arr ["JS", "Node"], salaryMin := .num 1000, salaryMax := .num 2000 },
   { fields with tags := .arr ["Node"], companyName := .str "A" },
   { fields with location := .str "10", tags := .str "JS" }]

end Examples

/-! ### Requirements on a record -/

/-- A value that is a string with something other than white space in it. -/
def NonBlankString (v : JsVal) : Prop :=
  ∃ s, v = .str s ∧ Js.trim s ≠ ""

/-- The requirements of `isValid` other than those on `postedAt` and `tags`: the four
required fields are non-blank strings, `jobUrl` is a URL, `companyUrl` is falsy or a URL, and
`salaryMin` and `salaryMax` are each falsy or a number. -/
structure MeetsRequirements (host : Host) (jobData : JobData) : Prop where
  jobTitle : NonBlankString jobData.jobTitle
  jobId : NonBlankString jobData.jobId
  jobUrl : NonBlankString jobData.jobUrl
  location : NonBlankString jobData.location
  jobUrlValid : host.validUrl jobData.jobUrl = true
  companyUrl : jobData.companyUrl.truthy = false ∨ host.validUrl jobData.companyUrl = true
  salaryMin : jobData.salaryMin.truthy = false ∨ jobData.salaryMin.isNumber = true
  salaryMax : jobData.salaryMax.truthy = false ∨ jobData.salaryMax.isNumber = true

namespace Examples

/-- A record that meets every requirement. -/
def valid : JobData :=
  { fields with jobId := .str "J1", jobUrl := .str "https://www.profesia.sk/praca/a/O1" }

/-- A host that reads the dates `2025-07-01` and `2999-01-01` as days 20270 and 376000 and
no other value. -/
def clock : Host :=
  { host with
    dateTime := fun v =>
      if v = .str "2025-07-01" then some 20270
      else if v = .str "2999-01-01" then some 376000
      else none }

end Examples

/-! ## `src/utils/parsers/profesiaParser.js`: the salary and the posting date

The two fields that `parseProfesia` computes from text with regular-expression literals.
The literals carry captures, classes and counted repetition, which the fragment of
`RegExp.parse` leaves out, so each literal is given by its syntax tree and matched by the
backtracking procedure of ECMAScript (`RepeatMatcher` and continuations). -/

namespace Js

/-- The code units that `\s` matches; they are the characters `trim` removes. -/
def isSpaceUnit (u : Nat) : Bool :=
  u = 0x09 || u = 0x0A || u = 0x0B || u = 0x0C || u = 0x0D || u = 0x20 || u = 0xA0 ||
  u = 0x1680 || (0x2000 ≤ u && u ≤ 0x200A) || u = 0x2028 || u = 0x2029 || u = 0x202F ||
  u = 0x205F || u = 0x3000 || u = 0xFEFF

/-- The code units that `\d` matches. -/
def isDigitUnit (u : Nat) : Bool :=
  48 ≤ u && u ≤ 57

/-- The characters of a sequence of code units.  A surrogate pair is one character; a lone
surrogate has no counterpart in `String` and is read as the character of number zero. -/
def charsOfUnits : List Nat → List Char
  | [] => []
  | [u] => [Char.ofNat u]
  | u :: v :: rest =>
    if 0xD800 ≤ u ∧ u < 0xDC00 ∧ 0xDC00 ≤ v ∧ v < 0xE000 then
      Char.ofNat (0x10000 + (u - 0xD800) * 0x400 + (v - 0xDC00)) :: charsOfUnits rest
    else Char.ofNat u :: charsOfUnits (v :: rest)

/-- The string with the given code units. -/
def ofUnits (units : List Nat) : String :=
  ⟨charsOfUnits units⟩

/-- The call `s.padStart(targetLength, f)` for a filler `f` of one code unit. -/
def padStart (targetLength : Nat) (filler : Nat) (s : List Nat) : List Nat :=
  List.replicate (targetLength - s.length) filler ++ s

/-- The call `s.replace(/\s/g, "")`: the units that `\s` matches are removed. -/
def removeSpace (s : List Nat) : List Nat :=
  s.filter fun u => !isSpaceUnit u

/-- The integer that a sequence of decimal digits writes; `none` when a unit is not a
digit.  The empty sequence writes zero, as `Number("")` is `0`. -/
def digitsValue (s : List Nat) : Option Nat :=
  s.foldl (fun acc u => if isDigitUnit u then acc.map (fun n => 10 * n + (u - 48)) else none)
    (some 0)

/-- The double nearest to `n`, ties going to the even significand, for `n` below `10 ^ 20`.
Below `2 ^ 53` every integer is a double.  From `10 ^ 20` on a numeral has more than twenty
significant digits, where ECMAScript leaves the rounding to the implementation; `none`. -/
def toDouble (n : Nat) : Option Nat :=
  if n < 2 ^ 53 then some n
  else if 10 ^ 20 ≤ n then none
  else
    -- the exponent `e` with `2 ^ (52 + e) ≤ n < 2 ^ (53 + e)`
    match (List.range 15).find? fun e => n < 2 ^ (53 + e) with
    | none => none
    | some e =>
      let q := n / 2 ^ e
      let r := n % 2 ^ e
      if 2 * r < 2 ^ e then some (q * 2 ^ e)
      else if 2 ^ e < 2 * r then some ((q + 1) * 2 ^ e)
      else if q % 2 = 0 then some (q * 2 ^ e)
      else some ((q + 1) * 2 ^ e)

end Js

/-- Ways in which the model of `parseProfesia` ends without a value. -/
inductive ParserError
  /-- JavaScript throws a `TypeError`: a property of `undefined` is read. -/
  | typeError
  /-- The model gives no result, which says nothing about what JavaScript does. -/
  | outsideModel
  deriving DecidableEq, Repr

namespace Pattern

/-- The abstract operation `Canonicalize` for an expression without the flag `u`: with the
flag `i` a code unit is compared through its upper case.

Only the ASCII letters are folded.  The expressions below name ASCII units, the units of `\s`
and the dash of number 8211; the units of `\s` and the dash are the upper case of no other
unit, and a unit outside ASCII whose upper case lies inside ASCII is left as it is by
`Canonicalize`, so for these expressions the folding of the other letters changes no
comparison. -/
def canonicalize (ignoreCase : Bool) (u : Nat) : Nat :=
  if ignoreCase && decide (97 ≤ u) && decide (u ≤ 122) then u - 32 else u

/-- A member of a character class. -/
inductive Item
  /-- One code unit. -/
  | unit (u : Nat)
  /-- A range such as `a-z`. -/
  | range (lo hi : Nat)
  /-- The escape `\d`. -/
  | digit
  /-- The escape `\s`. -/
  | space
  deriving DecidableEq, Repr

/-- Whether the class member accepts the code unit. -/
def Item.has (ignoreCase : Bool) (u : Nat) : Item → Bool
  | .unit a => canonicalize ignoreCase a == canonicalize ignoreCase u
  | .range lo hi =>
    (List.range (hi + 1 - lo)).any fun k =>
      canonicalize ignoreCase (lo + k) == canonicalize ignoreCase u
  | .digit => Js.isDigitUnit u
  | .space => Js.isSpaceUnit u

/-- Syntax of a regular-expression literal. -/
inductive Term
  /-- One code unit out of a class; a pattern character is a class of one unit. -/
  | cls (items : List Item)
  | seq (a b : Term)
  /-- The capturing group of number `n`. -/
  | capture (n : Nat) (a : Term)
  /-- A greedy quantifier: `*` is `rep 0 none`, `+` is `rep 1 none`, `?` is
  `rep 0 (some 1)` and a count in braces gives both bounds. -/
  | rep (min : Nat) (max : Option Nat) (a : Term)
  deriving DecidableEq, Repr

/-- The numbers of the capturing groups inside a term. -/
def Term.groups : Term → List Nat
  | .cls _ => []
  | .seq a b => a.groups ++ b.groups
  | .capture n a => n :: a.groups
  | .rep _ _ a => a.groups

/-- A match state: the input to the right of the end index, and the captures made so far,
the newest first (a group that is absent is `undefined`). -/
structure State where
  rest : List Nat
  captures : List (Nat × List Nat)
  deriving DecidableEq, Repr

/-- What a matcher returns. -/
inductive Result
  | failure
  /-- The step bound of `repeatMatcher` ran out; the model gives no result. -/
  | stuck
  | ok (y : State)
  deriving DecidableEq, Repr

/-- A continuation. -/
abbrev Cont := State → Result

/-- The abstract operation `RepeatMatcher` for a greedy quantifier over the matcher `m`,
whose capturing groups are `inner`.  The first argument bounds the number of iterations. -/
def repeatMatcher (m : State → Cont → Result) (inner : List Nat) :
    Nat → Nat → Option Nat → State → Cont → Result
  | 0, _, _, _, _ => .stuck
  | fuel + 1, min, max, x, c =>
    if max = some 0 then c x
    else
      let d : Cont := fun y =>
        -- an iteration that matched the empty string ends the repetition
        if min = 0 ∧ y.rest.length = x.rest.length then .failure
        else repeatMatcher m inner fuel (min - 1) (max.map fun n => n - 1) y c
      let xr : State := { x with captures := x.captures.filter fun e => !inner.contains e.1 }
      if min ≠ 0 then m xr d
      else
        match m xr d with
        | .failure => c x
        | z => z

/-- The matcher of a term.  An iteration of a quantifier either lowers `min` or moves the end
index to the right, so `min + x.rest.length + 1` iterations are never used up. -/
def Term.matcher (ignoreCase : Bool) : Term → State → Cont → Result
  | .cls items => fun x c =>
    match x.rest with
    | [] => .failure
    | u :: rest =>
      if items.any fun item => item.has ignoreCase u then c { x with rest := rest }
      else .failure
  | .seq a b => fun x c => a.matcher ignoreCase x fun y => b.matcher ignoreCase y c
  | .capture n a => fun x c =>
    a.matcher ignoreCase x fun y =>
      c { y with captures := (n, x.rest.take (x.rest.length - y.rest.length)) :: y.captures }
  | .rep min max a => fun x c =>
    repeatMatcher (a.matcher ignoreCase) a.groups (min + x.rest.length + 1) min max x c

/-- The search of `RegExpBuiltinExec` for an expression without the flags `g` and `y`: the
match is tried at index 0, then at 1, and so on up to the length of the input.  The argument
is the input from the index on. -/
def Term.exec (ignoreCase : Bool) (r : Term) : List Nat → Result
  | [] => r.matcher ignoreCase ⟨[], []⟩ .ok
  | u :: rest =>
    match r.matcher ignoreCase ⟨u :: rest, []⟩ .ok with
    | .failure => Term.exec ignoreCase r rest
    | z => z

/-- The element `match[n]` of a match result; `none` is `undefined`. -/
def State.group (y : State) (n : Nat) : Option (List Nat) :=
  List.lookup n y.captures

/-- A pattern character. -/
def char (c : Char) : Term :=
  .cls [.unit c.toNat]

end Pattern

namespace ProfesiaParser

open Pattern

/-- The four salary fields of the object `parseProfesia` returns. -/
structure SalaryFields where
  salaryMin : JsVal
  salaryMax : JsVal
  salaryCurrency : JsVal
  salaryPeriod : JsVal
  deriving DecidableEq, Repr

/-- The literal `/dohodou/i` (its flag is an argument of the matcher). -/
def dohodou : Term :=
  .seq (char 'd') (.seq (char 'o') (.seq (char 'h') (.seq (char 'o') (.seq (char 'd')
    (.seq (char 'o') (char 'u'))))))

/-- The class `[\d\s]`. -/
def digitOrSpace : Term :=
  .cls [.digit, .space]

/-- The part `\s*–\s*([\d\s]+)` of the salary expression. -/
def dashAndAmount : Term :=
  .seq (.rep 0 none (.cls [.space]))
    (.seq (char '–')
      (.seq (.rep 0 none (.cls [.space])) (.capture 2 (.rep 1 none digitOrSpace))))

/-- The part `\s*(EUR)\/([a-z]+)` of the salary expression. -/
def currencyAndPeriod : Term :=
  .seq (.rep 0 none (.cls [.space]))
    (.seq (.capture 3 (.seq (char 'E') (.seq (char 'U') (char 'R'))))
      (.seq (char '/') (.capture 4 (.rep 1 none (.cls [.range 97 122])))))

/-- The literal `/([\d\s]+)(?:\s*–\s*([\d\s]+))?\s*(EUR)\/([a-z]+)/i`. -/
def salaryExpression : Term :=
  .seq (.capture 1 (.rep 1 none digitOrSpace))
    (.seq (.rep 0 (some 1) dashAndAmount) currencyAndPeriod)

/-- The call `Number(s.replace(/\s/g, ""))` on a capture of `[\d\s]+`.  What is left after
the replacement holds digits only. -/
def amount (s : List Nat) : Except ParserError JsVal :=
  match Js.digitsValue (Js.removeSpace s) with
  | none => .error .outsideModel
  | some n =>
    match Js.toDouble n with
    | none => .error .outsideModel
    | some v => .ok (.num v)

/-- A capture as a value: a string, or `undefined`. -/
def captured (y : State) (n : Nat) : JsVal :=
  match y.group n with
  | some s => .str (Js.ofUnits s)
  | none => .undefined

/-- The block "Salary" of `parseProfesia`; `text` is what
`$(".salary-range").first().text()` returns. -/
def salary (text : String) : Except ParserError SalaryFields :=
  let salaryText := Js.trim text
  if salaryText = "" then .ok ⟨.null, .null, .null, .null⟩
  else
    match dohodou.exec true (Js.utf16 salaryText) with
    | .stuck => .error .outsideModel
    | .ok _ => .ok ⟨.null, .null, .null, .null⟩
    | .failure =>
      match salaryExpression.exec true (Js.utf16 salaryText) with
      | .stuck => .error .outsideModel
      | .failure => .ok ⟨.null, .null, .null, .null⟩
      | .ok m =>
        match m.group 1 with
        | none => .error .typeError
        | some first =>
          match amount first with
          | .error e => .error e
          | .ok salaryMin =>
            let salaryMax : Except ParserError JsVal :=
              match m.group 2 with
              | some second => if second ≠ [] then amount second else .ok salaryMin
              | none => .ok salaryMin
            match salaryMax with
            | .error e => .error e
            | .ok salaryMax => .ok ⟨salaryMin, salaryMax, captured m 3, captured m 4⟩

/-- The literal `/(\d{1,2})\.(\d{1,2})\.(\d{4})/`. -/
def dateExpression : Term :=
  .seq (.capture 1 (.rep 1 (some 2) (.cls [.digit])))
    (.seq (char '.')
      (.seq (.capture 2 (.rep 1 (some 2) (.cls [.digit])))
        (.seq (char '.') (.capture 3 (.rep 4 (some 4) (.cls [.digit]))))))

/-- The template string that builds `postedAt` from the three captures. -/
def isoDate (d mth y : List Nat) : String :=
  Js.ofUnits (y ++ [45] ++ Js.padStart 2 48 mth ++ [45] ++ Js.padStart 2 48 d)

/-- The block "Posted date" of `parseProfesia`; `text` is what the query for the element
after `Dátum zverejnenia` returns from `.text()`. -/
def postedAt (text : String) : Except ParserError JsVal :=
  let postText := Js.trim text
  if postText = "" then .ok .null
  else
    match dateExpression.exec false (Js.utf16 postText) with
    | .stuck => .error .outsideModel
    | .failure => .ok .null
    | .ok m =>
      match m.group 1, m.group 2, m.group 3 with
      | some d, some mth, some y => .ok (.str (isoDate d mth y))
      | _, _, _ => .error .typeError

end ProfesiaParser

/-! ## Notions used to state the algebraic properties -/

namespace RobotsChecker

/-- The regular-expression source `matchesPattern` builds for a pattern. -/
def sourceOf (pattern : String) : String :=
  "^" ++ Js.replaceAll '$' "$" (Js.replaceAll '*' ".*" pattern)

/-- A pattern that translates to a well-formed expression: it is `/`, which is compared as a
string, or `new RegExp` accepts its source. -/
def Translates (pattern : String) : Prop :=
  pattern = "/" ∨ ∃ regex, RegExp.create (sourceOf pattern) = .ok regex

/-- Whether a pattern matches a path: `matchesPattern` returns `true`. -/
def hits (path pattern : String) : Bool :=
  decide (matchesPattern path pattern = .ok true)

end RobotsChecker

namespace Reporter

/-- A call of one of the three accumulation methods. -/
inductive Op
  | addJob (job : JobData)
  | addDuplicate
  | addFailed (url : Option String)

/-- The reporter after a call. -/
def apply (r : Reporter) : Op → Reporter
  | .addJob job => r.addJob job
  | .addDuplicate => r.addDuplicate
  | .addFailed url => r.addFailed url

/-- The sum of the numbers stored in a counting object. -/
def total (counts : Counts) : Nat :=
  (counts.map fun e => e.2.number).sum

/-- The numbers in the three counting objects that take one key from a record: each is at
least one, and each object sums to at most `totalJobs`. -/
def NumbersCounted (r : Reporter) : Prop :=
  ((∀ e ∈ r.locations, ∀ n, e.2 = .num n → 1 ≤ n) ∧ total r.locations ≤ r.totalJobs) ∧
  ((∀ e ∈ r.companies, ∀ n, e.2 = .num n → 1 ≤ n) ∧ total r.companies ≤ r.totalJobs) ∧
  ((∀ e ∈ r.employmentTypes, ∀ n, e.2 = .num n → 1 ≤ n) ∧
    total r.employmentTypes ≤ r.totalJobs)

end Reporter

namespace ProfesiaAdapter

/-- Phases of a callback whose record did not pass `isValid`. -/
def Phase.isDropped : Phase → Bool
  | .done .dropped => true
  | _ => false

/-- Phases of a callback whose record the sink has accepted. -/
def Phase.isSaved : Phase → Bool
  | .done .saved => true
  | _ => false

/-- Phases of a callback that ended in the `catch` block after `reporter.addJob` had run:
the sink rejected the record. -/
def Phase.sinkFailed : Phase → Bool
  | .done (.caught true) => true
  | _ => false

end ProfesiaAdapter

namespace Examples

/-- One job row whose record is valid and which the sink rejects. -/
def rejectedRow : List (ProfesiaAdapter.Anchor × ProfesiaAdapter.Fate) :=
  [(⟨"J3", "https://www.profesia.sk/praca/c/O3"⟩, { goodFate with pushOk := false })]

end Examples

/-! ## Notions used to state what the parser returns -/

namespace Pattern

/-- A greedy quantifier over a class, told without continuations of states: the repetition
takes units of the class from the front of the input, as many as `max` allows, and gives
them back one at a time down to `min` until what follows (`k`) succeeds. -/
def greedy (has : Nat → Bool) (k : List Nat → Result) : List Nat → Nat → Option Nat → Result
  | [], min, max => if max = some 0 then k [] else if min ≠ 0 then .failure else k []
  | u :: rest, min, max =>
    if max = some 0 then k (u :: rest)
    else if has u then
      if min ≠ 0 then greedy has k rest (min - 1) (max.map fun n => n - 1)
      else
        match greedy has k rest 0 (max.map fun n => n - 1) with
        | .failure => k (u :: rest)
        | z => z
    else if min ≠ 0 then .failure
    else k (u :: rest)

/-- Whether the units at the front of `s` are those of `w`, compared as the matcher compares
pattern characters. -/
def frontIs (ignoreCase : Bool) : List Nat → List Nat → Bool
  | [], _ => true
  | _ :: _, [] => false
  | a :: w, u :: s =>
    (canonicalize ignoreCase a == canonicalize ignoreCase u) && frontIs ignoreCase w s

/-- The term of a word: its pattern characters in sequence. -/
def word : Char → List Char → Term
  | c, [] => char c
  | c, c2 :: cs => .seq (char c) (word c2 cs)

end Pattern

namespace ProfesiaParser

/-- A decimal digit. -/
def IsDigit (c : Char) : Prop :=
  48 ≤ c.toNat ∧ c.toNat ≤ 57

instance (c : Char) : Decidable (IsDigit c) :=
  inferInstanceAs (Decidable (48 ≤ c.toNat ∧ c.toNat ≤ 57))

/-- A letter of the ASCII alphabet, in either case. -/
def IsAsciiLetter (c : Char) : Prop :=
  (65 ≤ c.toNat ∧ c.toNat ≤ 90) ∨ (97 ≤ c.toNat ∧ c.toNat ≤ 122)

instance (c : Char) : Decidable (IsAsciiLetter c) :=
  inferInstanceAs (Decidable ((65 ≤ c.toNat ∧ c.toNat ≤ 90) ∨ (97 ≤ c.toNat ∧ c.toNat ≤ 122)))

/-- An amount as the listing writes it: it begins with a digit and holds digits and spaces
only, so groups of digits that single spaces separate are an amount. -/
def IsAmount (a : String) : Prop :=
  (∀ c ∈ a.data.head?, IsDigit c) ∧ a.data ≠ [] ∧ ∀ c ∈ a.data, IsDigit c ∨ c = ' '

instance (a : String) : Decidable (IsAmount a) :=
  inferInstanceAs (Decidable ((∀ c ∈ a.data.head?, IsDigit c) ∧ a.data ≠ [] ∧
    ∀ c ∈ a.data, IsDigit c ∨ c = ' '))

/-- The integer that the digits of an amount write, its spaces left out. -/
def written (a : String) : Nat :=
  a.data.foldl (fun n c => if 48 ≤ c.toNat ∧ c.toNat ≤ 57 then 10 * n + (c.toNat - 48) else n) 0

/-- A period: a non-empty run of ASCII letters. -/
def IsPeriod (p : String) : Prop :=
  p.data ≠ [] ∧ ∀ c ∈ p.data, IsAsciiLetter c

instance (p : String) : Decidable (IsPeriod p) :=
  inferInstanceAs (Decidable (p.data ≠ [] ∧ ∀ c ∈ p.data, IsAsciiLetter c))

/-- The four fields when no salary is read. -/
def noSalary : SalaryFields :=
  ⟨.null, .null, .null, .null⟩

/-- A date `d.m.yyyy` written at the front of `s`: a day and a month of one or two digits and
a year of four, with a full stop after the day and after the month. -/
def DateAtFront (s d m y : List Nat) : Prop :=
  (∀ u ∈ d, Js.isDigitUnit u = true) ∧ (∀ u ∈ m, Js.isDigitUnit u = true) ∧
    (∀ u ∈ y, Js.isDigitUnit u = true) ∧ (d.length = 1 ∨ d.length = 2) ∧
    (m.length = 1 ∨ m.length = 2) ∧ y.length = 4 ∧ (d ++ 46 :: (m ++ 46 :: y)) <+: s

/-- The first date of a text: the date at the front of what follows `before`, when no date is
at the front of anything that starts earlier. -/
def FirstDate (s before d m y : List Nat) : Prop :=
  ∃ rest, s = before ++ rest ∧ DateAtFront rest d m y ∧
    ∀ skipped later d2 m2 y2, before = skipped ++ later → later ≠ [] →
      ¬ DateAtFront (later ++ rest) d2 m2 y2

/-- A text without a date. -/
def NoDate (s : List Nat) : Prop :=
  ∀ before rest d m y, s = before ++ rest → ¬ DateAtFront rest d m y

end ProfesiaParser

/-! ## Theorems: rule evaluation -/

namespace RobotsChecker

theorem allowLoop_eq_find (path : String) (allow : List String) :
    allowLoop path allow =
      match allow.find? (decides path) with
      | none => .ok false
      | some a => matchesPattern path a := by
  induction allow with
  | nil => rfl
  | cons a rest ih =>
    rcases h : matchesPattern path a with e | b
    · simp [allowLoop, List.find?, decides, h]
    · cases b
      · simp [allowLoop, List.find?, decides, h, ih]
      · simp [allowLoop, List.find?, decides, h]

theorem disallowLoop_eq_find (path : String) (allow disallow : List String) :
    disallowLoop path allow disallow =
      match (disallow.filter fun p => p ≠ "").find? (decides path) with
      | none => .ok true
      | some hit =>
        match matchesPattern path hit with
        | .error e => .error e
        | .ok _ => allowLoop path allow := by
  induction disallow with
  | nil => rfl
  | cons d rest ih =>
    by_cases hd : d = ""
    · simp [disallowLoop, hd, ih]
    · rcases h : matchesPattern path d with e | b
      · simp [disallowLoop, hd, List.find?, decides, h]
      · cases b
        · simp [disallowLoop, hd, List.find?, decides, h, ih]
        · simp [disallowLoop, hd, List.find?, decides, h]

theorem specificRules_eq_orElse (toLowerCase : String → String) (rules : RuleSet)
    (userAgent : String) :
    specificRules toLowerCase rules userAgent =
      (RuleSet.get rules (toLowerCase userAgent)).orElse fun _ => RuleSet.get rules "*" := by
  unfold specificRules
  cases RuleSet.get rules (toLowerCase userAgent) <;> rfl

/-- C1. `checkRules` computes the reference evaluation on every path, rule set and user agent;
and whenever the selected entry has disallow list `/x` and allow list `/x/y`, the path `/x/y`
is allowed and the path `/x/z` is disallowed. -/
theorem checkRules_eq_referenceEvaluation :
    (∀ (toLowerCase : String → String) (path : String) (rules : RuleSet) (userAgent : String),
      checkRules toLowerCase path rules userAgent =
        referenceEvaluation toLowerCase path rules userAgent) ∧
    (∀ (toLowerCase : String → String) (rules : RuleSet) (userAgent : String),
      specificRules toLowerCase rules userAgent = some ⟨["/x/y"], ["/x"]⟩ →
      checkRules toLowerCase "/x/y" rules userAgent = .ok true ∧
      checkRules toLowerCase "/x/z" rules userAgent = .ok false) := by
  constructor
  · intro toLowerCase path rules userAgent
    unfold checkRules referenceEvaluation
    rw [← specificRules_eq_orElse]
    cases specificRules toLowerCase rules userAgent with
    | none => rfl
    | some entry =>
      simp only [disallowLoop_eq_find, allowLoop_eq_find]
  · intro toLowerCase rules userAgent h
    unfold checkRules
    rw [h]
    constructor <;> decide

/-- Witness for C1: a rule set holding the entry under `*`, asked for the agent `Bot`. -/
theorem checkRules_eq_referenceEvaluation_witness :
    checkRules Js.asciiLower "/x/y" [("*", ⟨["/x/y"], ["/x"]⟩)] "Bot" = .ok true ∧
    checkRules Js.asciiLower "/x/z" [("*", ⟨["/x/y"], ["/x"]⟩)] "Bot" = .ok false :=
  checkRules_eq_referenceEvaluation.2 Js.asciiLower [("*", ⟨["/x/y"], ["/x"]⟩)] "Bot"
    (by decide)

/-- C9. The pattern `/` matches the path `/` and no other; so an entry that disallows only
`/` and allows nothing forbids exactly the root path. -/
theorem matchesPattern_root :
    (∀ path : String, matchesPattern path "/" = .ok (decide (path = "/"))) ∧
    (∀ (toLowerCase : String → String) (path : String) (rules : RuleSet) (userAgent : String),
      specificRules toLowerCase rules userAgent = some ⟨[], ["/"]⟩ →
      checkRules toLowerCase path rules userAgent = .ok (decide (path ≠ "/"))) := by
  have hroot : ∀ path : String, matchesPattern path "/" = .ok (decide (path = "/")) := by
    intro path
    simp [matchesPattern]
  refine ⟨hroot, ?_⟩
  intro toLowerCase path rules userAgent h
  unfold checkRules
  rw [h]
  have hne : ("/" : String) ≠ "" := by decide
  by_cases hp : path = "/"
  · simp [disallowLoop, hne, hroot, hp, allowLoop]
  · simp [disallowLoop, hne, hroot, hp]

/-- Witness for C9: the rule set `User-agent: *`, `Disallow: /` asked about `/jobs`. -/
theorem matchesPattern_root_witness :
    checkRules Js.asciiLower "/jobs" [("*", ⟨[], ["/"]⟩)] "Bot" =
      .ok (decide (("/jobs" : String) ≠ "/")) :=
  matchesPattern_root.2 Js.asciiLower "/jobs" [("*", ⟨[], ["/"]⟩)] "Bot" (by decide)

end RobotsChecker

/-! ## Theorems: parsing robots.txt -/

namespace Js

theorem splitOnChar_ne_nil (sep : Char) (cs : List Char) : splitOnChar sep cs ≠ [] := by
  induction cs with
  | nil => simp [splitOnChar]
  | cons c cs ih =>
    unfold splitOnChar
    split
    · simp
    · split <;> simp

/-- The first piece is the text before the first separator; the other pieces are the pieces
of the text after it. -/
theorem splitOnChar_eq (sep : Char) (cs : List Char) :
    splitOnChar sep cs =
      (cs.takeWhile fun c => c ≠ sep) ::
        (if (cs.dropWhile fun c => c ≠ sep) = [] then []
         else splitOnChar sep ((cs.dropWhile fun c => c ≠ sep).drop 1)) := by
  induction cs with
  | nil => simp [splitOnChar]
  | cons c cs ih =>
    by_cases h : c = sep
    · simp [splitOnChar, h]
    · rw [splitOnChar, if_neg h, ih]
      simp [h]

theorem join_cons_of_ne_nil (sep p : String) (ps : List String) (h : ps ≠ []) :
    join sep (p :: ps) = p ++ sep ++ join sep ps := by
  cases ps with
  | nil => exact absurd rfl h
  | cons q qs => rfl

/-- Joining the pieces with the separator gives the text back. -/
theorem join_splitOnChar (sep : Char) (cs : List Char) :
    join ⟨[sep]⟩ ((splitOnChar sep cs).map String.mk) = ⟨cs⟩ := by
  induction cs with
  | nil => rfl
  | cons c cs ih =>
    have hne := splitOnChar_ne_nil sep cs
    by_cases h : c = sep
    · rw [splitOnChar, if_pos h, List.map_cons, join_cons_of_ne_nil _ _ _ (by simpa using hne), ih]
      apply String.ext
      simp [h]
    · rcases hs : splitOnChar sep cs with _ | ⟨p, ps⟩
      · exact absurd hs hne
      · rw [hs] at ih
        rw [splitOnChar, if_neg h, hs]
        cases ps with
        | nil =>
          simp only [List.map_cons, List.map_nil, join] at ih ⊢
          have : p = cs := by simpa using congrArg String.data ih
          rw [this]
        | cons q qs =>
          simp only [List.map_cons, join] at ih ⊢
          have hd := congrArg String.data ih
          apply String.ext
          simp only [String.data_append] at hd ⊢
          simp [hd]

end Js

namespace RobotsChecker

theorem split_colon (line : String) :
    ∃ valueParts, Js.split ':' line = directiveOf line :: valueParts ∧
      Js.trim (Js.join ":" valueParts) = valueOf line := by
  unfold Js.split
  rw [Js.splitOnChar_eq]
  refine ⟨_, rfl, ?_⟩
  unfold valueOf
  congr 1
  by_cases h : (line.data.dropWhile fun c => c ≠ ':') = []
  · rw [if_pos h, h]
    rfl
  · rw [if_neg h]
    exact Js.join_splitOnChar ':' _

/-- The loop body in terms of the directive and the value of the line. -/
theorem parseLine_eq (toLowerCase : String → String) (st : ParseState) (line : String) :
    parseLine toLowerCase st line =
      if isRecord line = false then st
      else if toLowerCase (directiveOf line) = "user-agent" then
        if RuleSet.has st.rules (toLowerCase (valueOf line)) then
          ⟨st.rules, some (toLowerCase (valueOf line))⟩
        else
          ⟨RuleSet.set st.rules (toLowerCase (valueOf line)) ⟨[], []⟩,
            some (toLowerCase (valueOf line))⟩
      else if truthyAgent st.currentUserAgent &&
          (toLowerCase (directiveOf line) = "disallow" ||
            toLowerCase (directiveOf line) = "allow") then
        match st.currentUserAgent with
        | none => st
        | some agent =>
          ⟨RuleSet.pushRule st.rules agent (toLowerCase (directiveOf line)) (valueOf line),
            st.currentUserAgent⟩
      else st := by
  obtain ⟨valueParts, hsplit, hvalue⟩ := split_colon line
  unfold parseLine isRecord
  by_cases hrec : (Js.startsWith line "#" || line = "") = true
  · simp [hrec]
  · simp only [hrec, hsplit, hvalue]
    simp

end RobotsChecker

namespace RobotsChecker

theorem lookup_cons_eq (k2 k0 : String) (v0 : AgentRules) (rest : RuleSet) :
    List.lookup k2 ((k0, v0) :: rest) = if k2 = k0 then some v0 else List.lookup k2 rest := by
  by_cases h : k2 = k0
  · subst h
    simp [List.lookup]
  · have hb : (k2 == k0) = false := by simpa using h
    simp [List.lookup, hb, h]

theorem get_set (rules : RuleSet) (k k2 : String) (v : AgentRules) :
    RuleSet.get (RuleSet.set rules k v) k2 =
      if k2 = k then some v else RuleSet.get rules k2 := by
  induction rules with
  | nil =>
    unfold RuleSet.get RuleSet.set
    rw [lookup_cons_eq]
  | cons e rest ih =>
    obtain ⟨k0, v0⟩ := e
    unfold RuleSet.get at ih ⊢
    unfold RuleSet.set
    by_cases h0 : k0 = k
    · subst h0
      rw [if_pos rfl, lookup_cons_eq, lookup_cons_eq]
      by_cases h : k2 = k0 <;> simp [h]
    · rw [if_neg h0, lookup_cons_eq, lookup_cons_eq, ih]
      by_cases h : k2 = k
      · subst h
        have : ¬ k2 = k0 := fun h => h0 h.symm
        simp [this]
      · simp [h]

theorem get_pushRule (rules : RuleSet) (k ruleType value k2 : String) :
    RuleSet.get (RuleSet.pushRule rules k ruleType value) k2 =
      if k2 = k then
        (RuleSet.get rules k2).map fun r =>
          if ruleType = "disallow" then { r with disallow := r.disallow ++ [value] }
          else { r with allow := r.allow ++ [value] }
      else RuleSet.get rules k2 := by
  induction rules with
  | nil => simp [RuleSet.pushRule, RuleSet.get, List.lookup]
  | cons e rest ih =>
    obtain ⟨k0, v0⟩ := e
    unfold RuleSet.get at ih ⊢
    unfold RuleSet.pushRule
    by_cases h0 : k0 = k
    · subst h0
      rw [if_pos rfl, lookup_cons_eq, lookup_cons_eq]
      by_cases h : k2 = k0 <;> simp [h]
    · rw [if_neg h0, lookup_cons_eq, lookup_cons_eq, ih]
      by_cases h : k2 = k
      · subst h
        have : ¬ k2 = k0 := fun h => h0 h.symm
        simp [this]
      · simp [h]

theorem groupedAfter_nil (toLowerCase : String → String) (kind token : String)
    (before : List String) : groupedAfter toLowerCase kind token before [] = [] := by
  simp [groupedAfter]

theorem groupedAfter_cons (toLowerCase : String → String) (kind token : String)
    (before : List String) (l : String) (ls : List String) :
    groupedAfter toLowerCase kind token before (l :: ls) =
      (if isRule toLowerCase kind l && lastDeclared toLowerCase before = some token
        then [valueOf l] else []) ++
        groupedAfter toLowerCase kind token (before ++ [l]) ls := by
  unfold groupedAfter
  simp only [List.inits_cons, List.map_cons, List.zip_cons_cons, List.append_nil, List.map_map]
  have : ((fun i => before ++ i) ∘ fun t => l :: t) = fun i => (before ++ [l]) ++ i := by
    funext i
    simp
  rw [this]
  by_cases h : (isRule toLowerCase kind l && lastDeclared toLowerCase before = some token) = true
  · rw [List.filter_cons_of_pos (by simpa using h), if_pos h]
    rfl
  · rw [List.filter_cons_of_neg (by simpa using h), if_neg h]
    rfl

theorem groupedValues_eq_groupedAfter (toLowerCase : String → String) (kind token : String)
    (lines : List String) :
    groupedValues toLowerCase kind token lines =
      groupedAfter toLowerCase kind token [] lines := by
  unfold groupedValues groupedAfter
  simp

theorem lastDeclared_snoc (toLowerCase : String → String) (before : List String) (l : String) :
    lastDeclared toLowerCase (before ++ [l]) =
      match declares toLowerCase l with
      | some a => some a
      | none => lastDeclared toLowerCase before := by
  unfold lastDeclared
  rw [List.filterMap_append]
  cases h : declares toLowerCase l with
  | none => simp [List.filterMap, h]
  | some a => simp [List.filterMap, h]

end RobotsChecker

namespace RobotsChecker

theorem has_eq_true_iff (rules : RuleSet) (k : String) :
    RuleSet.has rules k = true ↔ ∃ r, RuleSet.get rules k = some r := by
  unfold RuleSet.has
  cases RuleSet.get rules k <;> simp

theorem has_eq_false_iff (rules : RuleSet) (k : String) :
    RuleSet.has rules k = false ↔ RuleSet.get rules k = none := by
  unfold RuleSet.has
  cases RuleSet.get rules k <;> simp

theorem truthyAgent_iff (cur : Option String) :
    truthyAgent cur = true ↔ ∃ a, cur = some a ∧ a ≠ "" := by
  cases cur with
  | none => simp [truthyAgent]
  | some a => simp [truthyAgent]

/-- The loop body keeps `currentUserAgent` equal to the token of the last `User-agent` line
read, and that token always has an entry. -/
theorem parseLine_inv (toLowerCase : String → String) (before : List String)
    (st : ParseState) (l : String)
    (hcur : st.currentUserAgent = lastDeclared toLowerCase before)
    (hhas : ∀ a, st.currentUserAgent = some a → RuleSet.has st.rules a = true) :
    (parseLine toLowerCase st l).currentUserAgent = lastDeclared toLowerCase (before ++ [l]) ∧
    ∀ a, (parseLine toLowerCase st l).currentUserAgent = some a →
      RuleSet.has (parseLine toLowerCase st l).rules a = true := by
  rw [parseLine_eq, lastDeclared_snoc]
  by_cases hrec : isRecord l = false
  · simp [hrec, declares, hcur.symm]
    exact hhas
  · have hrec2 : isRecord l = true := by simpa using hrec
    by_cases hua : toLowerCase (directiveOf l) = "user-agent"
    · simp only [hrec2, hua, declares, Bool.true_and, decide_True, if_true, Bool.true_eq_false,
        if_false]
      by_cases hh : RuleSet.has st.rules (toLowerCase (valueOf l)) = true
      · simp only [hh, if_true, true_and]
        intro a ha
        cases ha
        exact hh
      · simp only [hh, if_false, true_and, Bool.false_eq_true]
        intro a ha
        cases ha
        rw [has_eq_true_iff, get_set]
        simp
    · simp only [hrec2, hua, declares, Bool.true_and, decide_False, if_false,
        Bool.true_eq_false, Bool.false_eq_true]
      split
      · rename_i hg
        cases hc : st.currentUserAgent with
        | none =>
          rw [hc] at hg
          simp [truthyAgent] at hg
        | some a =>
          simp only [hc]
          refine ⟨by rw [← hcur, hc], ?_⟩
          intro b hb
          cases hb
          have := hhas a hc
          rw [has_eq_true_iff] at this ⊢
          obtain ⟨r, hr⟩ := this
          rw [get_pushRule, if_pos rfl, hr]
          simp
      · exact ⟨hcur, hhas⟩

end RobotsChecker

namespace RobotsChecker

/-- What one line adds to the entry of `token`. -/
theorem parseLine_expect (toLowerCase : String → String) (token : String) (ht : token ≠ "")
    (before : List String) (st : ParseState) (l : String)
    (hcur : st.currentUserAgent = lastDeclared toLowerCase before)
    (hhas : ∀ a, st.currentUserAgent = some a → RuleSet.has st.rules a = true)
    (dl : Bool) (A D : List String) :
    expectEntry (RuleSet.get (parseLine toLowerCase st l).rules token) dl A D =
      expectEntry (RuleSet.get st.rules token)
        (dl || decide (declares toLowerCase l = some token))
        ((if isRule toLowerCase "allow" l && lastDeclared toLowerCase before = some token
          then [valueOf l] else []) ++ A)
        ((if isRule toLowerCase "disallow" l && lastDeclared toLowerCase before = some token
          then [valueOf l] else []) ++ D) := by
  have hne1 : ("user-agent" : String) ≠ "allow" := by decide
  have hne2 : ("user-agent" : String) ≠ "disallow" := by decide
  have hne3 : ("allow" : String) ≠ "disallow" := by decide
  rw [parseLine_eq, ← hcur]
  by_cases hrec : isRecord l = false
  · simp [hrec, declares, isRule]
  · have hrec2 : isRecord l = true := by simpa using hrec
    by_cases hua : toLowerCase (directiveOf l) = "user-agent"
    · simp only [hrec2, hua, declares, isRule, hne1, hne2, Bool.true_and, decide_True,
        decide_False, if_true, Bool.true_eq_false, if_false, Bool.false_and, List.nil_append,
        Bool.false_eq_true]
      by_cases hh : RuleSet.has st.rules (toLowerCase (valueOf l)) = true
      · simp only [hh, if_true]
        by_cases hk : toLowerCase (valueOf l) = token
        · rw [hk] at hh
          obtain ⟨r, hr⟩ := (has_eq_true_iff _ _).1 hh
          simp [hr, expectEntry]
        · simp [hk]
      · have hnone := (has_eq_false_iff _ _).1 (by simpa using hh)
        simp only [hh, if_false, Bool.false_eq_true, get_set]
        by_cases hk : toLowerCase (valueOf l) = token
        · rw [hk] at hnone
          simp [hk, hnone, expectEntry]
        · have hk2 : ¬ token = toLowerCase (valueOf l) := fun h => hk h.symm
          simp [hk, hk2]
    · simp only [hrec2, hua, declares, isRule, Bool.true_and, decide_False, if_false,
        Bool.true_eq_false, Bool.false_eq_true, Bool.or_false]
      by_cases hg : (truthyAgent st.currentUserAgent &&
          (toLowerCase (directiveOf l) = "disallow" ||
            toLowerCase (directiveOf l) = "allow")) = true
      · rw [if_pos hg]
        simp only [Bool.and_eq_true, Bool.or_eq_true, decide_eq_true_eq] at hg
        obtain ⟨htr, hkind⟩ := hg
        obtain ⟨a, hc, ha⟩ := (truthyAgent_iff _).1 htr
        simp only [hc, get_pushRule]
        by_cases hk : token = a
        · subst hk
          obtain ⟨r, hr⟩ := (has_eq_true_iff _ _).1 (hhas token hc)
          rcases hkind with hd | hal
          · simp [hd, hr, expectEntry, hne3.symm]
          · simp [hal, hr, expectEntry, hne3]
        · have hk2 : ¬ a = token := fun h => hk h.symm
          simp [hk, hk2]
      · rw [if_neg hg]
        by_cases hc : st.currentUserAgent = some token
        · have htr : truthyAgent st.currentUserAgent = true :=
            (truthyAgent_iff _).2 ⟨token, hc, ht⟩
          simp only [htr, Bool.true_and, Bool.or_eq_true, decide_eq_true_eq, not_or] at hg
          simp [hg.1, hg.2]
        · simp [hc]

/-- The entry of `token` after the loop has read `lines`, starting from a state reached after
reading `before`. -/
theorem foldl_parseLine_get (toLowerCase : String → String) (token : String)
    (ht : token ≠ "") :
    ∀ (lines before : List String) (st : ParseState),
      st.currentUserAgent = lastDeclared toLowerCase before →
      (∀ a, st.currentUserAgent = some a → RuleSet.has st.rules a = true) →
      RuleSet.get (lines.foldl (parseLine toLowerCase) st).rules token =
        expectEntry (RuleSet.get st.rules token)
          (decide (some token ∈ lines.map (declares toLowerCase)))
          (groupedAfter toLowerCase "allow" token before lines)
          (groupedAfter toLowerCase "disallow" token before lines) := by
  intro lines
  induction lines with
  | nil =>
    intro before st _ _
    simp only [List.foldl_nil, List.map_nil, List.not_mem_nil, decide_False, groupedAfter_nil]
    cases RuleSet.get st.rules token <;> simp [expectEntry]
  | cons l ls ih =>
    intro before st hcur hhas
    obtain ⟨hcur2, hhas2⟩ := parseLine_inv toLowerCase before st l hcur hhas
    rw [List.foldl_cons, ih (before ++ [l]) _ hcur2 hhas2,
      parseLine_expect toLowerCase token ht before st l hcur hhas,
      groupedAfter_cons, groupedAfter_cons]
    congr 1
    simp only [List.map_cons, List.mem_cons]
    by_cases h1 : some token ∈ ls.map (declares toLowerCase)
    · simp [h1]
    · by_cases h2 : declares toLowerCase l = some token
      · simp [h2]
      · have h3 : ¬ some token = declares toLowerCase l := fun h => h2 h.symm
        simp [h1, h2, h3]

end RobotsChecker

namespace RobotsChecker

theorem parseLine_of_not_record (toLowerCase : String → String) (st : ParseState) (l : String)
    (h : isRecord l = false) : parseLine toLowerCase st l = st := by
  rw [parseLine_eq, if_pos h]

theorem foldl_parseLine_filter (toLowerCase : String → String) (lines : List String) :
    ∀ st : ParseState, lines.foldl (parseLine toLowerCase) st =
      (lines.filter isRecord).foldl (parseLine toLowerCase) st := by
  induction lines with
  | nil => intro st; rfl
  | cons l ls ih =>
    intro st
    by_cases h : isRecord l = true
    · rw [List.filter_cons_of_pos h, List.foldl_cons, List.foldl_cons, ih]
    · rw [List.filter_cons_of_neg h, List.foldl_cons,
        parseLine_of_not_record toLowerCase st l (by simpa using h), ih]

theorem foldl_parseLine_no_agent (toLowerCase : String → String) (lines : List String)
    (h : ∀ l ∈ lines, declares toLowerCase l = none) :
    lines.foldl (parseLine toLowerCase) ⟨[], none⟩ = ⟨[], none⟩ := by
  induction lines with
  | nil => rfl
  | cons l ls ih =>
    have hl := h l (List.mem_cons_self l ls)
    have hstep : parseLine toLowerCase ⟨[], none⟩ l = ⟨[], none⟩ := by
      rw [parseLine_eq]
      by_cases hrec : isRecord l = false
      · rw [if_pos hrec]
      · have hrec2 : isRecord l = true := by simpa using hrec
        rw [if_neg hrec]
        have hua : ¬ toLowerCase (directiveOf l) = "user-agent" := by
          intro hua
          simp [declares, hrec2, hua] at hl
        rw [if_neg hua]
        simp [truthyAgent]
    rw [List.foldl_cons, hstep]
    exact ih fun l2 h2 => h l2 (List.mem_cons_of_mem l h2)

/-- C8 (amended). For every robots.txt text and every non-empty token declared in it, the
entry stored under the token holds, in file order, the trimmed values of exactly the `Allow`
(resp. `Disallow`) lines whose most recent preceding `User-agent` line declared that token.
Blank and comment lines change nothing, rule lines before any `User-agent` line are dropped,
and consecutive `User-agent` lines are not merged. -/
theorem parseRobots_grouping :
    (∀ (toLowerCase : String → String) (text token : String),
      token ≠ "" →
      some token ∈ (robotsLines text).map (declares toLowerCase) →
      RuleSet.get (parseRobots toLowerCase text) token =
        some ⟨groupedValues toLowerCase "allow" token (robotsLines text),
              groupedValues toLowerCase "disallow" token (robotsLines text)⟩) ∧
    (∀ (toLowerCase : String → String) (text token : String),
      token ≠ "" →
      some token ∉ (robotsLines text).map (declares toLowerCase) →
      RuleSet.get (parseRobots toLowerCase text) token = none) ∧
    (∀ (toLowerCase : String → String) (lines : List String) (st : ParseState),
      lines.foldl (parseLine toLowerCase) st =
        (lines.filter isRecord).foldl (parseLine toLowerCase) st) ∧
    (∀ (toLowerCase : String → String) (lines : List String),
      (∀ l ∈ lines, declares toLowerCase l = none) →
      (lines.foldl (parseLine toLowerCase) ⟨[], none⟩).rules = []) ∧
    parseRobots Js.asciiLower "User-agent: a\nUser-agent: b\nDisallow: /x" =
      [("a", ⟨[], []⟩), ("b", ⟨[], ["/x"]⟩)] := by
  have key : ∀ (toLowerCase : String → String) (text token : String), token ≠ "" →
      RuleSet.get (parseRobots toLowerCase text) token =
        expectEntry none (decide (some token ∈ (robotsLines text).map (declares toLowerCase)))
          (groupedValues toLowerCase "allow" token (robotsLines text))
          (groupedValues toLowerCase "disallow" token (robotsLines text)) := by
    intro toLowerCase text token ht
    have h := foldl_parseLine_get toLowerCase token ht (robotsLines text) [] ⟨[], none⟩ rfl
      (by intro a ha; cases ha)
    rw [groupedValues_eq_groupedAfter, groupedValues_eq_groupedAfter]
    exact h
  refine ⟨?_, ?_, foldl_parseLine_filter, ?_, by decide⟩
  · intro toLowerCase text token ht hd
    rw [key toLowerCase text token ht]
    simp [expectEntry, hd]
  · intro toLowerCase text token ht hd
    rw [key toLowerCase text token ht]
    simp [expectEntry, hd]
  · intro toLowerCase lines h
    rw [foldl_parseLine_no_agent toLowerCase lines h]

/-- Witness for C8: the token `b` of the text `User-agent: a`, `User-agent: b`,
`Disallow: /x`. -/
theorem parseRobots_grouping_witness :
    RuleSet.get (parseRobots Js.asciiLower "User-agent: a\nUser-agent: b\nDisallow: /x") "b" =
      some ⟨groupedValues Js.asciiLower "allow" "b"
              (robotsLines "User-agent: a\nUser-agent: b\nDisallow: /x"),
            groupedValues Js.asciiLower "disallow" "b"
              (robotsLines "User-agent: a\nUser-agent: b\nDisallow: /x")⟩ :=
  parseRobots_grouping.1 Js.asciiLower "User-agent: a\nUser-agent: b\nDisallow: /x" "b"
    (by decide) (by decide)

/-- C8 fails for the empty token: after `User-agent:` with no value, the line `Disallow: /x`
follows a `User-agent` line that declared the empty token, yet the entry stored under the
empty token has an empty disallow list. -/
theorem parseRobots_empty_token_drops_rules :
    some "" ∈ (robotsLines "User-agent:\nDisallow: /x").map (declares Js.asciiLower) ∧
    groupedValues Js.asciiLower "disallow" "" (robotsLines "User-agent:\nDisallow: /x") =
      ["/x"] ∧
    RuleSet.get (parseRobots Js.asciiLower "User-agent:\nDisallow: /x") "" =
      some ⟨[], []⟩ := by
  decide

end RobotsChecker

/-! ## Theorems: the page budget -/

namespace ProfesiaAdapter

theorem offerLoop_withinBudget (maxPages : Int) (isAllowed enqueueOk : String → Bool)
    (hrefs : List String) :
    ∀ f : Frontier, WithinBudget maxPages f →
      WithinBudget maxPages (offerLoop maxPages isAllowed enqueueOk hrefs f).1 := by
  induction hrefs with
  | nil => intro f hf; exact hf
  | cons href rest ih =>
    intro f hf
    unfold offerLoop
    split
    · exact hf
    · rename_i hlt
      have hstep : WithinBudget maxPages
          { visitedUrls := StrSet.add f.visitedUrls href
            enqueuedCount := f.enqueuedCount + 1
            enqueued := f.enqueued ++ [href] } := by
        refine ⟨?_, ?_⟩
        · simp [hf.1]
        · simp only [Nat.cast_add, Nat.cast_one]
          omega
      split
      · split
        · exact ih _ hstep
        · exact hstep
      · exact ih f hf

theorem enqueueNextPages_withinBudget (maxPages : Int) (isAllowed enqueueOk : String → Bool)
    (links : PageLinks) (f : Frontier) (hf : WithinBudget maxPages f)
    (hlt : (f.enqueuedCount : Int) < maxPages) :
    WithinBudget maxPages (enqueueNextPages maxPages isAllowed enqueueOk links f).1 := by
  unfold enqueueNextPages
  split
  · refine ⟨?_, ?_⟩
    · simp [hf.1]
    · simp only [Nat.cast_add, Nat.cast_one]
      omega
  · exact offerLoop_withinBudget maxPages isAllowed enqueueOk _ f hf

end ProfesiaAdapter

open ProfesiaAdapter in
theorem requestHandler_withinBudget (host : Host) (maxPages : Int) (page : Listing) (st : Run)
    (hf : WithinBudget maxPages st.frontier) :
    WithinBudget maxPages (requestHandler host maxPages page st).1.frontier := by
  have h1 : WithinBudget maxPages
      { st.frontier with visitedUrls := StrSet.add st.frontier.visitedUrls page.url } := hf
  unfold requestHandler
  cases page.rows with
  | none => exact h1
  | some rows =>
    simp only
    rcases processJobsOnPage host rows page.schedule st.crawl with ⟨crawl2, e | u⟩
    · exact h1
    · simp only
      split
      · exact h1
      · rename_i hlt
        exact enqueueNextPages_withinBudget maxPages page.isAllowed page.enqueueOk page.links _ h1
          (by simpa using hlt)

open ProfesiaAdapter in
theorem handleAll_withinBudget (host : Host) (maxPages : Int) (pages : List Listing) :
    ∀ st : Run, WithinBudget maxPages st.frontier →
      WithinBudget maxPages (handleAll host maxPages pages st).frontier := by
  induction pages with
  | nil => intro st h; exact h
  | cons page rest ih =>
    intro st h
    exact ih _ (requestHandler_withinBudget host maxPages page st h)

open ProfesiaAdapter in
/-- C2. For every non-negative `max_pages` and every sequence of handler invocations, each
running to completion before the next, that starts with `enqueuedCount = 0` and nothing
enqueued: the number of URLs handed to `enqueueLinks` equals `enqueuedCount.value` and does not
exceed `max_pages`. -/
theorem page_budget (host : Host) (maxPages : Int) (hmax : 0 ≤ maxPages)
    (pages : List Listing) (st : Run)
    (hcount : st.frontier.enqueuedCount = 0) (hnone : st.frontier.enqueued = []) :
    (handleAll host maxPages pages st).frontier.enqueued.length =
        (handleAll host maxPages pages st).frontier.enqueuedCount ∧
      ((handleAll host maxPages pages st).frontier.enqueuedCount : Int) ≤ maxPages := by
  apply handleAll_withinBudget
  refine ⟨by simp [hcount, hnone], ?_⟩
  rw [hcount]
  simpa using hmax

open ProfesiaAdapter in
/-- Witness for C2: three visits of a page with an allowed next link under a budget of two
pages; two URLs are enqueued. -/
theorem page_budget_witness :
    (0 : Int) ≤ 2 ∧
    ((handleAll Examples.host 2 [Examples.listing, Examples.listing, Examples.listing]
        Run.fresh).frontier.enqueued.length =
      (handleAll Examples.host 2 [Examples.listing, Examples.listing, Examples.listing]
        Run.fresh).frontier.enqueuedCount ∧
    ((handleAll Examples.host 2 [Examples.listing, Examples.listing, Examples.listing]
        Run.fresh).frontier.enqueuedCount : Int) ≤ 2) :=
  ⟨by decide, page_budget Examples.host 2 (by decide)
    [Examples.listing, Examples.listing, Examples.listing] Run.fresh rfl rfl⟩

/-! ## Theorems: the job pipeline -/

namespace ProfesiaAdapter

theorem set_same_phase (tasks : List Task) (i : Nat) (t : Task) (h : tasks[i]? = some t) :
    tasks.set i { t with phase := t.phase } = tasks := by
  have : ({ t with phase := t.phase } : Task) = t := rfl
  rw [this]
  apply List.ext_getElem? 
  intro j
  by_cases hj : i = j
  · subst hj
    rw [List.getElem?_set_self (by have := List.getElem?_eq_some.1 h; exact this.1)]
    exact h.symm
  · rw [List.getElem?_set_ne hj]

theorem strSet_add_of_not_mem (set : StrSet) (x : String) (h : x ∉ set) :
    StrSet.add set x = set ++ [x] := by
  unfold StrSet.add
  rw [if_neg h]

/-- Every resumption is one of the transitions of `Step`; in particular it never rejects. -/
theorem resume_step (host : Host) (s : Crawl) (i : Nat) :
    ∃ s2, resume host s i = .ok s2 ∧ Step host s i s2 := by
  unfold resume
  cases ht : s.tasks[i]? with
  | none => exact ⟨s, rfl, .idle (by intro t h; rw [ht] at h; cases h)⟩
  | some t =>
    have hidle : ({ s with tasks := s.tasks.set i { t with phase := t.phase } } : Crawl) = s := by
      rw [set_same_phase s.tasks i t ht]
    simp only
    unfold continueTask
    cases hid : t.job.id with
    | none =>
      exact ⟨s, by simp [hidle], .idle (by
        intro t2 h; rw [ht] at h; cases h; exact Or.inr (Or.inl hid))⟩
    | some id =>
      cases hurl : t.job.url with
      | none =>
        exact ⟨s, by simp [hidle], .idle (by
          intro t2 h; rw [ht] at h; cases h; exact Or.inr (Or.inr hurl))⟩
      | some url =>
        simp only
        cases hp : t.phase with
        | done o =>
          refine ⟨s, ?_, .idle (by
            intro t2 h; rw [ht] at h; cases h; exact Or.inl (by simp [hp, Phase.isDone]))⟩
          rw [hp] at hidle
          simp only [hidle]
        | awaitRobots =>
          simp only [afterRobots]
          cases hal : t.fate.allowed with
          | false => exact ⟨_, by simp [setPhase], .denied t id url ht hid hurl hp hal⟩
          | true =>
            by_cases hmem : id ∈ s.jobIdSet
            · exact ⟨_, by simp [hmem, setPhase], .duplicate t id url ht hid hurl hp hal hmem⟩
            · refine ⟨_, ?_, .claimed t id url ht hid hurl hp hal hmem⟩
              simp [hmem, strSet_add_of_not_mem _ _ hmem, setPhase]
        | awaitFetch =>
          simp only [tryAfterFetch]
          cases hr : t.fate.response with
          | none =>
            exact ⟨_, by simp [Except.tryCatch, setPhase, catchBlock],
              .fetchFailed t id url ht hid hurl hp (Or.inl hr)⟩
          | some html =>
            simp only
            cases hparse : parse host html id url with
            | error e =>
              exact ⟨_, by simp [Except.tryCatch, setPhase, catchBlock],
                .fetchFailed t id url ht hid hurl hp (Or.inr ⟨html, e, hr, hparse⟩)⟩
            | ok jobData =>
              simp only
              cases hv : (isValid host t.fate.now jobData).1 with
              | false =>
                exact ⟨_, by simp [Except.tryCatch, setPhase],
                  .dropped t id url html jobData ht hid hurl hp hr hparse hv⟩
              | true =>
                exact ⟨_, by simp [Except.tryCatch, setPhase],
                  .pushed t id url html jobData ht hid hurl hp hr hparse hv⟩
        | awaitPush =>
          simp only [tryAfterPush]
          cases hpush : t.fate.pushOk with
          | true =>
            exact ⟨_, by simp [Except.tryCatch, setPhase],
              .saved t id url ht hid hurl hp hpush⟩
          | false =>
            exact ⟨_, by simp [Except.tryCatch, setPhase, catchBlock],
              .pushFailed t id url ht hid hurl hp hpush⟩

end ProfesiaAdapter

/-! ### Lists in which one element is replaced -/

theorem countP_set_add {α : Type} (p : α → Bool) :
    ∀ (l : List α) (i : Nat) (t t2 : α), l[i]? = some t →
      (l.set i t2).countP p + (if p t then 1 else 0) =
        l.countP p + (if p t2 then 1 else 0) := by
  intro l
  induction l with
  | nil => intro i t t2 h; simp at h
  | cons a l ih =>
    intro i t t2 h
    cases i with
    | zero =>
      simp only [List.getElem?_cons_zero, Option.some.injEq] at h
      subst h
      simp only [List.set_cons_zero, List.countP_cons]
      omega
    | succ i =>
      simp only [List.getElem?_cons_succ] at h
      have := ih i t t2 h
      simp only [List.set_cons_succ, List.countP_cons]
      omega

theorem filterMap_set_of_eq {α β : Type} (f : α → Option β) :
    ∀ (l : List α) (i : Nat) (t t2 : α), l[i]? = some t → f t2 = f t →
      (l.set i t2).filterMap f = l.filterMap f := by
  intro l
  induction l with
  | nil => intro i t t2 h; simp at h
  | cons a l ih =>
    intro i t t2 h hf
    cases i with
    | zero =>
      simp only [List.getElem?_cons_zero, Option.some.injEq] at h
      subst h
      simp only [List.set_cons_zero, List.filterMap_cons, hf]
    | succ i =>
      simp only [List.getElem?_cons_succ] at h
      simp only [List.set_cons_succ, List.filterMap_cons, ih i t t2 h hf]

theorem filterMap_set_perm {α β : Type} (f : α → Option β) :
    ∀ (l : List α) (i : Nat) (t t2 : α) (x : β), l[i]? = some t → f t = none →
      f t2 = some x → ((l.set i t2).filterMap f).Perm (x :: l.filterMap f) := by
  intro l
  induction l with
  | nil => intro i t t2 x h; simp at h
  | cons a l ih =>
    intro i t t2 x h hf hf2
    cases i with
    | zero =>
      simp only [List.getElem?_cons_zero, Option.some.injEq] at h
      subst h
      simp only [List.set_cons_zero, List.filterMap_cons, hf, hf2]
      exact List.Perm.refl _
    | succ i =>
      simp only [List.getElem?_cons_succ] at h
      have hp := ih i t t2 x h hf hf2
      simp only [List.set_cons_succ, List.filterMap_cons]
      cases hfa : f a with
      | none => exact hp
      | some b => exact (List.Perm.cons b hp).trans (List.Perm.swap x b _)

theorem mem_set_cases {α : Type} (l : List α) (i : Nat) (t2 a : α) (h : a ∈ l.set i t2) :
    a = t2 ∨ a ∈ l := by
  rcases List.mem_or_eq_of_mem_set h with h | h
  · exact Or.inr h
  · exact Or.inl h

namespace ProfesiaAdapter

/-! ### The bookkeeping is kept by every step -/

/-- A task changes its phase and the shared objects change accordingly. -/
theorem accounted_transition {s0 s : Crawl} (h : Accounted s0 s) (i : Nat) (t : Task)
    (ht : s.tasks[i]? = some t) (p : Phase) (s2 : Crawl)
    (htasks : s2.tasks = setPhase s i t p)
    (hfailed : s2.reporter.failed + (if t.phase.failed then 1 else 0) =
      s.reporter.failed + (if p.failed then 1 else 0))
    (hdup : s2.reporter.duplicates + (if t.phase.isDuplicate then 1 else 0) =
      s.reporter.duplicates + (if p.isDuplicate then 1 else 0))
    (htotal : s2.reporter.totalJobs + (if t.phase.reported then 1 else 0) =
      s.reporter.totalJobs + (if p.reported then 1 else 0))
    (hpushed : s2.dataset.length + (if t.phase.reported then 1 else 0) =
      s.dataset.length + (if p.reported then 1 else 0))
    (hids : (p.holdsId = t.phase.holdsId ∧ s2.jobIdSet = s.jobIdSet) ∨
      (t.phase.holdsId = false ∧ p.holdsId = true ∧
        ∃ id, t.job.id = some id ∧ id ∉ s.jobIdSet ∧ s2.jobIdSet = s.jobIdSet ++ [id]))
    (hdata : (p.reported = t.phase.reported ∧ s2.dataset = s.dataset) ∨
      (t.phase.reported = false ∧ p.reported = true ∧
        ∃ id r, t.job.id = some id ∧ r.jobId = .str id ∧ s2.dataset = s.dataset ++ [r]))
    (hseen : p = .done .duplicate → ∃ id, t.job.id = some id ∧ id ∈ s.jobIdSet)
    (hcoh : Task.Coherent { t with phase := p }) : Accounted s0 s2 := by
  have hmono : ∀ x, x ∈ s.jobIdSet → x ∈ s2.jobIdSet := by
    intro x hx
    rcases hids with ⟨_, h2⟩ | ⟨_, _, id, _, _, h2⟩
    · rw [h2]; exact hx
    · rw [h2]; exact List.mem_append_left _ hx
  have hc1 := countP_set_add (fun t : Task => t.phase.failed) s.tasks i t { t with phase := p } ht
  have hc2 := countP_set_add (fun t : Task => t.phase.isDuplicate) s.tasks i t
    { t with phase := p } ht
  have hc3 := countP_set_add (fun t : Task => t.phase.reported) s.tasks i t
    { t with phase := p } ht
  simp only at hc1 hc2 hc3
  have hf := h.failed
  have hd := h.duplicates
  have htj := h.totalJobs
  have hpu := h.pushed
  have hclaim : (claimedIds s2.tasks = claimedIds s.tasks ∧ s2.jobIdSet = s.jobIdSet) ∨
      ∃ id, (claimedIds s2.tasks).Perm (id :: claimedIds s.tasks) ∧ id ∉ s.jobIdSet ∧
        s2.jobIdSet = s.jobIdSet ++ [id] := by
    rcases hids with ⟨h1, h2⟩ | ⟨h1, h2, id, h3, h4, h5⟩
    · left
      refine ⟨?_, h2⟩
      rw [htasks]
      exact filterMap_set_of_eq _ s.tasks i t _ ht (by simp [h1])
    · right
      refine ⟨id, ?_, h4, h5⟩
      rw [htasks]
      exact filterMap_set_perm _ s.tasks i t _ id ht (by simp [h1]) (by simp [h2, h3])
  refine ⟨?_, ?_, ?_, ?_, ?_, ?_, ?_, ?_, ?_, ?_⟩
  · rw [htasks, setPhase]; omega
  · rw [htasks, setPhase]; omega
  · rw [htasks, setPhase]; omega
  · rw [htasks, setPhase]; omega
  · rcases hdata with ⟨h1, h2⟩ | ⟨h1, h2, id, r, h3, h4, h5⟩
    · have : reportedIds s2.tasks = reportedIds s.tasks := by
        rw [htasks]
        exact filterMap_set_of_eq _ s.tasks i t _ ht (by simp [h1])
      rw [this, h2]
      exact h.pushedIds
    · have hperm : (reportedIds s2.tasks).Perm (id :: reportedIds s.tasks) := by
        rw [htasks]
        exact filterMap_set_perm _ s.tasks i t _ id ht (by simp [h1]) (by simp [h2, h3])
      rw [h5, List.map_append, List.map_cons, List.map_nil, h4]
      refine (List.Perm.append_right _ h.pushedIds).trans ?_
      rw [List.append_assoc]
      refine List.Perm.append_left _ ?_
      refine List.Perm.trans ?_ (hperm.map JsVal.str).symm
      rw [List.map_cons]
      exact List.perm_append_singleton _ _
  · rcases hclaim with ⟨h1, _⟩ | ⟨id, h1, h2, _⟩
    · rw [h1]; exact h.idsNodup
    · rw [h1.nodup_iff, List.nodup_cons]
      refine ⟨?_, h.idsNodup⟩
      intro hmem
      exact h2 ((h.idsMem id).2 (Or.inr hmem))
  · intro x hx
    rcases hclaim with ⟨h1, _⟩ | ⟨id, h1, h2, _⟩
    · rw [h1] at hx; exact h.idsNew x hx
    · rcases List.mem_cons.1 (h1.mem_iff.1 hx) with hx | hx
      · subst hx
        intro h0
        exact h2 ((h.idsMem x).2 (Or.inl h0))
      · exact h.idsNew x hx
  · intro x
    rcases hclaim with ⟨h1, h2⟩ | ⟨id, h1, h2, h3⟩
    · rw [h1, h2]; exact h.idsMem x
    · rw [h3, h1.mem_iff, List.mem_append, h.idsMem x]
      simp only [List.mem_singleton, List.mem_cons]
      tauto
  · intro t2 ht2 hp2
    rw [htasks] at ht2
    rcases mem_set_cases _ _ _ _ ht2 with h1 | h1
    · subst h1
      obtain ⟨id, hid, hmem⟩ := hseen hp2
      exact ⟨id, hid, hmono id hmem⟩
    · obtain ⟨id, hid, hmem⟩ := h.duplicateSeen t2 h1 hp2
      exact ⟨id, hid, hmono id hmem⟩
  · intro t2 ht2
    rw [htasks] at ht2
    rcases mem_set_cases _ _ _ _ ht2 with h1 | h1
    · subst h1; exact hcoh
    · exact h.coherent t2 h1

end ProfesiaAdapter

namespace ProfesiaAdapter

theorem coherent_allowed_of_past_robots {t : Task} (hc : t.Coherent)
    (h1 : t.phase ≠ .awaitRobots) (h2 : t.phase ≠ .done .skipped) : t.fate.allowed = true := by
  cases hal : t.fate.allowed with
  | true => rfl
  | false =>
    rcases hc.denied hal with h | h
    · exact absurd h h1
    · exact absurd h h2

theorem coherent_advance {t : Task} (hc : t.Coherent) (p : Phase)
    (hns : t.phase ≠ .done .skipped) (hal : t.fate.allowed = true) (hp : p ≠ .done .skipped) :
    Task.Coherent { t with phase := p } := by
  refine ⟨?_, ?_, ?_, ?_⟩
  · intro hm
    exact absurd (hc.missing hm) hns
  · intro _
    exact hc.present hns
  · intro hd
    rw [hal] at hd
    cases hd
  · intro h
    exact absurd h hp

theorem normalisePostedAt_jobId (host : Host) (now : Int) (jobData : JobData) :
    (normalisePostedAt host now jobData).jobId = jobData.jobId := by
  unfold normalisePostedAt
  split
  · split
    · rfl
    · split <;> rfl
  · rfl

theorem normaliseTags_jobId (jobData : JobData) :
    (normaliseTags jobData).jobId = jobData.jobId := by
  unfold normaliseTags
  split <;> rfl

theorem isValid_jobId (host : Host) (now : Int) (jobData : JobData) :
    (isValid host now jobData).2.jobId = jobData.jobId := by
  unfold isValid
  split
  · rfl
  · split
    · rfl
    · split
      · rfl
      · simp only
        split <;> simp only [normaliseTags_jobId, normalisePostedAt_jobId]

theorem parse_jobId (host : Host) (html id url : String) (jobData : JobData)
    (h : parse host html id url = .ok jobData) : jobData.jobId = .str id := by
  unfold parse at h
  cases hx : host.extract html with
  | none => simp [hx] at h
  | some fields =>
    simp only [hx, Except.ok.injEq] at h
    rw [← h]

theorem accounted_step {host : Host} {s0 s s2 : Crawl} {i : Nat} (h : Accounted s0 s)
    (hstep : Step host s i s2) : Accounted s0 s2 := by
  cases hstep with
  | idle _ => exact h
  | denied t id url ht hid hurl hp hal =>
    have hc := h.coherent t (List.getElem?_mem ht)
    refine accounted_transition h i t ht (.done .skipped) _ rfl ?_ ?_ ?_ ?_ ?_ ?_ ?_ ?_
    · simp [hp, Phase.failed, Reporter.addFailed]
    · simp [hp, Phase.isDuplicate, Reporter.addFailed]
    · simp [hp, Phase.reported, Reporter.addFailed]
    · simp [hp, Phase.reported]
    · left; simp [hp, Phase.holdsId]
    · left; simp [hp, Phase.reported]
    · intro hq; cases hq
    · refine ⟨fun _ => rfl, fun hq => absurd rfl hq, fun _ => Or.inr rfl, ?_⟩
      intro _
      simp [turnedAway, hal]
  | duplicate t id url ht hid hurl hp hal hmem =>
    have hc := h.coherent t (List.getElem?_mem ht)
    refine accounted_transition h i t ht (.done .duplicate) _ rfl ?_ ?_ ?_ ?_ ?_ ?_ ?_ ?_
    · simp [hp, Phase.failed, Reporter.addDuplicate]
    · simp [hp, Phase.isDuplicate, Reporter.addDuplicate]
    · simp [hp, Phase.reported, Reporter.addDuplicate]
    · simp [hp, Phase.reported]
    · left; simp [hp, Phase.holdsId]
    · left; simp [hp, Phase.reported]
    · intro _; exact ⟨id, hid, hmem⟩
    · exact coherent_advance hc _ (by simp [hp]) hal (by simp)
  | claimed t id url ht hid hurl hp hal hmem =>
    have hc := h.coherent t (List.getElem?_mem ht)
    refine accounted_transition h i t ht .awaitFetch _ rfl ?_ ?_ ?_ ?_ ?_ ?_ ?_ ?_
    · simp [hp, Phase.failed]
    · simp [hp, Phase.isDuplicate]
    · simp [hp, Phase.reported]
    · simp [hp, Phase.reported]
    · right
      exact ⟨by simp [hp, Phase.holdsId], rfl, id, hid, hmem, rfl⟩
    · left; simp [hp, Phase.reported]
    · intro hq; cases hq
    · exact coherent_advance hc _ (by simp [hp]) hal (by simp)
  | fetchFailed t id url ht hid hurl hp hfail =>
    have hc := h.coherent t (List.getElem?_mem ht)
    have hal := coherent_allowed_of_past_robots hc (by simp [hp]) (by simp [hp])
    refine accounted_transition h i t ht (.done (.caught false)) _ rfl ?_ ?_ ?_ ?_ ?_ ?_ ?_ ?_
    · simp [hp, Phase.failed, Reporter.addFailed]
    · simp [hp, Phase.isDuplicate, Reporter.addFailed]
    · simp [hp, Phase.reported, Reporter.addFailed]
    · simp [hp, Phase.reported]
    · left; simp [hp, Phase.holdsId]
    · left; simp [hp, Phase.reported]
    · intro hq; cases hq
    · exact coherent_advance hc _ (by simp [hp]) hal (by simp)
  | dropped t id url html jobData ht hid hurl hp hr hparse hv =>
    have hc := h.coherent t (List.getElem?_mem ht)
    have hal := coherent_allowed_of_past_robots hc (by simp [hp]) (by simp [hp])
    refine accounted_transition h i t ht (.done .dropped) _ rfl ?_ ?_ ?_ ?_ ?_ ?_ ?_ ?_
    · simp [hp, Phase.failed]
    · simp [hp, Phase.isDuplicate]
    · simp [hp, Phase.reported]
    · simp [hp, Phase.reported]
    · left; simp [hp, Phase.holdsId]
    · left; simp [hp, Phase.reported]
    · intro hq; cases hq
    · exact coherent_advance hc _ (by simp [hp]) hal (by simp)
  | pushed t id url html jobData ht hid hurl hp hr hparse hv =>
    have hc := h.coherent t (List.getElem?_mem ht)
    have hal := coherent_allowed_of_past_robots hc (by simp [hp]) (by simp [hp])
    refine accounted_transition h i t ht .awaitPush _ rfl ?_ ?_ ?_ ?_ ?_ ?_ ?_ ?_
    · simp [hp, Phase.failed, Reporter.addJob]
    · simp [hp, Phase.isDuplicate, Reporter.addJob]
    · simp [hp, Phase.reported, Reporter.addJob]
    · simp [hp, Phase.reported]
    · left; simp [hp, Phase.holdsId]
    · right
      refine ⟨by simp [hp, Phase.reported], rfl, id, _, hid, ?_, rfl⟩
      rw [isValid_jobId]
      exact parse_jobId host html id url jobData hparse
    · intro hq; cases hq
    · exact coherent_advance hc _ (by simp [hp]) hal (by simp)
  | saved t id url ht hid hurl hp hpush =>
    have hc := h.coherent t (List.getElem?_mem ht)
    have hal := coherent_allowed_of_past_robots hc (by simp [hp]) (by simp [hp])
    refine accounted_transition h i t ht (.done .saved) _ rfl ?_ ?_ ?_ ?_ ?_ ?_ ?_ ?_
    · simp [hp, Phase.failed]
    · simp [hp, Phase.isDuplicate]
    · simp [hp, Phase.reported]
    · simp [hp, Phase.reported]
    · left; simp [hp, Phase.holdsId]
    · left; simp [hp, Phase.reported]
    · intro hq; cases hq
    · exact coherent_advance hc _ (by simp [hp]) hal (by simp)
  | pushFailed t id url ht hid hurl hp hpush =>
    have hc := h.coherent t (List.getElem?_mem ht)
    have hal := coherent_allowed_of_past_robots hc (by simp [hp]) (by simp [hp])
    refine accounted_transition h i t ht (.done (.caught true)) _ rfl ?_ ?_ ?_ ?_ ?_ ?_ ?_ ?_
    · simp [hp, Phase.failed, Reporter.addFailed]
    · simp [hp, Phase.isDuplicate, Reporter.addFailed]
    · simp [hp, Phase.reported, Reporter.addFailed]
    · simp [hp, Phase.reported]
    · left; simp [hp, Phase.holdsId]
    · left; simp [hp, Phase.reported]
    · intro hq; cases hq
    · exact coherent_advance hc _ (by simp [hp]) hal (by simp)

end ProfesiaAdapter

namespace ProfesiaAdapter

theorem falsy_orNull (s : String) : falsy (orNull s) = decide (s = "") := by
  unfold orNull
  by_cases h : s = ""
  · simp [h, falsy]
  · simp [h, falsy]

theorem exists_of_not_falsy (v : Option String) (h : falsy v = false) : ∃ x, v = some x := by
  cases v with
  | none => simp [falsy] at h
  | some x => exact ⟨x, rfl⟩

theorem claimedIds_append_fresh (tasks : List Task) (t : Task) (h : t.phase.holdsId = false) :
    claimedIds (tasks ++ [t]) = claimedIds tasks := by
  simp [claimedIds, List.filterMap_append, h]

theorem reportedIds_append_fresh (tasks : List Task) (t : Task) (h : t.phase.reported = false) :
    reportedIds (tasks ++ [t]) = reportedIds tasks := by
  simp [reportedIds, List.filterMap_append, h]

/-- Starting a callback keeps the bookkeeping. -/
theorem accounted_startJob {s0 s : Crawl} (h : Accounted s0 s) (row : Anchor × Fate) :
    Accounted s0 (startJob s row) := by
  unfold ProfesiaAdapter.startJob
  by_cases hm : (falsy (jobOf row.1).url || falsy (jobOf row.1).id) = true
  · simp only [hm, if_true]
    refine ⟨?_, ?_, ?_, ?_, ?_, ?_, ?_, ?_, ?_, ?_⟩
    · simp [List.countP_append, Phase.failed, Reporter.addFailed, h.failed]
      omega
    · simp [List.countP_append, Phase.isDuplicate, Reporter.addFailed, h.duplicates]
    · simp [List.countP_append, Phase.reported, Reporter.addFailed, h.totalJobs]
    · simp [List.countP_append, Phase.reported, h.pushed]
    · rw [reportedIds_append_fresh s.tasks ⟨jobOf row.1, row.2, .done .skipped⟩ rfl]
      exact h.pushedIds
    · rw [claimedIds_append_fresh s.tasks ⟨jobOf row.1, row.2, .done .skipped⟩ rfl]
      exact h.idsNodup
    · rw [claimedIds_append_fresh s.tasks ⟨jobOf row.1, row.2, .done .skipped⟩ rfl]
      exact h.idsNew
    · rw [claimedIds_append_fresh s.tasks ⟨jobOf row.1, row.2, .done .skipped⟩ rfl]
      exact h.idsMem
    · intro t ht hp
      simp only [List.mem_append, List.mem_singleton] at ht
      rcases ht with ht | ht
      · exact h.duplicateSeen t ht hp
      · subst ht
        cases hp
    · intro t ht
      simp only [List.mem_append, List.mem_singleton] at ht
      rcases ht with ht | ht
      · exact h.coherent t ht
      · subst ht
        refine ⟨fun _ => rfl, fun hq => absurd rfl hq, fun _ => Or.inr rfl, ?_⟩
        intro _
        simp only [turnedAway, hm, Bool.true_or]
  · simp only [hm, if_false, Bool.false_eq_true]
    have hm2 : (falsy (jobOf row.1).url || falsy (jobOf row.1).id) = false := by simpa using hm
    simp only [Bool.or_eq_false_iff] at hm2
    refine ⟨?_, ?_, ?_, ?_, ?_, ?_, ?_, ?_, ?_, ?_⟩
    · simp [List.countP_append, Phase.failed, h.failed]
    · simp [List.countP_append, Phase.isDuplicate, h.duplicates]
    · simp [List.countP_append, Phase.reported, h.totalJobs]
    · simp [List.countP_append, Phase.reported, h.pushed]
    · rw [reportedIds_append_fresh s.tasks ⟨jobOf row.1, row.2, .awaitRobots⟩ rfl]
      exact h.pushedIds
    · rw [claimedIds_append_fresh s.tasks ⟨jobOf row.1, row.2, .awaitRobots⟩ rfl]
      exact h.idsNodup
    · rw [claimedIds_append_fresh s.tasks ⟨jobOf row.1, row.2, .awaitRobots⟩ rfl]
      exact h.idsNew
    · rw [claimedIds_append_fresh s.tasks ⟨jobOf row.1, row.2, .awaitRobots⟩ rfl]
      exact h.idsMem
    · intro t ht hp
      simp only [List.mem_append, List.mem_singleton] at ht
      rcases ht with ht | ht
      · exact h.duplicateSeen t ht hp
      · subst ht
        cases hp
    · intro t ht
      simp only [List.mem_append, List.mem_singleton] at ht
      rcases ht with ht | ht
      · exact h.coherent t ht
      · subst ht
        refine ⟨?_, ?_, fun _ => Or.inl rfl, ?_⟩
        · intro hq
          exact absurd hq hm
        · intro _
          obtain ⟨id, hid⟩ := exists_of_not_falsy _ hm2.2
          obtain ⟨url, hurl⟩ := exists_of_not_falsy _ hm2.1
          exact ⟨id, url, hid, hurl⟩
        · intro hq
          cases hq

theorem accounted_startAll {s0 : Crawl} (rows : List (Anchor × Fate)) :
    ∀ s : Crawl, Accounted s0 s → Accounted s0 (rows.foldl ProfesiaAdapter.startJob s) := by
  induction rows with
  | nil => intro s h; exact h
  | cons row rest ih => intro s h; exact ih _ (accounted_startJob h row)

/-- A state without callbacks is accounted for by itself. -/
theorem accounted_refl (s0 : Crawl) (h : s0.tasks = []) : Accounted s0 s0 := by
  refine ⟨?_, ?_, ?_, ?_, ?_, ?_, ?_, ?_, ?_, ?_⟩ <;> simp [h, claimedIds, reportedIds]

/-- The bookkeeping holds in every state reached from a state without callbacks. -/
theorem accounted_of_reachable {host : Host} {s0 s : Crawl} (h0 : s0.tasks = [])
    (h : Reachable host s0 s) : Accounted s0 s := by
  induction h with
  | start => exact accounted_refl s0 h0
  | page s rows _ ih => exact accounted_startAll rows s ih
  | resume s s2 i _ hres ih =>
    obtain ⟨s3, h3, hstep⟩ := resume_step host s i
    rw [hres] at h3
    cases h3
    exact accounted_step ih hstep

theorem reachable_runSchedule {host : Host} {s0 : Crawl} (schedule : List Nat) :
    ∀ s s2 : Crawl, Reachable host s0 s → runSchedule host schedule s = .ok s2 →
      Reachable host s0 s2 := by
  induction schedule with
  | nil =>
    intro s s2 h hrun
    simp only [ProfesiaAdapter.runSchedule, Except.ok.injEq] at hrun
    rw [← hrun]
    exact h
  | cons i rest ih =>
    intro s s2 h hrun
    unfold ProfesiaAdapter.runSchedule at hrun
    cases hres : ProfesiaAdapter.resume host s i with
    | error e => simp [hres] at hrun
    | ok s3 =>
      simp only [hres] at hrun
      exact ih s3 s2 (.resume s s3 i h hres) hrun

/-- A schedule never rejects. -/
theorem runSchedule_ok (host : Host) (schedule : List Nat) :
    ∀ s : Crawl, ∃ s2, runSchedule host schedule s = .ok s2 := by
  induction schedule with
  | nil => intro s; exact ⟨s, rfl⟩
  | cons i rest ih =>
    intro s
    obtain ⟨s3, h3, _⟩ := resume_step host s i
    obtain ⟨s2, h2⟩ := ih s3
    exact ⟨s2, by simp [runSchedule, h3, h2]⟩

theorem reachable_processJobsOnPage {host : Host} {s0 s : Crawl} (h : Reachable host s0 s)
    (rows : List (Anchor × Fate)) (schedule : List Nat) :
    Reachable host s0 (processJobsOnPage host rows schedule s).1 := by
  unfold ProfesiaAdapter.processJobsOnPage
  obtain ⟨s2, h2⟩ := runSchedule_ok host schedule (rows.foldl ProfesiaAdapter.startJob s)
  simp only [h2]
  exact reachable_runSchedule schedule _ _ (.page s rows h) h2

end ProfesiaAdapter

theorem map_set_of_eq {α β : Type} (f : α → β) :
    ∀ (l : List α) (i : Nat) (t t2 : α), l[i]? = some t → f t2 = f t →
      (l.set i t2).map f = l.map f := by
  intro l
  induction l with
  | nil => intro i t t2 h; simp at h
  | cons a l ih =>
    intro i t t2 h hf
    cases i with
    | zero =>
      simp only [List.getElem?_cons_zero, Option.some.injEq] at h
      subst h
      simp only [List.set_cons_zero, List.map_cons, hf]
    | succ i =>
      simp only [List.getElem?_cons_succ] at h
      simp only [List.set_cons_succ, List.map_cons, ih i t t2 h hf]

namespace ProfesiaAdapter

/-! ### What a step leaves alone -/

theorem step_keys {host : Host} {s s2 : Crawl} {i : Nat} (h : Step host s i s2) :
    s2.tasks.map Task.key = s.tasks.map Task.key := by
  cases h with
  | idle _ => rfl
  | denied t id url ht _ _ _ _ => exact map_set_of_eq _ _ i t _ ht rfl
  | duplicate t id url ht _ _ _ _ _ => exact map_set_of_eq _ _ i t _ ht rfl
  | claimed t id url ht _ _ _ _ _ => exact map_set_of_eq _ _ i t _ ht rfl
  | fetchFailed t id url ht _ _ _ _ => exact map_set_of_eq _ _ i t _ ht rfl
  | dropped t id url html jobData ht _ _ _ _ _ _ => exact map_set_of_eq _ _ i t _ ht rfl
  | pushed t id url html jobData ht _ _ _ _ _ _ => exact map_set_of_eq _ _ i t _ ht rfl
  | saved t id url ht _ _ _ _ => exact map_set_of_eq _ _ i t _ ht rfl
  | pushFailed t id url ht _ _ _ _ => exact map_set_of_eq _ _ i t _ ht rfl

theorem runSchedule_keys (host : Host) (schedule : List Nat) :
    ∀ s s2 : Crawl, runSchedule host schedule s = .ok s2 →
      s2.tasks.map Task.key = s.tasks.map Task.key := by
  induction schedule with
  | nil =>
    intro s s2 hrun
    simp only [runSchedule, Except.ok.injEq] at hrun
    rw [hrun]
  | cons i rest ih =>
    intro s s2 hrun
    obtain ⟨s3, h3, hstep⟩ := resume_step host s i
    simp only [runSchedule, h3] at hrun
    rw [ih s3 s2 hrun, step_keys hstep]

theorem startJob_tasks (s : Crawl) (row : Anchor × Fate) :
    (startJob s row).tasks =
      s.tasks ++ [⟨jobOf row.1, row.2,
        if falsy (jobOf row.1).url || falsy (jobOf row.1).id then .done .skipped
        else .awaitRobots⟩] := by
  unfold startJob
  by_cases h : (falsy (jobOf row.1).url || falsy (jobOf row.1).id) = true
  · simp [h]
  · simp [h]

theorem startAll_keys (rows : List (Anchor × Fate)) :
    ∀ s : Crawl, (rows.foldl startJob s).tasks.map Task.key =
      s.tasks.map Task.key ++ rows.map fun row => (jobOf row.1, row.2) := by
  induction rows with
  | nil => intro s; simp
  | cons row rest ih =>
    intro s
    rw [List.foldl_cons, ih, startJob_tasks]
    simp [Task.key]

theorem noLoss_step {host : Host} {s s2 : Crawl} {i : Nat} (h : NoLoss host s)
    (hstep : Step host s i s2) : NoLoss host s2 := by
  have key : ∀ (t : Task) (p : Phase), s.tasks[i]? = some t →
      (Lucky host t.job t.fate → p ≠ .done .dropped ∧ ∀ b, p ≠ .done (.caught b)) →
      ∀ t2 ∈ setPhase s i t p, Lucky host t2.job t2.fate →
        t2.phase ≠ .done .dropped ∧ ∀ b, t2.phase ≠ .done (.caught b) := by
    intro t p ht hp t2 ht2 hl
    rcases mem_set_cases _ _ _ _ ht2 with h1 | h1
    · subst h1
      exact hp hl
    · exact h t2 h1 hl
  cases hstep with
  | idle _ => exact h
  | denied t id url ht _ _ _ _ => exact key t _ ht (fun _ => by simp)
  | duplicate t id url ht _ _ _ _ _ => exact key t _ ht (fun _ => by simp)
  | claimed t id url ht _ _ _ _ _ => exact key t _ ht (fun _ => by simp)
  | fetchFailed t id url ht hid hurl _ hfail =>
    refine key t _ ht (fun hl => ?_)
    obtain ⟨html, jobData, h1, h2, _, _⟩ := hl id url hid hurl
    rcases hfail with hf | ⟨html2, e, hf1, hf2⟩
    · rw [hf] at h1; cases h1
    · rw [hf1] at h1
      cases h1
      rw [hf2] at h2
      cases h2
  | dropped t id url html jobData ht hid hurl _ hr hparse hv =>
    refine key t _ ht (fun hl => ?_)
    obtain ⟨html2, jobData2, h1, h2, h3, _⟩ := hl id url hid hurl
    rw [hr] at h1
    cases h1
    rw [hparse] at h2
    cases h2
    rw [hv] at h3
    cases h3
  | pushed t id url html jobData ht _ _ _ _ _ _ => exact key t _ ht (fun _ => by simp)
  | saved t id url ht _ _ _ _ => exact key t _ ht (fun _ => by simp)
  | pushFailed t id url ht hid hurl _ hpush =>
    refine key t _ ht (fun hl => ?_)
    obtain ⟨html, jobData, _, _, _, h4⟩ := hl id url hid hurl
    rw [hpush] at h4
    cases h4

theorem noLoss_startAll {host : Host} (rows : List (Anchor × Fate)) :
    ∀ s : Crawl, NoLoss host s → NoLoss host (rows.foldl startJob s) := by
  induction rows with
  | nil => intro s h; exact h
  | cons row rest ih =>
    intro s h
    refine ih _ ?_
    intro t ht hl
    rw [startJob_tasks] at ht
    simp only [List.mem_append, List.mem_singleton] at ht
    rcases ht with ht | ht
    · exact h t ht hl
    · subst ht
      by_cases hm : (falsy (jobOf row.1).url || falsy (jobOf row.1).id) = true
      · simp [hm]
      · simp [hm]

theorem noLoss_runSchedule {host : Host} (schedule : List Nat) :
    ∀ s s2 : Crawl, NoLoss host s → runSchedule host schedule s = .ok s2 → NoLoss host s2 := by
  induction schedule with
  | nil =>
    intro s s2 h hrun
    simp only [ProfesiaAdapter.runSchedule, Except.ok.injEq] at hrun
    rw [← hrun]
    exact h
  | cons i rest ih =>
    intro s s2 h hrun
    obtain ⟨s3, h3, hstep⟩ := resume_step host s i
    simp only [ProfesiaAdapter.runSchedule, h3] at hrun
    exact ih s3 s2 (noLoss_step h hstep) hrun

end ProfesiaAdapter

namespace ProfesiaAdapter

/-! ### Counting identifiers -/

theorem newCount_eq_card (ids : List String) :
    ∀ seen : List String, newCount seen ids = (ids.toFinset \ seen.toFinset).card := by
  induction ids with
  | nil => intro seen; simp [newCount]
  | cons id rest ih =>
    intro seen
    unfold newCount
    by_cases h : id ∈ seen
    · rw [if_pos h, ih seen, List.toFinset_cons,
        Finset.insert_sdiff_of_mem _ (List.mem_toFinset.2 h)]
    · rw [if_neg h, ih (id :: seen), List.toFinset_cons, List.toFinset_cons]
      have hnot : id ∉ rest.toFinset \ insert id seen.toFinset := by simp
      have heq : insert id rest.toFinset \ seen.toFinset =
          insert id (rest.toFinset \ insert id seen.toFinset) := by
        ext x
        simp only [Finset.mem_sdiff, Finset.mem_insert, List.mem_toFinset]
        constructor
        · rintro ⟨h1 | h1, h2⟩
          · exact Or.inl h1
          · by_cases hx : x = id
            · exact Or.inl hx
            · exact Or.inr ⟨h1, fun h3 => h3.elim hx h2⟩
        · rintro (h1 | ⟨h1, h2⟩)
          · subst h1
            exact ⟨Or.inl rfl, h⟩
          · exact ⟨Or.inr h1, fun h3 => h2 (Or.inr h3)⟩
      rw [heq, Finset.card_insert_of_not_mem hnot]

theorem seenCount_add_newCount (ids : List String) :
    ∀ seen : List String, seenCount seen ids + newCount seen ids = ids.length := by
  induction ids with
  | nil => intro seen; simp [seenCount, newCount]
  | cons id rest ih =>
    intro seen
    unfold seenCount newCount
    by_cases h : id ∈ seen
    · simp only [if_pos h, List.length_cons]
      have := ih seen
      omega
    · simp only [if_neg h, List.length_cons]
      have := ih (id :: seen)
      omega

/-- The number of new identifiers of a list equals the length of any duplicate-free list of
new identifiers that, together with the seen ones, covers the list. -/
theorem newCount_eq_length (seen ids claimed : List String) (hnd : claimed.Nodup)
    (hnew : ∀ x ∈ claimed, x ∉ seen) (hsub : ∀ x ∈ claimed, x ∈ ids)
    (hcov : ∀ x ∈ ids, x ∈ seen ∨ x ∈ claimed) : newCount seen ids = claimed.length := by
  rw [newCount_eq_card, ← List.toFinset_card_of_nodup hnd]
  congr 1
  ext x
  simp only [Finset.mem_sdiff, List.mem_toFinset]
  constructor
  · rintro ⟨h1, h2⟩
    rcases hcov x h1 with h | h
    · exact absurd h h2
    · exact h
  · intro h
    exact ⟨hsub x h, hnew x h⟩

end ProfesiaAdapter

theorem length_filterMap_eq_countP {α β : Type} (f : α → Option β) (l : List α) :
    (l.filterMap f).length = l.countP fun a => (f a).isSome := by
  induction l with
  | nil => rfl
  | cons a l ih =>
    cases h : f a with
    | none => simp [List.filterMap_cons, h, ih]
    | some b => simp [List.filterMap_cons, h, ih]

theorem countP_add_of_split {α : Type} (r p q : α → Bool) (l : List α)
    (h : ∀ a ∈ l, (if r a then 1 else 0) = (if p a then 1 else 0) + (if q a then 1 else 0)) :
    l.countP r = l.countP p + l.countP q := by
  induction l with
  | nil => rfl
  | cons a l ih =>
    have h1 := h a (List.mem_cons_self a l)
    have h2 := ih fun b hb => h b (List.mem_cons_of_mem a hb)
    simp only [List.countP_cons]
    omega

namespace ProfesiaAdapter

/-! ### The state when all callbacks have finished -/

/-- A finished task that was neither dropped nor caught: it was skipped exactly when the
candidate is turned away, and otherwise it is a duplicate or was saved. -/
theorem coherent_final {t : Task} (hc : t.Coherent) (hd : t.phase.isDone = true)
    (hn : t.phase ≠ .done .dropped ∧ ∀ b, t.phase ≠ .done (.caught b)) :
    (turnedAway t.job t.fate = true ∧ t.phase = .done .skipped) ∨
    (turnedAway t.job t.fate = false ∧
      (t.phase = .done .duplicate ∨ t.phase = .done .saved)) := by
  have hpast : t.phase ≠ .done .skipped → turnedAway t.job t.fate = false := by
    intro hns
    cases hta : turnedAway t.job t.fate with
    | false => rfl
    | true =>
      exfalso
      simp only [turnedAway, Bool.or_eq_true, Bool.not_eq_true'] at hta
      rcases hta with hm | hal
      · exact hns (hc.missing (by simpa using hm))
      · rcases hc.denied hal with h | h
        · rw [h] at hd; cases hd
        · exact hns h
  cases hp : t.phase with
  | awaitRobots => rw [hp] at hd; cases hd
  | awaitFetch => rw [hp] at hd; cases hd
  | awaitPush => rw [hp] at hd; cases hd
  | done o =>
    cases o with
    | skipped => exact Or.inl ⟨hc.skipped hp, rfl⟩
    | duplicate => exact Or.inr ⟨hpast (by simp [hp]), Or.inl rfl⟩
    | saved => exact Or.inr ⟨hpast (by simp [hp]), Or.inr rfl⟩
    | dropped => exact absurd hp hn.1
    | caught b => exact absurd hp (hn.2 b)

/-- The counts of the three outcomes once every callback of a page of lucky candidates has
finished. -/
theorem final_counts {host : Host} {s0 s2 : Crawl} (rows : List (Anchor × Fate))
    (hacc : Accounted s0 s2) (hnoloss : NoLoss host s2)
    (hkeys : s2.tasks.map Task.key = rows.map fun row => (jobOf row.1, row.2))
    (hlucky : ∀ row ∈ rows, turnedAway (jobOf row.1) row.2 = false →
      Lucky host (jobOf row.1) row.2)
    (hdone : ∀ t ∈ s2.tasks, t.phase.isDone = true) :
    (s2.tasks.countP fun t => t.phase.failed) =
        rows.countP (fun row => turnedAway (jobOf row.1) row.2) ∧
    (s2.tasks.countP fun t => t.phase.reported) =
        newCount s0.jobIdSet (remainingIds rows) ∧
    (s2.tasks.countP fun t => t.phase.isDuplicate) =
        seenCount s0.jobIdSet (remainingIds rows) := by
  have hl : ∀ t ∈ s2.tasks, turnedAway t.job t.fate = false → Lucky host t.job t.fate := by
    intro t ht
    have : t.key ∈ s2.tasks.map Task.key := List.mem_map_of_mem _ ht
    rw [hkeys] at this
    obtain ⟨row, hrow, heq⟩ := List.mem_map.1 this
    have h1 := hlucky row hrow
    simp only [Task.key, Prod.mk.injEq] at heq
    rw [heq.1, heq.2] at h1
    exact h1
  have hfin : ∀ t ∈ s2.tasks,
      (turnedAway t.job t.fate = true ∧ t.phase = .done .skipped) ∨
      (turnedAway t.job t.fate = false ∧
        (t.phase = .done .duplicate ∨ t.phase = .done .saved)) := by
    intro t ht
    have hc := hacc.coherent t ht
    cases hta : turnedAway t.job t.fate with
    | false =>
      have hf := coherent_final hc (hdone t ht) (hnoloss t ht (hl t ht hta))
      rw [hta] at hf
      exact hf
    | true =>
      left
      refine ⟨rfl, ?_⟩
      simp only [turnedAway, Bool.or_eq_true, Bool.not_eq_true'] at hta
      rcases hta with hm | hal
      · exact hc.missing (by simpa using hm)
      · rcases hc.denied hal with h | h
        · have := hdone t ht
          rw [h] at this
          cases this
        · exact h
  have hid : ∀ t ∈ s2.tasks, t.phase ≠ .done .skipped → ∃ id, t.job.id = some id := by
    intro t ht hns
    obtain ⟨id, _, h, _⟩ := (hacc.coherent t ht).present hns
    exact ⟨id, h⟩
  -- the remaining identifiers, read off the tasks
  have hrem : remainingIds rows =
      s2.tasks.filterMap fun t => if turnedAway t.job t.fate then none else t.job.id := by
    have : remainingIds rows =
        (rows.map fun row => (jobOf row.1, row.2)).filterMap
          fun k => if turnedAway k.1 k.2 then none else k.1.id := by
      rw [List.filterMap_map]
      rfl
    rw [this, ← hkeys, List.filterMap_map]
    rfl
  have hfailed : (s2.tasks.countP fun t => t.phase.failed) =
      rows.countP (fun row => turnedAway (jobOf row.1) row.2) := by
    have h1 : (s2.tasks.countP fun t => t.phase.failed) =
        s2.tasks.countP fun t => turnedAway t.job t.fate := by
      apply List.countP_congr
      intro t ht
      rcases hfin t ht with ⟨h1, h2⟩ | ⟨h1, h2 | h2⟩ <;> simp [h1, h2, Phase.failed]
    have h2 : (rows.countP fun row => turnedAway (jobOf row.1) row.2) =
        (rows.map fun row => (jobOf row.1, row.2)).countP fun k => turnedAway k.1 k.2 := by
      rw [List.countP_map]
      rfl
    rw [h1, h2, ← hkeys, List.countP_map]
    rfl
  have hclaimLen : (claimedIds s2.tasks).length = s2.tasks.countP fun t => t.phase.reported := by
    unfold claimedIds
    rw [length_filterMap_eq_countP]
    apply List.countP_congr
    intro t ht
    rcases hfin t ht with ⟨h1, h2⟩ | ⟨h1, h2 | h2⟩
    · simp [h2, Phase.holdsId, Phase.reported]
    · simp [h2, Phase.holdsId, Phase.reported]
    · obtain ⟨id, hid2⟩ := hid t ht (by simp [h2])
      simp [h2, Phase.holdsId, Phase.reported, hid2]
  have hremLen : (remainingIds rows).length =
      (s2.tasks.countP fun t => t.phase.isDuplicate) +
        s2.tasks.countP fun t => t.phase.reported := by
    rw [hrem, length_filterMap_eq_countP]
    apply countP_add_of_split
    intro t ht
    rcases hfin t ht with ⟨h1, h2⟩ | ⟨h1, h2 | h2⟩
    · simp [h1, h2, Phase.isDuplicate, Phase.reported]
    · obtain ⟨id, hid2⟩ := hid t ht (by simp [h2])
      simp [h1, h2, Phase.isDuplicate, Phase.reported, hid2]
    · obtain ⟨id, hid2⟩ := hid t ht (by simp [h2])
      simp [h1, h2, Phase.isDuplicate, Phase.reported, hid2]
  have hnew : newCount s0.jobIdSet (remainingIds rows) = (claimedIds s2.tasks).length := by
    apply newCount_eq_length _ _ _ hacc.idsNodup hacc.idsNew
    · intro x hx
      rw [hrem]
      obtain ⟨t, ht, hx2⟩ := List.mem_filterMap.1 hx
      refine List.mem_filterMap.2 ⟨t, ht, ?_⟩
      rcases hfin t ht with ⟨h1, h2⟩ | ⟨h1, h2 | h2⟩
      · simp [h2, Phase.holdsId] at hx2
      · simp [h2, Phase.holdsId] at hx2
      · simp only [h2, Phase.holdsId, if_true] at hx2
        simp [h1, hx2]
    · intro x hx
      rw [hrem] at hx
      obtain ⟨t, ht, hx2⟩ := List.mem_filterMap.1 hx
      rcases hfin t ht with ⟨h1, h2⟩ | ⟨h1, h2 | h2⟩
      · simp [h1] at hx2
      · simp only [h1, Bool.false_eq_true, if_false] at hx2
        obtain ⟨id, hid2, hmem⟩ := hacc.duplicateSeen t ht h2
        rw [hid2] at hx2
        cases hx2
        exact (hacc.idsMem _).1 hmem
      · simp only [h1, Bool.false_eq_true, if_false] at hx2
        right
        exact List.mem_filterMap.2 ⟨t, ht, by simp [h2, Phase.holdsId, hx2]⟩
  refine ⟨hfailed, ?_, ?_⟩
  · rw [hnew, hclaimLen]
  · have := seenCount_add_newCount (remainingIds rows) s0.jobIdSet
    rw [hnew, hclaimLen] at this
    omega

end ProfesiaAdapter

namespace ProfesiaAdapter

/-! ### Every callback finishes when it is resumed often enough -/

theorem runSchedule_append (host : Host) (a b : List Nat) :
    ∀ s : Crawl, runSchedule host (a ++ b) s =
      match runSchedule host a s with
      | .error e => .error e
      | .ok s2 => runSchedule host b s2 := by
  induction a with
  | nil => intro s; rfl
  | cons i rest ih =>
    intro s
    simp only [List.cons_append, runSchedule]
    cases resume host s i with
    | error e => rfl
    | ok s3 => exact ih s3

/-- A step leaves the other tasks as they are and takes the resumed one at least one `await`
further. -/
theorem step_rank {host : Host} {s s2 : Crawl} {i : Nat} (h : Step host s i s2)
    (hc : ∀ t ∈ s.tasks, t.Coherent) (j : Nat) (t : Task) (ht : s.tasks[j]? = some t) :
    ∃ t2, s2.tasks[j]? = some t2 ∧
      t2.phase.rank ≤ t.phase.rank - (if j = i then 1 else 0) := by
  have key : ∀ (ti : Task) (p : Phase), s.tasks[i]? = some ti → p.rank + 1 ≤ ti.phase.rank →
      ∃ t2, (setPhase s i ti p)[j]? = some t2 ∧
        t2.phase.rank ≤ t.phase.rank - (if j = i then 1 else 0) := by
    intro ti p hti hp
    unfold setPhase
    by_cases hji : j = i
    · subst hji
      rw [ht] at hti
      cases hti
      have hlt : j < s.tasks.length := (List.getElem?_eq_some.1 ht).1
      refine ⟨_, List.getElem?_set_self hlt, ?_⟩
      simp only [if_true]
      omega
    · rw [List.getElem?_set_ne (fun h => hji h.symm)]
      exact ⟨t, ht, by simp [hji]⟩
  cases h with
  | idle hidle =>
    refine ⟨t, ht, ?_⟩
    by_cases hji : j = i
    · subst hji
      have hdone : t.phase.isDone = true := by
        rcases hidle t ht with h | h | h
        · exact h
        · by_cases hs : t.phase = .done .skipped
          · rw [hs]; rfl
          · obtain ⟨id, _, hid, _⟩ := (hc t (List.getElem?_mem ht)).present hs
            rw [hid] at h
            cases h
        · by_cases hs : t.phase = .done .skipped
          · rw [hs]; rfl
          · obtain ⟨_, url, _, hurl⟩ := (hc t (List.getElem?_mem ht)).present hs
            rw [hurl] at h
            cases h
      cases hp : t.phase with
      | done o => simp [Phase.rank]
      | awaitRobots => rw [hp] at hdone; cases hdone
      | awaitFetch => rw [hp] at hdone; cases hdone
      | awaitPush => rw [hp] at hdone; cases hdone
    · simp [hji]
  | denied ti id url hti _ _ hp _ => exact key ti _ hti (by simp [hp, Phase.rank])
  | duplicate ti id url hti _ _ hp _ _ => exact key ti _ hti (by simp [hp, Phase.rank])
  | claimed ti id url hti _ _ hp _ _ => exact key ti _ hti (by simp [hp, Phase.rank])
  | fetchFailed ti id url hti _ _ hp _ => exact key ti _ hti (by simp [hp, Phase.rank])
  | dropped ti id url html jobData hti _ _ hp _ _ _ =>
    exact key ti _ hti (by simp [hp, Phase.rank])
  | pushed ti id url html jobData hti _ _ hp _ _ _ =>
    exact key ti _ hti (by simp [hp, Phase.rank])
  | saved ti id url hti _ _ hp _ => exact key ti _ hti (by simp [hp, Phase.rank])
  | pushFailed ti id url hti _ _ hp _ => exact key ti _ hti (by simp [hp, Phase.rank])

theorem accounted_runSchedule {host : Host} {s0 : Crawl} (schedule : List Nat) :
    ∀ s s2 : Crawl, Accounted s0 s → runSchedule host schedule s = .ok s2 →
      Accounted s0 s2 := by
  induction schedule with
  | nil =>
    intro s s2 h hrun
    simp only [ProfesiaAdapter.runSchedule, Except.ok.injEq] at hrun
    rw [← hrun]
    exact h
  | cons i rest ih =>
    intro s s2 h hrun
    obtain ⟨s3, h3, hstep⟩ := resume_step host s i
    simp only [ProfesiaAdapter.runSchedule, h3] at hrun
    exact ih s3 s2 (accounted_step h hstep) hrun

/-- Along a schedule no task falls back, and a task the schedule names advances. -/
theorem runSchedule_rank {host : Host} {s0 : Crawl} (schedule : List Nat) :
    ∀ s s2 : Crawl, Accounted s0 s → runSchedule host schedule s = .ok s2 →
      ∀ (j : Nat) (t : Task), s.tasks[j]? = some t →
        ∃ t2, s2.tasks[j]? = some t2 ∧
          t2.phase.rank ≤ t.phase.rank - (if j ∈ schedule then 1 else 0) := by
  induction schedule with
  | nil =>
    intro s s2 _ hrun j t ht
    simp only [runSchedule, Except.ok.injEq] at hrun
    rw [← hrun]
    exact ⟨t, ht, by simp⟩
  | cons i rest ih =>
    intro s s2 h hrun j t ht
    obtain ⟨s3, h3, hstep⟩ := resume_step host s i
    simp only [runSchedule, h3] at hrun
    obtain ⟨t3, ht3, hr3⟩ := step_rank hstep h.coherent j t ht
    obtain ⟨t2, ht2, hr2⟩ := ih s3 s2 (accounted_step h hstep) hrun j t3 ht3
    refine ⟨t2, ht2, ?_⟩
    by_cases hji : j = i
    · subst hji
      simp only [if_true, List.mem_cons, true_or] at hr3 ⊢
      omega
    · simp only [hji, if_false, List.mem_cons, false_or] at hr3 ⊢
      omega

/-- After the draining schedule every callback has finished. -/
theorem drain_settles {host : Host} {s0 : Crawl} (s s2 : Crawl) (h : Accounted s0 s)
    (hrun : runSchedule host (drain 0 s.tasks.length) s = .ok s2) :
    ∀ t ∈ s2.tasks, t.phase.isDone = true := by
  unfold drain at hrun
  rw [List.append_assoc, runSchedule_append] at hrun
  obtain ⟨sa, ha⟩ := runSchedule_ok host (List.range' 0 s.tasks.length) s
  rw [ha] at hrun
  simp only at hrun
  rw [runSchedule_append] at hrun
  obtain ⟨sb, hb⟩ := runSchedule_ok host (List.range' 0 s.tasks.length) sa
  rw [hb] at hrun
  simp only at hrun
  have hA := accounted_runSchedule _ s sa h ha
  have hB := accounted_runSchedule _ sa sb hA hb
  have hlen : s2.tasks.length = s.tasks.length := by
    have h1 := congrArg List.length (runSchedule_keys host _ s sa ha)
    have h2 := congrArg List.length (runSchedule_keys host _ sa sb hb)
    have h3 := congrArg List.length (runSchedule_keys host _ sb s2 hrun)
    simp only [List.length_map] at h1 h2 h3
    omega
  intro t2 ht2
  obtain ⟨j, hj, hget⟩ := List.getElem_of_mem ht2
  have hj2 : j < s.tasks.length := by omega
  have hmem : j ∈ List.range' 0 s.tasks.length := by
    simp [List.mem_range']
    omega
  obtain ⟨ta, hta, hra⟩ :=
    runSchedule_rank _ s sa h ha j s.tasks[j] (List.getElem?_eq_getElem hj2)
  obtain ⟨tb, htb, hrb⟩ := runSchedule_rank _ sa sb hA hb j ta hta
  obtain ⟨tc, htc, hrc⟩ := runSchedule_rank _ sb s2 hB hrun j tb htb
  have heq : tc = t2 := by
    rw [List.getElem?_eq_getElem hj, hget] at htc
    exact (Option.some.inj htc).symm
  subst heq
  simp only [hmem, if_true] at hra hrb hrc
  have h3 : s.tasks[j].phase.rank ≤ 3 := by
    cases s.tasks[j].phase <;> simp [Phase.rank]
  have h0 : tc.phase.rank = 0 := by omega
  cases hp : tc.phase with
  | done o => rfl
  | awaitRobots => rw [hp] at h0; cases h0
  | awaitFetch => rw [hp] at h0; cases h0
  | awaitPush => rw [hp] at h0; cases h0

end ProfesiaAdapter

/-! ## Theorems: what a page run does -/

namespace ProfesiaAdapter

theorem settledFrom_zero_iff (s : Crawl) :
    settledFrom 0 s = true ↔ ∀ t ∈ s.tasks, t.phase.isDone = true := by
  unfold settledFrom
  simp only [List.drop_zero, List.all_eq_true]
  constructor
  · intro h t ht
    have := h t ht
    cases hp : t.phase <;> simp [hp, Phase.isDone] at this ⊢
  · intro h t ht
    have := h t ht
    cases hp : t.phase <;> simp [hp, Phase.isDone] at this ⊢

theorem processJobsOnPage_ok {host : Host} {rows : List (Anchor × Fate)} {schedule : List Nat}
    {s s2 : Crawl} (h : processJobsOnPage host rows schedule s = (s2, .ok ())) :
    runSchedule host schedule (rows.foldl startJob s) = .ok s2 ∧
      settledFrom s.tasks.length s2 = true := by
  unfold processJobsOnPage at h
  obtain ⟨s3, h3⟩ := runSchedule_ok host schedule (rows.foldl startJob s)
  simp only [h3, Prod.mk.injEq] at h
  obtain ⟨h1, h2⟩ := h
  subst h1
  refine ⟨h3, ?_⟩
  by_cases hs : settledFrom s.tasks.length s3 = true
  · exact hs
  · simp [hs] at h2

theorem remainingIds_length (rows : List (Anchor × Fate)) :
    (remainingIds rows).length + rows.countP (fun row => turnedAway (jobOf row.1) row.2) =
      rows.length := by
  induction rows with
  | nil => rfl
  | cons row rest ih =>
    unfold remainingIds at ih ⊢
    cases hta : turnedAway (jobOf row.1) row.2 with
    | true =>
      simp only [List.filterMap_cons, hta, if_true, List.countP_cons, List.length_cons]
      omega
    | false =>
      have hid : falsy (jobOf row.1).id = false := by
        simp only [turnedAway, Bool.or_eq_false_iff] at hta
        exact hta.1.2
      obtain ⟨id, hid2⟩ := exists_of_not_falsy _ hid
      simp only [List.filterMap_cons, hta, hid2, Bool.false_eq_true, if_false,
        List.countP_cons, List.length_cons]
      omega

/-- The counters after a page, relative to the state before it. -/
theorem page_counts (host : Host) (rows : List (Anchor × Fate)) (schedule : List Nat)
    (s s2 : Crawl) (hquiet : s.tasks = [])
    (hlucky : ∀ row ∈ rows, turnedAway (jobOf row.1) row.2 = false →
      Lucky host (jobOf row.1) row.2)
    (hrun : processJobsOnPage host rows schedule s = (s2, .ok ())) :
    s2.reporter.failed =
        s.reporter.failed + rows.countP (fun row => turnedAway (jobOf row.1) row.2) ∧
    s2.reporter.duplicates =
        s.reporter.duplicates + seenCount s.jobIdSet (remainingIds rows) ∧
    s2.reporter.totalJobs = s.reporter.totalJobs + newCount s.jobIdSet (remainingIds rows) ∧
    s2.dataset.length = s.dataset.length + newCount s.jobIdSet (remainingIds rows) := by
  obtain ⟨h1, h2⟩ := processJobsOnPage_ok hrun
  rw [hquiet] at h2
  have hacc : Accounted s s2 :=
    accounted_runSchedule schedule _ s2 (accounted_startAll rows s (accounted_refl s hquiet)) h1
  have hnl : NoLoss host s2 :=
    noLoss_runSchedule schedule _ s2
      (noLoss_startAll rows s (by intro t ht; rw [hquiet] at ht; cases ht)) h1
  have hkeys : s2.tasks.map Task.key = rows.map fun row => (jobOf row.1, row.2) := by
    rw [runSchedule_keys host schedule _ s2 h1, startAll_keys, hquiet]
    rfl
  obtain ⟨c1, c2, c3⟩ :=
    final_counts rows hacc hnl hkeys hlucky ((settledFrom_zero_iff s2).1 h2)
  exact ⟨by rw [hacc.failed, c1], by rw [hacc.duplicates, c3], by rw [hacc.totalJobs, c2],
    by rw [hacc.pushed, c2]⟩

/-- A page run completes when the schedule ends with the draining schedule. -/
theorem processJobsOnPage_completes (host : Host) (rows : List (Anchor × Fate))
    (schedule : List Nat) (s : Crawl) (hquiet : s.tasks = []) :
    (processJobsOnPage host rows (schedule ++ drain 0 rows.length) s).2 = .ok () := by
  unfold processJobsOnPage
  obtain ⟨sa, ha⟩ := runSchedule_ok host schedule (rows.foldl startJob s)
  obtain ⟨sb, hb⟩ := runSchedule_ok host (drain 0 rows.length) sa
  have hacc : Accounted s sa :=
    accounted_runSchedule schedule _ sa (accounted_startAll rows s (accounted_refl s hquiet)) ha
  have hlen : sa.tasks.length = rows.length := by
    have h1 := congrArg List.length (runSchedule_keys host schedule _ sa ha)
    rw [startAll_keys, hquiet] at h1
    simpa using h1
  rw [← hlen] at hb
  have hdone := drain_settles sa sb hacc hb
  rw [hlen] at hb
  simp only [runSchedule_append, ha, hb, hquiet, List.length_nil]
  rw [(settledFrom_zero_iff sb).2 hdone]
  rfl

end ProfesiaAdapter

namespace ProfesiaAdapter

theorem startAll_dataset (rows : List (Anchor × Fate)) :
    ∀ s : Crawl, (rows.foldl startJob s).dataset = s.dataset := by
  induction rows with
  | nil => intro s; rfl
  | cons row rest ih =>
    intro s
    rw [List.foldl_cons, ih]
    unfold startJob
    by_cases h : (falsy (jobOf row.1).url || falsy (jobOf row.1).id) = true <;> simp [h]

theorem reportedIds_sublist_claimedIds (tasks : List Task) :
    (reportedIds tasks).Sublist (claimedIds tasks) := by
  induction tasks with
  | nil => exact List.Sublist.refl _
  | cons t rest ih =>
    unfold reportedIds claimedIds at ih ⊢
    simp only [List.filterMap_cons]
    cases hr : t.phase.reported with
    | false =>
      simp only [Bool.false_eq_true, if_false]
      split
      · exact ih
      · exact List.Sublist.cons _ ih
    | true =>
      have hh : t.phase.holdsId = true := by
        cases hp : t.phase with
        | done o => cases o <;> simp [hp, Phase.reported, Phase.holdsId] at hr ⊢
        | awaitRobots => simp [hp, Phase.reported] at hr
        | awaitFetch => rfl
        | awaitPush => rfl
      simp only [hh, if_true]
      cases t.job.id with
      | none => exact ih
      | some id => exact List.Sublist.cons₂ _ ih

/-- Every record in the dataset was returned by `isValid` together with `true`. -/
theorem dataset_valid {host : Host} {s0 s : Crawl} (h : Reachable host s0 s) :
    ∀ r ∈ s.dataset, r ∈ s0.dataset ∨ ∃ now r0, isValid host now r0 = (true, r) := by
  induction h with
  | start => intro r hr; exact Or.inl hr
  | page s rows _ ih =>
    intro r hr
    rw [startAll_dataset] at hr
    exact ih r hr
  | resume s s2 i _ hres ih =>
    obtain ⟨s3, h3, hstep⟩ := resume_step host s i
    rw [hres] at h3
    cases h3
    cases hstep with
    | idle _ => exact ih
    | denied t id url _ _ _ _ _ => exact ih
    | duplicate t id url _ _ _ _ _ _ => exact ih
    | claimed t id url _ _ _ _ _ _ => exact ih
    | fetchFailed t id url _ _ _ _ _ => exact ih
    | dropped t id url html jobData _ _ _ _ _ _ _ => exact ih
    | saved t id url _ _ _ _ _ => exact ih
    | pushFailed t id url _ _ _ _ _ => exact ih
    | pushed t id url html jobData _ _ _ _ _ _ hv =>
      intro r hr
      simp only [List.mem_append, List.mem_singleton] at hr
      rcases hr with hr | hr
      · exact ih r hr
      · right
        exact ⟨t.fate.now, jobData, by rw [hr]; exact Prod.ext hv rfl⟩

/-- C3. Job dedup.  (1) Resuming an allowed candidate whose identifier is in `jobIdSet` adds
one to `duplicates` and changes neither the requests, nor the dataset, nor `jobIdSet`.
(2) In every state reached from a start without callbacks and with an empty dataset, whatever
pages are started and in whatever order callbacks run, the records in the dataset have pairwise
distinct `jobId`s; the state a call of `processJobsOnPage` leaves is such a state.  (3) A page
with two allowed rows that share a new identifier and to which
nothing goes wrong ends, under every schedule, with one more record and one more duplicate. -/
theorem job_dedup :
    (∀ (host : Host) (s : Crawl) (i : Nat) (t : Task) (id url : String),
      s.tasks[i]? = some t → t.phase = .awaitRobots → t.job.id = some id →
      t.job.url = some url → t.fate.allowed = true → id ∈ s.jobIdSet →
      ∃ s2, resume host s i = .ok s2 ∧
        s2.reporter.duplicates = s.reporter.duplicates + 1 ∧
        s2.reporter.totalJobs = s.reporter.totalJobs ∧
        s2.reporter.failed = s.reporter.failed ∧
        s2.requests = s.requests ∧ s2.dataset = s.dataset ∧ s2.jobIdSet = s.jobIdSet ∧
        s2.tasks = s.tasks.set i { t with phase := .done .duplicate }) ∧
    (∀ (host : Host) (s0 s : Crawl), s0.tasks = [] → s0.dataset = [] →
      Reachable host s0 s → (s.dataset.map fun r => r.jobId).Nodup) ∧
    (∀ (host : Host) (s0 s : Crawl) (rows : List (Anchor × Fate)) (schedule : List Nat),
      Reachable host s0 s → Reachable host s0 (processJobsOnPage host rows schedule s).1) ∧
    (∀ (host : Host) (schedule : List Nat) (s s2 : Crawl) (a1 a2 : Anchor) (f1 f2 : Fate),
      s.tasks = [] → a1.id = a2.id → a1.id ≠ "" → a1.href ≠ "" → a2.href ≠ "" →
      a1.id ∉ s.jobIdSet → f1.allowed = true → f2.allowed = true →
      Lucky host (jobOf a1) f1 → Lucky host (jobOf a2) f2 →
      processJobsOnPage host [(a1, f1), (a2, f2)] schedule s = (s2, .ok ()) →
      s2.dataset.length = s.dataset.length + 1 ∧
        s2.reporter.totalJobs = s.reporter.totalJobs + 1 ∧
        s2.reporter.duplicates = s.reporter.duplicates + 1 ∧
        s2.reporter.failed = s.reporter.failed) := by
  refine ⟨?_, ?_, fun host s0 s rows schedule h => reachable_processJobsOnPage h rows schedule,
    ?_⟩
  · intro host s i t id url ht hp hid hurl hal hmem
    refine ⟨_, by simp [resume, ht, continueTask, hid, hurl, hp, afterRobots, hal, hmem]; rfl,
      ?_⟩
    simp [Reporter.addDuplicate]
  · intro host s0 s h0 hd hreach
    have hacc := accounted_of_reachable h0 hreach
    have hperm := hacc.pushedIds
    rw [hd, List.map_nil, List.nil_append] at hperm
    rw [hperm.nodup_iff]
    refine List.Nodup.map (fun a b h => by cases h; rfl) ?_
    exact hacc.idsNodup.sublist (reportedIds_sublist_claimedIds s.tasks)
  · intro host schedule s s2 a1 a2 f1 f2 hquiet hsame hid h1 h2 hnew hal1 hal2 hl1 hl2 hrun
    have hid2 : a2.id ≠ "" := by rw [← hsame]; exact hid
    have hta1 : turnedAway (jobOf a1) f1 = false := by
      simp [turnedAway, jobOf, falsy_orNull, hid, h1, hal1]
    have hta2 : turnedAway (jobOf a2) f2 = false := by
      simp [turnedAway, jobOf, falsy_orNull, hid2, h2, hal2]
    have hj1 : (jobOf a1).id = some a1.id := by simp [jobOf, orNull, hid]
    have hj2 : (jobOf a2).id = some a1.id := by
      rw [hsame]
      simp [jobOf, orNull, hid2]
    have hrem : remainingIds [(a1, f1), (a2, f2)] = [a1.id, a1.id] := by
      unfold remainingIds
      simp only [List.filterMap_cons, List.filterMap_nil, hta1, hta2, hj1, hj2,
        Bool.false_eq_true, if_false]
    obtain ⟨c1, c2, c3, c4⟩ := page_counts host [(a1, f1), (a2, f2)] schedule s s2 hquiet
      (by
        intro row hrow _
        simp only [List.mem_cons, List.mem_singleton, List.not_mem_nil, or_false] at hrow
        rcases hrow with h | h
        · subst h; exact hl1
        · subst h; exact hl2) hrun
    rw [hrem] at c2 c3 c4
    simp only [newCount, seenCount, hnew, if_false, List.mem_cons, true_or, if_true] at c2 c3 c4
    simp only [List.countP_cons, hta1, hta2, List.countP_nil] at c1
    exact ⟨by omega, by omega, by omega, by simpa using c1⟩

/-- Witness for C3: two rows with the identifier `J7`, the second callback resumed first. -/
theorem job_dedup_witness :
    (processJobsOnPage Examples.host Examples.twinRows [1, 0, 1, 1, 0] Crawl.fresh).1.dataset.length
        = Crawl.fresh.dataset.length + 1 ∧
      (processJobsOnPage Examples.host Examples.twinRows [1, 0, 1, 1, 0]
          Crawl.fresh).1.reporter.totalJobs = Crawl.fresh.reporter.totalJobs + 1 ∧
      (processJobsOnPage Examples.host Examples.twinRows [1, 0, 1, 1, 0]
          Crawl.fresh).1.reporter.duplicates = Crawl.fresh.reporter.duplicates + 1 ∧
      (processJobsOnPage Examples.host Examples.twinRows [1, 0, 1, 1, 0]
          Crawl.fresh).1.reporter.failed = Crawl.fresh.reporter.failed :=
  job_dedup.2.2.2 Examples.host [1, 0, 1, 1, 0] Crawl.fresh _
    ⟨"J7", "https://www.profesia.sk/praca/a/O7"⟩
    ⟨"J7", "https://www.profesia.sk/praca/a/O7?search=1"⟩ Examples.goodFate Examples.goodFate
    rfl rfl (by decide) (by decide) (by decide) (by decide) rfl rfl
    (by
      intro id url hid hurl
      exact ⟨"<html></html>", _, rfl, rfl, by
        simp only [jobOf, orNull] at hid hurl
        cases hid
        cases hurl
        decide, rfl⟩)
    (by
      intro id url hid hurl
      exact ⟨"<html></html>", _, rfl, rfl, by
        simp only [jobOf, orNull] at hid hurl
        cases hid
        cases hurl
        decide, rfl⟩)
    (Prod.ext rfl (by decide))

end ProfesiaAdapter

namespace ProfesiaAdapter

/-- C4. Pipeline step 1.  (1) A candidate without address or without identifier is reported
as one failure when its callback starts (the address is appended to `failedUrls` when there is
one) and the callback ends there.  (2) A candidate that the robots check disallows is reported
as one failure when its callback is resumed, whether or not its identifier is in `jobIdSet`,
and the callback ends there.  In both cases `jobIdSet`, the requests, the dataset, `totalJobs`
and `duplicates` stay as they are.  (3) A finished callback does nothing more. -/
theorem turned_away_is_one_failure :
    (∀ (s : Crawl) (a : Anchor) (fate : Fate), a.href = "" ∨ a.id = "" →
      (startJob s (a, fate)).reporter.failed = s.reporter.failed + 1 ∧
      (startJob s (a, fate)).reporter.failedUrls =
        (if a.href = "" then s.reporter.failedUrls else s.reporter.failedUrls ++ [a.href]) ∧
      (startJob s (a, fate)).reporter.totalJobs = s.reporter.totalJobs ∧
      (startJob s (a, fate)).reporter.duplicates = s.reporter.duplicates ∧
      (startJob s (a, fate)).jobIdSet = s.jobIdSet ∧
      (startJob s (a, fate)).requests = s.requests ∧
      (startJob s (a, fate)).dataset = s.dataset ∧
      (startJob s (a, fate)).tasks = s.tasks ++ [⟨jobOf a, fate, .done .skipped⟩]) ∧
    (∀ (host : Host) (s : Crawl) (i : Nat) (t : Task) (id url : String),
      s.tasks[i]? = some t → t.phase = .awaitRobots → t.job.id = some id →
      t.job.url = some url → t.fate.allowed = false →
      ∃ s2, resume host s i = .ok s2 ∧
        s2.reporter.failed = s.reporter.failed + 1 ∧
        s2.reporter.failedUrls =
          (if url = "" then s.reporter.failedUrls else s.reporter.failedUrls ++ [url]) ∧
        s2.reporter.totalJobs = s.reporter.totalJobs ∧
        s2.reporter.duplicates = s.reporter.duplicates ∧
        s2.jobIdSet = s.jobIdSet ∧ s2.requests = s.requests ∧ s2.dataset = s.dataset ∧
        s2.tasks = s.tasks.set i { t with phase := .done .skipped }) ∧
    (∀ (host : Host) (s : Crawl) (i : Nat) (t : Task) (outcome : Outcome),
      s.tasks[i]? = some t → t.phase = .done outcome → resume host s i = .ok s) := by
  refine ⟨?_, ?_, ?_⟩
  · intro s a fate h
    have hm : (falsy (jobOf a).url || falsy (jobOf a).id) = true := by
      simp only [jobOf, falsy_orNull, Bool.or_eq_true, decide_eq_true_eq]
      exact h
    unfold startJob
    simp only [hm, if_true]
    by_cases hh : a.href = ""
    · simp [Reporter.addFailed, jobOf, orNull, hh]
    · simp [Reporter.addFailed, jobOf, orNull, hh]
  · intro host s i t id url ht hp hid hurl hal
    refine ⟨_, by simp [resume, ht, continueTask, hid, hurl, hp, afterRobots, hal]; rfl, ?_⟩
    by_cases hu : url = ""
    · simp [Reporter.addFailed, hu]
    · simp [Reporter.addFailed, hu]
  · intro host s i t outcome ht hp
    obtain ⟨s2, h2, hstep⟩ := resume_step host s i
    have hidle : s.tasks.set i { t with phase := t.phase } = s.tasks :=
      set_same_phase s.tasks i t ht
    unfold resume
    simp only [ht]
    unfold continueTask
    cases hid : t.job.id with
    | none => simp only [hidle]
    | some id =>
      cases hurl : t.job.url with
      | none => simp only [hidle]
      | some url =>
        rw [hp] at hidle
        simp only [hp, hidle]

/-- Witness for C4: the first of the three example rows is disallowed; its callback is resumed
in a state in which its identifier `J1` counts as seen. -/
theorem turned_away_is_one_failure_witness :
    ∃ s2, resume Examples.host
        (Examples.threeRows.foldl startJob { Crawl.fresh with jobIdSet := ["J1"] }) 0 = .ok s2 ∧
      s2.reporter.failed = 0 + 1 ∧
      s2.reporter.failedUrls =
        (if ("https://www.profesia.sk/praca/a/O1" : String) = "" then []
          else [] ++ ["https://www.profesia.sk/praca/a/O1"]) ∧
      s2.reporter.totalJobs = 0 ∧ s2.reporter.duplicates = 0 ∧
      s2.jobIdSet = ["J1"] ∧ s2.requests = [] ∧ s2.dataset = [] ∧
      s2.tasks =
        (Examples.threeRows.foldl startJob { Crawl.fresh with jobIdSet := ["J1"] }).tasks.set 0
          ⟨⟨some "J1", some "https://www.profesia.sk/praca/a/O1"⟩,
            { Examples.goodFate with allowed := false }, .done .skipped⟩ :=
  turned_away_is_one_failure.2.1 Examples.host
    (Examples.threeRows.foldl startJob { Crawl.fresh with jobIdSet := ["J1"] }) 0
    ⟨⟨some "J1", some "https://www.profesia.sk/praca/a/O1"⟩,
      { Examples.goodFate with allowed := false }, .awaitRobots⟩
    "J1" "https://www.profesia.sk/praca/a/O1" (by decide) rfl rfl rfl rfl

end ProfesiaAdapter

namespace ProfesiaAdapter

/-- C5. End-to-end page accounting.  Start from a fresh reporter with no callback in flight
and let nothing go wrong for the candidates that get past the first `if`.  (1) Whenever the
page run completes, `failed` is the number of candidates turned away (no identifier, no
address, or disallowed), `duplicates` is the number of the other candidates whose identifier
was seen before the page or earlier in the list, `totalJobs` is the number of records pushed
and the number of distinct new identifiers among the other candidates, and the three add up to
the number of candidates.  (2) The run completes under every schedule that ends with the
draining schedule.  (3) For the three example rows every completed run gives
`totalJobs = 1`, `duplicates = 1`, `failed = 1`. -/
theorem page_accounting :
    (∀ (host : Host) (rows : List (Anchor × Fate)) (schedule : List Nat) (s s2 : Crawl),
      s.tasks = [] → s.reporter = Reporter.fresh →
      (∀ row ∈ rows, turnedAway (jobOf row.1) row.2 = false →
        Lucky host (jobOf row.1) row.2) →
      processJobsOnPage host rows schedule s = (s2, .ok ()) →
      s2.reporter.failed = rows.countP (fun row => turnedAway (jobOf row.1) row.2) ∧
      s2.reporter.duplicates = seenCount s.jobIdSet (remainingIds rows) ∧
      s2.reporter.totalJobs = s2.dataset.length - s.dataset.length ∧
      s2.reporter.totalJobs = ((remainingIds rows).toFinset \ s.jobIdSet.toFinset).card ∧
      s2.reporter.totalJobs + s2.reporter.duplicates + s2.reporter.failed = rows.length) ∧
    (∀ (host : Host) (rows : List (Anchor × Fate)) (schedule : List Nat) (s : Crawl),
      s.tasks = [] →
      (processJobsOnPage host rows (schedule ++ drain 0 rows.length) s).2 = .ok ()) ∧
    (∀ (schedule : List Nat) (s2 : Crawl),
      processJobsOnPage Examples.host Examples.threeRows schedule Examples.seenOne =
        (s2, .ok ()) →
      s2.reporter.totalJobs = 1 ∧ s2.reporter.duplicates = 1 ∧ s2.reporter.failed = 1) := by
  have main : ∀ (host : Host) (rows : List (Anchor × Fate)) (schedule : List Nat)
      (s s2 : Crawl), s.tasks = [] → s.reporter = Reporter.fresh →
      (∀ row ∈ rows, turnedAway (jobOf row.1) row.2 = false →
        Lucky host (jobOf row.1) row.2) →
      processJobsOnPage host rows schedule s = (s2, .ok ()) →
      s2.reporter.failed = rows.countP (fun row => turnedAway (jobOf row.1) row.2) ∧
      s2.reporter.duplicates = seenCount s.jobIdSet (remainingIds rows) ∧
      s2.reporter.totalJobs = newCount s.jobIdSet (remainingIds rows) ∧
      s2.dataset.length = s.dataset.length + newCount s.jobIdSet (remainingIds rows) := by
    intro host rows schedule s s2 hquiet hfresh hlucky hrun
    obtain ⟨c1, c2, c3, c4⟩ := page_counts host rows schedule s s2 hquiet hlucky hrun
    rw [hfresh] at c1 c2 c3
    simp only [Reporter.fresh, Nat.zero_add] at c1 c2 c3
    exact ⟨c1, c2, c3, c4⟩
  refine ⟨?_, processJobsOnPage_completes, ?_⟩
  · intro host rows schedule s s2 hquiet hfresh hlucky hrun
    obtain ⟨c1, c2, c3, c4⟩ := main host rows schedule s s2 hquiet hfresh hlucky hrun
    have h1 := seenCount_add_newCount (remainingIds rows) s.jobIdSet
    have h2 := remainingIds_length rows
    refine ⟨c1, c2, by omega, ?_, by omega⟩
    rw [c3, newCount_eq_card]
  · intro schedule s2 hrun
    obtain ⟨c1, c2, c3, _⟩ := main Examples.host Examples.threeRows schedule Examples.seenOne
      s2 rfl rfl
      (by
        intro row hrow _ id url hid hurl
        refine ⟨"<html></html>", _, ?_, rfl, ?_, ?_⟩
        · simp only [Examples.threeRows, List.mem_cons, List.mem_singleton,
            List.not_mem_nil, or_false] at hrow
          rcases hrow with h | h | h <;> rw [h] <;> rfl
        · simp only [Examples.threeRows, List.mem_cons, List.mem_singleton,
            List.not_mem_nil, or_false] at hrow
          rcases hrow with h | h | h <;> subst h <;>
            simp only [jobOf, orNull] at hid hurl <;> cases hid <;> cases hurl <;> decide
        · simp only [Examples.threeRows, List.mem_cons, List.mem_singleton,
            List.not_mem_nil, or_false] at hrow
          rcases hrow with h | h | h <;> rw [h] <;> rfl)
      hrun
    refine ⟨?_, ?_, ?_⟩
    · rw [c3]; decide
    · rw [c2]; decide
    · rw [c1]; decide

/-- Witness for C5: the three example rows under the draining schedule. -/
theorem page_accounting_witness :
    (processJobsOnPage Examples.host Examples.threeRows (drain 0 3)
        Examples.seenOne).1.reporter.totalJobs = 1 ∧
      (processJobsOnPage Examples.host Examples.threeRows (drain 0 3)
        Examples.seenOne).1.reporter.duplicates = 1 ∧
      (processJobsOnPage Examples.host Examples.threeRows (drain 0 3)
        Examples.seenOne).1.reporter.failed = 1 :=
  page_accounting.2.2 (drain 0 3) _ (Prod.ext rfl (by decide))

end ProfesiaAdapter

namespace ProfesiaAdapter

/-- C6. Failure isolation.  (1) No resumption of a callback rejects, and so no page run ends
with an exception.  (2) When the request of a candidate is rejected or parsing the response
throws, the resumption reports exactly one failure with the address of the candidate, leaves
`totalJobs`, `duplicates`, the dataset and `jobIdSet` as they are, ends this callback and
touches no other callback.  (3) Whatever failed before, a page run completes once every
callback has been resumed often enough.  (4) At completion every candidate of the page has
finished and the counters have grown by the numbers of callbacks that took each path. -/
theorem failure_isolation :
    (∀ (host : Host) (s : Crawl) (i : Nat), ∃ s2, resume host s i = .ok s2) ∧
    (∀ (host : Host) (rows : List (Anchor × Fate)) (schedule : List Nat) (s : Crawl),
      (processJobsOnPage host rows schedule s).2 ≠ .error .thrown) ∧
    (∀ (host : Host) (s : Crawl) (i : Nat) (t : Task) (id url : String),
      s.tasks[i]? = some t → t.phase = .awaitFetch → t.job.id = some id →
      t.job.url = some url →
      (t.fate.response = none ∨
        ∃ html e, t.fate.response = some html ∧ parse host html id url = .error e) →
      ∃ s2, resume host s i = .ok s2 ∧
        s2.reporter.failed = s.reporter.failed + 1 ∧
        s2.reporter.failedUrls =
          (if url = "" then s.reporter.failedUrls else s.reporter.failedUrls ++ [url]) ∧
        s2.reporter.totalJobs = s.reporter.totalJobs ∧
        s2.reporter.duplicates = s.reporter.duplicates ∧
        s2.dataset = s.dataset ∧ s2.jobIdSet = s.jobIdSet ∧ s2.requests = s.requests ∧
        s2.tasks = s.tasks.set i { t with phase := .done (.caught false) } ∧
        ∀ j, j ≠ i → s2.tasks[j]? = s.tasks[j]?) ∧
    (∀ (host : Host) (rows : List (Anchor × Fate)) (schedule : List Nat) (s : Crawl),
      s.tasks = [] →
      (processJobsOnPage host rows (schedule ++ drain 0 rows.length) s).2 = .ok ()) ∧
    (∀ (host : Host) (rows : List (Anchor × Fate)) (schedule : List Nat) (s s2 : Crawl),
      s.tasks = [] → processJobsOnPage host rows schedule s = (s2, .ok ()) →
      s2.tasks.map Task.key = (rows.map fun row => (jobOf row.1, row.2)) ∧
      (∀ t ∈ s2.tasks, t.phase.isDone = true) ∧
      s2.reporter.failed = s.reporter.failed + s2.tasks.countP (fun t => t.phase.failed) ∧
      s2.reporter.duplicates =
        s.reporter.duplicates + s2.tasks.countP (fun t => t.phase.isDuplicate) ∧
      s2.reporter.totalJobs =
        s.reporter.totalJobs + s2.tasks.countP (fun t => t.phase.reported)) := by
  refine ⟨?_, ?_, ?_, processJobsOnPage_completes, ?_⟩
  · intro host s i
    obtain ⟨s2, h2, _⟩ := resume_step host s i
    exact ⟨s2, h2⟩
  · intro host rows schedule s
    unfold processJobsOnPage
    obtain ⟨s2, h2⟩ := runSchedule_ok host schedule (rows.foldl startJob s)
    simp only [h2]
    split <;> simp
  · intro host s i t id url ht hp hid hurl hfail
    have hres : resume host s i = .ok
        { s with
          reporter := s.reporter.addFailed (some url)
          tasks := s.tasks.set i { t with phase := .done (.caught false) } } := by
      rcases hfail with hf | ⟨html, e, hf1, hf2⟩
      · simp [resume, ht, continueTask, hid, hurl, hp, tryAfterFetch, hf, Except.tryCatch,
          catchBlock]
      · simp [resume, ht, continueTask, hid, hurl, hp, tryAfterFetch, hf1, hf2,
          Except.tryCatch, catchBlock]
    refine ⟨_, hres, ?_⟩
    have hothers : ∀ j, j ≠ i →
        (s.tasks.set i { t with phase := .done (.caught false) })[j]? = s.tasks[j]? :=
      fun j hj => List.getElem?_set_ne (fun h => hj h.symm)
    by_cases hu : url = ""
    · simpa [Reporter.addFailed, hu] using hothers
    · simpa [Reporter.addFailed, hu] using hothers
  · intro host rows schedule s s2 hquiet hrun
    obtain ⟨h1, h2⟩ := processJobsOnPage_ok hrun
    rw [hquiet] at h2
    have hacc : Accounted s s2 :=
      accounted_runSchedule schedule _ s2 (accounted_startAll rows s (accounted_refl s hquiet))
        h1
    refine ⟨?_, (settledFrom_zero_iff s2).1 h2, hacc.failed, hacc.duplicates, hacc.totalJobs⟩
    rw [runSchedule_keys host schedule _ s2 h1, startAll_keys, hquiet]
    rfl

/-- Witness for C6: the request of the third example row is rejected. -/
theorem failure_isolation_witness :
    ∃ s2, resume Examples.host
        { Crawl.fresh with
          tasks := [⟨⟨some "J3", some "https://www.profesia.sk/praca/c/O3"⟩,
            { Examples.goodFate with response := none }, .awaitFetch⟩] } 0 = .ok s2 ∧
      s2.reporter.failed = 0 + 1 ∧
      s2.reporter.failedUrls =
        (if ("https://www.profesia.sk/praca/c/O3" : String) = "" then []
          else [] ++ ["https://www.profesia.sk/praca/c/O3"]) ∧
      s2.reporter.totalJobs = 0 ∧ s2.reporter.duplicates = 0 ∧
      s2.dataset = [] ∧ s2.jobIdSet = [] ∧ s2.requests = [] ∧
      s2.tasks =
        [⟨⟨some "J3", some "https://www.profesia.sk/praca/c/O3"⟩,
            { Examples.goodFate with response := none }, .awaitFetch⟩].set 0
          ⟨⟨some "J3", some "https://www.profesia.sk/praca/c/O3"⟩,
            { Examples.goodFate with response := none }, .done (.caught false)⟩ ∧
      ∀ j, j ≠ 0 → s2.tasks[j]? =
        [(⟨⟨some "J3", some "https://www.profesia.sk/praca/c/O3"⟩,
            { Examples.goodFate with response := none }, .awaitFetch⟩ : Task)][j]? :=
  failure_isolation.2.2.1 Examples.host
    { Crawl.fresh with
      tasks := [⟨⟨some "J3", some "https://www.profesia.sk/praca/c/O3"⟩,
        { Examples.goodFate with response := none }, .awaitFetch⟩] } 0
    ⟨⟨some "J3", some "https://www.profesia.sk/praca/c/O3"⟩,
      { Examples.goodFate with response := none }, .awaitFetch⟩
    "J3" "https://www.profesia.sk/praca/c/O3" rfl rfl rfl rfl (Or.inl rfl)

/-- C7. Persist only after validation.  (1) In every reachable state, every record of the
dataset that was not there at the start is the second component of a call of `isValid` whose
first component is `true`; the state a call of `processJobsOnPage` leaves is reachable.  (2) When `isValid` returns `false` for the record of a candidate,
the resumption changes neither the dataset, nor the reporter, nor `jobIdSet`, and the callback
ends.  (3) The identifier of a candidate dropped in this way is in `jobIdSet`, in every state
reached from a start without callbacks. -/
theorem persist_after_validation :
    (∀ (host : Host) (s0 s : Crawl), Reachable host s0 s →
      ∀ r ∈ s.dataset, r ∈ s0.dataset ∨ ∃ now r0, isValid host now r0 = (true, r)) ∧
    (∀ (host : Host) (s0 s : Crawl) (rows : List (Anchor × Fate)) (schedule : List Nat),
      Reachable host s0 s → Reachable host s0 (processJobsOnPage host rows schedule s).1) ∧
    (∀ (host : Host) (s : Crawl) (i : Nat) (t : Task) (id url html : String)
      (jobData : JobData),
      s.tasks[i]? = some t → t.phase = .awaitFetch → t.job.id = some id →
      t.job.url = some url → t.fate.response = some html →
      parse host html id url = .ok jobData →
      (isValid host t.fate.now jobData).1 = false →
      ∃ s2, resume host s i = .ok s2 ∧
        s2.dataset = s.dataset ∧ s2.reporter = s.reporter ∧ s2.jobIdSet = s.jobIdSet ∧
        s2.requests = s.requests ∧
        s2.tasks = s.tasks.set i { t with phase := .done .dropped }) ∧
    (∀ (host : Host) (s0 s : Crawl), s0.tasks = [] → Reachable host s0 s →
      ∀ t ∈ s.tasks, t.phase = .done .dropped →
        ∃ id, t.job.id = some id ∧ id ∈ s.jobIdSet) := by
  refine ⟨fun host s0 s h => dataset_valid h,
    fun host s0 s rows schedule h => reachable_processJobsOnPage h rows schedule, ?_, ?_⟩
  · intro host s i t id url html jobData ht hp hid hurl hr hparse hv
    have hres : resume host s i = .ok
        { s with tasks := s.tasks.set i { t with phase := .done .dropped } } := by
      simp [resume, ht, continueTask, hid, hurl, hp, tryAfterFetch, hr, hparse, hv,
        Except.tryCatch]
    exact ⟨_, hres, rfl, rfl, rfl, rfl, rfl⟩
  · intro host s0 s h0 hreach t ht hp
    have hacc := accounted_of_reachable h0 hreach
    obtain ⟨id, _, hid, _⟩ := (hacc.coherent t ht).present (by simp [hp])
    refine ⟨id, hid, (hacc.idsMem id).2 (Or.inr ?_)⟩
    exact List.mem_filterMap.2 ⟨t, ht, by simp [hp, Phase.holdsId, hid]⟩

end ProfesiaAdapter

namespace ProfesiaAdapter

/-- Witness for C7: the example host accepts only `https` addresses, so the record of a
candidate with an `http` address does not pass `isValid`. -/
theorem persist_after_validation_witness :
    ∃ s2, resume Examples.host
        { Crawl.fresh with
          jobIdSet := ["J3"]
          tasks := [⟨⟨some "J3", some "http://www.profesia.sk/praca/c/O3"⟩,
            Examples.goodFate, .awaitFetch⟩] } 0 = .ok s2 ∧
      s2.dataset = [] ∧ s2.reporter = Reporter.fresh ∧ s2.jobIdSet = ["J3"] ∧
      s2.requests = [] ∧
      s2.tasks =
        [⟨⟨some "J3", some "http://www.profesia.sk/praca/c/O3"⟩,
            Examples.goodFate, .awaitFetch⟩].set 0
          ⟨⟨some "J3", some "http://www.profesia.sk/praca/c/O3"⟩,
            Examples.goodFate, .done .dropped⟩ :=
  persist_after_validation.2.2.1 Examples.host
    { Crawl.fresh with
      jobIdSet := ["J3"]
      tasks := [⟨⟨some "J3", some "http://www.profesia.sk/praca/c/O3"⟩,
        Examples.goodFate, .awaitFetch⟩] } 0
    ⟨⟨some "J3", some "http://www.profesia.sk/praca/c/O3"⟩, Examples.goodFate, .awaitFetch⟩
    "J3" "http://www.profesia.sk/praca/c/O3" "<html></html>"
    { Examples.fields with
      jobId := .str "J3", jobUrl := .str "http://www.profesia.sk/praca/c/O3" }
    rfl rfl rfl rfl rfl rfl (by decide)

end ProfesiaAdapter

/-! ## Theorems: patterns as wildcards -/

namespace Js

theorem utf16_mk_cons (c : Char) (cs : List Char) :
    utf16 ⟨c :: cs⟩ = charUnits c ++ utf16 ⟨cs⟩ := by
  simp [utf16]

theorem utf16_append (a b : String) : utf16 (a ++ b) = utf16 a ++ utf16 b := by
  simp [utf16, String.data_append]

theorem charUnits_ne_nil (c : Char) : charUnits c ≠ [] := by
  unfold charUnits
  split <;> simp

theorem char_toNat_lt (c : Char) : c.toNat < 0x110000 := by
  have h := c.valid
  unfold Char.toNat
  rcases h with h | ⟨_, h⟩
  · have : c.val.toNat < 0xD800 := h
    omega
  · exact h

theorem char_toNat_not_surrogate (c : Char) : c.toNat < 0xD800 ∨ 0xDFFF < c.toNat := by
  have h := c.valid
  unfold Char.toNat
  rcases h with h | ⟨h, _⟩
  · exact Or.inl h
  · exact Or.inr h

theorem char_eq_of_toNat_eq (c d : Char) (h : c.toNat = d.toNat) : c = d := by
  apply Char.ext
  apply UInt32.ext
  exact h

/-- The encoding of a character can be read off the front of a sequence of code units in
one way only. -/
theorem charUnits_append_inj (c d : Char) (x y : List Nat)
    (h : charUnits c ++ x = charUnits d ++ y) : c = d ∧ x = y := by
  have hc := char_toNat_lt c
  have hd := char_toNat_lt d
  have hc2 := char_toNat_not_surrogate c
  have hd2 := char_toNat_not_surrogate d
  unfold charUnits at h
  by_cases h1 : c.toNat < 0x10000 <;> by_cases h2 : d.toNat < 0x10000
  · simp only [h1, h2, if_true, List.singleton_append, List.cons.injEq] at h
    exact ⟨char_eq_of_toNat_eq c d h.1, h.2⟩
  · simp only [h1, h2, if_true, if_false, List.singleton_append, List.cons_append,
      List.nil_append, List.cons.injEq] at h
    omega
  · simp only [h1, h2, if_true, if_false, List.singleton_append, List.cons_append,
      List.nil_append, List.cons.injEq] at h
    omega
  · simp only [h1, h2, if_false, List.cons_append, List.nil_append, List.cons.injEq] at h
    refine ⟨char_eq_of_toNat_eq c d ?_, h.2.2⟩
    omega

/-- The method `startsWith` compares code units; on well-formed strings that is the same as
comparing characters. -/
theorem startsWith_iff_utf16_prefix (s p : String) :
    startsWith s p = true ↔ utf16 p <+: utf16 s := by
  unfold startsWith
  rw [List.isPrefixOf_iff_prefix]
  obtain ⟨pd⟩ := p
  obtain ⟨sd⟩ := s
  simp only
  induction pd generalizing sd with
  | nil => simp [utf16]
  | cons c cs ih =>
    cases sd with
    | nil =>
      simp only [List.prefix_nil, utf16_mk_cons]
      constructor
      · intro h; cases h
      · intro h
        have : utf16 ⟨[]⟩ = [] := rfl
        rw [this, List.prefix_nil] at h
        exact absurd (List.append_eq_nil.1 h).1 (charUnits_ne_nil c)
    | cons d ds =>
      rw [utf16_mk_cons, utf16_mk_cons]
      constructor
      · intro h
        obtain ⟨h1, h2⟩ := List.cons_prefix_cons.1 h
        subst h1
        exact (List.prefix_append_right_inj _).2 ((ih ds).1 h2)
      · rintro ⟨t, ht⟩
        rw [List.append_assoc] at ht
        obtain ⟨h1, h2⟩ := charUnits_append_inj c d _ _ ht
        subst h1
        exact List.cons_prefix_cons.2 ⟨rfl, (ih ds).2 ⟨t, h2⟩⟩

end Js

namespace RobotsChecker

open RegExp

/-! ### From the pattern to the regular expression -/

theorem replaceAll_dollar (s : String) : Js.replaceAll '$' "$" s = s := by
  obtain ⟨cs⟩ := s
  unfold Js.replaceAll
  congr 1
  simp only
  induction cs with
  | nil => rfl
  | cons c cs ih =>
    simp only [List.map_cons, List.flatten_cons, ih]
    by_cases h : c = '$'
    · subst h; rfl
    · simp [h]

theorem translateUnits_append (a b : List Nat) :
    translateUnits (a ++ b) = translateUnits a ++ translateUnits b := by
  simp [translateUnits]

theorem charUnits_not_star (c : Char) (h : c ≠ '*') : ∀ u ∈ Js.charUnits c, u ≠ starUnit := by
  intro u hu
  unfold Js.charUnits at hu
  unfold starUnit
  split at hu
  · simp only [List.mem_singleton] at hu
    subst hu
    intro h42
    exact h (Js.char_eq_of_toNat_eq c '*' h42)
  · simp only [List.mem_cons, List.mem_singleton, List.not_mem_nil, or_false] at hu
    rcases hu with hu | hu <;> omega

theorem translateUnits_of_no_star (us : List Nat) (h : ∀ u ∈ us, u ≠ starUnit) :
    translateUnits us = us := by
  induction us with
  | nil => rfl
  | cons u us ih =>
    have h1 := h u (List.mem_cons_self u us)
    have h2 := ih fun v hv => h v (List.mem_cons_of_mem u hv)
    unfold translateUnits at h2 ⊢
    simp [h1, h2]

/-- Replacing `*` by `.*` in the string is replacing the unit 42 by the units 46, 42. -/
theorem utf16_replaceAll_star (s : String) :
    Js.utf16 (Js.replaceAll '*' ".*" s) = translateUnits (Js.utf16 s) := by
  obtain ⟨cs⟩ := s
  induction cs with
  | nil => rfl
  | cons c cs ih =>
    have hstep : Js.replaceAll '*' ".*" ⟨c :: cs⟩ =
        ⟨(if c = '*' then ".*".data else [c]) ++ (Js.replaceAll '*' ".*" ⟨cs⟩).data⟩ := by
      simp [Js.replaceAll]
    rw [hstep, Js.utf16_mk_cons, translateUnits_append, ← ih]
    by_cases h : c = '*'
    · subst h
      rfl
    · rw [if_neg h]
      have := translateUnits_of_no_star _ (charUnits_not_star c h)
      rw [this]
      simp [Js.utf16]

theorem plain_units (pattern : String) (h : IsPlainWildcard pattern) :
    ∀ u ∈ Js.utf16 pattern, u = starUnit ∨ isSyntaxUnit u = false := by
  obtain ⟨cs⟩ := pattern
  unfold IsPlainWildcard at h
  simp only at h
  induction cs with
  | nil => intro u hu; cases hu
  | cons c cs ih =>
    intro u hu
    rw [Js.utf16_mk_cons, List.mem_append] at hu
    rcases hu with hu | hu
    · rcases h c (List.mem_cons_self c cs) with hc | hc
      · subst hc
        left
        simpa [Js.charUnits] using hu
      · right
        unfold Js.charUnits at hu
        split at hu
        · simp only [List.mem_singleton] at hu
          subst hu
          exact hc
        · simp only [List.mem_cons, List.mem_singleton, List.not_mem_nil, or_false] at hu
          have hlt := Js.char_toNat_lt c
          simp only [isSyntaxUnit, Bool.or_eq_false_iff, decide_eq_false_iff_not]
          rcases hu with hu | hu <;> omega
    · exact ih (fun d hd => h d (List.mem_cons_of_mem c hd)) u hu

/-- The parser reads the source of a plain wildcard term by term. -/
theorem parse_translateUnits (us : List Nat)
    (hplain : ∀ u ∈ us, u = starUnit ∨ isSyntaxUnit u = false) :
    ∀ st : PState, st.pending = .none →
      parse (translateUnits us) st =
        finish ⟨⟨st.cur.alts, (us.map termOf).reverse ++ st.cur.terms⟩, st.stack, st.last,
          .none⟩ := by
  induction us with
  | nil =>
    intro st hp
    obtain ⟨⟨alts, terms⟩, stack, last, pending⟩ := st
    simp only at hp
    subst hp
    rfl
  | cons u us ih =>
    intro st hp
    have hrest := ih fun v hv => hplain v (List.mem_cons_of_mem u hv)
    by_cases hu : u = starUnit
    · subst hu
      have htr : translateUnits (starUnit :: us) = 46 :: 42 :: translateUnits us := by
        simp [translateUnits, starUnit]
      rw [htr]
      have h1 : step st 46 = .ok ⟨st.cur.push .dot, st.stack, .atom, .none⟩ := by
        simp [step, hp, stepPlain]
      have h2 : step ⟨st.cur.push .dot, st.stack, .atom, .none⟩ 42 =
          .ok ⟨⟨st.cur.alts, .star .dot :: st.cur.terms⟩, st.stack, .quantified, .none⟩ := by
        simp [step, stepPlain, Frame.push, Frame.quantify]
      rw [parse, h1]
      simp only
      rw [parse, h2]
      simp only
      rw [hrest _ rfl]
      simp [termOf, finish]
    · have hsyn : isSyntaxUnit u = false := by
        rcases hplain u (List.mem_cons_self u us) with h | h
        · exact absurd h hu
        · exact h
      have htr : translateUnits (u :: us) = u :: translateUnits us := by
        simp [translateUnits, hu]
      rw [htr]
      have h1 : step st u = .ok ⟨st.cur.push (.unit u), st.stack, .atom, .none⟩ := by
        simp only [isSyntaxUnit, Bool.or_eq_false_iff, decide_eq_false_iff_not] at hsyn
        simp [step, hp, stepPlain, hsyn]
      rw [parse, h1]
      simp only
      rw [hrest _ rfl]
      simp [termOf, hu, finish, Frame.push]

/-- The expression built for a plain wildcard: `^` followed by one term for each code unit of
the pattern. -/
theorem create_of_plain (pattern : String) (hplain : IsPlainWildcard pattern) :
    RegExp.create ("^" ++ Js.replaceAll '$' "$" (Js.replaceAll '*' ".*" pattern)) =
      .ok ⟨seqOf (.bol :: (Js.utf16 pattern).map termOf)⟩ := by
  unfold RegExp.create
  rw [replaceAll_dollar, Js.utf16_append, utf16_replaceAll_star]
  have h94 : Js.utf16 "^" = [94] := rfl
  rw [h94, List.singleton_append, parse]
  have h1 : step start 94 = .ok ⟨start.cur.push .bol, [], .none, .none⟩ := by
    simp [step, start, stepPlain]
  rw [h1]
  simp only
  rw [parse_translateUnits _ (plain_units pattern hplain) _ rfl]
  simp [finish, Frame.close, Frame.push, start, altOf, seqOf, Except.map]

end RobotsChecker

namespace RobotsChecker

open RegExp

/-! ### What the regular expression matches -/

theorem ends_dot (total : Nat) (rest r : List Nat) :
    r ∈ Node.ends total .dot rest ↔ ∃ x, rest = x :: r ∧ isLineTerminator x = false := by
  cases rest with
  | nil => simp [Node.ends]
  | cons x xs =>
    by_cases h : isLineTerminator x = true
    · simp [Node.ends, h]
    · have h2 : isLineTerminator x = false := by simpa using h
      simp only [Node.ends, h2, Bool.false_eq_true, if_false, List.mem_singleton,
        List.cons.injEq]
      constructor
      · intro hr; exact ⟨x, ⟨rfl, hr.symm⟩, h2⟩
      · rintro ⟨y, ⟨hy, hr⟩, _⟩; exact hr.symm

/-- The end points of `.*`: what is skipped holds no line terminator. -/
theorem mem_iterate_dot (total : Nat) :
    ∀ (n : Nat) (rest r : List Nat),
      r ∈ iterate (Node.ends total .dot) n rest ↔
        ∃ s, rest = s ++ r ∧ s.length ≤ n ∧ ∀ u ∈ s, isLineTerminator u = false := by
  intro n
  induction n with
  | zero =>
    intro rest r
    simp only [iterate, List.mem_singleton, Nat.le_zero_eq, List.length_eq_zero]
    constructor
    · intro h; exact ⟨[], by simp [h], rfl, by simp⟩
    · rintro ⟨s, h1, h2, _⟩; subst h2; simpa using h1.symm
  | succ n ih =>
    intro rest r
    simp only [iterate, List.mem_cons, List.mem_flatten, List.mem_map, List.mem_filter]
    constructor
    · rintro (h | ⟨l, ⟨mid, ⟨hmid, _⟩, hl⟩, hr⟩)
      · exact ⟨[], by simp [h], by simp, by simp⟩
      · subst hl
        obtain ⟨x, hx, hlt⟩ := (ends_dot total rest mid).1 hmid
        obtain ⟨s, hs1, hs2, hs3⟩ := (ih mid r).1 hr
        refine ⟨x :: s, by rw [hx, hs1]; rfl, by simp; omega, ?_⟩
        intro u hu
        rcases List.mem_cons.1 hu with h | h
        · rw [h]; exact hlt
        · exact hs3 u h
    · rintro ⟨s, h1, h2, h3⟩
      cases s with
      | nil => left; simpa using h1.symm
      | cons x s =>
        right
        refine ⟨_, ⟨s ++ r, ⟨?_, ?_⟩, rfl⟩, ?_⟩
        · exact (ends_dot total rest (s ++ r)).2 ⟨x, by rw [h1]; rfl,
            h3 x (List.mem_cons_self x s)⟩
        · rw [h1]; simp
        · exact (ih (s ++ r) r).2 ⟨s, rfl, by simp at h2; omega,
            fun u hu => h3 u (List.mem_cons_of_mem x hu)⟩

theorem wildMatch_nil_iff (text : List Nat) : WildMatch [] text ↔ text = [] := by
  constructor
  · intro h; cases h; rfl
  · intro h; subst h; exact .nil

theorem wildMatch_star_iff (pattern text : List Nat) :
    WildMatch (starUnit :: pattern) text ↔
      ∃ skipped rest, text = skipped ++ rest ∧ WildMatch pattern rest := by
  constructor
  · intro h
    cases h with
    | unit u p t hne _ => exact absurd rfl hne
    | star p s t ht => exact ⟨s, t, rfl, ht⟩
  · rintro ⟨s, t, h1, h2⟩
    subst h1
    exact .star pattern s t h2

theorem wildMatch_unit_iff (u : Nat) (hu : u ≠ starUnit) (pattern text : List Nat) :
    WildMatch (u :: pattern) text ↔ ∃ rest, text = u :: rest ∧ WildMatch pattern rest := by
  constructor
  · intro h
    cases h with
    | unit _ p t _ ht => exact ⟨t, rfl, ht⟩
    | star p s t ht => exact absurd rfl hu
  · rintro ⟨t, h1, h2⟩
    subst h1
    exact .unit u pattern t hu h2

/-- The end points of the terms of a plain wildcard are the ends of the prefixes that the
wildcard matches, provided no line terminator has to be skipped. -/
theorem mem_ends_terms (total : Nat) (us : List Nat) :
    ∀ (rest r : List Nat),
      ((∀ u ∈ rest, isLineTerminator u = false) ∨ starUnit ∉ us) →
      (r ∈ Node.ends total (seqOf (us.map termOf)) rest ↔
        ∃ pre, rest = pre ++ r ∧ WildMatch us pre) := by
  induction us with
  | nil =>
    intro rest r _
    simp only [List.map_nil, seqOf, Node.ends, List.mem_singleton]
    constructor
    · intro h; exact ⟨[], by simp [h], .nil⟩
    · rintro ⟨pre, h1, h2⟩
      rw [(wildMatch_nil_iff pre).1 h2] at h1
      simpa using h1.symm
  | cons u us ih =>
    intro rest r hside
    simp only [List.map_cons, seqOf, Node.ends, List.mem_flatten, List.mem_map]
    by_cases hu : u = starUnit
    · subst hu
      have hclean : ∀ u ∈ rest, isLineTerminator u = false := by
        rcases hside with h | h
        · exact h
        · exact absurd (List.mem_cons_self _ _) h
      simp only [termOf, if_true, Node.ends]
      constructor
      · rintro ⟨l, ⟨mid, hmid, hl⟩, hr⟩
        subst hl
        obtain ⟨s, hs1, _, _⟩ := (mem_iterate_dot total _ rest mid).1 hmid
        have hmidclean : ∀ u ∈ mid, isLineTerminator u = false := by
          intro v hv
          exact hclean v (by rw [hs1]; exact List.mem_append_right _ hv)
        obtain ⟨pre, hp1, hp2⟩ := (ih mid r (Or.inl hmidclean)).1 hr
        exact ⟨s ++ pre, by rw [hs1, hp1, List.append_assoc], .star us s pre hp2⟩
      · rintro ⟨pre, h1, h2⟩
        obtain ⟨s, t, hst, ht⟩ := (wildMatch_star_iff us pre).1 h2
        subst hst
        have hmidclean : ∀ u ∈ t ++ r, isLineTerminator u = false := by
          intro v hv
          exact hclean v (by rw [h1, List.append_assoc]; exact List.mem_append_right _ hv)
        refine ⟨_, ⟨t ++ r, ?_, rfl⟩, (ih (t ++ r) r (Or.inl hmidclean)).2 ⟨t, rfl, ht⟩⟩
        refine (mem_iterate_dot total _ rest (t ++ r)).2 ⟨s, by rw [h1, List.append_assoc], ?_,
          ?_⟩
        · rw [h1]; simp
        · intro v hv
          exact hclean v (by rw [h1, List.append_assoc]; exact List.mem_append_left _ hv)
    · simp only [termOf, hu, if_false]
      have hside2 : ∀ mid, rest = u :: mid →
          ((∀ v ∈ mid, isLineTerminator v = false) ∨ starUnit ∉ us) := by
        intro mid hmid
        rcases hside with h | h
        · left
          intro v hv
          exact h v (by rw [hmid]; exact List.mem_cons_of_mem u hv)
        · right
          intro hmem
          exact h (List.mem_cons_of_mem u hmem)
      constructor
      · rintro ⟨l, ⟨mid, hmid, hl⟩, hr⟩
        subst hl
        have hrest : rest = u :: mid := by
          cases rest with
          | nil => simp [Node.ends] at hmid
          | cons x xs =>
            by_cases hx : x = u
            · simp only [Node.ends, hx, if_true, List.mem_singleton] at hmid
              rw [hx, hmid]
            · simp [Node.ends, hx] at hmid
        obtain ⟨pre, hp1, hp2⟩ := (ih mid r (hside2 mid hrest)).1 hr
        exact ⟨u :: pre, by rw [hrest, hp1]; rfl, .unit u us pre hu hp2⟩
      · rintro ⟨pre, h1, h2⟩
        obtain ⟨t, hpt, ht⟩ := (wildMatch_unit_iff u hu us pre).1 h2
        subst hpt
        have hrest : rest = u :: (t ++ r) := by rw [h1]; rfl
        refine ⟨_, ⟨t ++ r, ?_, rfl⟩, (ih (t ++ r) r (hside2 _ hrest)).2 ⟨t, rfl, ht⟩⟩
        rw [hrest]
        simp [Node.ends]

end RobotsChecker

namespace RobotsChecker

open RegExp

theorem wildMatch_of_no_star (us : List Nat) (h : starUnit ∉ us) :
    ∀ pre : List Nat, WildMatch us pre ↔ pre = us := by
  induction us with
  | nil => intro pre; exact wildMatch_nil_iff pre
  | cons u us ih =>
    intro pre
    have hu : u ≠ starUnit := fun h2 => h (by rw [h2]; exact List.mem_cons_self _ _)
    have hrest : starUnit ∉ us := fun h2 => h (List.mem_cons_of_mem u h2)
    rw [wildMatch_unit_iff u hu]
    constructor
    · rintro ⟨t, h1, h2⟩
      rw [h1, (ih hrest t).1 h2]
    · intro h1
      exact ⟨us, h1, (ih hrest us).2 rfl⟩

/-- An expression that starts with `^` is tried at the start of the input only. -/
theorem test_anchored (ts : List Node) (input : String) :
    (RegExp.mk (seqOf (.bol :: ts))).test input = true ↔
      ∃ r, r ∈ Node.ends (Js.utf16 input).length (seqOf ts) (Js.utf16 input) := by
  unfold RegExp.test
  simp only [List.any_eq_true, List.mem_tails, Bool.not_eq_true', seqOf, Node.ends]
  constructor
  · rintro ⟨rest, hsuf, hne⟩
    by_cases hlen : rest.length = (Js.utf16 input).length
    · have hrest : rest = Js.utf16 input := List.IsSuffix.eq_of_length hsuf hlen
      subst hrest
      simp only [if_true, List.map_cons, List.map_nil, List.flatten_cons, List.flatten_nil,
        List.append_nil] at hne
      cases hx : Node.ends (Js.utf16 input).length (seqOf ts) (Js.utf16 input) with
      | nil => rw [hx] at hne; simp at hne
      | cons r rs => exact ⟨r, List.mem_cons_self r rs⟩
    · simp [hlen] at hne
  · rintro ⟨r, hr⟩
    refine ⟨Js.utf16 input, List.suffix_refl _, ?_⟩
    simp only [if_true, List.map_cons, List.map_nil, List.flatten_cons, List.flatten_nil,
      List.append_nil]
    cases hx : Node.ends (Js.utf16 input).length (seqOf ts) (Js.utf16 input) with
    | nil => rw [hx] at hr; cases hr
    | cons r rs => rfl

theorem utf16_no_lineTerminator (text : String) (h : HasNoLineTerminator text) :
    ∀ u ∈ Js.utf16 text, isLineTerminator u = false := by
  obtain ⟨cs⟩ := text
  unfold HasNoLineTerminator at h
  simp only at h
  induction cs with
  | nil => intro u hu; cases hu
  | cons c cs ih =>
    intro u hu
    rw [Js.utf16_mk_cons, List.mem_append] at hu
    rcases hu with hu | hu
    · have hc := h c (List.mem_cons_self c cs)
      unfold Js.charUnits at hu
      split at hu
      · simp only [List.mem_singleton] at hu
        subst hu
        exact hc
      · simp only [List.mem_cons, List.mem_singleton, List.not_mem_nil, or_false] at hu
        simp only [isLineTerminator, Bool.or_eq_false_iff, decide_eq_false_iff_not]
        rcases hu with hu | hu <;> omega
    · exact ih (fun d hd => h d (List.mem_cons_of_mem c hd)) u hu

theorem utf16_no_star (pattern : String) (h : '*' ∉ pattern.data) :
    starUnit ∉ Js.utf16 pattern := by
  obtain ⟨cs⟩ := pattern
  simp only at h
  induction cs with
  | nil => intro hu; cases hu
  | cons c cs ih =>
    intro hu
    rw [Js.utf16_mk_cons, List.mem_append] at hu
    rcases hu with hu | hu
    · have hc : c ≠ '*' := fun hc => h (by rw [hc]; exact List.mem_cons_self _ _)
      exact charUnits_not_star c hc _ hu rfl
    · exact ih (fun hd => h (List.mem_cons_of_mem c hd)) hu

/-- What `matchesPattern` computes for a plain wildcard other than `/`. -/
theorem matchesPattern_of_plain (path pattern : String) (hroot : pattern ≠ "/")
    (hplain : IsPlainWildcard pattern)
    (hside : (∀ u ∈ Js.utf16 path, isLineTerminator u = false) ∨
      starUnit ∉ Js.utf16 pattern) :
    ∃ b, matchesPattern path pattern = .ok b ∧
      (b = true ↔ ∃ pre, pre <+: Js.utf16 path ∧ WildMatch (Js.utf16 pattern) pre) := by
  unfold matchesPattern
  rw [if_neg hroot]
  simp only [create_of_plain pattern hplain]
  refine ⟨_, rfl, ?_⟩
  rw [test_anchored]
  constructor
  · rintro ⟨r, hr⟩
    obtain ⟨pre, h1, h2⟩ := (mem_ends_terms _ _ _ r hside).1 hr
    exact ⟨pre, ⟨r, h1.symm⟩, h2⟩
  · rintro ⟨pre, ⟨r, h1⟩, h2⟩
    exact ⟨r, (mem_ends_terms _ _ _ r hside).2 ⟨pre, h1.symm, h2⟩⟩

/-- C10 (amended). Let the pattern be other than `/` and let `*` be its only character with a
meaning in regular expressions.  (1) For every path without line terminators, `matchesPattern`
returns `true` exactly when some prefix of the path matches the pattern read as a wildcard, in
which `*` stands for any run of code units and every other code unit for itself.  (2) When the
pattern has no `*` either, `matchesPattern` returns, for every path, whether the path starts
with the pattern. -/
theorem matchesPattern_plain_wildcard (path pattern : String) (hroot : pattern ≠ "/")
    (hplain : IsPlainWildcard pattern) :
    (HasNoLineTerminator path →
      ∃ b, matchesPattern path pattern = .ok b ∧
        (b = true ↔ ∃ pre, pre <+: Js.utf16 path ∧ WildMatch (Js.utf16 pattern) pre)) ∧
    ('*' ∉ pattern.data → matchesPattern path pattern = .ok (Js.startsWith path pattern)) := by
  constructor
  · intro hclean
    exact matchesPattern_of_plain path pattern hroot hplain
      (Or.inl (utf16_no_lineTerminator path hclean))
  · intro hstar
    have hns := utf16_no_star pattern hstar
    obtain ⟨b, hb, hiff⟩ := matchesPattern_of_plain path pattern hroot hplain (Or.inr hns)
    rw [hb]
    congr 1
    have hsw : Js.startsWith path pattern = true ↔
        ∃ pre, pre <+: Js.utf16 path ∧ WildMatch (Js.utf16 pattern) pre := by
      rw [Js.startsWith_iff_utf16_prefix]
      constructor
      · intro h
        exact ⟨_, h, (wildMatch_of_no_star _ hns _).2 rfl⟩
      · rintro ⟨pre, h1, h2⟩
        rw [(wildMatch_of_no_star _ hns pre).1 h2] at h1
        exact h1
    cases b with
    | true => exact (hsw.2 (hiff.1 rfl)).symm
    | false =>
      cases hs : Js.startsWith path pattern with
      | false => rfl
      | true => exact absurd (hiff.2 (hsw.1 hs)) (by simp)

/-- Witness for C10: the pattern `/jobs*page` and the path `/jobs/list/page2`. -/
theorem matchesPattern_plain_wildcard_witness :
    (HasNoLineTerminator "/jobs/list/page2" →
      ∃ b, matchesPattern "/jobs/list/page2" "/jobs*page" = .ok b ∧
        (b = true ↔ ∃ pre, pre <+: Js.utf16 "/jobs/list/page2" ∧
          WildMatch (Js.utf16 "/jobs*page") pre)) ∧
    ('*' ∉ ("/jobs*page" : String).data →
      matchesPattern "/jobs/list/page2" "/jobs*page" =
        .ok (Js.startsWith "/jobs/list/page2" "/jobs*page")) :=
  matchesPattern_plain_wildcard "/jobs/list/page2" "/jobs*page" (by decide)
    (by unfold IsPlainWildcard; decide)

/-- C10 fails as stated.  The pattern `/a.b` holds neither `$` nor `*`, the path `/axb` does
not start with it and no prefix of the path matches it as a wildcard, yet `matchesPattern`
returns `true`: the `.` is read as "any character".  And the pattern `/a*b` matches a prefix
of the path `/a`, line feed, `b` as a wildcard, yet `matchesPattern` returns `false`: the `*`
does not skip a line feed. -/
theorem matchesPattern_not_wildcard :
    (("/a.b" : String) ≠ "/" ∧ '$' ∉ ("/a.b" : String).data ∧ '*' ∉ ("/a.b" : String).data ∧
      matchesPattern "/axb" "/a.b" = .ok true ∧
      Js.startsWith "/axb" "/a.b" = false ∧
      ¬ ∃ pre, pre <+: Js.utf16 "/axb" ∧ WildMatch (Js.utf16 "/a.b") pre) ∧
    (("/a*b" : String) ≠ "/" ∧ '$' ∉ ("/a*b" : String).data ∧
      matchesPattern "/a\nb" "/a*b" = .ok false ∧
      ∃ pre, pre <+: Js.utf16 "/a\nb" ∧ WildMatch (Js.utf16 "/a*b") pre) := by
  refine ⟨⟨by decide, by decide, by decide, by decide, by decide, ?_⟩,
    ⟨by decide, by decide, by decide, ?_⟩⟩
  · rintro ⟨pre, h1, h2⟩
    have hns : starUnit ∉ Js.utf16 "/a.b" := by decide
    rw [(wildMatch_of_no_star _ hns pre).1 h2] at h1
    revert h1
    decide
  · refine ⟨[47, 97, 10, 98], by decide, ?_⟩
    have h : Js.utf16 "/a*b" = [47, 97, starUnit, 98] := by decide
    rw [h]
    exact .unit 47 _ _ (by decide) (.unit 97 _ _ (by decide)
      (.star [98] [10] [98] (.unit 98 _ _ (by decide) .nil)))

end RobotsChecker

/-! ## The robots cache -/

namespace RobotsChecker

theorem lookup_pair_cons {β : Type} (k2 k0 : String) (v0 : β) (rest : List (String × β)) :
    List.lookup k2 ((k0, v0) :: rest) = if k2 = k0 then some v0 else List.lookup k2 rest := by
  by_cases h : k2 = k0
  · subst h
    simp [List.lookup]
  · have hb : (k2 == k0) = false := by simpa using h
    simp [List.lookup, hb, h]

theorem cache_get_set (cache : RobotsCache) (k k2 : String) (v : Option RuleSet) :
    RobotsCache.get (RobotsCache.set cache k v) k2 =
      if k2 = k then some v else RobotsCache.get cache k2 := by
  induction cache with
  | nil =>
    unfold RobotsCache.get RobotsCache.set
    rw [lookup_pair_cons]
  | cons e rest ih =>
    obtain ⟨k0, v0⟩ := e
    unfold RobotsCache.get at ih ⊢
    unfold RobotsCache.set
    by_cases h0 : k0 = k
    · subst h0
      rw [if_pos rfl, lookup_pair_cons, lookup_pair_cons]
      by_cases h2 : k2 = k0
      · rw [if_pos h2, if_pos h2]
      · rw [if_neg h2, if_neg h2, if_neg h2]
    · rw [if_neg h0, lookup_pair_cons, lookup_pair_cons, ih]
      by_cases h2 : k2 = k0
      · have h3 : k2 ≠ k := fun h => h0 (h2.symm.trans h)
        rw [if_pos h2, if_neg h3, if_pos h2]
      · rw [if_neg h2, if_neg h2]

/-- What `fetchRobots` does in one line: the request is recorded and its outcome stored. -/
theorem fetchRobots_eq (toLowerCase : String → String) (net : Fetched) (robotsUrl : String)
    (c : RobotsChecker) :
    fetchRobots toLowerCase net robotsUrl c =
      ({ c with
          fetched := c.fetched ++ [(robotsUrl, net)]
          robotsCache := c.robotsCache.set robotsUrl (storedFor toLowerCase net) }, .ok ()) := by
  cases net with
  | failed => rfl
  | notOk => rfl
  | ok text =>
    cases text with
    | none => rfl
    | some body => rfl

theorem ensureFetched_ok (toLowerCase : String → String) (net : Fetched) (robotsUrl : String)
    (c : RobotsChecker) : (ensureFetched toLowerCase net robotsUrl c).2 = .ok () := by
  unfold ensureFetched
  split
  · rw [fetchRobots_eq]
  · rfl

theorem ensureFetched_consistent (toLowerCase : String → String) (net : Fetched)
    (robotsUrl : String) (c : RobotsChecker) (hc : Consistent toLowerCase c) :
    Consistent toLowerCase (ensureFetched toLowerCase net robotsUrl c).1 := by
  unfold ensureFetched
  by_cases h : c.robotsCache.has robotsUrl = true
  · simpa only [h, Bool.not_true, Bool.false_eq_true, if_false] using hc
  · simp only [h, Bool.not_false, if_true, fetchRobots_eq]
    have hnew : ∀ entry ∈ c.fetched, entry.1 ≠ robotsUrl := by
      intro entry hmem heq
      apply h
      unfold RobotsCache.has
      rw [← heq, hc.stored entry hmem]
      rfl
    constructor
    · show ((c.fetched ++ [(robotsUrl, net)]).map Prod.fst).Nodup
      rw [List.map_append, List.nodup_append]
      refine ⟨hc.once, by simp, ?_⟩
      intro a ha hb
      simp only [List.map_cons, List.map_nil, List.mem_singleton] at hb
      obtain ⟨entry, hmem, rfl⟩ := List.mem_map.mp ha
      exact hnew entry hmem hb
    · intro entry hmem
      show RobotsCache.get (RobotsCache.set c.robotsCache robotsUrl _) entry.1 = _
      rw [cache_get_set]
      have hmem2 : entry ∈ c.fetched ++ [(robotsUrl, net)] := hmem
      rcases List.mem_append.mp hmem2 with hold | hlast
      · rw [if_neg (hnew entry hold)]
        exact hc.stored entry hold
      · simp only [List.mem_singleton] at hlast
        subst hlast
        rw [if_pos rfl]

theorem ensureFetched_prefix (toLowerCase : String → String) (net : Fetched)
    (robotsUrl : String) (c : RobotsChecker) :
    c.fetched <+: (ensureFetched toLowerCase net robotsUrl c).1.fetched := by
  unfold ensureFetched
  split
  · rw [fetchRobots_eq]
    exact List.prefix_append _ _
  · exact List.prefix_refl _

/-- The state `isAllowed` leaves: the one it found, or the one after the cache was filled. -/
theorem isAllowed_state (parseUrl : String → Option Url) (toLowerCase : String → String)
    (beyond : String → RuleSet → String → Bool) (net : Fetched) (url : String)
    (userAgent : JsVal) (c : RobotsChecker) :
    (isAllowed parseUrl toLowerCase beyond net url userAgent c).1 =
      match parseUrl url with
      | none => c
      | some urlObj => (ensureFetched toLowerCase net (robotsUrlOf urlObj) c).1 := by
  have hfst : (isAllowed parseUrl toLowerCase beyond net url userAgent c).1 =
      (isAllowedTry parseUrl toLowerCase beyond net url userAgent c).1 := by
    unfold isAllowed
    rcases isAllowedTry parseUrl toLowerCase beyond net url userAgent c with ⟨c2, r⟩
    cases r <;> rfl
  rw [hfst]
  unfold isAllowedTry
  cases hp : parseUrl url with
  | none => rfl
  | some urlObj =>
    simp only
    have hok := ensureFetched_ok toLowerCase net (robotsUrlOf urlObj) c
    rcases hres : ensureFetched toLowerCase net (robotsUrlOf urlObj) c with ⟨c1, r⟩
    rw [hres] at hok
    simp only at hok
    subst hok
    simp only
    rcases hget : c1.robotsCache.get (robotsUrlOf urlObj) with _ | _ | rules <;> rfl

theorem logRobotsInfo_state (parseUrl : String → Option Url) (toLowerCase : String → String)
    (net : Fetched) (url : String) (c : RobotsChecker) :
    (logRobotsInfo parseUrl toLowerCase net url c).1 =
      match parseUrl url with
      | none => c
      | some urlObj => (ensureFetched toLowerCase net (robotsUrlOf urlObj) c).1 := by
  unfold logRobotsInfo logRobotsInfoTry
  cases hp : parseUrl url with
  | none => rfl
  | some urlObj => rfl

/-- How the `try` block of `isAllowed` ends. -/
theorem isAllowedTry_result (parseUrl : String → Option Url) (toLowerCase : String → String)
    (beyond : String → RuleSet → String → Bool) (net : Fetched) (url : String)
    (userAgent : JsVal) (c : RobotsChecker) :
    (isAllowedTry parseUrl toLowerCase beyond net url userAgent c).2 =
      match parseUrl url with
      | none => .error .thrown
      | some urlObj =>
        match (ensureFetched toLowerCase net (robotsUrlOf urlObj) c).1.robotsCache.get
            (robotsUrlOf urlObj) with
        | some (some rules) => checkRulesCall toLowerCase beyond urlObj.pathname rules userAgent
        | _ => .ok true := by
  unfold isAllowedTry
  cases hp : parseUrl url with
  | none => rfl
  | some urlObj =>
    simp only
    have hok := ensureFetched_ok toLowerCase net (robotsUrlOf urlObj) c
    rcases hres : ensureFetched toLowerCase net (robotsUrlOf urlObj) c with ⟨c1, r⟩
    rw [hres] at hok
    simp only at hok
    subst hok
    simp only
    rcases hget : c1.robotsCache.get (robotsUrlOf urlObj) with _ | _ | rules <;> rfl

/-- The `catch` block of `isAllowed` turns every error into `true`. -/
theorem isAllowed_result (parseUrl : String → Option Url) (toLowerCase : String → String)
    (beyond : String → RuleSet → String → Bool) (net : Fetched) (url : String)
    (userAgent : JsVal) (c : RobotsChecker) :
    (isAllowed parseUrl toLowerCase beyond net url userAgent c).2 =
      match (isAllowedTry parseUrl toLowerCase beyond net url userAgent c).2 with
      | .ok allowed => .ok allowed
      | .error _ => .ok true := by
  unfold isAllowed
  rcases isAllowedTry parseUrl toLowerCase beyond net url userAgent c with ⟨c2, r⟩
  cases r <;> rfl

theorem ensureFetched_undelivered (toLowerCase : String → String) (net : Fetched)
    (robotsUrl : String) (c : RobotsChecker) (hnew : c.robotsCache.has robotsUrl = false)
    (hnet : net.delivered = false) :
    (ensureFetched toLowerCase net robotsUrl c).1.robotsCache.get robotsUrl = some none := by
  unfold ensureFetched
  simp only [hnew, Bool.not_false, if_true, fetchRobots_eq]
  rw [cache_get_set, if_pos rfl]
  cases net with
  | failed => rfl
  | notOk => rfl
  | ok text =>
    cases text with
    | none => rfl
    | some body => simp [Fetched.delivered] at hnet

theorem ensureFetched_of_has (toLowerCase : String → String) (net : Fetched)
    (robotsUrl : String) (c : RobotsChecker) (hhas : c.robotsCache.has robotsUrl = true) :
    ensureFetched toLowerCase net robotsUrl c = (c, .ok ()) := by
  unfold ensureFetched
  simp only [hhas, Bool.not_true, Bool.false_eq_true, if_false]

/-- C11. `isAllowed` never raises and defaults to permissive: for every URL string, every
user agent, every state of the cache and every way the request for robots.txt can end, the
promise resolves to a boolean, and that boolean is `true` when the URL does not parse, when
the request made by this call fails (it rejects, the status is not a success, or the body
cannot be read), and when evaluating the rules held for the host throws. -/
theorem isAllowed_never_raises (parseUrl : String → Option Url)
    (toLowerCase : String → String) (beyond : String → RuleSet → String → Bool)
    (net : Fetched) (url : String) (userAgent : JsVal) (c : RobotsChecker) :
    (∃ allowed, (isAllowed parseUrl toLowerCase beyond net url userAgent c).2 = .ok allowed) ∧
    (parseUrl url = none →
      (isAllowed parseUrl toLowerCase beyond net url userAgent c).2 = .ok true) ∧
    (∀ urlObj, parseUrl url = some urlObj →
      c.robotsCache.has (robotsUrlOf urlObj) = false → net.delivered = false →
      (isAllowed parseUrl toLowerCase beyond net url userAgent c).2 = .ok true) ∧
    (∀ urlObj rules, parseUrl url = some urlObj →
      (isAllowed parseUrl toLowerCase beyond net url userAgent c).1.robotsCache.get
        (robotsUrlOf urlObj) = some (some rules) →
      checkRulesCall toLowerCase beyond urlObj.pathname rules userAgent = .error .thrown →
      (isAllowed parseUrl toLowerCase beyond net url userAgent c).2 = .ok true) := by
  refine ⟨?_, ?_, ?_, ?_⟩
  · rw [isAllowed_result]
    cases (isAllowedTry parseUrl toLowerCase beyond net url userAgent c).2 with
    | ok allowed => exact ⟨allowed, rfl⟩
    | error e => exact ⟨true, rfl⟩
  · intro hp
    rw [isAllowed_result, isAllowedTry_result, hp]
  · intro urlObj hp hnew hnet
    rw [isAllowed_result, isAllowedTry_result, hp]
    simp only [ensureFetched_undelivered toLowerCase net _ c hnew hnet]
  · intro urlObj rules hp hget hthrow
    rw [isAllowed_state, hp] at hget
    simp only at hget
    rw [isAllowed_result, isAllowedTry_result, hp]
    simp only [hget, hthrow]

/-- C11 on a host whose robots.txt holds the pattern `/a(b`: evaluating it throws. -/
theorem isAllowed_never_raises_witness :
    checkRules Js.asciiLower "/private/open" [("*", ⟨[], ["/a(b"]⟩)] "*" =
      .error .syntaxError ∧
    (isAllowed Examples.parseUrl Js.asciiLower (fun _ _ _ => false)
      (.ok (some Examples.brokenBody)) "https://a.sk/private/open" .undefined
      (fresh false)).2 = .ok true :=
  ⟨by decide,
   (isAllowed_never_raises Examples.parseUrl Js.asciiLower (fun _ _ _ => false)
      (.ok (some Examples.brokenBody)) "https://a.sk/private/open" .undefined
      (fresh false)).2.2.2 ⟨"https:", "a.sk", "/private/open"⟩ [("*", ⟨[], ["/a(b"]⟩)]
      (by decide) (by decide) (by decide)⟩

theorem perform_state (parseUrl : String → Option Url) (toLowerCase : String → String)
    (beyond : String → RuleSet → String → Bool) (c : RobotsChecker) (call : Call) :
    perform parseUrl toLowerCase beyond c call = c ∨
      ∃ net robotsUrl, perform parseUrl toLowerCase beyond c call =
        (ensureFetched toLowerCase net robotsUrl c).1 := by
  cases call with
  | isAllowed url userAgent net =>
    have hperf : perform parseUrl toLowerCase beyond c (.isAllowed url userAgent net) =
        (isAllowed parseUrl toLowerCase beyond net url userAgent c).1 := rfl
    rw [hperf, isAllowed_state]
    cases parseUrl url with
    | none => exact Or.inl rfl
    | some urlObj => exact Or.inr ⟨net, robotsUrlOf urlObj, rfl⟩
  | logRobotsInfo url net =>
    have hperf : perform parseUrl toLowerCase beyond c (.logRobotsInfo url net) =
        (logRobotsInfo parseUrl toLowerCase net url c).1 := rfl
    rw [hperf, logRobotsInfo_state]
    cases parseUrl url with
    | none => exact Or.inl rfl
    | some urlObj => exact Or.inr ⟨net, robotsUrlOf urlObj, rfl⟩

theorem performAll_consistent (parseUrl : String → Option Url) (toLowerCase : String → String)
    (beyond : String → RuleSet → String → Bool) (calls : List Call) (c : RobotsChecker)
    (hc : Consistent toLowerCase c) :
    Consistent toLowerCase (performAll parseUrl toLowerCase beyond calls c) := by
  induction calls generalizing c with
  | nil => exact hc
  | cons call rest ih =>
    show Consistent toLowerCase
      (performAll parseUrl toLowerCase beyond rest (perform parseUrl toLowerCase beyond c call))
    apply ih
    rcases perform_state parseUrl toLowerCase beyond c call with h | ⟨net, robotsUrl, h⟩
    · rw [h]
      exact hc
    · rw [h]
      exact ensureFetched_consistent toLowerCase net robotsUrl c hc

theorem performAll_prefix (parseUrl : String → Option Url) (toLowerCase : String → String)
    (beyond : String → RuleSet → String → Bool) (calls : List Call) (c : RobotsChecker) :
    c.fetched <+: (performAll parseUrl toLowerCase beyond calls c).fetched := by
  induction calls generalizing c with
  | nil => exact List.prefix_refl _
  | cons call rest ih =>
    show c.fetched <+:
      (performAll parseUrl toLowerCase beyond rest
        (perform parseUrl toLowerCase beyond c call)).fetched
    refine List.IsPrefix.trans ?_ (ih _)
    rcases perform_state parseUrl toLowerCase beyond c call with h | ⟨net, robotsUrl, h⟩
    · rw [h]
    · rw [h]
      exact ensureFetched_prefix toLowerCase net robotsUrl c

theorem consistent_fresh (toLowerCase : String → String) (VERBOSE : Bool) :
    Consistent toLowerCase (fresh VERBOSE) :=
  ⟨List.nodup_nil, fun _ h => absurd h (List.not_mem_nil _)⟩

/-- C12. The robots cache: after any sequence of `isAllowed` and `logRobotsInfo` calls on a new
checker, each completed before the next starts, no robots.txt address has been requested
twice, so the file of a scheme and host is requested at most once; the record of requests only
grows with further calls; and for every request that did not deliver a body (it rejected, the
status was not a success, or the body could not be read) the cache holds `null` under that
address, and a call of `isAllowed` for a URL with that scheme and host resolves to `true`,
requests nothing and leaves the checker as it is. -/
theorem robots_cache (parseUrl : String → Option Url) (toLowerCase : String → String)
    (beyond : String → RuleSet → String → Bool) (VERBOSE : Bool) (calls : List Call) :
    ((performAll parseUrl toLowerCase beyond calls (fresh VERBOSE)).fetched.map Prod.fst).Nodup ∧
    (∀ urlObj : Url,
      ((performAll parseUrl toLowerCase beyond calls (fresh VERBOSE)).fetched.map Prod.fst).count
        (robotsUrlOf urlObj) ≤ 1) ∧
    (∀ more : List Call,
      (performAll parseUrl toLowerCase beyond calls (fresh VERBOSE)).fetched <+:
        (performAll parseUrl toLowerCase beyond (calls ++ more) (fresh VERBOSE)).fetched) ∧
    ∀ entry ∈ (performAll parseUrl toLowerCase beyond calls (fresh VERBOSE)).fetched,
      entry.2.delivered = false →
      (performAll parseUrl toLowerCase beyond calls (fresh VERBOSE)).robotsCache.get entry.1 =
        some none ∧
      ∀ (url : String) (urlObj : Url) (userAgent : JsVal) (net : Fetched),
        parseUrl url = some urlObj → robotsUrlOf urlObj = entry.1 →
        isAllowed parseUrl toLowerCase beyond net url userAgent
            (performAll parseUrl toLowerCase beyond calls (fresh VERBOSE)) =
          (performAll parseUrl toLowerCase beyond calls (fresh VERBOSE), .ok true) := by
  have hc := performAll_consistent parseUrl toLowerCase beyond calls (fresh VERBOSE)
    (consistent_fresh toLowerCase VERBOSE)
  refine ⟨hc.once, fun urlObj => List.nodup_iff_count_le_one.mp hc.once _, ?_, ?_⟩
  · intro more
    unfold performAll
    rw [List.foldl_append]
    exact performAll_prefix parseUrl toLowerCase beyond more _
  · intro entry hmem hfail
    have hstored := hc.stored entry hmem
    have hnone : storedFor toLowerCase entry.2 = none := by
      rcases entry with ⟨robotsUrl, net⟩
      cases net with
      | failed => rfl
      | notOk => rfl
      | ok text =>
        cases text with
        | none => rfl
        | some body => simp [Fetched.delivered] at hfail
    rw [hnone] at hstored
    refine ⟨hstored, ?_⟩
    intro url urlObj userAgent net hp hurl
    have hhas : (performAll parseUrl toLowerCase beyond calls (fresh VERBOSE)).robotsCache.has
        (robotsUrlOf urlObj) = true := by
      unfold RobotsCache.has
      rw [hurl, hstored]
      rfl
    apply Prod.ext
    · rw [isAllowed_state, hp]
      simp only [ensureFetched_of_has toLowerCase net _ _ hhas]
    · rw [isAllowed_result, isAllowedTry_result, hp]
      simp only [ensureFetched_of_has toLowerCase net _ _ hhas]
      rw [hurl, hstored]

/-- C12 after a first request that was answered with an error status: the next call for the
same host resolves to `true` although its robots.txt would now forbid the path. -/
theorem robots_cache_witness :
    isAllowed Examples.parseUrl Js.asciiLower (fun _ _ _ => false)
        (.ok (some Examples.closedBody)) "https://a.sk/private/x" .undefined
        (performAll Examples.parseUrl Js.asciiLower (fun _ _ _ => false)
          [.logRobotsInfo "https://a.sk/" .notOk] (fresh false)) =
      (performAll Examples.parseUrl Js.asciiLower (fun _ _ _ => false)
          [.logRobotsInfo "https://a.sk/" .notOk] (fresh false), .ok true) :=
  ((robots_cache Examples.parseUrl Js.asciiLower (fun _ _ _ => false) false
      [.logRobotsInfo "https://a.sk/" .notOk]).2.2.2
    ("https://a.sk/robots.txt", .notOk) (by decide) (by decide)).2
    "https://a.sk/private/x" ⟨"https:", "a.sk", "/private/x"⟩ .undefined
    (.ok (some Examples.closedBody)) (by decide) (by decide)

end RobotsChecker

/-! ## Pagination -/

namespace ProfesiaAdapter

theorem unvisited_not_mem (hrefs : List String) :
    ∀ seen : List String, ∀ href ∈ unvisited seen hrefs, href ∉ seen := by
  induction hrefs with
  | nil => intro seen href h; simp [unvisited] at h
  | cons first rest ih =>
    intro seen href h
    unfold unvisited at h
    by_cases hf : first ∈ seen
    · rw [if_pos hf] at h
      exact ih seen href h
    · rw [if_neg hf] at h
      rcases List.mem_cons.mp h with heq | hmem
      · rw [heq]
        exact hf
      · intro hseen
        exact ih (seen ++ [first]) href hmem (List.mem_append_left _ hseen)

theorem unvisited_nodup (hrefs : List String) :
    ∀ seen : List String, (unvisited seen hrefs).Nodup := by
  induction hrefs with
  | nil => intro seen; simp [unvisited]
  | cons first rest ih =>
    intro seen
    unfold unvisited
    by_cases hf : first ∈ seen
    · rw [if_pos hf]
      exact ih seen
    · rw [if_neg hf]
      refine List.nodup_cons.mpr ⟨?_, ih _⟩
      intro hmem
      exact unvisited_not_mem rest (seen ++ [first]) first hmem (by simp)

theorem unvisited_sublist (hrefs : List String) :
    ∀ seen : List String, List.Sublist (unvisited seen hrefs) hrefs := by
  induction hrefs with
  | nil => intro seen; simp [unvisited]
  | cons first rest ih =>
    intro seen
    unfold unvisited
    by_cases hf : first ∈ seen
    · rw [if_pos hf]
      exact (ih seen).cons _
    · rw [if_neg hf]
      exact (ih _).cons₂ _

/-- The fallback loop when `enqueueLinks` never fails: it enqueues the allowed candidates that
are not visited, each once, until the budget is used up. -/
theorem offerLoop_eq (maxPages : Int) (isAllowed enqueueOk : String → Bool)
    (hok : ∀ href, enqueueOk href = true) (hrefs : List String) :
    ∀ f : Frontier,
      offerLoop maxPages isAllowed enqueueOk hrefs f =
        (⟨f.visitedUrls ++
            (unvisited f.visitedUrls (hrefs.filter isAllowed)).take
              (maxPages - f.enqueuedCount).toNat,
          f.enqueuedCount +
            ((unvisited f.visitedUrls (hrefs.filter isAllowed)).take
              (maxPages - f.enqueuedCount).toNat).length,
          f.enqueued ++
            (unvisited f.visitedUrls (hrefs.filter isAllowed)).take
              (maxPages - f.enqueuedCount).toNat⟩, .ok ()) := by
  induction hrefs with
  | nil => intro f; simp [offerLoop, unvisited]
  | cons href rest ih =>
    intro f
    unfold offerLoop
    by_cases hfull : (f.enqueuedCount : Int) ≥ maxPages
    · have hzero : (maxPages - f.enqueuedCount).toNat = 0 := by omega
      rw [if_pos hfull, hzero]
      simp
    · rw [if_neg hfull]
      obtain ⟨n, hn⟩ : ∃ n, (maxPages - f.enqueuedCount).toNat = n + 1 :=
        ⟨(maxPages - f.enqueuedCount).toNat - 1, by omega⟩
      by_cases hallowed : isAllowed href = true
      · by_cases hseen : href ∈ f.visitedUrls
        · have hcond : (!decide (href ∈ f.visitedUrls) && isAllowed href) = false := by
            simp [hseen]
          rw [hcond]
          simp only [Bool.false_eq_true, if_false]
          rw [ih f, List.filter_cons_of_pos hallowed]
          simp only [unvisited, if_pos hseen]
        · have hcond : (!decide (href ∈ f.visitedUrls) && isAllowed href) = true := by
            simp [hseen, hallowed]
          rw [hcond]
          simp only [if_true, hok]
          rw [ih, List.filter_cons_of_pos hallowed]
          have hadd : StrSet.add f.visitedUrls href = f.visitedUrls ++ [href] := by
            simp [StrSet.add, hseen]
          have hrest : (maxPages - ((f.enqueuedCount + 1 : Nat) : Int)).toNat = n := by
            push_cast
            omega
          simp only [hadd, hrest, hn, unvisited, if_neg hseen, List.take_succ_cons,
            List.length_cons, List.append_assoc, List.singleton_append]
          congr 2
          omega
      · have hcond : (!decide (href ∈ f.visitedUrls) && isAllowed href) = false := by
          simp [hallowed]
        rw [hcond]
        simp only [Bool.false_eq_true, if_false]
        rw [ih f, List.filter_cons_of_neg hallowed]

/-- The fallback loop whatever `enqueueLinks` does: what it enqueues is an initial part of the
candidates it may enqueue, and all of them when the loop ends without an error. -/
theorem offerLoop_prefix (maxPages : Int) (isAllowed enqueueOk : String → Bool)
    (hrefs : List String) :
    ∀ f : Frontier, ∃ part : List String,
      part <+: (unvisited f.visitedUrls (hrefs.filter isAllowed)).take
        (maxPages - f.enqueuedCount).toNat ∧
      (offerLoop maxPages isAllowed enqueueOk hrefs f).1 =
        ⟨f.visitedUrls ++ part, f.enqueuedCount + part.length, f.enqueued ++ part⟩ ∧
      ((offerLoop maxPages isAllowed enqueueOk hrefs f).2 = .ok () →
        part = (unvisited f.visitedUrls (hrefs.filter isAllowed)).take
          (maxPages - f.enqueuedCount).toNat) := by
  induction hrefs with
  | nil => intro f; exact ⟨[], by simp [offerLoop, unvisited]⟩
  | cons href rest ih =>
    intro f
    unfold offerLoop
    by_cases hfull : (f.enqueuedCount : Int) ≥ maxPages
    · have hzero : (maxPages - f.enqueuedCount).toNat = 0 := by omega
      rw [if_pos hfull, hzero]
      exact ⟨[], by simp⟩
    · rw [if_neg hfull]
      obtain ⟨n, hn⟩ : ∃ n, (maxPages - f.enqueuedCount).toNat = n + 1 :=
        ⟨(maxPages - f.enqueuedCount).toNat - 1, by omega⟩
      by_cases hallowed : isAllowed href = true
      · by_cases hseen : href ∈ f.visitedUrls
        · have hcond : (!decide (href ∈ f.visitedUrls) && isAllowed href) = false := by
            simp [hseen]
          rw [hcond]
          simp only [Bool.false_eq_true, if_false]
          rw [List.filter_cons_of_pos hallowed]
          simp only [unvisited, if_pos hseen]
          exact ih f
        · have hcond : (!decide (href ∈ f.visitedUrls) && isAllowed href) = true := by
            simp [hseen, hallowed]
          rw [hcond]
          simp only [if_true]
          rw [List.filter_cons_of_pos hallowed]
          have hadd : StrSet.add f.visitedUrls href = f.visitedUrls ++ [href] := by
            simp [StrSet.add, hseen]
          have hrest : (maxPages - ((f.enqueuedCount + 1 : Nat) : Int)).toNat = n := by
            push_cast
            omega
          simp only [hn, unvisited, if_neg hseen, List.take_succ_cons, hadd]
          by_cases hq : enqueueOk href = true
          · rw [if_pos hq]
            obtain ⟨part, hpre, hstate, hall⟩ := ih
              ⟨f.visitedUrls ++ [href], f.enqueuedCount + 1, f.enqueued ++ [href]⟩
            simp only [hrest] at hpre hall
            refine ⟨href :: part, ?_, ?_, ?_⟩
            · exact List.prefix_cons_inj href |>.mpr hpre
            · rw [hstate]
              simp only [List.length_cons, List.append_assoc, List.singleton_append]
              congr 1
              omega
            · intro hdone
              rw [hall hdone]
          · rw [if_neg hq]
            refine ⟨[href], ?_, ?_, ?_⟩
            · exact List.prefix_cons_inj href |>.mpr (List.nil_prefix)
            · rfl
            · intro hdone
              cases hdone
      · have hcond : (!decide (href ∈ f.visitedUrls) && isAllowed href) = false := by
          simp [hallowed]
        rw [hcond]
        simp only [Bool.false_eq_true, if_false]
        rw [List.filter_cons_of_neg hallowed]
        exact ih f

theorem enqueueNextPages_fallback (maxPages : Int) (isAllowed enqueueOk : String → Bool)
    (links : PageLinks) (f : Frontier)
    (hnext : (!falsy links.next && isAllowed (links.next.getD "")) = false) :
    enqueueNextPages maxPages isAllowed enqueueOk links f =
      offerLoop maxPages isAllowed enqueueOk (offerLinks links.anchors) f := by
  unfold enqueueNextPages
  rw [hnext]
  simp only [Bool.false_eq_true, if_false]

/-- C14. Fallback pagination: in a call of `enqueueNextPages` with no next-page link or a
disallowed one, the URLs passed to `enqueueLinks` are an initial part of `chosenLinks`, the
first `max_pages - enqueuedCount.value` pagination candidates in extraction order that are
allowed by robots.txt and not in `visitedUrls`, a repeated address counting once; they are all
of `chosenLinks` when `enqueueLinks` never rejects.  Each of them is added to `visitedUrls`,
the counter grows by their number and stays within a budget it was within, and a candidate
that is disallowed or visited is neither enqueued nor added to `visitedUrls`. -/
theorem fallback_pagination (maxPages : Int) (isAllowed enqueueOk : String → Bool)
    (links : PageLinks) (f : Frontier)
    (hnext : (!falsy links.next && isAllowed (links.next.getD "")) = false) :
    ((∀ href, enqueueOk href = true) →
      enqueueNextPages maxPages isAllowed enqueueOk links f =
        (⟨f.visitedUrls ++ chosenLinks maxPages isAllowed links f,
          f.enqueuedCount + (chosenLinks maxPages isAllowed links f).length,
          f.enqueued ++ chosenLinks maxPages isAllowed links f⟩, .ok ())) ∧
    (∃ part : List String, part <+: chosenLinks maxPages isAllowed links f ∧
      (enqueueNextPages maxPages isAllowed enqueueOk links f).1 =
        ⟨f.visitedUrls ++ part, f.enqueuedCount + part.length, f.enqueued ++ part⟩ ∧
      ((enqueueNextPages maxPages isAllowed enqueueOk links f).2 = .ok () →
        part = chosenLinks maxPages isAllowed links f)) ∧
    (chosenLinks maxPages isAllowed links f).Nodup ∧
    (∀ href ∈ chosenLinks maxPages isAllowed links f,
      isAllowed href = true ∧ href ∉ f.visitedUrls ∧ href ∈ offerLinks links.anchors) ∧
    ((f.enqueuedCount : Int) ≤ maxPages →
      ((f.enqueuedCount + (chosenLinks maxPages isAllowed links f).length : Nat) : Int) ≤
        maxPages) := by
  refine ⟨?_, ?_, ?_, ?_, ?_⟩
  · intro hok
    rw [enqueueNextPages_fallback maxPages isAllowed enqueueOk links f hnext,
      offerLoop_eq maxPages isAllowed enqueueOk hok]
    rfl
  · rw [enqueueNextPages_fallback maxPages isAllowed enqueueOk links f hnext]
    exact offerLoop_prefix maxPages isAllowed enqueueOk (offerLinks links.anchors) f
  · exact (unvisited_nodup _ _).sublist (List.take_sublist _ _)
  · intro href hmem
    have hmem2 : href ∈ unvisited f.visitedUrls ((offerLinks links.anchors).filter isAllowed) :=
      List.mem_of_mem_take hmem
    have hmem3 := (unvisited_sublist _ f.visitedUrls).subset hmem2
    exact ⟨(List.mem_filter.mp hmem3).2, unvisited_not_mem _ _ href hmem2,
      (List.mem_filter.mp hmem3).1⟩
  · intro hle
    have hlen : (chosenLinks maxPages isAllowed links f).length ≤
        (maxPages - f.enqueuedCount).toNat := by
      unfold chosenLinks
      rw [List.length_take]
      exact Nat.min_le_left _ _
    push_cast
    omega

/-- C14 on a page with seven anchors, a budget of four pages of which one is used, and the
second listing page visited: the third and the fourth listing page are enqueued. -/
theorem fallback_pagination_witness :
    enqueueNextPages 4 (fun _ => true) (fun _ => true) ⟨none, Examples.anchors⟩
        ⟨["https://www.profesia.sk/praca/?page_num=2"], 1, ["https://www.profesia.sk/praca/"]⟩ =
      (⟨["https://www.profesia.sk/praca/?page_num=2", "https://www.profesia.sk/praca/?page_num=3",
          "https://www.profesia.sk/praca/?page_num=4"], 3,
        ["https://www.profesia.sk/praca/", "https://www.profesia.sk/praca/?page_num=3",
          "https://www.profesia.sk/praca/?page_num=4"]⟩, .ok ()) :=
  (fallback_pagination 4 (fun _ => true) (fun _ => true) ⟨none, Examples.anchors⟩
    ⟨["https://www.profesia.sk/praca/?page_num=2"], 1, ["https://www.profesia.sk/praca/"]⟩
    (by decide)).1 (fun _ => rfl)

end ProfesiaAdapter

namespace ProfesiaAdapter

/-- The next-link path of `enqueueNextPages`: an allowed next link is enqueued and counted
whatever the counter and the set of visited pages hold. -/
theorem enqueueNextPages_next (maxPages : Int) (isAllowed enqueueOk : String → Bool)
    (links : PageLinks) (f : Frontier) (nextUrl : String) (hnext : links.next = some nextUrl)
    (hsome : nextUrl ≠ "") (hallowed : isAllowed nextUrl = true) :
    (enqueueNextPages maxPages isAllowed enqueueOk links f).1 =
      { f with enqueuedCount := f.enqueuedCount + 1, enqueued := f.enqueued ++ [nextUrl] } := by
  unfold enqueueNextPages
  simp [hnext, falsy, hsome, hallowed]

/-- C13 does not hold of `enqueueNextPages` taken alone: called with the budget of one page used
up and an allowed next link, it enqueues the link and raises the counter to two. -/
theorem enqueueNextPages_ignores_budget :
    (Examples.spent.enqueuedCount : Int) ≥ 1 ∧
    enqueueNextPages 1 (fun _ => true) (fun _ => true)
        ⟨some "https://www.profesia.sk/praca/?page_num=3", []⟩ Examples.spent =
      (⟨["https://www.profesia.sk/praca/"], 2,
        ["https://www.profesia.sk/praca/?page_num=2",
          "https://www.profesia.sk/praca/?page_num=3"]⟩, .ok ()) := by
  decide

end ProfesiaAdapter

open ProfesiaAdapter in
/-- C13. Next-link reservation, as `requestHandler` makes it: the handler tests the budget
before it calls `enqueueNextPages`.  When `enqueuedCount.value >= config.max_pages` on entry
of the handler, nothing is enqueued and the counter is left unchanged.  When the counter is
below `max_pages`, the job callbacks have completed and a next-page link is present and
allowed by robots.txt, the link is enqueued and the counter incremented.  The method
`enqueueNextPages` itself enqueues and counts an allowed next link without a test. -/
theorem next_link_reservation (host : Host) (maxPages : Int) (page : Listing) (st : Run) :
    ((st.frontier.enqueuedCount : Int) ≥ maxPages →
      (requestHandler host maxPages page st).1.frontier.enqueued = st.frontier.enqueued ∧
      (requestHandler host maxPages page st).1.frontier.enqueuedCount =
        st.frontier.enqueuedCount) ∧
    (∀ rows nextUrl, page.rows = some rows →
      (processJobsOnPage host rows page.schedule st.crawl).2 = .ok () →
      page.links.next = some nextUrl → nextUrl ≠ "" → page.isAllowed nextUrl = true →
      (st.frontier.enqueuedCount : Int) < maxPages →
      (requestHandler host maxPages page st).1.frontier.enqueued =
        st.frontier.enqueued ++ [nextUrl] ∧
      (requestHandler host maxPages page st).1.frontier.enqueuedCount =
        st.frontier.enqueuedCount + 1) ∧
    (∀ (isAllowed enqueueOk : String → Bool) (links : PageLinks) (f : Frontier)
      (nextUrl : String), links.next = some nextUrl → nextUrl ≠ "" →
      isAllowed nextUrl = true →
      (enqueueNextPages maxPages isAllowed enqueueOk links f).1 =
        { f with enqueuedCount := f.enqueuedCount + 1, enqueued := f.enqueued ++ [nextUrl] }) := by
  refine ⟨?_, ?_, ?_⟩
  · intro hfull
    unfold requestHandler
    cases page.rows with
    | none => exact ⟨rfl, rfl⟩
    | some rows =>
      simp only
      rcases processJobsOnPage host rows page.schedule st.crawl with ⟨crawl2, e | u⟩
      · exact ⟨rfl, rfl⟩
      · simp only
        rw [if_pos hfull]
        exact ⟨rfl, rfl⟩
  · intro rows nextUrl hrows hjobs hnext hsome hallowed hroom
    unfold requestHandler
    rw [hrows]
    simp only
    rcases hres : processJobsOnPage host rows page.schedule st.crawl with ⟨crawl2, r⟩
    rw [hres] at hjobs
    simp only at hjobs
    subst hjobs
    simp only
    rw [if_neg (by omega)]
    simp only
    rw [enqueueNextPages_next maxPages page.isAllowed page.enqueueOk page.links _ nextUrl hnext
      hsome hallowed]
    exact ⟨rfl, rfl⟩
  · intro isAllowed enqueueOk links f nextUrl hnext hsome hallowed
    exact enqueueNextPages_next maxPages isAllowed enqueueOk links f nextUrl hnext hsome hallowed

open ProfesiaAdapter in
/-- C13 on a first page with an allowed next link under a budget of two pages. -/
theorem next_link_reservation_witness :
    (requestHandler Examples.host 2 Examples.listing Run.fresh).1.frontier.enqueued =
        [] ++ ["https://www.profesia.sk/praca/?page_num=2"] ∧
      (requestHandler Examples.host 2 Examples.listing Run.fresh).1.frontier.enqueuedCount =
        0 + 1 :=
  (next_link_reservation Examples.host 2 Examples.listing Run.fresh).2.1 []
    "https://www.profesia.sk/praca/?page_num=2" rfl (by decide) rfl (by decide) rfl (by decide)

open ProfesiaAdapter in
/-- C15 on two visits.  The start page has no next link, so the fallback path enqueues the
second and the third listing page and adds them to `visitedUrls`.  The second page has a next
link to the third, and the next-link path passes it to `enqueueLinks` once more although
`visitedUrls` holds it. -/
theorem next_link_revisits :
    (requestHandler Examples.host 4 Examples.startPage Run.fresh).1.frontier =
      ⟨["https://www.profesia.sk/praca/", "https://www.profesia.sk/praca/?page_num=2",
          "https://www.profesia.sk/praca/?page_num=3"], 2,
        ["https://www.profesia.sk/praca/?page_num=2",
          "https://www.profesia.sk/praca/?page_num=3"]⟩ ∧
    (handleAll Examples.host 4 [Examples.startPage, Examples.secondPage] Run.fresh).frontier =
      ⟨["https://www.profesia.sk/praca/", "https://www.profesia.sk/praca/?page_num=2",
          "https://www.profesia.sk/praca/?page_num=3"], 3,
        ["https://www.profesia.sk/praca/?page_num=2",
          "https://www.profesia.sk/praca/?page_num=3",
          "https://www.profesia.sk/praca/?page_num=3"]⟩ := by
  decide

/-! ## The reporter -/

namespace Reporter

theorem lookup_setOwn (counts : Counts) (k k2 : String) (v : Count) :
    List.lookup k2 (setOwn counts k v) = if k2 = k then some v else List.lookup k2 counts := by
  induction counts with
  | nil =>
    unfold setOwn
    rw [RobotsChecker.lookup_pair_cons]
  | cons e rest ih =>
    obtain ⟨k0, v0⟩ := e
    unfold setOwn
    by_cases h0 : k0 = k
    · subst h0
      rw [if_pos rfl, RobotsChecker.lookup_pair_cons, RobotsChecker.lookup_pair_cons]
      by_cases h2 : k2 = k0
      · rw [if_pos h2, if_pos h2]
      · rw [if_neg h2, if_neg h2, if_neg h2]
    · rw [if_neg h0, RobotsChecker.lookup_pair_cons, RobotsChecker.lookup_pair_cons, ih]
      by_cases h2 : k2 = k0
      · have h3 : k2 ≠ k := fun h => h0 (h2.symm.trans h)
        rw [if_pos h2, if_neg h3, if_pos h2]
      · rw [if_neg h2, if_neg h2]

/-- Reading a plain key after one count: only a count under that key changes the value. -/
theorem lookup_bump (counts : Counts) (k key : String) (hkey : IsPlainKey key) :
    List.lookup key (bump counts k) =
      if k = key then increment (List.lookup key counts) else List.lookup key counts := by
  unfold bump
  by_cases hk : k = key
  · subst hk
    rw [if_pos rfl]
    cases hl : List.lookup k counts with
    | none =>
      simp only
      rw [if_neg hkey.1, if_neg hkey.2, lookup_setOwn, if_pos rfl]
      rfl
    | some v =>
      cases v with
      | num n =>
        simp only
        rw [lookup_setOwn, if_pos rfl]
        rfl
      | text ones =>
        simp only
        rw [lookup_setOwn, if_pos rfl]
        rfl
  · rw [if_neg hk]
    have hne : key ≠ k := fun h => hk h.symm
    cases hl : List.lookup k counts with
    | none =>
      simp only
      split
      · rfl
      · split
        · rw [lookup_setOwn, if_neg hne]
        · rw [lookup_setOwn, if_neg hne]
    | some v =>
      cases v with
      | num n =>
        simp only
        rw [lookup_setOwn, if_neg hne]
      | text ones =>
        simp only
        rw [lookup_setOwn, if_neg hne]

theorem lookup_foldl_bump (key : String) (hkey : IsPlainKey key) (keys : List String) :
    ∀ counts : Counts,
      List.lookup key (keys.foldl bump counts) =
        increment^[keys.count key] (List.lookup key counts) := by
  induction keys with
  | nil => intro counts; rfl
  | cons k rest ih =>
    intro counts
    rw [List.foldl_cons, ih, lookup_bump counts k key hkey]
    by_cases hk : k = key
    · subst hk
      rw [if_pos rfl, List.count_cons_self, Function.iterate_succ_apply]
    · rw [if_neg hk, List.count_cons_of_ne (fun h => hk h.symm)]

theorem iterate_increment_num (n m : Nat) :
    increment^[n] (some (.num m)) = some (.num (m + n)) := by
  induction n generalizing m with
  | zero => rfl
  | succ n ih =>
    rw [Function.iterate_succ_apply]
    show increment^[n] (some (.num (m + 1))) = _
    rw [ih]
    congr 2
    omega

theorem iterate_increment_none (n : Nat) : increment^[n] none = tally n := by
  cases n with
  | zero => rfl
  | succ n =>
    rw [Function.iterate_succ_apply]
    show increment^[n] (some (.num 1)) = _
    rw [iterate_increment_num]
    unfold tally
    rw [if_neg (by omega)]
    congr 2
    omega

theorem bumpIfTruthy_eq (counts : Counts) (v : JsVal) :
    bumpIfTruthy counts v = (keyOf v).toList.foldl bump counts := by
  unfold bumpIfTruthy keyOf
  split <;> rfl

theorem tags_addJob (r : Reporter) (job : JobData) :
    (addJob r job).tags = (tagsOf job).foldl bump r.tags := by
  unfold addJob tagsOf
  simp only
  split <;> rfl

/-- Reading a plain key of one of the counting objects after a run of `addJob` calls, for any
counting object `get` that `addJob` updates by counting the keys `keysOf job`. -/
theorem lookup_foldl_addJob (get : Reporter → Counts) (keysOf : JobData → List String)
    (hget : ∀ r job, get (addJob r job) = (keysOf job).foldl bump (get r))
    (key : String) (hkey : IsPlainKey key) (jobs : List JobData) :
    ∀ r : Reporter,
      List.lookup key (get (jobs.foldl addJob r)) =
        increment^[(jobs.map fun job => (keysOf job).count key).sum]
          (List.lookup key (get r)) := by
  induction jobs with
  | nil => intro r; rfl
  | cons job rest ih =>
    intro r
    rw [List.foldl_cons, ih, hget, lookup_foldl_bump key hkey, ← Function.iterate_add_apply,
      List.map_cons, List.sum_cons, Nat.add_comm]

theorem sum_count_toList (get : JobData → JsVal) (key : String) (jobs : List JobData) :
    (jobs.map fun job => (keyOf (get job)).toList.count key).sum =
      jobs.countP fun job => keyOf (get job) = some key := by
  induction jobs with
  | nil => rfl
  | cons job rest ih =>
    rw [List.map_cons, List.sum_cons, ih, List.countP_cons]
    cases hk : keyOf (get job) with
    | none => simp
    | some k =>
      by_cases h : k = key
      · subst h
        simp [Nat.add_comm]
      · have hne : key ≠ k := fun e => h e.symm
        have hdec : decide (k = key) = false := by simpa using h
        simp [List.count_cons, hne, hdec]

theorem totalJobs_foldl (jobs : List JobData) :
    ∀ r : Reporter, (jobs.foldl addJob r).totalJobs = r.totalJobs + jobs.length := by
  induction jobs with
  | nil => intro r; rfl
  | cons job rest ih =>
    intro r
    rw [List.foldl_cons, ih]
    show r.totalJobs + 1 + rest.length = r.totalJobs + (rest.length + 1)
    omega

theorem salaries_foldl (jobs : List JobData) :
    ∀ r : Reporter, (jobs.foldl addJob r).salaries = r.salaries ++ jobs.filterMap salaryOf := by
  induction jobs with
  | nil => intro r; simp
  | cons job rest ih =>
    intro r
    have hstep : (addJob r job).salaries = r.salaries ++ (salaryOf job).toList := by
      unfold addJob salaryOf
      simp only
      split <;> simp
    rw [List.foldl_cons, ih, hstep]
    cases h : salaryOf job with
    | none => simp [List.filterMap_cons, h]
    | some entry => simp [List.filterMap_cons, h]

/-- C16 at a key that every object inherits: after one record located in `constructor`, the
only such record, `locations['constructor']` is not the number one but the text of the
inherited function followed by the character `1`. -/
theorem addJob_inherited_key :
    List.lookup "constructor"
        (addJob fresh { Examples.fields with location := .str "constructor" }).locations =
      some (.text 1) ∧
    ([{ Examples.fields with location := .str "constructor" }].countP fun job =>
      keyOf job.location = some "constructor") = 1 := by
  decide

/-- Accumulation on the keys that name no inherited member: after any sequence of `addJob`
calls on a fresh reporter,
`totalJobs` is the number of calls; for every key that names no member of `Object.prototype`,
`locations[key]`, `companies[key]` and `employmentTypes[key]` hold the number of records
whose location, company name and employment type is present (truthy) and names that key, and
`tags[key]` holds the number of occurrences of the key in the tag arrays of all records (a
key counted zero times is absent); and `salaries` lists, in call order, the entries of the
records whose `salaryMin` and `salaryMax` are both numbers. -/
theorem addJob_accumulates (jobs : List JobData) :
    (jobs.foldl addJob fresh).totalJobs = jobs.length ∧
    (∀ key, IsPlainKey key →
      List.lookup key (jobs.foldl addJob fresh).locations =
        tally (jobs.countP fun job => keyOf job.location = some key) ∧
      List.lookup key (jobs.foldl addJob fresh).companies =
        tally (jobs.countP fun job => keyOf job.companyName = some key) ∧
      List.lookup key (jobs.foldl addJob fresh).employmentTypes =
        tally (jobs.countP fun job => keyOf job.employmentType = some key) ∧
      List.lookup key (jobs.foldl addJob fresh).tags =
        tally (jobs.map fun job => (tagsOf job).count key).sum) ∧
    (jobs.foldl addJob fresh).salaries = jobs.filterMap salaryOf := by
  refine ⟨?_, ?_, ?_⟩
  · rw [totalJobs_foldl]
    show 0 + jobs.length = jobs.length
    omega
  · intro key hkey
    refine ⟨?_, ?_, ?_, ?_⟩
    · rw [lookup_foldl_addJob (fun r => r.locations) (fun job => (keyOf job.location).toList)
        (fun r job => bumpIfTruthy_eq r.locations job.location) key hkey jobs fresh,
        sum_count_toList]
      exact iterate_increment_none _
    · rw [lookup_foldl_addJob (fun r => r.companies) (fun job => (keyOf job.companyName).toList)
        (fun r job => bumpIfTruthy_eq r.companies job.companyName) key hkey jobs fresh,
        sum_count_toList]
      exact iterate_increment_none _
    · rw [lookup_foldl_addJob (fun r => r.employmentTypes)
        (fun job => (keyOf job.employmentType).toList)
        (fun r job => bumpIfTruthy_eq r.employmentTypes job.employmentType) key hkey jobs fresh,
        sum_count_toList]
      exact iterate_increment_none _
    · rw [lookup_foldl_addJob (fun r => r.tags) tagsOf tags_addJob key hkey jobs fresh]
      exact iterate_increment_none _
  · rw [salaries_foldl]
    rfl

/-- Accumulation on three records: two are located in Bratislava. -/
theorem addJob_accumulates_witness :
    List.lookup "Bratislava" (Examples.records.foldl addJob fresh).locations =
      some (.num 2) :=
  ((addJob_accumulates Examples.records).2.1 "Bratislava" (by decide)).1

end Reporter

namespace Reporter

theorem numbered_eq_map (es : List (String × Count)) (hnum : ∀ e ∈ es, e.2 = .num e.2.number) :
    numbered es = some (es.map fun e => (e.1, e.2.number)) := by
  induction es with
  | nil => rfl
  | cons e rest ih =>
    obtain ⟨key, value⟩ := e
    have hn := hnum (key, value) (List.mem_cons_self _ _)
    simp only at hn
    cases value with
    | text ones => cases hn
    | num n =>
    unfold numbered
    rw [ih fun e he => hnum e (List.mem_cons_of_mem _ he)]
    rfl

theorem mem_entries (counts : Counts) (e : String × Count) :
    e ∈ entries counts ↔ e ∈ counts := by
  unfold entries
  rw [List.mem_append, List.mem_insertionSort, List.mem_filter, List.mem_filter]
  constructor
  · rintro (h | h) <;> exact h.1
  · intro h
    cases hi : arrayIndex e.1 with
    | none => exact Or.inr ⟨h, by simp [hi]⟩
    | some n => exact Or.inl ⟨h, by simp [hi]⟩

theorem length_entries (counts : Counts) : (entries counts).length = counts.length := by
  unfold entries
  rw [List.length_append, List.length_insertionSort, ← List.countP_eq_length_filter,
    ← List.countP_eq_length_filter,
    List.length_eq_countP_add_countP (fun e : String × Count => (arrayIndex e.1).isSome) counts]
  congr 1
  apply List.countP_congr
  intro e _
  cases arrayIndex e.1 <;> simp

theorem entries_of_no_index (counts : Counts) (hno : ∀ e ∈ counts, arrayIndex e.1 = none) :
    entries counts = counts := by
  unfold entries
  have hnone : counts.filter (fun e => (arrayIndex e.1).isSome) = [] := by
    rw [List.filter_eq_nil_iff]
    intro e he
    simp [hno e he]
  have hall : counts.filter (fun e => (arrayIndex e.1).isNone) = counts := by
    rw [List.filter_eq_self]
    intro e he
    simp [hno e he]
  rw [hnone, hall]
  rfl

theorem filter_take_prefix (p : String × Nat → Bool) (n : Nat) (l : List (String × Nat)) :
    (l.take n).filter p <+: l.filter p := by
  conv_rhs => rw [← List.take_append_drop n l, List.filter_append]
  exact List.prefix_append _ _

/-- The sort is stable: entries with one count keep the order they had. -/
theorem filter_insertionSort_countGe (count : Nat) (all : List (String × Nat)) :
    (all.insertionSort countGe).filter (fun e => e.2 = count) =
      all.filter (fun e => e.2 = count) := by
  have hpair : (all.filter fun e => decide (e.2 = count)).Pairwise countGe := by
    rw [List.pairwise_iff_forall_sublist]
    intro a b hab
    have ha := hab.subset (List.mem_cons_self _ _)
    have hb := hab.subset (List.mem_cons_of_mem _ (List.mem_cons_self _ _))
    simp only [List.mem_filter, decide_eq_true_eq] at ha hb
    show a.2 ≥ b.2
    omega
  have hsub : List.Sublist (all.filter fun e => decide (e.2 = count))
      (all.insertionSort countGe) :=
    List.sublist_insertionSort hpair (List.filter_sublist all)
  have hsub2 := hsub.filter fun e => decide (e.2 = count)
  rw [List.filter_filter] at hsub2
  simp only [Bool.and_self] at hsub2
  have hlen : ((all.insertionSort countGe).filter fun e => decide (e.2 = count)).length =
      (all.filter fun e => decide (e.2 = count)).length :=
    ((List.perm_insertionSort countGe all).filter _).length_eq
  exact (hsub2.eq_of_length hlen.symm).symm

theorem ranked_take_insertionSort (limit : Nat) (all : List (String × Nat)) :
    Ranked limit all ((all.insertionSort countGe).take limit) := by
  haveI : IsTotal (String × Nat) countGe := ⟨fun a b => Nat.le_total b.2 a.2⟩
  haveI : IsTrans (String × Nat) countGe := ⟨fun a b c hab hbc => Nat.le_trans hbc hab⟩
  have hsorted : (all.insertionSort countGe).Pairwise countGe :=
    List.sorted_insertionSort countGe all
  refine ⟨?_, ?_, ?_, ?_, ?_⟩
  · rw [List.length_take, List.length_insertionSort]
  · intro e he
    exact (List.mem_insertionSort countGe).mp (List.mem_of_mem_take he)
  · exact hsorted.sublist (List.take_sublist _ _)
  · intro e he hnot l hl
    have hmem : e ∈ all.insertionSort countGe := (List.mem_insertionSort countGe).mpr he
    rw [← List.take_append_drop limit (all.insertionSort countGe)] at hmem hsorted
    rcases List.mem_append.mp hmem with h | h
    · exact absurd h hnot
    · exact (List.pairwise_append.mp hsorted).2.2 l hl e h
  · intro count
    rw [← filter_insertionSort_countGe count all]
    exact filter_take_prefix _ _ _

/-- The top list of a counting object whose values are numbers. -/
theorem top_ranked (limit : Nat) (counts : Counts) (hnum : ∀ e ∈ counts, e.2 = .num e.2.number) :
    ∃ all ranked : List (String × Nat),
      all.map (fun e => (e.1, Count.num e.2)) = entries counts ∧
      all.length = counts.length ∧
      top limit counts = some ranked ∧
      Ranked limit all ranked := by
  have hnum2 : ∀ e ∈ entries counts, e.2 = .num e.2.number :=
    fun e he => hnum e ((mem_entries counts e).mp he)
  refine ⟨(entries counts).map fun e => (e.1, e.2.number),
    (((entries counts).map fun e => (e.1, e.2.number)).insertionSort countGe).take limit,
    ?_, ?_, ?_, ranked_take_insertionSort _ _⟩
  · rw [List.map_map]
    conv_rhs => rw [← List.map_id (entries counts)]
    apply List.map_congr_left
    intro e he
    have hn := hnum2 e he
    obtain ⟨key, value⟩ := e
    simp only at hn
    show (key, Count.num value.number) = (key, value)
    rw [← hn]
  · rw [List.length_map, length_entries]
  · unfold top
    rw [numbered_eq_map _ hnum2]
    rfl

/-- C17 does not hold when a key is an array index: a reporter that saw the location `b`
first and the location `10` second lists `10` before `b`, both with count one. -/
theorem topLocations_index_first :
    (addJob (addJob fresh { Examples.fields with location := .str "b" })
        { Examples.fields with location := .str "10" }).locations =
      [("b", .num 1), ("10", .num 1)] ∧
    topLocations (addJob (addJob fresh { Examples.fields with location := .str "b" })
        { Examples.fields with location := .str "10" }) =
      some [("10", 1), ("b", 1)] := by
  decide

/-- C17. Summary top-5: for every reporter whose counts of locations (likewise of tags and of
companies) are numbers, the top list of `printSummary` has five entries or as many as there
are keys, is ordered by non-increasing count, leaves out no key whose count is larger than
that of a listed key, and among keys with equal count lists them in the order in which
`Object.entries` enumerates them, which puts array indices first, in ascending order, and
the other keys after them in the order of their first insertion by `addJob`; it is the order
of first insertion when no key is an array index. -/
theorem summary_top (r : Reporter) :
    ((∀ e ∈ r.locations, e.2 = .num e.2.number) →
      ∃ all ranked : List (String × Nat),
        all.map (fun e => (e.1, Count.num e.2)) = entries r.locations ∧
        all.length = r.locations.length ∧
        topLocations r = some ranked ∧ Ranked 5 all ranked) ∧
    ((∀ e ∈ r.tags, e.2 = .num e.2.number) →
      ∃ all ranked : List (String × Nat),
        all.map (fun e => (e.1, Count.num e.2)) = entries r.tags ∧
        all.length = r.tags.length ∧
        topTags r = some ranked ∧ Ranked 5 all ranked) ∧
    ((∀ e ∈ r.companies, e.2 = .num e.2.number) →
      ∃ all ranked : List (String × Nat),
        all.map (fun e => (e.1, Count.num e.2)) = entries r.companies ∧
        all.length = r.companies.length ∧
        topCompanies r = some ranked ∧ Ranked 5 all ranked) ∧
    ∀ counts : Counts, (∀ e ∈ counts, arrayIndex e.1 = none) → entries counts = counts :=
  ⟨top_ranked 5 r.locations, top_ranked 5 r.tags, top_ranked 5 r.companies,
    entries_of_no_index⟩

/-- C17 on the reporter that saw three records, two of them located in Bratislava. -/
theorem summary_top_witness :
    ∃ all ranked : List (String × Nat),
      all.map (fun e => (e.1, Count.num e.2)) =
        entries (Examples.records.foldl addJob fresh).locations ∧
      all.length = (Examples.records.foldl addJob fresh).locations.length ∧
      topLocations (Examples.records.foldl addJob fresh) = some ranked ∧
      Ranked 5 all ranked :=
  (summary_top (Examples.records.foldl addJob fresh)).1 (by decide)

end Reporter

/-! ## The validator -/

theorem isBlankField_eq_false_iff (v : JsVal) : isBlankField v = false ↔ NonBlankString v := by
  unfold isBlankField NonBlankString
  cases v with
  | str s => simp
  | _ => simp

theorem normalisePostedAt_frame (host : Host) (now : Int) (jobData : JobData) :
    normalisePostedAt host now jobData =
      { jobData with postedAt := (normalisePostedAt host now jobData).postedAt } := by
  unfold normalisePostedAt
  split
  · split
    · rfl
    · split <;> rfl
  · rfl

theorem normaliseTags_frame (jobData : JobData) :
    normaliseTags jobData = { jobData with tags := (normaliseTags jobData).tags } := by
  unfold normaliseTags
  split <;> rfl

/-- The two normalisations change no field but `postedAt` and `tags`. -/
theorem normalise_frame (host : Host) (now : Int) (jobData : JobData) :
    ∃ postedAt tags, normaliseTags (normalisePostedAt host now jobData) =
      { jobData with postedAt := postedAt, tags := tags } := by
  obtain ⟨postedAt, hp⟩ : ∃ postedAt, normalisePostedAt host now jobData =
      { jobData with postedAt := postedAt } := ⟨_, normalisePostedAt_frame host now jobData⟩
  rw [hp]
  exact ⟨postedAt, _, normaliseTags_frame _⟩

/-- What `isValid` leaves of a record: the record it normalises when it gets that far, the
record itself otherwise; in both cases only `postedAt` and `tags` can differ. -/
theorem isValid_frame (host : Host) (now : Int) (jobData : JobData) :
    ∃ postedAt tags, (isValid host now jobData).2 =
      { jobData with postedAt := postedAt, tags := tags } := by
  unfold isValid
  split
  · exact ⟨_, _, rfl⟩
  · split
    · exact ⟨_, _, rfl⟩
    · split
      · exact ⟨_, _, rfl⟩
      · simp only
        split
        · exact normalise_frame host now jobData
        · exact normalise_frame host now jobData

/-- The verdict of `isValid` on a record that passes the tests before the normalisation. -/
theorem isValid_of_meets (host : Host) (now : Int) (jobData : JobData)
    (hmeets : MeetsRequirements host jobData) :
    isValid host now jobData = (true, normaliseTags (normalisePostedAt host now jobData)) := by
  have h1 := (isBlankField_eq_false_iff _).mpr hmeets.jobTitle
  have h2 := (isBlankField_eq_false_iff _).mpr hmeets.jobId
  have h3 := (isBlankField_eq_false_iff _).mpr hmeets.jobUrl
  have h4 := (isBlankField_eq_false_iff _).mpr hmeets.location
  obtain ⟨postedAt, tags, hnorm⟩ := normalise_frame host now jobData
  have hmin : (normaliseTags (normalisePostedAt host now jobData)).salaryMin =
      jobData.salaryMin := by
    rw [hnorm]
  have hmax : (normaliseTags (normalisePostedAt host now jobData)).salaryMax =
      jobData.salaryMax := by
    rw [hnorm]
  have hcompany : (jobData.companyUrl.truthy && !host.validUrl jobData.companyUrl) = false := by
    rcases hmeets.companyUrl with h | h <;> simp [h]
  have hsalary : ((jobData.salaryMin.truthy && !jobData.salaryMin.isNumber) ||
      (jobData.salaryMax.truthy && !jobData.salaryMax.isNumber)) = false := by
    rcases hmeets.salaryMin with h | h <;> rcases hmeets.salaryMax with h' | h' <;>
      simp [h, h']
  unfold isValid
  simp only [h1, h2, h3, h4, hmeets.jobUrlValid, hcompany, hmin, hmax, hsalary,
    Bool.or_self, Bool.false_eq_true, if_false, Bool.not_true]

/-- A record that `isValid` accepts passes every test before the normalisation. -/
theorem meets_of_isValid (host : Host) (now : Int) (jobData : JobData)
    (h : (isValid host now jobData).1 = true) : MeetsRequirements host jobData := by
  obtain ⟨postedAt, tags, hnorm⟩ := normalise_frame host now jobData
  unfold isValid at h
  split at h
  · simp at h
  · rename_i hreq
    split at h
    · simp at h
    · rename_i hurl
      split at h
      · simp at h
      · rename_i hcompany
        simp only at h
        split at h
        · simp at h
        · rename_i hsalary
          rw [hnorm] at hsalary
          simp only [Bool.or_eq_true, not_or, Bool.not_eq_true] at hreq
          simp only [Bool.not_eq_true, Bool.not_eq_false_eq_eq_true] at hurl
          have hurl2 : host.validUrl jobData.jobUrl = true := by simpa using hurl
          have hc : jobData.companyUrl.truthy = false ∨
              host.validUrl jobData.companyUrl = true := by
            cases ht : jobData.companyUrl.truthy
            · exact Or.inl rfl
            · cases hv : host.validUrl jobData.companyUrl
              · simp [ht, hv] at hcompany
              · exact Or.inr rfl
          have hmin : jobData.salaryMin.truthy = false ∨ jobData.salaryMin.isNumber = true := by
            cases ht : jobData.salaryMin.truthy
            · exact Or.inl rfl
            · cases hv : jobData.salaryMin.isNumber
              · simp [ht, hv] at hsalary
              · exact Or.inr rfl
          have hmax : jobData.salaryMax.truthy = false ∨ jobData.salaryMax.isNumber = true := by
            cases ht : jobData.salaryMax.truthy
            · exact Or.inl rfl
            · cases hv : jobData.salaryMax.isNumber
              · simp [ht, hv] at hsalary
              · exact Or.inr rfl
          exact ⟨(isBlankField_eq_false_iff _).mp hreq.1.1.1,
            (isBlankField_eq_false_iff _).mp hreq.1.1.2,
            (isBlankField_eq_false_iff _).mp hreq.1.2,
            (isBlankField_eq_false_iff _).mp hreq.2, hurl2, hc, hmin, hmax⟩

/-- C18 does not hold for an empty company address or an empty salary: both are present,
the first is no URL and the second no number, and the record is accepted. -/
theorem isValid_accepts_falsy :
    Examples.host.validUrl (.str "") = false ∧
    (isValid Examples.host 0 { Examples.valid with companyUrl := .str "" }).1 = true ∧
    JsVal.isNumber (.str "") = false ∧
    (isValid Examples.host 0 { Examples.valid with salaryMin := .str "" }).1 = true := by
  decide

/-- C18. `isValid` rejects a record when one of `jobTitle`, `jobId`, `jobUrl`, `location` is
absent, not a string, or empty or white space only; when `jobUrl` is not a URL; when
`companyUrl` is truthy and not a URL; and when `salaryMin` or `salaryMax` is truthy and not a
number. -/
theorem isValid_rejects (host : Host) (now : Int) (jobData : JobData)
    (h : ¬ NonBlankString jobData.jobTitle ∨ ¬ NonBlankString jobData.jobId ∨
      ¬ NonBlankString jobData.jobUrl ∨ ¬ NonBlankString jobData.location ∨
      host.validUrl jobData.jobUrl = false ∨
      (jobData.companyUrl.truthy = true ∧ host.validUrl jobData.companyUrl = false) ∨
      (jobData.salaryMin.truthy = true ∧ jobData.salaryMin.isNumber = false) ∨
      (jobData.salaryMax.truthy = true ∧ jobData.salaryMax.isNumber = false)) :
    (isValid host now jobData).1 = false := by
  cases hv : (isValid host now jobData).1 with
  | false => rfl
  | true =>
    exfalso
    have hmeets := meets_of_isValid host now jobData hv
    rcases h with h | h | h | h | h | h | h | h
    · exact h hmeets.jobTitle
    · exact h hmeets.jobId
    · exact h hmeets.jobUrl
    · exact h hmeets.location
    · rw [hmeets.jobUrlValid] at h
      cases h
    · rcases hmeets.companyUrl with h2 | h2
      · rw [h.1] at h2
        cases h2
      · rw [h.2] at h2
        cases h2
    · rcases hmeets.salaryMin with h2 | h2
      · rw [h.1] at h2
        cases h2
      · rw [h.2] at h2
        cases h2
    · rcases hmeets.salaryMax with h2 | h2
      · rw [h.1] at h2
        cases h2
      · rw [h.2] at h2
        cases h2

/-- C18 on a record whose `salaryMin` is the string `not-a-number`. -/
theorem isValid_rejects_witness :
    (isValid Examples.host 0 { Examples.valid with salaryMin := .str "not-a-number" }).1 =
      false :=
  isValid_rejects Examples.host 0 { Examples.valid with salaryMin := .str "not-a-number" }
    (Or.inr (Or.inr (Or.inr (Or.inr (Or.inr (Or.inr (Or.inl ⟨by decide, by decide⟩)))))))

theorem normaliseTags_postedAt (jobData : JobData) :
    (normaliseTags jobData).postedAt = jobData.postedAt := by
  unfold normaliseTags
  split <;> rfl

theorem normalisePostedAt_tags (host : Host) (now : Int) (jobData : JobData) :
    (normalisePostedAt host now jobData).tags = jobData.tags := by
  unfold normalisePostedAt
  split
  · split
    · rfl
    · split <;> rfl
  · rfl

/-- C19 does not hold for falsy values: an empty string in `postedAt` is no date and an empty
string in `tags` is no array, the record is accepted and both fields are left as they are. -/
theorem isValid_keeps_falsy :
    Examples.host.dateTime (.str "") = none ∧ JsVal.isArray (.str "") = false ∧
    isValid Examples.host 0 { Examples.valid with postedAt := .str "", tags := .str "" } =
      (true, { Examples.valid with postedAt := .str "", tags := .str "" }) := by
  decide

/-- C19. `isValid` normalises instead of rejecting, and touches nothing else: for every record
and every current time it changes no field other than `postedAt` and `tags`; and for a record
that meets all other requirements it returns `true`, sets a truthy `postedAt` to `null` when
it cannot be read as a date or lies after the current time, sets a truthy `tags` that is not
an array to the empty array, and leaves `postedAt` and `tags` as they are in every other
case. -/
theorem isValid_normalises (host : Host) (now : Int) (jobData : JobData) :
    (∃ postedAt tags, (isValid host now jobData).2 =
      { jobData with postedAt := postedAt, tags := tags }) ∧
    (MeetsRequirements host jobData →
      (isValid host now jobData).1 = true ∧
      (jobData.postedAt.truthy = true → host.dateTime jobData.postedAt = none →
        (isValid host now jobData).2.postedAt = .null) ∧
      (∀ date, jobData.postedAt.truthy = true → host.dateTime jobData.postedAt = some date →
        date > now → (isValid host now jobData).2.postedAt = .null) ∧
      (∀ date, jobData.postedAt.truthy = true → host.dateTime jobData.postedAt = some date →
        date ≤ now → (isValid host now jobData).2.postedAt = jobData.postedAt) ∧
      (jobData.postedAt.truthy = false →
        (isValid host now jobData).2.postedAt = jobData.postedAt) ∧
      (jobData.tags.truthy = true → jobData.tags.isArray = false →
        (isValid host now jobData).2.tags = .arr []) ∧
      (jobData.tags.truthy = false ∨ jobData.tags.isArray = true →
        (isValid host now jobData).2.tags = jobData.tags)) := by
  refine ⟨isValid_frame host now jobData, ?_⟩
  intro hmeets
  rw [isValid_of_meets host now jobData hmeets]
  simp only [normaliseTags_postedAt]
  refine ⟨trivial, ?_, ?_, ?_, ?_, ?_, ?_⟩
  · intro ht hd
    have hnull : jobData.postedAt ≠ .null := by
      intro h
      rw [h] at ht
      cases ht
    simp [normalisePostedAt, ht, hd, hnull]
  · intro date ht hd hfuture
    have hnull : jobData.postedAt ≠ .null := by
      intro h
      rw [h] at ht
      cases ht
    simp [normalisePostedAt, ht, hd, hnull, hfuture]
  · intro date ht hd hpast
    have hnull : jobData.postedAt ≠ .null := by
      intro h
      rw [h] at ht
      cases ht
    have hnot : ¬ date > now := by omega
    simp [normalisePostedAt, ht, hd, hnull, hnot]
  · intro ht
    simp [normalisePostedAt, ht]
  · intro ht ha
    have h2 : (normalisePostedAt host now jobData).tags = jobData.tags :=
      normalisePostedAt_tags host now jobData
    unfold normaliseTags
    simp [h2, ht, ha]
  · intro h
    have h2 : (normalisePostedAt host now jobData).tags = jobData.tags :=
      normalisePostedAt_tags host now jobData
    unfold normaliseTags
    rcases h with h | h
    · simp [h2, h]
    · simp [h2, h]

/-- C19 on a record posted in the year 2999, read on day 20300. -/
theorem isValid_normalises_witness :
    (isValid Examples.clock 20300 { Examples.valid with postedAt := .str "2999-01-01" }).1 =
      true ∧
    (isValid Examples.clock 20300
      { Examples.valid with postedAt := .str "2999-01-01" }).2.postedAt = .null :=
  have h := (isValid_normalises Examples.clock 20300
    { Examples.valid with postedAt := .str "2999-01-01" }).2
    ⟨⟨"Developer", rfl, by decide⟩, ⟨"J1", rfl, by decide⟩,
      ⟨"https://www.profesia.sk/praca/a/O1", rfl, by decide⟩, ⟨"Bratislava", rfl, by decide⟩,
      by decide, Or.inl rfl, Or.inl rfl, Or.inl rfl⟩
  ⟨h.1, h.2.2.1 376000 rfl (by decide) (by decide)⟩

/-- C20. `isValid` accepts every well-formed record: when `jobTitle`, `jobId`, `jobUrl` and
`location` are non-blank strings, `jobUrl` is a URL, `companyUrl` is absent (or falsy
otherwise) or a URL, and `salaryMin` and `salaryMax` are each absent (or falsy otherwise) or a
number, the verdict is `true` whatever `postedAt`, `tags` and the other fields hold and
whatever the time is. -/
theorem isValid_accepts (host : Host) (now : Int) (jobData : JobData)
    (hmeets : MeetsRequirements host jobData) : (isValid host now jobData).1 = true := by
  rw [isValid_of_meets host now jobData hmeets]

/-- C20 on the record of the test "should validate correct job data". -/
theorem isValid_accepts_witness : (isValid Examples.host 0 Examples.valid).1 = true :=
  isValid_accepts Examples.host 0 Examples.valid
    ⟨⟨"Developer", rfl, by decide⟩, ⟨"J1", rfl, by decide⟩,
      ⟨"https://www.profesia.sk/praca/a/O1", rfl, by decide⟩, ⟨"Bratislava", rfl, by decide⟩,
      by decide, Or.inl rfl, Or.inl rfl, Or.inl rfl⟩

/-! ## Algebraic properties -/

namespace Reporter

/-- C23 on a fresh reporter: a second `addDuplicate`, a second `addFailed` and a second
`addJob` each change the state the first call left. -/
theorem accumulation_counts_twice :
    addDuplicate (addDuplicate fresh) ≠ addDuplicate fresh ∧
    addFailed (addFailed fresh (some "u")) (some "u") ≠ addFailed fresh (some "u") ∧
    addJob (addJob fresh Examples.fields) Examples.fields ≠ addJob fresh Examples.fields := by
  decide

/-- C23. The accumulation operations are not idempotent, every call counts: for every
reporter state, every record and every url, applying `addJob(record)`, `addDuplicate()` or
`addFailed(url)` twice in a row raises `totalJobs`, `duplicates` or `failed` by two, so the
state differs from the one a single call leaves. -/
theorem accumulation_not_idempotent (r : Reporter) (job : JobData) (url : Option String) :
    (addJob (addJob r job) job).totalJobs = r.totalJobs + 2 ∧
    addJob (addJob r job) job ≠ addJob r job ∧
    (addDuplicate (addDuplicate r)).duplicates = r.duplicates + 2 ∧
    addDuplicate (addDuplicate r) ≠ addDuplicate r ∧
    (addFailed (addFailed r url) url).failed = r.failed + 2 ∧
    addFailed (addFailed r url) url ≠ addFailed r url := by
  refine ⟨rfl, ?_, rfl, ?_, rfl, ?_⟩
  · intro h
    have h2 := congrArg Reporter.totalJobs h
    simp [addJob] at h2
  · intro h
    have h2 := congrArg Reporter.duplicates h
    simp [addDuplicate] at h2
  · intro h
    have h2 := congrArg Reporter.failed h
    simp [addFailed] at h2

end Reporter

theorem normaliseTags_of_pos (jobData : JobData)
    (h : (jobData.tags.truthy && !jobData.tags.isArray) = true) :
    normaliseTags jobData = { jobData with tags := .arr [] } := by
  unfold normaliseTags
  rw [if_pos h]

theorem normaliseTags_of_neg (jobData : JobData)
    (h : ¬ (jobData.tags.truthy && !jobData.tags.isArray) = true) :
    normaliseTags jobData = jobData := by
  unfold normaliseTags
  rw [if_neg h]

theorem normalisePostedAt_of_neg (host : Host) (now : Int) (jobData : JobData)
    (h : ¬ (jobData.postedAt.truthy && decide (jobData.postedAt ≠ .null)) = true) :
    normalisePostedAt host now jobData = jobData := by
  unfold normalisePostedAt
  rw [if_neg h]

theorem normalisePostedAt_of_pos (host : Host) (now : Int) (jobData : JobData)
    (h : (jobData.postedAt.truthy && decide (jobData.postedAt ≠ .null)) = true) :
    normalisePostedAt host now jobData =
      match host.dateTime jobData.postedAt with
      | none => { jobData with postedAt := .null }
      | some date => if date > now then { jobData with postedAt := .null } else jobData := by
  unfold normalisePostedAt
  rw [if_pos h]

theorem normaliseTags_idem (jobData : JobData) :
    normaliseTags (normaliseTags jobData) = normaliseTags jobData := by
  by_cases h : (jobData.tags.truthy && !jobData.tags.isArray) = true
  · rw [normaliseTags_of_pos jobData h]
    exact normaliseTags_of_neg _ (by simp [JsVal.truthy, JsVal.isArray])
  · rw [normaliseTags_of_neg jobData h, normaliseTags_of_neg jobData h]

theorem normalisePostedAt_idem (host : Host) (t1 t2 : Int) (h : t1 ≤ t2) (jobData : JobData) :
    normalisePostedAt host t2 (normalisePostedAt host t1 jobData) =
      normalisePostedAt host t1 jobData := by
  have hnull : ∀ jd : JobData,
      normalisePostedAt host t2 { jd with postedAt := .null } = { jd with postedAt := .null } :=
    fun jd => normalisePostedAt_of_neg host t2 _ (by simp [JsVal.truthy])
  by_cases hp : (jobData.postedAt.truthy && decide (jobData.postedAt ≠ .null)) = true
  · rw [normalisePostedAt_of_pos host t1 jobData hp]
    cases hd : host.dateTime jobData.postedAt with
    | none => exact hnull jobData
    | some date =>
      simp only
      by_cases hf : date > t1
      · rw [if_pos hf]
        exact hnull jobData
      · rw [if_neg hf, normalisePostedAt_of_pos host t2 jobData hp, hd]
        simp only
        rw [if_neg (by omega)]
  · rw [normalisePostedAt_of_neg host t1 jobData hp, normalisePostedAt_of_neg host t2 jobData hp]

theorem normalise_comm (host : Host) (now : Int) (jobData : JobData) :
    normalisePostedAt host now (normaliseTags jobData) =
      normaliseTags (normalisePostedAt host now jobData) := by
  have htags : (normalisePostedAt host now jobData).tags = jobData.tags :=
    normalisePostedAt_tags host now jobData
  by_cases ht : (jobData.tags.truthy && !jobData.tags.isArray) = true
  · have ht2 : ((normalisePostedAt host now jobData).tags.truthy &&
        !(normalisePostedAt host now jobData).tags.isArray) = true := by rw [htags]; exact ht
    rw [normaliseTags_of_pos jobData ht, normaliseTags_of_pos _ ht2]
    by_cases hp : (jobData.postedAt.truthy && decide (jobData.postedAt ≠ .null)) = true
    · rw [normalisePostedAt_of_pos host now jobData hp,
        normalisePostedAt_of_pos host now { jobData with tags := .arr [] } hp]
      simp only
      cases host.dateTime jobData.postedAt with
      | none => rfl
      | some date =>
        simp only
        by_cases hf : date > now
        · rw [if_pos hf, if_pos hf]
        · rw [if_neg hf, if_neg hf]
    · rw [normalisePostedAt_of_neg host now jobData hp,
        normalisePostedAt_of_neg host now { jobData with tags := .arr [] } hp]
  · have ht2 : ¬ ((normalisePostedAt host now jobData).tags.truthy &&
        !(normalisePostedAt host now jobData).tags.isArray) = true := by rw [htags]; exact ht
    rw [normaliseTags_of_neg jobData ht, normaliseTags_of_neg _ ht2]

/-- The normalised record is a fixed point of both normalisations at any later time. -/
theorem normalise_idem (host : Host) (t1 t2 : Int) (h : t1 ≤ t2) (jobData : JobData) :
    normaliseTags (normalisePostedAt host t2 (normaliseTags (normalisePostedAt host t1 jobData))) =
      normaliseTags (normalisePostedAt host t1 jobData) := by
  rw [normalise_comm, normalisePostedAt_idem host t1 t2 h, normaliseTags_idem]

/-- C26. `isValid` is idempotent: for every record and every pair of current times
`t1 ≤ t2`, a call at `t2` on the record as the call at `t1` left it returns the verdict of
the first call and leaves the record as the first call left it. -/
theorem isValid_idempotent (host : Host) (t1 t2 : Int) (h : t1 ≤ t2) (jobData : JobData) :
    isValid host t2 (isValid host t1 jobData).2 = isValid host t1 jobData := by
  obtain ⟨postedAt, tags, hnorm⟩ := normalise_frame host t1 jobData
  have hidem := normalise_idem host t1 t2 h jobData
  by_cases h1 : (isBlankField jobData.jobTitle || isBlankField jobData.jobId ||
      isBlankField jobData.jobUrl || isBlankField jobData.location) = true
  · have hfirst : isValid host t1 jobData = (false, jobData) := by
      unfold isValid
      rw [if_pos h1]
    rw [hfirst]
    unfold isValid
    rw [if_pos h1]
  · by_cases h2 : (!host.validUrl jobData.jobUrl) = true
    · have hfirst : isValid host t1 jobData = (false, jobData) := by
        unfold isValid
        rw [if_neg h1, if_pos h2]
      rw [hfirst]
      unfold isValid
      rw [if_neg h1, if_pos h2]
    · by_cases h3 : (jobData.companyUrl.truthy && !host.validUrl jobData.companyUrl) = true
      · have hfirst : isValid host t1 jobData = (false, jobData) := by
          unfold isValid
          rw [if_neg h1, if_neg h2, if_pos h3]
        rw [hfirst]
        unfold isValid
        rw [if_neg h1, if_neg h2, if_pos h3]
      · have hshape : ∀ now (jd : JobData),
            jd.jobTitle = jobData.jobTitle → jd.jobId = jobData.jobId →
            jd.jobUrl = jobData.jobUrl → jd.location = jobData.location →
            jd.companyUrl = jobData.companyUrl →
            isValid host now jd =
              (if ((normaliseTags (normalisePostedAt host now jd)).salaryMin.truthy &&
                    !(normaliseTags (normalisePostedAt host now jd)).salaryMin.isNumber) ||
                  ((normaliseTags (normalisePostedAt host now jd)).salaryMax.truthy &&
                    !(normaliseTags (normalisePostedAt host now jd)).salaryMax.isNumber)
                then (false, normaliseTags (normalisePostedAt host now jd))
                else (true, normaliseTags (normalisePostedAt host now jd))) := by
          intro now jd e1 e2 e3 e4 e5
          unfold isValid
          rw [e1, e2, e3, e4, e5, if_neg h1, if_neg h2, if_neg h3]
        have hfirst := hshape t1 jobData rfl rfl rfl rfl rfl
        have hsecond := hshape t2 (normaliseTags (normalisePostedAt host t1 jobData))
          (by rw [hnorm]) (by rw [hnorm]) (by rw [hnorm]) (by rw [hnorm]) (by rw [hnorm])
        rw [hidem] at hsecond
        by_cases hs : (((normaliseTags (normalisePostedAt host t1 jobData)).salaryMin.truthy &&
              !(normaliseTags (normalisePostedAt host t1 jobData)).salaryMin.isNumber) ||
            ((normaliseTags (normalisePostedAt host t1 jobData)).salaryMax.truthy &&
              !(normaliseTags (normalisePostedAt host t1 jobData)).salaryMax.isNumber)) = true
        · rw [if_pos hs] at hfirst hsecond
          rw [hfirst]
          exact hsecond
        · rw [if_neg hs] at hfirst hsecond
          rw [hfirst]
          exact hsecond

/-- C26 on a record posted in the year 2999 and tagged with a string, read on day 20300 and
again on day 20301. -/
theorem isValid_idempotent_witness :
    isValid Examples.clock 20301
        (isValid Examples.clock 20300
          { Examples.valid with postedAt := .str "2999-01-01", tags := .str "x" }).2 =
      isValid Examples.clock 20300
        { Examples.valid with postedAt := .str "2999-01-01", tags := .str "x" } :=
  isValid_idempotent Examples.clock 20300 20301 (by decide)
    { Examples.valid with postedAt := .str "2999-01-01", tags := .str "x" }

/-! ## Rule evaluation without regard to order -/

namespace RobotsChecker

theorem matchesPattern_of_translates (path pattern : String) (h : Translates pattern) :
    matchesPattern path pattern = .ok (hits path pattern) := by
  have hbool : ∀ b : Bool, matchesPattern path pattern = .ok b →
      matchesPattern path pattern = .ok (hits path pattern) := by
    intro b hb
    unfold hits
    rw [hb]
    cases b <;> rfl
  have hslash : ∀ q : String, q = "/" →
      matchesPattern path q = .ok (decide (path = "/")) := by
    intro q hq
    unfold matchesPattern
    rw [if_pos hq]
  rcases h with h | ⟨regex, h⟩
  · exact hbool _ (hslash pattern h)
  · by_cases hroot : pattern = "/"
    · exact hbool _ (hslash pattern hroot)
    · refine hbool (regex.test path) ?_
      unfold matchesPattern
      rw [if_neg hroot]
      unfold sourceOf at h
      simp only [h]

theorem allowLoop_of_translates (path : String) (allow : List String)
    (h : ∀ p ∈ allow, Translates p) :
    allowLoop path allow = .ok (allow.any (hits path)) := by
  induction allow with
  | nil => rfl
  | cons a rest ih =>
    have hrest := ih fun p hp => h p (List.mem_cons_of_mem _ hp)
    unfold allowLoop
    rw [matchesPattern_of_translates path a (h a (List.mem_cons_self _ _))]
    cases ha : hits path a
    · simp only [hrest, List.any_cons, ha, Bool.false_or]
    · simp only [List.any_cons, ha, Bool.true_or]

theorem disallowLoop_of_translates (path : String) (allow disallow : List String)
    (hallow : ∀ p ∈ allow, Translates p) (hdis : ∀ p ∈ disallow, Translates p) :
    disallowLoop path allow disallow =
      .ok (!((disallow.any fun d => decide (d ≠ "") && hits path d) &&
        !allow.any (hits path))) := by
  induction disallow with
  | nil => rfl
  | cons d rest ih =>
    have hrest := ih fun p hp => hdis p (List.mem_cons_of_mem _ hp)
    unfold disallowLoop
    by_cases hd : d = ""
    · rw [if_pos hd, hrest]
      simp [hd]
    · rw [if_neg hd, matchesPattern_of_translates path d (hdis d (List.mem_cons_self _ _))]
      cases hh : hits path d
      · simp only [hrest, List.any_cons, hh, Bool.and_false, Bool.false_or]
      · simp only [allowLoop_of_translates path allow hallow, List.any_cons, hh, hd,
          ne_eq, not_false_eq_true, decide_True, Bool.and_self, Bool.true_or, Bool.true_and,
          Bool.not_not]

theorem any_eq_of_perm {l1 l2 : List String} (f : String → Bool) (h : l1.Perm l2) :
    l1.any f = l2.any f := by
  rw [Bool.eq_iff_iff, List.any_eq_true, List.any_eq_true]
  constructor
  · rintro ⟨x, hx, hf⟩
    exact ⟨x, h.mem_iff.mp hx, hf⟩
  · rintro ⟨x, hx, hf⟩
    exact ⟨x, h.mem_iff.mpr hx, hf⟩

/-- C24. Order independence of rule evaluation: for every path and every agent entry whose
patterns all translate to well-formed expressions, `checkRules` returns a verdict, and the
verdict is "disallowed" exactly when some non-empty disallow pattern matches the path and no
allow pattern matches it; hence the result is the same for any entry whose disallow list and
allow list are permutations of these. -/
theorem rule_order_independence (toLowerCase : String → String) (path : String)
    (rules : RuleSet) (userAgent : String) (entry : AgentRules)
    (hentry : specificRules toLowerCase rules userAgent = some entry)
    (hwf : ∀ p ∈ entry.allow ++ entry.disallow, Translates p) :
    (checkRules toLowerCase path rules userAgent = .ok true ∨
      checkRules toLowerCase path rules userAgent = .ok false) ∧
    (checkRules toLowerCase path rules userAgent = .ok false ↔
      (∃ d ∈ entry.disallow, d ≠ "" ∧ matchesPattern path d = .ok true) ∧
        ∀ a ∈ entry.allow, matchesPattern path a ≠ .ok true) ∧
    (∀ (rules2 : RuleSet) (userAgent2 : String) (entry2 : AgentRules),
      specificRules toLowerCase rules2 userAgent2 = some entry2 →
      entry2.allow.Perm entry.allow → entry2.disallow.Perm entry.disallow →
      checkRules toLowerCase path rules2 userAgent2 =
        checkRules toLowerCase path rules userAgent) := by
  have hallow : ∀ p ∈ entry.allow, Translates p :=
    fun p hp => hwf p (List.mem_append_left _ hp)
  have hdis : ∀ p ∈ entry.disallow, Translates p :=
    fun p hp => hwf p (List.mem_append_right _ hp)
  have hval : checkRules toLowerCase path rules userAgent =
      .ok (!((entry.disallow.any fun d => decide (d ≠ "") && hits path d) &&
        !entry.allow.any (hits path))) := by
    unfold checkRules
    rw [hentry]
    exact disallowLoop_of_translates path entry.allow entry.disallow hallow hdis
  refine ⟨?_, ?_, ?_⟩
  · rw [hval]
    cases (!((entry.disallow.any fun d => decide (d ≠ "") && hits path d) &&
        !entry.allow.any (hits path)))
    · exact Or.inr rfl
    · exact Or.inl rfl
  · rw [hval]
    simp only [Except.ok.injEq, Bool.not_eq_false', Bool.and_eq_true, List.any_eq_true,
      Bool.not_eq_true', List.any_eq_false, decide_eq_true_eq, hits]
  · intro rules2 userAgent2 entry2 hentry2 hpa hpd
    have hallow2 : ∀ p ∈ entry2.allow, Translates p :=
      fun p hp => hallow p (hpa.mem_iff.mp hp)
    have hdis2 : ∀ p ∈ entry2.disallow, Translates p :=
      fun p hp => hdis p (hpd.mem_iff.mp hp)
    rw [hval]
    unfold checkRules
    rw [hentry2]
    simp only
    rw [disallowLoop_of_translates path entry2.allow entry2.disallow hallow2 hdis2,
      any_eq_of_perm _ hpa, any_eq_of_perm _ hpd]

end RobotsChecker

namespace RobotsChecker

theorem translates_of_plain (pattern : String) (h : IsPlainWildcard pattern) :
    Translates pattern :=
  Or.inr ⟨_, create_of_plain pattern h⟩

/-- C24 on the entry that disallows `/x` and `/z` and allows `/x/y`, with the disallow list
in the other order. -/
theorem rule_order_independence_witness :
    checkRules Js.asciiLower "/x/q" [("*", ⟨["/x/y"], ["/z", "/x"]⟩)] "Bot" =
      checkRules Js.asciiLower "/x/q" [("*", ⟨["/x/y"], ["/x", "/z"]⟩)] "Bot" :=
  (rule_order_independence Js.asciiLower "/x/q" [("*", ⟨["/x/y"], ["/x", "/z"]⟩)] "Bot"
    ⟨["/x/y"], ["/x", "/z"]⟩ (by decide)
    (by
      intro p hp
      simp only [List.cons_append, List.nil_append, List.mem_cons, List.mem_singleton,
        List.mem_nil_iff, or_false] at hp
      rcases hp with rfl | rfl | rfl <;>
        exact translates_of_plain _ (by unfold IsPlainWildcard; decide))).2.2
    [("*", ⟨["/x/y"], ["/z", "/x"]⟩)] "Bot" ⟨["/x/y"], ["/z", "/x"]⟩ (by decide)
    (List.Perm.refl _) (List.Perm.swap _ _ _)

theorem hits_empty (path : String) : hits path "" = true := by
  have hplain : IsPlainWildcard "" := by
    intro c hc
    cases hc
  have h : matchesPattern path "" = .ok true := by
    unfold matchesPattern
    rw [if_neg (by decide)]
    simp only [create_of_plain "" hplain]
    have htest : (RegExp.mk (RegExp.seqOf (.bol :: (Js.utf16 "").map termOf))).test path =
        true := by
      have hnil : (Js.utf16 "").map termOf = [] := rfl
      rw [hnil, test_anchored]
      exact ⟨Js.utf16 path, by simp [RegExp.seqOf, RegExp.Node.ends]⟩
    rw [htest]
  unfold hits
  rw [h]
  rfl

theorem allowLoop_ne_false (path : String) (allow : List String) (h : "" ∈ allow) :
    allowLoop path allow ≠ .ok false := by
  induction allow with
  | nil => cases h
  | cons a rest ih =>
    unfold allowLoop
    rcases hm : matchesPattern path a with e | b
    · simp
    · cases b
      · simp only
        rcases List.mem_cons.mp h with ha | hrest
        · subst ha
          have hh := hits_empty path
          unfold hits at hh
          rw [hm] at hh
          simp at hh
        · exact ih hrest
      · simp

theorem disallowLoop_ne_false (path : String) (allow disallow : List String)
    (h : "" ∈ allow) : disallowLoop path allow disallow ≠ .ok false := by
  induction disallow with
  | nil => simp [disallowLoop]
  | cons d rest ih =>
    unfold disallowLoop
    by_cases hd : d = ""
    · rw [if_pos hd]
      exact ih
    · rw [if_neg hd]
      rcases hm : matchesPattern path d with e | b
      · simp
      · cases b
        · exact ih
        · exact allowLoop_ne_false path allow h

theorem disallowLoop_filter (path : String) (allow disallow : List String) :
    disallowLoop path allow (disallow.filter fun p => p ≠ "") =
      disallowLoop path allow disallow := by
  induction disallow with
  | nil => rfl
  | cons d rest ih =>
    by_cases hd : d = ""
    · rw [List.filter_cons_of_neg (by simp [hd])]
      conv_rhs => unfold disallowLoop
      rw [if_pos hd, ih]
    · rw [List.filter_cons_of_pos (by simp [hd])]
      unfold disallowLoop
      rw [if_neg hd, if_neg hd, ih]

/-- C25 does not hold when a pattern is not a regular expression: with the allow list `''`
and the disallow list `(`, `checkRules` raises the syntax error instead of returning
"allowed". -/
theorem checkRules_raises_before_empty_allow :
    checkRules Js.asciiLower "/x" [("*", ⟨[""], ["("]⟩)] "*" = .error .syntaxError := by
  decide

/-- C25. An empty Allow value lifts every restriction: `matchesPattern(path, '')` is `true`
for every path; so for an agent entry whose allow list contains the empty string `checkRules`
never returns "disallowed", and it returns "allowed" for every path when the patterns of the
entry all translate to well-formed expressions (otherwise it may raise); and in the disallow
list the empty pattern is skipped: dropping it changes nothing. -/
theorem empty_allow_lifts :
    (∀ path : String, matchesPattern path "" = .ok true) ∧
    (∀ (toLowerCase : String → String) (path : String) (rules : RuleSet) (userAgent : String)
      (entry : AgentRules), specificRules toLowerCase rules userAgent = some entry →
      "" ∈ entry.allow →
      checkRules toLowerCase path rules userAgent ≠ .ok false ∧
      ((∀ p ∈ entry.allow ++ entry.disallow, Translates p) →
        checkRules toLowerCase path rules userAgent = .ok true)) ∧
    (∀ (path : String) (allow disallow : List String),
      disallowLoop path allow (disallow.filter fun p => p ≠ "") =
        disallowLoop path allow disallow) := by
  refine ⟨?_, ?_, disallowLoop_filter⟩
  · intro path
    have h := hits_empty path
    unfold hits at h
    exact of_decide_eq_true h
  · intro toLowerCase path rules userAgent entry hentry hmem
    have hne : checkRules toLowerCase path rules userAgent ≠ .ok false := by
      unfold checkRules
      rw [hentry]
      exact disallowLoop_ne_false path entry.allow entry.disallow hmem
    refine ⟨hne, ?_⟩
    intro hwf
    have hval : checkRules toLowerCase path rules userAgent =
        .ok (!((entry.disallow.any fun d => decide (d ≠ "") && hits path d) &&
          !entry.allow.any (hits path))) := by
      unfold checkRules
      rw [hentry]
      exact disallowLoop_of_translates path entry.allow entry.disallow
        (fun p hp => hwf p (List.mem_append_left _ hp))
        (fun p hp => hwf p (List.mem_append_right _ hp))
    rw [hval] at hne ⊢
    cases hb : (!((entry.disallow.any fun d => decide (d ≠ "") && hits path d) &&
        !entry.allow.any (hits path)))
    · rw [hb] at hne
      exact absurd rfl hne
    · rfl

/-- C25 on the entry `Disallow: /`, `Disallow: /jobs`, `Allow:` asked about `/jobs/1`. -/
theorem empty_allow_lifts_witness :
    checkRules Js.asciiLower "/jobs/1" [("*", ⟨[""], ["/", "/jobs"]⟩)] "Bot" = .ok true :=
  (empty_allow_lifts.2.1 Js.asciiLower "/jobs/1" [("*", ⟨[""], ["/", "/jobs"]⟩)] "Bot"
    ⟨[""], ["/", "/jobs"]⟩ (by decide) (by decide)).2
    (by
      intro p hp
      simp only [List.cons_append, List.nil_append, List.mem_cons, List.mem_singleton,
        List.mem_nil_iff, or_false] at hp
      rcases hp with rfl | rfl | rfl
      · exact translates_of_plain _ (by unfold IsPlainWildcard; decide)
      · exact Or.inl rfl
      · exact translates_of_plain _ (by unfold IsPlainWildcard; decide))

end RobotsChecker

/-! ## A sink that rejects a record -/

namespace ProfesiaAdapter

/-- Every finished callback took exactly one path, and the one whose push was rejected is
counted on two of them. -/
theorem countP_paths (tasks : List Task) (hdone : ∀ t ∈ tasks, t.phase.isDone = true) :
    (tasks.countP fun t => t.phase.reported) + (tasks.countP fun t => t.phase.isDuplicate) +
        (tasks.countP fun t => t.phase.failed) + (tasks.countP fun t => t.phase.isDropped) =
      tasks.length + tasks.countP fun t => t.phase.sinkFailed := by
  have hone : ∀ p : Phase, p.isDone = true →
      (if p.reported = true then 1 else 0) + (if p.isDuplicate = true then 1 else 0) +
          (if p.failed = true then 1 else 0) + (if p.isDropped = true then 1 else 0) =
        1 + (if p.sinkFailed = true then 1 else 0) := by
    intro p hp
    rcases p with _ | _ | _ | outcome
    · cases hp
    · cases hp
    · cases hp
    · rcases outcome with _ | _ | _ | _ | b
      · rfl
      · rfl
      · rfl
      · rfl
      · cases b <;> rfl
  induction tasks with
  | nil => rfl
  | cons t rest ih =>
    have hrest := ih fun x hx => hdone x (List.mem_cons_of_mem _ hx)
    have ht := hone t.phase (hdone t (List.mem_cons_self _ _))
    simp only [List.countP_cons, List.length_cons]
    omega

theorem countP_reported_done (tasks : List Task) (hdone : ∀ t ∈ tasks, t.phase.isDone = true) :
    (tasks.countP fun t => t.phase.reported) =
      (tasks.countP fun t => t.phase.isSaved) + tasks.countP fun t => t.phase.sinkFailed := by
  have hone : ∀ p : Phase, p.isDone = true →
      (if p.reported = true then 1 else 0) =
        (if p.isSaved = true then 1 else 0) + (if p.sinkFailed = true then 1 else 0) := by
    intro p hp
    rcases p with _ | _ | _ | outcome
    · cases hp
    · cases hp
    · cases hp
    · rcases outcome with _ | _ | _ | _ | b
      · rfl
      · rfl
      · rfl
      · rfl
      · cases b <;> rfl
  induction tasks with
  | nil => rfl
  | cons t rest ih =>
    have hrest := ih fun x hx => hdone x (List.mem_cons_of_mem _ hx)
    have ht := hone t.phase (hdone t (List.mem_cons_self _ _))
    simp only [List.countP_cons]
    omega

/-- C27. A sink failure is caught but counted twice.  (1) No page run ends with an exception.
(2) A candidate whose record passes `isValid` is reported with `addJob`, which tallies its
location, tags, company and salary, and the record is handed to the sink.  (3) When the sink
then rejects it, the resumption reports one failure with the address of the candidate and
ends the callback; `totalJobs` keeps the count.  (4) At the completion of a page run the
three counters have grown, together with the number of records that failed `isValid`, by the
number of candidates plus the number of rejected pushes, and `totalJobs` by the number of
records the sink accepted plus the number it rejected.  (5) A page with one candidate whose
push is rejected ends with `totalJobs` and `failed` both one. -/
theorem sink_failure_counted_twice :
    (∀ (host : Host) (rows : List (Anchor × Fate)) (schedule : List Nat) (s : Crawl),
      (processJobsOnPage host rows schedule s).2 ≠ .error .thrown) ∧
    (∀ (host : Host) (s : Crawl) (i : Nat) (t : Task) (id url html : String)
      (jobData : JobData),
      s.tasks[i]? = some t → t.phase = .awaitFetch → t.job.id = some id →
      t.job.url = some url → t.fate.response = some html →
      parse host html id url = .ok jobData → (isValid host t.fate.now jobData).1 = true →
      resume host s i = .ok
        { s with
          reporter := s.reporter.addJob (isValid host t.fate.now jobData).2
          dataset := s.dataset ++ [(isValid host t.fate.now jobData).2]
          tasks := s.tasks.set i { t with phase := .awaitPush } }) ∧
    (∀ (host : Host) (s : Crawl) (i : Nat) (t : Task) (id url : String),
      s.tasks[i]? = some t → t.phase = .awaitPush → t.job.id = some id →
      t.job.url = some url → t.fate.pushOk = false →
      resume host s i = .ok
        { s with
          reporter := s.reporter.addFailed (some url)
          tasks := s.tasks.set i { t with phase := .done (.caught true) } } ∧
      (s.reporter.addFailed (some url)).failed = s.reporter.failed + 1 ∧
      (s.reporter.addFailed (some url)).totalJobs = s.reporter.totalJobs ∧
      (s.reporter.addFailed (some url)).failedUrls =
        (if url = "" then s.reporter.failedUrls else s.reporter.failedUrls ++ [url])) ∧
    (∀ (host : Host) (rows : List (Anchor × Fate)) (schedule : List Nat) (s s2 : Crawl),
      s.tasks = [] → processJobsOnPage host rows schedule s = (s2, .ok ()) →
      s2.reporter.totalJobs + s2.reporter.duplicates + s2.reporter.failed +
          (s2.tasks.countP fun t => t.phase.isDropped) =
        s.reporter.totalJobs + s.reporter.duplicates + s.reporter.failed + rows.length +
          (s2.tasks.countP fun t => t.phase.sinkFailed) ∧
      s2.reporter.totalJobs =
        s.reporter.totalJobs + (s2.tasks.countP fun t => t.phase.isSaved) +
          (s2.tasks.countP fun t => t.phase.sinkFailed)) ∧
    (∃ s2, processJobsOnPage Examples.host Examples.rejectedRow (drain 0 1) Crawl.fresh =
        (s2, .ok ()) ∧
      s2.reporter.totalJobs = 1 ∧ s2.reporter.failed = 1 ∧ s2.reporter.duplicates = 0 ∧
      s2.reporter.failedUrls = ["https://www.profesia.sk/praca/c/O3"] ∧
      s2.reporter.locations = [("Bratislava", .num 1)] ∧
      (s2.tasks.countP fun t => t.phase.isSaved) = 0) := by
  refine ⟨?_, ?_, ?_, ?_, ?_⟩
  · intro host rows schedule s
    unfold processJobsOnPage
    obtain ⟨s2, h2⟩ := runSchedule_ok host schedule (rows.foldl startJob s)
    simp only [h2]
    split <;> simp
  · intro host s i t id url html jobData ht hp hid hurl hresp hparse hvalid
    simp [resume, ht, continueTask, hid, hurl, hp, tryAfterFetch, hresp, hparse, hvalid,
      Except.tryCatch]
  · intro host s i t id url ht hp hid hurl hpush
    refine ⟨?_, rfl, rfl, ?_⟩
    · simp [resume, ht, continueTask, hid, hurl, hp, tryAfterPush, hpush, Except.tryCatch,
        catchBlock]
    · by_cases hu : url = "" <;> simp [Reporter.addFailed, hu]
  · intro host rows schedule s s2 hquiet hrun
    obtain ⟨h1, h2⟩ := processJobsOnPage_ok hrun
    rw [hquiet] at h2
    have hacc : Accounted s s2 :=
      accounted_runSchedule schedule _ s2 (accounted_startAll rows s (accounted_refl s hquiet))
        h1
    have hdone := (settledFrom_zero_iff s2).1 h2
    have hkeys : s2.tasks.map Task.key = rows.map fun row => (jobOf row.1, row.2) := by
      rw [runSchedule_keys host schedule _ s2 h1, startAll_keys, hquiet]
      rfl
    have hlen : s2.tasks.length = rows.length := by
      have := congrArg List.length hkeys
      simpa using this
    have hpaths := countP_paths s2.tasks hdone
    have hrep := countP_reported_done s2.tasks hdone
    rw [hacc.totalJobs, hacc.duplicates, hacc.failed]
    constructor <;> omega
  · refine ⟨_, rfl, ?_⟩
    decide

/-- C27 on a page with one candidate whose push the sink rejects: the candidate is one of one,
and the three counters sum to two. -/
theorem sink_failure_counted_twice_witness :
    (processJobsOnPage Examples.host Examples.rejectedRow (drain 0 1)
            Crawl.fresh).1.reporter.totalJobs +
          (processJobsOnPage Examples.host Examples.rejectedRow (drain 0 1)
            Crawl.fresh).1.reporter.duplicates +
          (processJobsOnPage Examples.host Examples.rejectedRow (drain 0 1)
            Crawl.fresh).1.reporter.failed +
          ((processJobsOnPage Examples.host Examples.rejectedRow (drain 0 1)
            Crawl.fresh).1.tasks.countP fun t => t.phase.isDropped) =
        Crawl.fresh.reporter.totalJobs + Crawl.fresh.reporter.duplicates +
            Crawl.fresh.reporter.failed + Examples.rejectedRow.length +
          ((processJobsOnPage Examples.host Examples.rejectedRow (drain 0 1)
            Crawl.fresh).1.tasks.countP fun t => t.phase.sinkFailed) ∧
      (processJobsOnPage Examples.host Examples.rejectedRow (drain 0 1)
          Crawl.fresh).1.reporter.totalJobs =
        Crawl.fresh.reporter.totalJobs +
            ((processJobsOnPage Examples.host Examples.rejectedRow (drain 0 1)
              Crawl.fresh).1.tasks.countP fun t => t.phase.isSaved) +
          ((processJobsOnPage Examples.host Examples.rejectedRow (drain 0 1)
            Crawl.fresh).1.tasks.countP fun t => t.phase.sinkFailed) :=
  sink_failure_counted_twice.2.2.2.1 Examples.host Examples.rejectedRow (drain 0 1) Crawl.fresh
    (processJobsOnPage Examples.host Examples.rejectedRow (drain 0 1) Crawl.fresh).1 rfl rfl

end ProfesiaAdapter

/-! ## Regular-expression literals: the matcher -/

namespace Pattern

theorem matcher_seq (ignoreCase : Bool) (a b : Term) (x : State) (c : Cont) :
    (Term.seq a b).matcher ignoreCase x c =
      a.matcher ignoreCase x fun y => b.matcher ignoreCase y c :=
  rfl

theorem matcher_capture (ignoreCase : Bool) (n : Nat) (a : Term) (x : State) (c : Cont) :
    (Term.capture n a).matcher ignoreCase x c =
      a.matcher ignoreCase x fun y =>
        c { y with
          captures := (n, x.rest.take (x.rest.length - y.rest.length)) :: y.captures } :=
  rfl

theorem matcher_cls_nil (ignoreCase : Bool) (items : List Item) (caps : List (Nat × List Nat))
    (c : Cont) : (Term.cls items).matcher ignoreCase ⟨[], caps⟩ c = .failure :=
  rfl

theorem matcher_cls_cons (ignoreCase : Bool) (items : List Item) (u : Nat) (rest : List Nat)
    (caps : List (Nat × List Nat)) (c : Cont) :
    (Term.cls items).matcher ignoreCase ⟨u :: rest, caps⟩ c =
      if items.any (fun item => item.has ignoreCase u) = true then c ⟨rest, caps⟩
      else .failure :=
  rfl

theorem matcher_char_nil (ignoreCase : Bool) (a : Char) (caps : List (Nat × List Nat))
    (c : Cont) : (char a).matcher ignoreCase ⟨[], caps⟩ c = .failure :=
  rfl

theorem matcher_char_cons (ignoreCase : Bool) (a : Char) (u : Nat) (rest : List Nat)
    (caps : List (Nat × List Nat)) (c : Cont) :
    (char a).matcher ignoreCase ⟨u :: rest, caps⟩ c =
      if (canonicalize ignoreCase a.toNat == canonicalize ignoreCase u) = true then
        c ⟨rest, caps⟩
      else .failure := by
  unfold char
  rw [matcher_cls_cons]
  simp [Item.has]

/-- A greedy quantifier over a class takes units from the front and gives them back one at a
time: the matcher is `greedy`.  The step bound is never used up. -/
theorem repeatMatcher_cls (ignoreCase : Bool) (items : List Item) (c : Cont)
    (caps : List (Nat × List Nat)) (s : List Nat) :
    ∀ (fuel min : Nat) (max : Option Nat), min + s.length + 1 ≤ fuel →
      repeatMatcher ((Term.cls items).matcher ignoreCase) [] fuel min max ⟨s, caps⟩ c =
        greedy (fun u => items.any fun item => item.has ignoreCase u)
          (fun rest => c ⟨rest, caps⟩) s min max := by
  have hfilter : caps.filter (fun e => !([] : List Nat).contains e.1) = caps := by
    simp
  induction s with
  | nil =>
    intro fuel min max hfuel
    obtain ⟨fuel, rfl⟩ : ∃ f, fuel = f + 1 := ⟨fuel - 1, by omega⟩
    unfold repeatMatcher greedy
    simp only [hfilter, matcher_cls_nil]
  | cons u rest ih =>
    intro fuel min max hfuel
    obtain ⟨fuel, rfl⟩ : ∃ f, fuel = f + 1 := ⟨fuel - 1, by omega⟩
    rw [List.length_cons] at hfuel
    unfold repeatMatcher greedy
    simp only [hfilter, matcher_cls_cons]
    by_cases hmax : max = some 0
    · simp [hmax]
    · rw [if_neg hmax, if_neg hmax]
      by_cases hu : (items.any fun item => item.has ignoreCase u) = true
      · have hih := ih fuel (min - 1) (max.map fun n => n - 1) (by omega)
        by_cases hmin : min = 0
        · subst hmin
          simp only [hu, if_true, ne_eq, not_true_eq_false, if_false, true_and,
            List.length_cons]
          have hne : ¬ rest.length = rest.length + 1 := by omega
          simp only [hne, if_false]
          rw [hih]
        · simp only [hu, if_true, ne_eq, hmin, not_false_eq_true, false_and, if_false]
          rw [hih]
      · by_cases hmin : min = 0
        · simp [hu, hmin]
        · simp [hu, hmin]

theorem matcher_rep_cls (ignoreCase : Bool) (min : Nat) (max : Option Nat) (items : List Item)
    (s : List Nat) (caps : List (Nat × List Nat)) (c : Cont) :
    (Term.rep min max (.cls items)).matcher ignoreCase ⟨s, caps⟩ c =
      greedy (fun u => items.any fun item => item.has ignoreCase u)
        (fun rest => c ⟨rest, caps⟩) s min max :=
  repeatMatcher_cls ignoreCase items c caps s _ min max (Nat.le_refl _)

/-- The quantifier `?` on a non-empty input: the term is tried once, and an attempt that
fails or matches the empty string leaves the input where it was. -/
theorem matcher_optional (ignoreCase : Bool) (a : Term) (x : State) (c : Cont)
    (hrest : x.rest ≠ []) :
    (Term.rep 0 (some 1) a).matcher ignoreCase x c =
      match a.matcher ignoreCase
          { x with captures := x.captures.filter fun e => !a.groups.contains e.1 }
          (fun y => if y.rest.length = x.rest.length then .failure else c y) with
      | .failure => c x
      | z => z := by
  obtain ⟨n, hn⟩ : ∃ n, x.rest.length = n + 1 := by
    cases hx : x.rest with
    | nil => exact absurd hx hrest
    | cons u rest => exact ⟨rest.length, rfl⟩
  show repeatMatcher (a.matcher ignoreCase) a.groups (0 + x.rest.length + 1) 0 (some 1) x c = _
  have hfuel : 0 + x.rest.length + 1 = (n + 1) + 1 := by omega
  rw [hfuel]
  simp only [repeatMatcher]
  simp

/-- When what follows succeeds after the longest run of the class, the quantifier takes that
run. -/
theorem greedy_longest (has : Nat → Bool) (k : List Nat → Result) (run tail : List Nat) :
    ∀ (min : Nat) (max : Option Nat), (∀ u ∈ run, has u = true) →
      ((∀ u, tail.head? = some u → has u = false) ∨ max = some run.length) →
      min ≤ run.length → (∀ n, max = some n → run.length ≤ n) → k tail ≠ .failure →
      greedy has k (run ++ tail) min max = k tail := by
  induction run with
  | nil =>
    intro min max _ hend hmin _ _
    have hmin0 : min = 0 := by simpa using hmin
    subst hmin0
    rcases hend with hend | hend
    · cases tail with
      | nil => simp [greedy]
      | cons u rest =>
        have hu := hend u rfl
        by_cases hmax : max = some 0
        · simp [greedy, hmax]
        · simp [greedy, hmax, hu]
    · have hmax : max = some 0 := hend
      cases tail with
      | nil => simp [greedy]
      | cons u rest => simp [greedy, hmax]
  | cons u run ih =>
    intro min max hall hend hmin hmaxle hk
    have hu : has u = true := hall u (List.mem_cons_self _ _)
    have hmax : max ≠ some 0 := by
      intro h
      have := hmaxle 0 h
      simp at this
    have hih := ih (min - 1) (max.map fun n => n - 1)
      (fun v hv => hall v (List.mem_cons_of_mem _ hv))
      (by
        rcases hend with hend | hend
        · exact Or.inl hend
        · right
          rw [hend]
          simp)
      (by
        rw [List.length_cons] at hmin
        omega)
      (by
        intro n hn
        cases max with
        | none => simp at hn
        | some m =>
          have := hmaxle m rfl
          simp only [Option.map_some', Option.some.injEq] at hn
          rw [List.length_cons] at this
          omega)
      hk
    rw [List.cons_append]
    unfold greedy
    rw [if_neg hmax, if_pos hu]
    by_cases hmin0 : min = 0
    · subst hmin0
      simp only [ne_eq, not_true_eq_false, if_false]
      have hih0 : greedy has k (run ++ tail) 0 (max.map fun n => n - 1) = k tail := hih
      rw [hih0]
      cases hkt : k tail with
      | failure => exact absurd hkt hk
      | stuck => rfl
      | ok y => rfl
    · rw [if_pos hmin0]
      exact hih

/-- What the quantifier returns: it fails, or it is what follows returns after a run of the
class whose length the bounds allow. -/
theorem greedy_cases (has : Nat → Bool) (k : List Nat → Result) (s : List Nat) :
    ∀ (min : Nat) (max : Option Nat), (∀ n, max = some n → min ≤ n) →
      greedy has k s min max = .failure ∨
        ∃ run tail, s = run ++ tail ∧ (∀ u ∈ run, has u = true) ∧ min ≤ run.length ∧
          (∀ n, max = some n → run.length ≤ n) ∧ greedy has k s min max = k tail := by
  induction s with
  | nil =>
    intro min max hbound
    by_cases hmax : max = some 0
    · right
      have hmin : min = 0 := by
        have := hbound 0 hmax
        omega
      exact ⟨[], [], rfl, by simp, by simp [hmin], by simp, by simp [greedy, hmax]⟩
    · by_cases hmin : min = 0
      · right
        exact ⟨[], [], rfl, by simp, by simp [hmin], by simp, by simp [greedy, hmax, hmin]⟩
      · left
        simp [greedy, hmax, hmin]
  | cons u rest ih =>
    intro min max hbound
    by_cases hmax : max = some 0
    · right
      have hmin : min = 0 := by
        have := hbound 0 hmax
        omega
      exact ⟨[], u :: rest, rfl, by simp, by simp [hmin], by simp, by simp [greedy, hmax]⟩
    · have hstay : min = 0 → ∃ run tail, u :: rest = run ++ tail ∧ (∀ v ∈ run, has v = true) ∧
          min ≤ run.length ∧ (∀ n, max = some n → run.length ≤ n) ∧
          k (u :: rest) = k tail :=
        fun hmin => ⟨[], u :: rest, rfl, by simp, by simp [hmin], by simp, rfl⟩
      by_cases hu : has u = true
      · have hbound2 : ∀ n, (max.map fun n => n - 1) = some n → min - 1 ≤ n := by
          intro n hn
          cases max with
          | none => simp at hn
          | some m =>
            have := hbound m rfl
            simp only [Option.map_some', Option.some.injEq] at hn
            omega
        have hgrow : ∀ run tail, rest = run ++ tail → (∀ v ∈ run, has v = true) →
            min - 1 ≤ run.length → (∀ n, (max.map fun n => n - 1) = some n → run.length ≤ n) →
            u :: rest = (u :: run) ++ tail ∧ (∀ v ∈ u :: run, has v = true) ∧
              min ≤ (u :: run).length ∧ (∀ n, max = some n → (u :: run).length ≤ n) := by
          intro run tail hs hall hlen hmaxle
          refine ⟨by rw [hs]; rfl, ?_, by rw [List.length_cons]; omega, ?_⟩
          · intro v hv
            rcases List.mem_cons.1 hv with rfl | hv
            · exact hu
            · exact hall v hv
          · intro n hn
            subst hn
            have hn0 : n ≠ 0 := fun h => hmax (by rw [h])
            have := hmaxle (n - 1) rfl
            rw [List.length_cons]
            omega
        by_cases hmin : min = 0
        · subst hmin
          have hrec := ih 0 (max.map fun n => n - 1) hbound2
          have hunf : greedy has k (u :: rest) 0 max =
              match greedy has k rest 0 (max.map fun n => n - 1) with
              | .failure => k (u :: rest)
              | z => z := by
            rw [greedy]
            simp [hmax, hu]
          rcases hrec with hfail | ⟨run, tail, hs, hall, hlen, hmaxle, hval⟩
          · right
            obtain ⟨run, tail, h1, h2, h3, h4, h5⟩ := hstay rfl
            refine ⟨run, tail, h1, h2, h3, h4, ?_⟩
            rw [hunf, hfail]
            exact h5
          · cases hk : k tail with
            | failure =>
              right
              obtain ⟨run2, tail2, h1, h2, h3, h4, h5⟩ := hstay rfl
              refine ⟨run2, tail2, h1, h2, h3, h4, ?_⟩
              rw [hunf, hval, hk]
              exact h5
            | stuck =>
              right
              obtain ⟨h1, h2, h3, h4⟩ := hgrow run tail hs hall (by omega) hmaxle
              refine ⟨u :: run, tail, h1, h2, h3, h4, ?_⟩
              rw [hunf, hval, hk]
            | ok y =>
              right
              obtain ⟨h1, h2, h3, h4⟩ := hgrow run tail hs hall (by omega) hmaxle
              refine ⟨u :: run, tail, h1, h2, h3, h4, ?_⟩
              rw [hunf, hval, hk]
        · have hunf : greedy has k (u :: rest) min max =
              greedy has k rest (min - 1) (max.map fun n => n - 1) := by
            rw [greedy]
            simp [hmax, hu, hmin]
          rcases ih (min - 1) (max.map fun n => n - 1) hbound2 with
            hfail | ⟨run, tail, hs, hall, hlen, hmaxle, hval⟩
          · left
            rw [hunf, hfail]
          · right
            obtain ⟨h1, h2, h3, h4⟩ := hgrow run tail hs hall hlen hmaxle
            exact ⟨u :: run, tail, h1, h2, h3, h4, by rw [hunf, hval]⟩
      · by_cases hmin : min = 0
        · right
          obtain ⟨run, tail, h1, h2, h3, h4, h5⟩ := hstay hmin
          refine ⟨run, tail, h1, h2, h3, h4, ?_⟩
          rw [← h5, greedy]
          simp [hmax, hu, hmin]
        · left
          rw [greedy]
          simp [hmax, hu, hmin]

/-! ### The search for the first match -/

theorem exec_of_ok (ignoreCase : Bool) (r : Term) (s : List Nat) (y : State)
    (h : r.matcher ignoreCase ⟨s, []⟩ .ok = .ok y) : r.exec ignoreCase s = .ok y := by
  cases s with
  | nil => exact h
  | cons u rest =>
    rw [Term.exec, h]

/-- Indices at which the match fails are passed over. -/
theorem exec_append (ignoreCase : Bool) (r : Term) (before s : List Nat)
    (h : ∀ skipped later, before = skipped ++ later → later ≠ [] →
      r.matcher ignoreCase ⟨later ++ s, []⟩ .ok = .failure) :
    r.exec ignoreCase (before ++ s) = r.exec ignoreCase s := by
  induction before with
  | nil => rfl
  | cons u rest ih =>
    have hhere := h [] (u :: rest) rfl (by simp)
    rw [List.cons_append] at hhere ⊢
    rw [Term.exec, hhere]
    exact ih fun skipped later hsplit hne => h (u :: skipped) later (by rw [hsplit]; rfl) hne

/-- The search fails when the match fails at every index. -/
theorem exec_failure (ignoreCase : Bool) (r : Term) (s : List Nat)
    (h : ∀ before rest, s = before ++ rest → r.matcher ignoreCase ⟨rest, []⟩ .ok = .failure) :
    r.exec ignoreCase s = .failure := by
  have hstep := exec_append ignoreCase r s []
    (fun skipped later hsplit _ => by
      rw [List.append_nil]
      exact h skipped later hsplit)
  rw [List.append_nil] at hstep
  rw [hstep]
  exact h s [] (by simp)

end Pattern

/-! ### Code units and characters -/

namespace Js

theorem toNat_ofNat_of_lt (u : Nat) (h : u < 0xD800) : (Char.ofNat u).toNat = u := by
  have hv : u.isValidChar := Or.inl h
  unfold Char.ofNat
  rw [dif_pos hv]
  unfold Char.ofNatAux Char.toNat
  simp [UInt32.toNat]

theorem charsOfUnits_of_lt (s : List Nat) (h : ∀ u ∈ s, u < 0xD800) :
    charsOfUnits s = s.map Char.ofNat := by
  induction s with
  | nil => rfl
  | cons u rest ih =>
    have hu : u < 0xD800 := h u (List.mem_cons_self _ _)
    have hrest := ih fun v hv => h v (List.mem_cons_of_mem _ hv)
    cases rest with
    | nil => rfl
    | cons v rest2 =>
      unfold charsOfUnits
      have hno : ¬ (0xD800 ≤ u ∧ u < 0xDC00 ∧ 0xDC00 ≤ v ∧ v < 0xE000) := by omega
      rw [if_neg hno, hrest]
      rfl

/-- A string made of units below the surrogates has those units. -/
theorem utf16_ofUnits (s : List Nat) (h : ∀ u ∈ s, u < 0xD800) : utf16 (ofUnits s) = s := by
  unfold ofUnits
  rw [charsOfUnits_of_lt s h]
  induction s with
  | nil => rfl
  | cons u rest ih =>
    have hu : u < 0xD800 := h u (List.mem_cons_self _ _)
    rw [List.map_cons, utf16_mk_cons, ih fun v hv => h v (List.mem_cons_of_mem _ hv)]
    unfold charUnits
    rw [toNat_ofNat_of_lt u hu, if_pos (by omega)]
    rfl

theorem length_ofUnits (s : List Nat) (h : ∀ u ∈ s, u < 0xD800) :
    (ofUnits s).length = s.length := by
  unfold ofUnits
  rw [charsOfUnits_of_lt s h]
  simp [String.length]

/-- A string of characters below the surrogates is the string of its units. -/
theorem ofUnits_map_toNat (cs : List Char) (h : ∀ c ∈ cs, c.toNat < 0xD800) :
    ofUnits (cs.map Char.toNat) = ⟨cs⟩ := by
  unfold ofUnits
  rw [charsOfUnits_of_lt _ (by
    intro u hu
    obtain ⟨c, hc, rfl⟩ := List.mem_map.1 hu
    exact h c hc)]
  rw [List.map_map]
  congr 1
  conv_rhs => rw [← List.map_id cs]
  apply List.map_congr_left
  intro c _
  exact Char.ofNat_toNat c

theorem utf16_of_bmp (cs : List Char) (h : ∀ c ∈ cs, c.toNat < 0x10000) :
    utf16 ⟨cs⟩ = cs.map Char.toNat := by
  induction cs with
  | nil => rfl
  | cons c rest ih =>
    rw [utf16_mk_cons, ih fun d hd => h d (List.mem_cons_of_mem _ hd), List.map_cons]
    unfold charUnits
    rw [if_pos (h c (List.mem_cons_self _ _))]
    rfl

theorem isDigitUnit_lt (u : Nat) (h : isDigitUnit u = true) : u < 0xD800 := by
  unfold isDigitUnit at h
  simp only [Bool.and_eq_true, decide_eq_true_eq] at h
  omega

end Js

/-! ### The posting date -/

namespace Pattern

theorem take_length_sub (run tail : List Nat) :
    (run ++ tail).take ((run ++ tail).length - tail.length) = run := by
  rw [List.length_append, Nat.add_sub_cancel]
  exact List.take_left' rfl

/-- A captured run of a class, when what follows succeeds after the longest run. -/
theorem matcher_capture_run (ignoreCase : Bool) (n min : Nat) (max : Option Nat)
    (items : List Item) (run tail : List Nat) (caps : List (Nat × List Nat)) (c : Cont)
    (hall : ∀ u ∈ run, (items.any fun item => item.has ignoreCase u) = true)
    (hend : (∀ u, tail.head? = some u → (items.any fun item => item.has ignoreCase u) = false) ∨
      max = some run.length)
    (hmin : min ≤ run.length) (hmax : ∀ k, max = some k → run.length ≤ k)
    (hc : c ⟨tail, (n, run) :: caps⟩ ≠ .failure) :
    (Term.capture n (.rep min max (.cls items))).matcher ignoreCase ⟨run ++ tail, caps⟩ c =
      c ⟨tail, (n, run) :: caps⟩ := by
  rw [matcher_capture, matcher_rep_cls]
  have hk : (fun rest : List Nat =>
      c { (⟨rest, caps⟩ : State) with
        captures := (n, (State.mk (run ++ tail) caps).rest.take
          ((State.mk (run ++ tail) caps).rest.length - (State.mk rest caps).rest.length)) ::
            (State.mk rest caps).captures }) tail = c ⟨tail, (n, run) :: caps⟩ := by
    show c ⟨tail, (n, (run ++ tail).take ((run ++ tail).length - tail.length)) :: caps⟩ = _
    rw [take_length_sub]
  exact (greedy_longest _ _ run tail min max hall hend hmin hmax
    fun hne => hc (hk.symm.trans hne)).trans hk

/-- A run of a class that is not captured, when what follows succeeds after the longest
run. -/
theorem matcher_run (ignoreCase : Bool) (min : Nat) (max : Option Nat)
    (items : List Item) (run tail : List Nat) (caps : List (Nat × List Nat)) (c : Cont)
    (hall : ∀ u ∈ run, (items.any fun item => item.has ignoreCase u) = true)
    (hend : (∀ u, tail.head? = some u → (items.any fun item => item.has ignoreCase u) = false) ∨
      max = some run.length)
    (hmin : min ≤ run.length) (hmax : ∀ k, max = some k → run.length ≤ k)
    (hc : c ⟨tail, caps⟩ ≠ .failure) :
    (Term.rep min max (.cls items)).matcher ignoreCase ⟨run ++ tail, caps⟩ c =
      c ⟨tail, caps⟩ := by
  rw [matcher_rep_cls]
  exact greedy_longest _ _ run tail min max hall hend hmin hmax hc

/-- What a captured quantifier over a class returns. -/
theorem matcher_capture_cases (ignoreCase : Bool) (n min : Nat) (max : Option Nat)
    (items : List Item) (s : List Nat) (caps : List (Nat × List Nat)) (c : Cont)
    (hbound : ∀ k, max = some k → min ≤ k) :
    (Term.capture n (.rep min max (.cls items))).matcher ignoreCase ⟨s, caps⟩ c = .failure ∨
      ∃ run tail, s = run ++ tail ∧
        (∀ u ∈ run, (items.any fun item => item.has ignoreCase u) = true) ∧
        min ≤ run.length ∧ (∀ k, max = some k → run.length ≤ k) ∧
        (Term.capture n (.rep min max (.cls items))).matcher ignoreCase ⟨s, caps⟩ c =
          c ⟨tail, (n, run) :: caps⟩ := by
  rw [matcher_capture, matcher_rep_cls]
  rcases greedy_cases (fun u => items.any fun item => item.has ignoreCase u)
      (fun rest : List Nat =>
        c { (⟨rest, caps⟩ : State) with
          captures := (n, (State.mk s caps).rest.take
            ((State.mk s caps).rest.length - (State.mk rest caps).rest.length)) ::
              (State.mk rest caps).captures }) s min max hbound with
    hfail | ⟨run, tail, hs, hall, hmin, hmax, hval⟩
  · exact Or.inl hfail
  · right
    refine ⟨run, tail, hs, hall, hmin, hmax, ?_⟩
    rw [hval]
    show c ⟨tail, (n, s.take (s.length - tail.length)) :: caps⟩ = _
    rw [hs, take_length_sub]

/-- What a pattern character followed by a term returns. -/
theorem matcher_char_cases (ignoreCase : Bool) (a : Char) (r : Term) (s : List Nat)
    (caps : List (Nat × List Nat)) (c : Cont) :
    (Term.seq (char a) r).matcher ignoreCase ⟨s, caps⟩ c = .failure ∨
      ∃ u t, s = u :: t ∧ canonicalize ignoreCase a.toNat = canonicalize ignoreCase u ∧
        (Term.seq (char a) r).matcher ignoreCase ⟨s, caps⟩ c =
          r.matcher ignoreCase ⟨t, caps⟩ c := by
  cases s with
  | nil => exact Or.inl rfl
  | cons u t =>
    rw [matcher_seq, matcher_char_cons]
    by_cases hu : (canonicalize ignoreCase a.toNat == canonicalize ignoreCase u) = true
    · right
      exact ⟨u, t, rfl, by simpa using hu, by rw [if_pos hu]⟩
    · left
      rw [if_neg hu]

end Pattern

namespace ProfesiaParser

open Pattern

theorem any_digit (u : Nat) :
    ([Item.digit].any fun item => item.has false u) = Js.isDigitUnit u := by
  simp [Item.has]

/-- A date at the front of the input is what the expression matches there. -/
theorem dateExpression_front (s d m y : List Nat) (h : DateAtFront s d m y) :
    ∃ rest, s = d ++ 46 :: (m ++ 46 :: (y ++ rest)) ∧
      dateExpression.matcher false ⟨s, []⟩ .ok = .ok ⟨rest, [(3, y), (2, m), (1, d)]⟩ := by
  obtain ⟨hd, hm, hy, hdl, hml, hyl, rest, hs⟩ := h
  refine ⟨rest, by rw [← hs]; simp, ?_⟩
  have hs2 : s = d ++ (46 :: (m ++ (46 :: (y ++ rest)))) := by rw [← hs]; simp
  have hstop : ∀ (t : List Nat) (u : Nat), (46 :: t).head? = some u →
      ([Item.digit].any fun item => item.has false u) = false := by
    intro t u hu
    simp only [List.head?_cons, Option.some.injEq] at hu
    subst hu
    rw [any_digit]
    decide
  have h3 : ∀ caps, (Term.capture 3 (.rep 4 (some 4) (.cls [.digit]))).matcher false
      ⟨y ++ rest, caps⟩ .ok = .ok ⟨rest, (3, y) :: caps⟩ := fun caps =>
    matcher_capture_run false 3 4 (some 4) [.digit] y rest caps .ok
      (fun u hu => by rw [any_digit]; exact hy u hu) (Or.inr (by rw [hyl]))
      (by omega) (fun k hk => by simp only [Option.some.injEq] at hk; omega)
      (fun hne => by cases hne)
  have h2 : ∀ caps, (Term.seq (.capture 2 (.rep 1 (some 2) (.cls [.digit])))
        (.seq (char '.') (.capture 3 (.rep 4 (some 4) (.cls [.digit]))))).matcher false
      ⟨m ++ 46 :: (y ++ rest), caps⟩ .ok = .ok ⟨rest, (3, y) :: (2, m) :: caps⟩ := by
    intro caps
    have hafter : (fun x : State =>
        (Term.seq (char '.') (.capture 3 (.rep 4 (some 4) (.cls [.digit])))).matcher false x
          .ok) ⟨46 :: (y ++ rest), (2, m) :: caps⟩ = .ok ⟨rest, (3, y) :: (2, m) :: caps⟩ := by
      show (Term.seq (char '.') (.capture 3 (.rep 4 (some 4) (.cls [.digit])))).matcher false
        ⟨46 :: (y ++ rest), (2, m) :: caps⟩ .ok = _
      rw [matcher_seq, matcher_char_cons, if_pos (by decide)]
      exact h3 _
    rw [matcher_seq, matcher_capture_run false 2 1 (some 2) [.digit] m (46 :: (y ++ rest)) caps _
      (fun u hu => by rw [any_digit]; exact hm u hu) (Or.inl (hstop _))
      (by omega) (fun k hk => by simp only [Option.some.injEq] at hk; omega)
      (fun hne => by cases hafter.symm.trans hne)]
    exact hafter
  have hafter : (fun x : State =>
      (Term.seq (char '.') (.seq (.capture 2 (.rep 1 (some 2) (.cls [.digit])))
        (.seq (char '.') (.capture 3 (.rep 4 (some 4) (.cls [.digit])))))).matcher false x
          .ok) ⟨46 :: (m ++ 46 :: (y ++ rest)), [(1, d)]⟩ =
        .ok ⟨rest, [(3, y), (2, m), (1, d)]⟩ := by
    show (Term.seq (char '.') (.seq (.capture 2 (.rep 1 (some 2) (.cls [.digit])))
        (.seq (char '.') (.capture 3 (.rep 4 (some 4) (.cls [.digit])))))).matcher false
      ⟨46 :: (m ++ 46 :: (y ++ rest)), [(1, d)]⟩ .ok = _
    rw [matcher_seq, matcher_char_cons, if_pos (by decide)]
    exact h2 _
  rw [hs2]
  unfold dateExpression
  rw [matcher_seq, matcher_capture_run false 1 1 (some 2) [.digit] d
    (46 :: (m ++ 46 :: (y ++ rest))) [] _
    (fun u hu => by rw [any_digit]; exact hd u hu) (Or.inl (hstop _))
    (by omega) (fun k hk => by simp only [Option.some.injEq] at hk; omega)
    (fun hne => by cases hafter.symm.trans hne)]
  exact hafter

/-- Where the expression matches at the front of the input, a date is written there. -/
theorem dateExpression_sound (s : List Nat) :
    dateExpression.matcher false ⟨s, []⟩ .ok = .failure ∨ ∃ d m y, DateAtFront s d m y := by
  unfold dateExpression
  rw [matcher_seq]
  rcases matcher_capture_cases false 1 1 (some 2) [.digit] s [] _
      (fun k hk => by simp only [Option.some.injEq] at hk; omega) with
    hfail | ⟨d, t1, hs1, hd, hdmin, hdmax, hval1⟩
  · exact Or.inl hfail
  rw [hval1]
  rcases matcher_char_cases false '.' _ t1 [(1, d)] .ok with
    hfail | ⟨u1, t2, ht1, hu1, hval2⟩
  · exact Or.inl hfail
  rw [hval2, matcher_seq]
  rcases matcher_capture_cases false 2 1 (some 2) [.digit] t2 [(1, d)] _
      (fun k hk => by simp only [Option.some.injEq] at hk; omega) with
    hfail | ⟨m, t3, hs3, hm, hmmin, hmmax, hval3⟩
  · exact Or.inl hfail
  rw [hval3]
  rcases matcher_char_cases false '.' _ t3 [(2, m), (1, d)] .ok with
    hfail | ⟨u2, t4, ht3, hu2, hval4⟩
  · exact Or.inl hfail
  rw [hval4]
  rcases matcher_capture_cases false 3 4 (some 4) [.digit] t4 [(2, m), (1, d)] .ok
      (fun k hk => by simp only [Option.some.injEq] at hk; omega) with
    hfail | ⟨y, t5, hs5, hy, hymin, hymax, _⟩
  · exact Or.inl hfail
  right
  have h1 : u1 = 46 := by
    have : (46 : Nat) = u1 := by simpa [canonicalize] using hu1
    exact this.symm
  have h2 : u2 = 46 := by
    have : (46 : Nat) = u2 := by simpa [canonicalize] using hu2
    exact this.symm
  have hdmax2 := hdmax 2 rfl
  have hmmax2 := hmmax 2 rfl
  have hymax2 := hymax 4 rfl
  refine ⟨d, m, y, fun u hu => by rw [← any_digit]; exact hd u hu,
    fun u hu => by rw [← any_digit]; exact hm u hu,
    fun u hu => by rw [← any_digit]; exact hy u hu, by omega, by omega, by omega, t5, ?_⟩
  rw [hs1, ht1, h1, hs3, ht3, h2, hs5]
  simp

/-- The search of the expression in a text whose first date is `d.m.y`. -/
theorem exec_firstDate (s before d m y : List Nat) (h : FirstDate s before d m y) :
    ∃ rest, dateExpression.exec false s = .ok ⟨rest, [(3, y), (2, m), (1, d)]⟩ := by
  obtain ⟨tail, hs, hfront, hfirst⟩ := h
  obtain ⟨rest, _, hmatch⟩ := dateExpression_front tail d m y hfront
  refine ⟨rest, ?_⟩
  rw [hs, exec_append false dateExpression before tail, exec_of_ok false _ _ _ hmatch]
  intro skipped later hsplit hne
  rcases dateExpression_sound (later ++ tail) with hfail | ⟨d2, m2, y2, hdate⟩
  · exact hfail
  · exact absurd hdate (hfirst skipped later d2 m2 y2 hsplit hne)

/-- The search of the expression in a text without a date. -/
theorem exec_noDate (s : List Nat) (h : NoDate s) : dateExpression.exec false s = .failure := by
  apply exec_failure
  intro before rest hsplit
  rcases dateExpression_sound rest with hfail | ⟨d, m, y, hdate⟩
  · exact hfail
  · exact absurd hdate (h before rest d m y hsplit)

theorem padStart_digits (s : List Nat) (h : ∀ u ∈ s, Js.isDigitUnit u = true) :
    ∀ u ∈ Js.padStart 2 48 s, Js.isDigitUnit u = true := by
  intro u hu
  unfold Js.padStart at hu
  rcases List.mem_append.1 hu with hu | hu
  · rw [List.eq_of_mem_replicate hu]
    decide
  · exact h u hu

theorem length_padStart (s : List Nat) (h : s.length = 1 ∨ s.length = 2) :
    (Js.padStart 2 48 s).length = 2 := by
  unfold Js.padStart
  rw [List.length_append, List.length_replicate]
  omega

/-- C22. Posted-date parsing.  The text is the sequence of code units of the trimmed text the
parser reads.  (1) When its first date is `d.m.y`, a day and a month of one or two digits and
a year of four, `postedAt` is the string of `y`, a hyphen, the month padded with `0` to two
digits, a hyphen and the day padded in the same way, ten characters in all.  (2) When no date
is written in the text, `postedAt` is `null`.  (3) With no text, `postedAt` is `null`. -/
theorem posted_date (text : String) :
    (∀ before d m y, FirstDate (Js.utf16 (Js.trim text)) before d m y →
      postedAt text = .ok (.str (isoDate d m y)) ∧
      Js.utf16 (isoDate d m y) = y ++ [45] ++ Js.padStart 2 48 m ++ [45] ++ Js.padStart 2 48 d ∧
      (Js.padStart 2 48 m).length = 2 ∧ (Js.padStart 2 48 d).length = 2 ∧
      (m.length = 2 → Js.padStart 2 48 m = m) ∧ (m.length = 1 → Js.padStart 2 48 m = 48 :: m) ∧
      (d.length = 2 → Js.padStart 2 48 d = d) ∧ (d.length = 1 → Js.padStart 2 48 d = 48 :: d) ∧
      (isoDate d m y).length = 10 ∧ (Js.utf16 (isoDate d m y)).length = 10) ∧
    (NoDate (Js.utf16 (Js.trim text)) → postedAt text = .ok .null) ∧
    (Js.trim text = "" → postedAt text = .ok .null) := by
  refine ⟨?_, ?_, ?_⟩
  · intro before d m y hfirst
    obtain ⟨rest, hexec⟩ := exec_firstDate _ before d m y hfirst
    obtain ⟨tail, hs, ⟨hd, hm, hy, hdl, hml, hyl, hpre⟩, _⟩ := hfirst
    have hne : Js.trim text ≠ "" := by
      intro hempty
      rw [hempty] at hs
      obtain ⟨post, hpost⟩ := hpre
      have hlen := congrArg List.length hs
      rw [← hpost] at hlen
      simp [Js.utf16] at hlen
      omega
    have hunits : ∀ u ∈ y ++ [45] ++ Js.padStart 2 48 m ++ [45] ++ Js.padStart 2 48 d,
        u < 0xD800 := by
      intro u hu
      simp only [List.mem_append, List.mem_singleton] at hu
      rcases hu with (((hu | hu) | hu) | hu) | hu
      · exact Js.isDigitUnit_lt u (hy u hu)
      · omega
      · exact Js.isDigitUnit_lt u (padStart_digits m hm u hu)
      · omega
      · exact Js.isDigitUnit_lt u (padStart_digits d hd u hu)
    have hlen : (y ++ [45] ++ Js.padStart 2 48 m ++ [45] ++ Js.padStart 2 48 d).length = 10 := by
      simp only [List.length_append, List.length_singleton, length_padStart m hml,
        length_padStart d hdl, hyl]
    refine ⟨?_, Js.utf16_ofUnits _ hunits, length_padStart m hml, length_padStart d hdl, ?_, ?_,
      ?_, ?_, ?_, ?_⟩
    · unfold postedAt
      simp only [hne, if_false, hexec, State.group]
      rfl
    · intro h
      simp [Js.padStart, h]
    · intro h
      simp [Js.padStart, h]
    · intro h
      simp [Js.padStart, h]
    · intro h
      simp [Js.padStart, h]
    · unfold isoDate
      rw [Js.length_ofUnits _ hunits, hlen]
    · unfold isoDate
      rw [Js.utf16_ofUnits _ hunits, hlen]
  · intro hno
    unfold postedAt
    by_cases hempty : Js.trim text = ""
    · simp [hempty]
    · simp only [hempty, if_false, exec_noDate _ hno]
  · intro hempty
    unfold postedAt
    simp [hempty]

/-- C22 on the text `1.7.2025`, which gives `2025-07-01`. -/
theorem posted_date_witness :
    postedAt "1.7.2025" = .ok (.str "2025-07-01") :=
  ((posted_date "1.7.2025").1 [] [49] [55] [50, 48, 50, 53]
    ⟨[49, 46, 55, 46, 50, 48, 50, 53], by decide,
      ⟨by decide, by decide, by decide, by decide, by decide, by decide, [], by decide⟩,
      fun skipped later _ _ _ hsplit hne =>
        absurd (List.append_eq_nil.1 hsplit.symm).2 hne⟩).1

end ProfesiaParser

/-! ### The salary -/

namespace Pattern

/-- A quantifier without a lower bound stops before a unit outside the class. -/
theorem matcher_rep_stop (ignoreCase : Bool) (max : Option Nat) (items : List Item) (u : Nat)
    (rest : List Nat) (caps : List (Nat × List Nat)) (c : Cont)
    (hu : (items.any fun item => item.has ignoreCase u) = false) :
    (Term.rep 0 max (.cls items)).matcher ignoreCase ⟨u :: rest, caps⟩ c =
      c ⟨u :: rest, caps⟩ := by
  rw [matcher_rep_cls, greedy]
  by_cases hmax : max = some 0
  · simp [hmax]
  · simp [hmax, hu]

theorem frontIs_append (ignoreCase : Bool) (w rest : List Nat) :
    frontIs ignoreCase w (w ++ rest) = true := by
  induction w with
  | nil => rfl
  | cons a w ih =>
    rw [List.cons_append, frontIs, ih]
    simp

/-- The matcher of a word compares the front of the input with the word. -/
theorem matcher_word (ignoreCase : Bool) (w : List Char) :
    ∀ (a : Char) (s : List Nat) (caps : List (Nat × List Nat)) (c : Cont),
      (word a w).matcher ignoreCase ⟨s, caps⟩ c =
        if frontIs ignoreCase ((a :: w).map Char.toNat) s = true then
          c ⟨s.drop (w.length + 1), caps⟩
        else .failure := by
  induction w with
  | nil =>
    intro a s caps c
    cases s with
    | nil => rfl
    | cons u rest =>
      show (char a).matcher ignoreCase ⟨u :: rest, caps⟩ c = _
      rw [matcher_char_cons]
      simp [frontIs]
  | cons b w ih =>
    intro a s caps c
    cases s with
    | nil => rfl
    | cons u rest =>
      show (Term.seq (char a) (word b w)).matcher ignoreCase ⟨u :: rest, caps⟩ c = _
      rw [matcher_seq, matcher_char_cons, ih]
      by_cases hu : (canonicalize ignoreCase a.toNat == canonicalize ignoreCase u) = true
      · simp [frontIs, hu]
      · simp [frontIs, hu]

/-- The search of a word succeeds when the word is written somewhere in the input. -/
theorem exec_word_found (ignoreCase : Bool) (a : Char) (w : List Char) (before rest : List Nat)
    (h : frontIs ignoreCase ((a :: w).map Char.toNat) rest = true) :
    ∃ y, (word a w).exec ignoreCase (before ++ rest) = .ok y := by
  have hhere : ∀ s, frontIs ignoreCase ((a :: w).map Char.toNat) s = true →
      ∃ y, (word a w).exec ignoreCase s = .ok y := by
    intro s hs
    refine ⟨⟨s.drop (w.length + 1), []⟩, exec_of_ok ignoreCase _ s _ ?_⟩
    rw [matcher_word, if_pos hs]
  induction before with
  | nil => exact hhere rest h
  | cons u tail ih =>
    by_cases hu : frontIs ignoreCase ((a :: w).map Char.toNat) (u :: tail ++ rest) = true
    · exact hhere _ hu
    · obtain ⟨y, hy⟩ := ih
      refine ⟨y, ?_⟩
      rw [List.cons_append, Term.exec, matcher_word, if_neg (by simpa using hu)]
      exact hy

/-- The search of a word fails when the word is written nowhere in the input. -/
theorem exec_word_absent (ignoreCase : Bool) (a : Char) (w : List Char) (s : List Nat)
    (h : ∀ before rest, s = before ++ rest →
      frontIs ignoreCase ((a :: w).map Char.toNat) rest = false) :
    (word a w).exec ignoreCase s = .failure := by
  apply exec_failure
  intro before rest hsplit
  rw [matcher_word, h before rest hsplit]
  rfl

end Pattern

namespace ProfesiaParser

open Pattern

theorem dohodou_eq_word : dohodou = word 'd' ['o', 'h', 'o', 'd', 'o', 'u'] :=
  rfl

theorem any_digitOrSpace (u : Nat) :
    ([Item.digit, Item.space].any fun item => item.has true u) =
      (Js.isDigitUnit u || Js.isSpaceUnit u) := by
  simp [Item.has]

theorem any_space (u : Nat) :
    ([Item.space].any fun item => item.has true u) = Js.isSpaceUnit u := by
  simp [Item.has]

/-- With the flag `i` the class `[a-z]` holds the ASCII letters of both cases. -/
theorem any_letter (u : Nat) (h : (65 ≤ u ∧ u ≤ 90) ∨ (97 ≤ u ∧ u ≤ 122)) :
    ([Item.range 97 122].any fun item => item.has true u) = true := by
  simp only [List.any_cons, List.any_nil, Bool.or_false, Item.has, List.any_eq_true,
    List.mem_range, beq_iff_eq]
  rcases h with h | h
  · refine ⟨u - 65, by omega, ?_⟩
    unfold canonicalize
    simp only [Bool.true_and]
    rw [if_pos (by simp; omega), if_neg (by simp; omega)]
    omega
  · refine ⟨u - 97, by omega, ?_⟩
    unfold canonicalize
    simp only [Bool.true_and]
    rw [if_pos (by simp; omega), if_pos (by simp; omega)]
    omega

theorem isSpaceUnit_of_digit (u : Nat) (h : Js.isDigitUnit u = true) :
    Js.isSpaceUnit u = false := by
  unfold Js.isDigitUnit at h
  simp only [Bool.and_eq_true, decide_eq_true_eq] at h
  unfold Js.isSpaceUnit
  simp only [Bool.or_eq_false_iff, Bool.and_eq_false_iff, decide_eq_false_iff_not]
  omega

/-- The code units of an amount. -/
theorem amount_units (a : String) (h : IsAmount a) :
    Js.utf16 a = a.data.map Char.toNat ∧ a.data.map Char.toNat ≠ [] ∧
      (∀ u ∈ a.data.map Char.toNat,
        ([Item.digit, Item.space].any fun item => item.has true u) = true) ∧
      (∀ u, (a.data.map Char.toNat).head? = some u → Js.isSpaceUnit u = false) ∧
      (∀ u ∈ a.data.map Char.toNat, u ≠ 100 ∧ u ≠ 68) := by
  obtain ⟨hhead, hne, hall⟩ := h
  have hkind : ∀ c ∈ a.data, Js.isDigitUnit c.toNat = true ∨ c.toNat = 32 := by
    intro c hc
    rcases hall c hc with hd | hs
    · left
      unfold Js.isDigitUnit
      simp only [Bool.and_eq_true, decide_eq_true_eq]
      exact hd
    · right
      rw [hs]
      rfl
  refine ⟨Js.utf16_of_bmp a.data ?_, by simpa using hne, ?_, ?_, ?_⟩
  · intro c hc
    rcases hkind c hc with hd | hs
    · have := Js.isDigitUnit_lt _ hd
      omega
    · omega
  · intro u hu
    obtain ⟨c, hc, rfl⟩ := List.mem_map.1 hu
    rw [any_digitOrSpace]
    rcases hkind c hc with hd | hs
    · rw [hd]
      rfl
    · rw [hs]
      rfl
  · intro u hu
    cases hdata : a.data with
    | nil => exact absurd hdata hne
    | cons c rest =>
      rw [hdata] at hu hhead
      simp only [List.map_cons, List.head?_cons, Option.some.injEq] at hu
      subst hu
      have hd : IsDigit c := hhead c (by simp)
      apply isSpaceUnit_of_digit
      unfold Js.isDigitUnit
      simp only [Bool.and_eq_true, decide_eq_true_eq]
      exact hd
  · intro u hu
    obtain ⟨c, hc, rfl⟩ := List.mem_map.1 hu
    rcases hkind c hc with hd | hs
    · unfold Js.isDigitUnit at hd
      simp only [Bool.and_eq_true, decide_eq_true_eq] at hd
      omega
    · omega

/-- The code units of a period. -/
theorem period_units (p : String) (h : IsPeriod p) :
    Js.utf16 p = p.data.map Char.toNat ∧ p.data.map Char.toNat ≠ [] ∧
      (∀ u ∈ p.data.map Char.toNat,
        ([Item.range 97 122].any fun item => item.has true u) = true) ∧
      Js.ofUnits (p.data.map Char.toNat) = p := by
  obtain ⟨hne, hall⟩ := h
  refine ⟨Js.utf16_of_bmp p.data ?_, by simpa using hne, ?_, Js.ofUnits_map_toNat p.data ?_⟩
  · intro c hc
    rcases hall c hc with hl | hl <;> omega
  · intro u hu
    obtain ⟨c, hc, rfl⟩ := List.mem_map.1 hu
    exact any_letter _ (hall c hc)
  · intro c hc
    rcases hall c hc with hl | hl <;> omega

/-- The number read from the capture of an amount, which ends with the space after it. -/
theorem amount_written (a : String) (h : IsAmount a) (hsmall : written a < 2 ^ 53) :
    amount (a.data.map Char.toNat ++ [32]) = .ok (.num (written a)) := by
  obtain ⟨_, _, hall⟩ := h
  have hfold : ∀ (cs : List Char) (acc : Nat), (∀ c ∈ cs, IsDigit c ∨ c = ' ') →
      List.foldl
          (fun acc u => if Js.isDigitUnit u then acc.map (fun n => 10 * n + (u - 48)) else none)
          (some acc) (Js.removeSpace (cs.map Char.toNat ++ [32])) =
        some (cs.foldl
          (fun n c => if 48 ≤ c.toNat ∧ c.toNat ≤ 57 then 10 * n + (c.toNat - 48) else n)
          acc) := by
    intro cs
    induction cs with
    | nil =>
      intro acc _
      rfl
    | cons c rest ih =>
      intro acc hcs
      have hrest := ih
      rcases hcs c (List.mem_cons_self _ _) with hd | hs
      · have hdu : Js.isDigitUnit c.toNat = true := by
          unfold Js.isDigitUnit
          simp only [Bool.and_eq_true, decide_eq_true_eq]
          exact hd
        have hkeep : Js.removeSpace ((c :: rest).map Char.toNat ++ [32]) =
            c.toNat :: Js.removeSpace (rest.map Char.toNat ++ [32]) := by
          unfold Js.removeSpace
          rw [List.map_cons, List.cons_append, List.filter_cons,
            isSpaceUnit_of_digit _ hdu]
          rfl
        have hd2 : 48 ≤ c.toNat ∧ c.toNat ≤ 57 := hd
        rw [hkeep, List.foldl_cons, List.foldl_cons, if_pos hdu, if_pos hd2, Option.map_some']
        exact hrest _ fun x hx => hcs x (List.mem_cons_of_mem _ hx)
      · subst hs
        have hdrop : Js.removeSpace ((' ' :: rest).map Char.toNat ++ [32]) =
            Js.removeSpace (rest.map Char.toNat ++ [32]) := by
          unfold Js.removeSpace
          rw [List.map_cons, List.cons_append, List.filter_cons]
          rfl
        rw [hdrop, List.foldl_cons, if_neg (by decide)]
        exact hrest _ fun x hx => hcs x (List.mem_cons_of_mem _ hx)
  unfold amount Js.digitsValue
  rw [hfold a.data 0 hall]
  show (match Js.toDouble (written a) with
    | none => Except.error ParserError.outsideModel
    | some v => Except.ok (JsVal.num v)) = _
  unfold Js.toDouble
  rw [if_pos hsmall]

end ProfesiaParser

namespace ProfesiaParser

open Pattern

theorem any_digitOrSpace_eur (u : Nat) (h : u = 69 ∨ u = 8211) :
    ([Item.digit, Item.space].any fun item => item.has true u) = false := by
  rcases h with rfl | rfl <;> decide

/-- The part of the expression after the amounts, on `EUR/` and a period. -/
theorem currencyAndPeriod_matches (period : List Nat) (caps : List (Nat × List Nat))
    (hne : period ≠ [])
    (hall : ∀ u ∈ period, ([Item.range 97 122].any fun item => item.has true u) = true) :
    currencyAndPeriod.matcher true ⟨69 :: 85 :: 82 :: 47 :: period, caps⟩ .ok =
      .ok ⟨[], (4, period) :: (3, [69, 85, 82]) :: caps⟩ := by
  have h4 : ∀ caps2, (Term.capture 4 (.rep 1 none (.cls [.range 97 122]))).matcher true
      ⟨period, caps2⟩ .ok = .ok ⟨[], (4, period) :: caps2⟩ := by
    intro caps2
    have h := matcher_capture_run true 4 1 none [.range 97 122] period [] caps2 .ok hall
      (Or.inl fun u hu => by simp at hu)
      (by
        cases period with
        | nil => exact absurd rfl hne
        | cons u rest => simp)
      (fun k hk => by simp at hk) (fun h => by cases h)
    rwa [List.append_nil] at h
  have hE : (canonicalize true 'E'.toNat == canonicalize true 69) = true := by decide
  have hU : (canonicalize true 'U'.toNat == canonicalize true 85) = true := by decide
  have hR : (canonicalize true 'R'.toNat == canonicalize true 82) = true := by decide
  have hslash : (canonicalize true '/'.toNat == canonicalize true 47) = true := by decide
  have htake : List.take ((69 :: 85 :: 82 :: 47 :: period).length - (47 :: period).length)
      (69 :: 85 :: 82 :: 47 :: period) = [69, 85, 82] :=
    take_length_sub [69, 85, 82] (47 :: period)
  unfold currencyAndPeriod
  rw [matcher_seq, matcher_rep_stop true none [.space] 69 _ caps _ (by decide)]
  simp only [matcher_seq, matcher_capture, matcher_char_cons, hE, hU, hR, hslash, if_true,
    htake]
  exact h4 _

/-- The part of the expression for the upper amount, on a dash between spaces and an
amount. -/
theorem dashAndAmount_matches (upper later : List Nat) (caps : List (Nat × List Nat))
    (d : Cont) (hne : upper ≠ [])
    (hall : ∀ u ∈ upper, ([Item.digit, Item.space].any fun item => item.has true u) = true)
    (hhead : ∀ u, upper.head? = some u → Js.isSpaceUnit u = false)
    (hd : d ⟨69 :: later, (2, upper ++ [32]) :: caps⟩ ≠ .failure) :
    dashAndAmount.matcher true ⟨8211 :: 32 :: (upper ++ 32 :: 69 :: later), caps⟩ d =
      d ⟨69 :: later, (2, upper ++ [32]) :: caps⟩ := by
  have hsplit : upper ++ 32 :: 69 :: later = (upper ++ [32]) ++ 69 :: later := by simp
  have h2 : (Term.capture 2 (.rep 1 none digitOrSpace)).matcher true
      ⟨upper ++ 32 :: 69 :: later, caps⟩ d = d ⟨69 :: later, (2, upper ++ [32]) :: caps⟩ := by
    rw [hsplit]
    exact matcher_capture_run true 2 1 none [.digit, .space] (upper ++ [32]) (69 :: later) caps d
      (fun u hu => by
        rcases List.mem_append.1 hu with hu | hu
        · exact hall u hu
        · rw [List.mem_singleton.1 hu]
          decide)
      (Or.inl fun u hu => by
        simp only [List.head?_cons, Option.some.injEq] at hu
        subst hu
        decide)
      (by simp) (fun k hk => by simp at hk) hd
  have hspaces : (Term.rep 0 none (.cls [.space])).matcher true
      ⟨[32] ++ (upper ++ 32 :: 69 :: later), caps⟩
      (fun y => (Term.capture 2 (.rep 1 none digitOrSpace)).matcher true y d) =
        d ⟨69 :: later, (2, upper ++ [32]) :: caps⟩ := by
    rw [matcher_run true 0 none [.space] [32] (upper ++ 32 :: 69 :: later) caps _
      (fun u hu => by
        rw [List.mem_singleton.1 hu]
        decide)
      (Or.inl fun u hu => by
        rw [any_space]
        apply hhead
        cases upper with
        | nil => exact absurd rfl hne
        | cons v rest => exact hu)
      (by simp) (fun k hk => by simp at hk) (fun hfail => hd (h2.symm.trans hfail))]
    exact h2
  have hdash : (canonicalize true '–'.toNat == canonicalize true 8211) = true := by decide
  unfold dashAndAmount
  rw [matcher_seq, matcher_rep_stop true none [.space] 8211 _ caps _ (by decide), matcher_seq,
    matcher_char_cons, if_pos hdash, matcher_seq]
  exact hspaces

/-- On a text of the form `A – B EUR/p` the salary expression matches at the start, and its
captures are `A` and `B`, each with the space after it, `EUR` and `p`. -/
theorem salaryExpression_range (lower upper period : List Nat)
    (hlower : ∀ u ∈ lower, ([Item.digit, Item.space].any fun item => item.has true u) = true)
    (hupperNe : upper ≠ [])
    (hupper : ∀ u ∈ upper, ([Item.digit, Item.space].any fun item => item.has true u) = true)
    (hhead : ∀ u, upper.head? = some u → Js.isSpaceUnit u = false)
    (hperiodNe : period ≠ [])
    (hperiod : ∀ u ∈ period, ([Item.range 97 122].any fun item => item.has true u) = true) :
    salaryExpression.matcher true
        ⟨lower ++ 32 :: 8211 :: 32 :: (upper ++ 32 :: 69 :: 85 :: 82 :: 47 :: period), []⟩ .ok =
      .ok ⟨[], [(4, period), (3, [69, 85, 82]), (2, upper ++ [32]), (1, lower ++ [32])]⟩ := by
  have hsplit : lower ++ 32 :: 8211 :: 32 :: (upper ++ 32 :: 69 :: 85 :: 82 :: 47 :: period) =
      (lower ++ [32]) ++ 8211 :: 32 :: (upper ++ 32 :: 69 :: 85 :: 82 :: 47 :: period) := by
    simp
  have htail := currencyAndPeriod_matches period [(2, upper ++ [32]), (1, lower ++ [32])]
    hperiodNe hperiod
  have hafter : (Term.seq (.rep 0 (some 1) dashAndAmount) currencyAndPeriod).matcher true
      ⟨8211 :: 32 :: (upper ++ 32 :: 69 :: 85 :: 82 :: 47 :: period), [(1, lower ++ [32])]⟩
      .ok =
        .ok ⟨[], [(4, period), (3, [69, 85, 82]), (2, upper ++ [32]), (1, lower ++ [32])]⟩ := by
    rw [matcher_seq, matcher_optional true dashAndAmount _ _ (by simp)]
    have hkeep : List.filter (fun e : Nat × List Nat => !dashAndAmount.groups.contains e.1)
        [(1, lower ++ [32])] = [(1, lower ++ [32])] := by
      rfl
    simp only [hkeep]
    rw [dashAndAmount_matches upper (85 :: 82 :: 47 :: period) [(1, lower ++ [32])] _ hupperNe
      hupper hhead (by
        simp only [List.length_cons, List.length_append]
        rw [if_neg (by omega), htail]
        exact fun h => by cases h)]
    simp only [List.length_cons, List.length_append]
    rw [if_neg (by omega), htail]
  unfold salaryExpression digitOrSpace
  rw [hsplit, matcher_seq, matcher_capture_run true 1 1 none [.digit, .space] (lower ++ [32]) _ []
    _ (fun u hu => by
        rcases List.mem_append.1 hu with hu | hu
        · exact hlower u hu
        · rw [List.mem_singleton.1 hu]
          decide)
      (Or.inl fun u hu => by
        simp only [List.head?_cons, Option.some.injEq] at hu
        subst hu
        decide)
      (by simp) (fun k hk => by simp at hk) (fun hfail => by cases hafter.symm.trans hfail)]
  exact hafter

/-- On a text of the form `A EUR/p` the salary expression matches at the start, and the
group of the upper amount takes no part. -/
theorem salaryExpression_single (lower period : List Nat)
    (hlower : ∀ u ∈ lower, ([Item.digit, Item.space].any fun item => item.has true u) = true)
    (hperiodNe : period ≠ [])
    (hperiod : ∀ u ∈ period, ([Item.range 97 122].any fun item => item.has true u) = true) :
    salaryExpression.matcher true ⟨lower ++ 32 :: 69 :: 85 :: 82 :: 47 :: period, []⟩ .ok =
      .ok ⟨[], [(4, period), (3, [69, 85, 82]), (1, lower ++ [32])]⟩ := by
  have hsplit : lower ++ 32 :: 69 :: 85 :: 82 :: 47 :: period =
      (lower ++ [32]) ++ 69 :: 85 :: 82 :: 47 :: period := by
    simp
  have htail := currencyAndPeriod_matches period [(1, lower ++ [32])] hperiodNe hperiod
  have hdash : ∀ (caps : List (Nat × List Nat)) (d : Cont),
      dashAndAmount.matcher true ⟨69 :: 85 :: 82 :: 47 :: period, caps⟩ d = .failure := by
    intro caps d
    unfold dashAndAmount
    rw [matcher_seq, matcher_rep_stop true none [.space] 69 _ caps _ (by decide), matcher_seq,
      matcher_char_cons, if_neg (by decide)]
  have hafter : (Term.seq (.rep 0 (some 1) dashAndAmount) currencyAndPeriod).matcher true
      ⟨69 :: 85 :: 82 :: 47 :: period, [(1, lower ++ [32])]⟩ .ok =
        .ok ⟨[], [(4, period), (3, [69, 85, 82]), (1, lower ++ [32])]⟩ := by
    rw [matcher_seq, matcher_optional true dashAndAmount _ _ (by simp), hdash]
    exact htail
  unfold salaryExpression digitOrSpace
  rw [hsplit, matcher_seq, matcher_capture_run true 1 1 none [.digit, .space] (lower ++ [32]) _ []
    _ (fun u hu => by
        rcases List.mem_append.1 hu with hu | hu
        · exact hlower u hu
        · rw [List.mem_singleton.1 hu]
          decide)
      (Or.inl fun u hu => by
        simp only [List.head?_cons, Option.some.injEq] at hu
        subst hu
        decide)
      (by simp) (fun k hk => by simp at hk) (fun hfail => by cases hafter.symm.trans hfail)]
  exact hafter

/-! ### The word `dohodou` -/

/-- The units of the word `dohodou`. -/
theorem dohodou_units :
    ('d' :: ['o', 'h', 'o', 'd', 'o', 'u']).map Char.toNat = Js.utf16 "dohodou" := by
  decide

/-- A text that contains `dohodou` passes the test of `/dohodou/i`. -/
theorem dohodou_found (s : String) (h : Js.includes s "dohodou" = true) :
    ∃ y, dohodou.exec true (Js.utf16 s) = .ok y := by
  unfold Js.includes at h
  obtain ⟨t, ht, hpre⟩ := List.any_eq_true.1 h
  obtain ⟨before, hbefore⟩ := (List.mem_tails _ _).1 ht
  obtain ⟨post, hpost⟩ := List.isPrefixOf_iff_prefix.1 hpre
  have hs : s = (⟨before⟩ : String) ++ ("dohodou" ++ ⟨post⟩) := by
    apply String.ext
    rw [String.data_append, String.data_append, hpost, hbefore]
  rw [hs, Js.utf16_append, Js.utf16_append, dohodou_eq_word]
  apply exec_word_found
  rw [dohodou_units]
  exact frontIs_append true _ _

/-- A unit that the flag `i` identifies with a small letter is that letter or its capital. -/
theorem canonicalize_cases (k u : Nat) (hk : 97 ≤ k ∧ k ≤ 122)
    (h : canonicalize true k = canonicalize true u) : u = k ∨ u = k - 32 := by
  unfold canonicalize at h
  simp only [Bool.true_and, Bool.and_eq_true, decide_eq_true_eq] at h
  rw [if_pos hk] at h
  split at h <;> omega

/-- A character that the flag `i` identifies with a letter of `dohodou` has that letter as
its lower case. -/
theorem toLower_of_canonicalize (a c : Char) (ha : a ∈ ['d', 'o', 'h', 'u'])
    (h : canonicalize true a.toNat = canonicalize true c.toNat) : c.toLower = a := by
  simp only [List.mem_cons, List.mem_singleton, List.mem_nil_iff, or_false] at ha
  rcases ha with rfl | rfl | rfl | rfl
  · rcases canonicalize_cases _ _ (by decide) h with hc | hc
    · rw [Js.char_eq_of_toNat_eq c 'd' hc]
      rfl
    · rw [Js.char_eq_of_toNat_eq c 'D' hc]
      rfl
  · rcases canonicalize_cases _ _ (by decide) h with hc | hc
    · rw [Js.char_eq_of_toNat_eq c 'o' hc]
      rfl
    · rw [Js.char_eq_of_toNat_eq c 'O' hc]
      rfl
  · rcases canonicalize_cases _ _ (by decide) h with hc | hc
    · rw [Js.char_eq_of_toNat_eq c 'h' hc]
      rfl
    · rw [Js.char_eq_of_toNat_eq c 'H' hc]
      rfl
  · rcases canonicalize_cases _ _ (by decide) h with hc | hc
    · rw [Js.char_eq_of_toNat_eq c 'u' hc]
      rfl
    · rw [Js.char_eq_of_toNat_eq c 'U' hc]
      rfl

/-- Where the matcher finds a word of these letters, the lower-cased text has the word. -/
theorem isPrefixOf_toLower (w : List Char) (hw : ∀ a ∈ w, a ∈ ['d', 'o', 'h', 'u']) :
    ∀ cs : List Char, frontIs true (w.map Char.toNat) (cs.map Char.toNat) = true →
      w.isPrefixOf (cs.map Char.toLower) = true := by
  induction w with
  | nil =>
    intro cs _
    simp
  | cons a w ih =>
    intro cs h
    cases cs with
    | nil => simp [frontIs] at h
    | cons c rest =>
      simp only [List.map_cons, frontIs, Bool.and_eq_true, beq_iff_eq] at h
      have hc := toLower_of_canonicalize a c (hw a (List.mem_cons_self _ _)) h.1
      have hrest := ih (fun b hb => hw b (List.mem_cons_of_mem _ hb)) rest h.2
      simp only [List.map_cons, List.isPrefixOf, hc, hrest, beq_self_eq_true, Bool.and_self]

/-- A text that ends with a period without `dohodou`, after units that are neither `d` nor
`D`, fails the test of `/dohodou/i`. -/
theorem dohodou_absent (front : List Nat) (p : String)
    (hfront : ∀ u ∈ front, u ≠ 100 ∧ u ≠ 68)
    (hp : Js.includes (Js.asciiLower p) "dohodou" = false) :
    dohodou.exec true (front ++ p.data.map Char.toNat) = .failure := by
  rw [dohodou_eq_word]
  apply exec_word_absent
  intro before rest hsplit
  cases hfr : frontIs true (('d' :: ['o', 'h', 'o', 'd', 'o', 'u']).map Char.toNat) rest with
  | false => rfl
  | true =>
    exfalso
    rcases List.append_eq_append_iff.1 hsplit with ⟨mid, hbefore, hrest⟩ | ⟨mid, hfronteq, hrest⟩
    · -- the match starts inside the period
      obtain ⟨l1, l2, hp12, _, hl2⟩ := List.map_eq_append_iff.1 hrest
      rw [← hl2] at hfr
      have hpre := isPrefixOf_toLower _ (by decide) l2 hfr
      have hinc : Js.includes (Js.asciiLower p) "dohodou" = true := by
        unfold Js.includes Js.asciiLower
        apply List.any_eq_true.2
        refine ⟨l2.map Char.toLower, (List.mem_tails _ _).2 ⟨l1.map Char.toLower, ?_⟩, hpre⟩
        rw [hp12, List.map_append]
      rw [hinc] at hp
      cases hp
    · -- the match starts before the period
      cases mid with
      | nil =>
        rw [List.nil_append] at hrest
        obtain ⟨l1, l2, hp12, _, hl2⟩ :
            ∃ l1 l2, p.data = l1 ++ l2 ∧ l1.map Char.toNat = [] ∧ l2.map Char.toNat = rest :=
          ⟨[], p.data, rfl, rfl, hrest.symm⟩
        rw [← hl2] at hfr
        have hpre := isPrefixOf_toLower _ (by decide) l2 hfr
        have hinc : Js.includes (Js.asciiLower p) "dohodou" = true := by
          unfold Js.includes Js.asciiLower
          apply List.any_eq_true.2
          refine ⟨l2.map Char.toLower, (List.mem_tails _ _).2 ⟨l1.map Char.toLower, ?_⟩, hpre⟩
          rw [hp12, List.map_append]
        rw [hinc] at hp
        cases hp
      | cons u mid2 =>
        have hu : u ∈ front := by
          rw [hfronteq]
          simp
        rw [hrest, List.cons_append] at hfr
        simp only [List.map_cons, frontIs, Bool.and_eq_true, beq_iff_eq] at hfr
        rcases canonicalize_cases _ _ (by decide) hfr.1 with h | h
        · exact (hfront u hu).1 h
        · exact (hfront u hu).2 h

/-! ### What the parser returns for a salary -/

theorem captured_currency :
    Js.ofUnits [69, 85, 82] = "EUR" := by
  decide

/-- The fields read from a text that the parser trims to `a – b EUR/p`. -/
theorem salary_of_range (text a b p : String) (ha : IsAmount a) (hb : IsAmount b)
    (hp : IsPeriod p) (hasmall : written a < 2 ^ 53) (hbsmall : written b < 2 ^ 53)
    (hno : Js.includes (Js.asciiLower p) "dohodou" = false)
    (htrim : Js.trim text = a ++ " – " ++ b ++ " EUR/" ++ p) :
    salary text = .ok ⟨.num (written a), .num (written b), .str "EUR", .str p⟩ := by
  obtain ⟨hau, hane, haall, _, hafree⟩ := amount_units a ha
  obtain ⟨hbu, hbne, hball, hbhead, hbfree⟩ := amount_units b hb
  obtain ⟨hpu, hpne, hpall, hpback⟩ := period_units p hp
  have hdash : Js.utf16 " – " = [32, 8211, 32] := by decide
  have heur : Js.utf16 " EUR/" = [32, 69, 85, 82, 47] := by decide
  have hunits : Js.utf16 (Js.trim text) =
      a.data.map Char.toNat ++ 32 :: 8211 :: 32 ::
        (b.data.map Char.toNat ++ 32 :: 69 :: 85 :: 82 :: 47 :: p.data.map Char.toNat) := by
    rw [htrim, Js.utf16_append, Js.utf16_append, Js.utf16_append, Js.utf16_append, hau, hbu,
      hpu, hdash, heur]
    simp
  have hne : Js.trim text ≠ "" := by
    intro hempty
    rw [hempty] at hunits
    have hlen := congrArg List.length hunits
    simp [Js.utf16] at hlen
    omega
  have hfront : a.data.map Char.toNat ++ 32 :: 8211 :: 32 ::
        (b.data.map Char.toNat ++ 32 :: 69 :: 85 :: 82 :: 47 :: p.data.map Char.toNat) =
      (a.data.map Char.toNat ++ 32 :: 8211 :: 32 ::
        (b.data.map Char.toNat ++ [32, 69, 85, 82, 47])) ++ p.data.map Char.toNat := by
    simp
  have hdoh : dohodou.exec true (Js.utf16 (Js.trim text)) = .failure := by
    rw [hunits, hfront]
    apply dohodou_absent _ p _ hno
    intro u hu
    simp only [List.mem_append, List.mem_cons, List.mem_singleton, List.mem_nil_iff,
      or_false] at hu
    rcases hu with hu | hu | hu | hu | hu | hu
    · exact hafree u hu
    · omega
    · omega
    · omega
    · exact hbfree u hu
    · omega
  have hmatch : salaryExpression.exec true (Js.utf16 (Js.trim text)) =
      .ok ⟨[], [(4, p.data.map Char.toNat), (3, [69, 85, 82]), (2, b.data.map Char.toNat ++ [32]),
        (1, a.data.map Char.toNat ++ [32])]⟩ := by
    rw [hunits]
    exact exec_of_ok true _ _ _
      (salaryExpression_range _ _ _ haall hbne hball hbhead hpne hpall)
  have hsecond : b.data.map Char.toNat ++ [32] ≠ [] := by simp
  have hg1 : (State.mk [] [(4, p.data.map Char.toNat), (3, [69, 85, 82]),
      (2, b.data.map Char.toNat ++ [32]), (1, a.data.map Char.toNat ++ [32])]).group 1 =
      some (a.data.map Char.toNat ++ [32]) := rfl
  have hg2 : (State.mk [] [(4, p.data.map Char.toNat), (3, [69, 85, 82]),
      (2, b.data.map Char.toNat ++ [32]), (1, a.data.map Char.toNat ++ [32])]).group 2 =
      some (b.data.map Char.toNat ++ [32]) := rfl
  have hg3 : (State.mk [] [(4, p.data.map Char.toNat), (3, [69, 85, 82]),
      (2, b.data.map Char.toNat ++ [32]), (1, a.data.map Char.toNat ++ [32])]).group 3 =
      some [69, 85, 82] := rfl
  have hg4 : (State.mk [] [(4, p.data.map Char.toNat), (3, [69, 85, 82]),
      (2, b.data.map Char.toNat ++ [32]), (1, a.data.map Char.toNat ++ [32])]).group 4 =
      some (p.data.map Char.toNat) := rfl
  unfold salary
  simp only [hne, if_false, hdoh, hmatch, hg1, hg2, hg3, hg4, captured,
    amount_written a ha hasmall, amount_written b hb hbsmall, hpback, hsecond, ne_eq,
    not_false_eq_true, if_true, captured_currency]

/-- The fields read from a text that the parser trims to `a EUR/p`. -/
theorem salary_of_single (text a p : String) (ha : IsAmount a) (hp : IsPeriod p)
    (hasmall : written a < 2 ^ 53)
    (hno : Js.includes (Js.asciiLower p) "dohodou" = false)
    (htrim : Js.trim text = a ++ " EUR/" ++ p) :
    salary text = .ok ⟨.num (written a), .num (written a), .str "EUR", .str p⟩ := by
  obtain ⟨hau, hane, haall, _, hafree⟩ := amount_units a ha
  obtain ⟨hpu, hpne, hpall, hpback⟩ := period_units p hp
  have heur : Js.utf16 " EUR/" = [32, 69, 85, 82, 47] := by decide
  have hunits : Js.utf16 (Js.trim text) =
      a.data.map Char.toNat ++ 32 :: 69 :: 85 :: 82 :: 47 :: p.data.map Char.toNat := by
    rw [htrim, Js.utf16_append, Js.utf16_append, hau, hpu, heur]
    simp
  have hne : Js.trim text ≠ "" := by
    intro hempty
    rw [hempty] at hunits
    have hlen := congrArg List.length hunits
    simp [Js.utf16] at hlen
    omega
  have hfront : a.data.map Char.toNat ++ 32 :: 69 :: 85 :: 82 :: 47 :: p.data.map Char.toNat =
      (a.data.map Char.toNat ++ [32, 69, 85, 82, 47]) ++ p.data.map Char.toNat := by
    simp
  have hdoh : dohodou.exec true (Js.utf16 (Js.trim text)) = .failure := by
    rw [hunits, hfront]
    apply dohodou_absent _ p _ hno
    intro u hu
    simp only [List.mem_append, List.mem_cons, List.mem_singleton, List.mem_nil_iff,
      or_false] at hu
    rcases hu with hu | hu
    · exact hafree u hu
    · omega
  have hmatch : salaryExpression.exec true (Js.utf16 (Js.trim text)) =
      .ok ⟨[], [(4, p.data.map Char.toNat), (3, [69, 85, 82]),
        (1, a.data.map Char.toNat ++ [32])]⟩ := by
    rw [hunits]
    exact exec_of_ok true _ _ _ (salaryExpression_single _ _ haall hpne hpall)
  have hg1 : (State.mk [] [(4, p.data.map Char.toNat), (3, [69, 85, 82]),
      (1, a.data.map Char.toNat ++ [32])]).group 1 = some (a.data.map Char.toNat ++ [32]) := rfl
  have hg2 : (State.mk [] [(4, p.data.map Char.toNat), (3, [69, 85, 82]),
      (1, a.data.map Char.toNat ++ [32])]).group 2 = none := rfl
  have hg3 : (State.mk [] [(4, p.data.map Char.toNat), (3, [69, 85, 82]),
      (1, a.data.map Char.toNat ++ [32])]).group 3 = some [69, 85, 82] := rfl
  have hg4 : (State.mk [] [(4, p.data.map Char.toNat), (3, [69, 85, 82]),
      (1, a.data.map Char.toNat ++ [32])]).group 4 = some (p.data.map Char.toNat) := rfl
  unfold salary
  simp only [hne, if_false, hdoh, hmatch, hg1, hg2, hg3, hg4, captured,
    amount_written a ha hasmall, hpback, captured_currency]

/-- The fields read from a text that contains `dohodou`. -/
theorem salary_of_dohodou (text : String) (h : Js.includes (Js.trim text) "dohodou" = true) :
    salary text = .ok noSalary := by
  obtain ⟨y, hy⟩ := dohodou_found _ h
  unfold salary
  by_cases hempty : Js.trim text = ""
  · simp only [hempty, if_true]
    rfl
  · simp only [hempty, if_false, hy]
    rfl

/-- C21 fails outside the ASCII letters, on a period that is the word `dohodou` and on
amounts from `2 ^ 53`.  For `2 000 – 3 000 EUR/dohodou` (and for `Dohodou`) the four fields
are `null`.  For `1 000 EUR/mesačne` the period is `mesa`, what stands before the first
letter outside `a` to `z`.  For `9007199254740993 EUR/mesiac` the amount is
`9007199254740992`, the nearest number that JavaScript has. -/
theorem salary_outside_form :
    salary "2 000 – 3 000 EUR/dohodou" = .ok ⟨.null, .null, .null, .null⟩ ∧
    salary "2 000 – 3 000 EUR/Dohodou" = .ok ⟨.null, .null, .null, .null⟩ ∧
    salary "1 000 EUR/mesačne" = .ok ⟨.num 1000, .num 1000, .str "EUR", .str "mesa"⟩ ∧
    salary "9007199254740993 EUR/mesiac" =
      .ok ⟨.num 9007199254740992, .num 9007199254740992, .str "EUR", .str "mesiac"⟩ := by
  refine ⟨?_, ?_, ?_, ?_⟩ <;> decide!

/-- C21. Salary parsing.  The text is what the parser has after trimming.  (1) For a text
`a – b EUR/p`, where `a` and `b` are amounts (they begin with a digit and hold digits and
spaces) that write integers below `2 ^ 53` and `p` is a non-empty run of ASCII letters without
`dohodou` in any letter case, the parser returns the integers that `a` and `b` write, `EUR`
and `p`.  (2) For a text `a EUR/p` it returns the integer that `a` writes twice, `EUR` and
`p`.  (3) For a text that contains `dohodou` the four fields are `null`.  (4) For an empty
text the four fields are `null`. -/
theorem salary_fields :
    (∀ text a b p : String, IsAmount a → IsAmount b → IsPeriod p →
      written a < 2 ^ 53 → written b < 2 ^ 53 →
      Js.includes (Js.asciiLower p) "dohodou" = false →
      Js.trim text = a ++ " – " ++ b ++ " EUR/" ++ p →
      salary text = .ok ⟨.num (written a), .num (written b), .str "EUR", .str p⟩) ∧
    (∀ text a p : String, IsAmount a → IsPeriod p → written a < 2 ^ 53 →
      Js.includes (Js.asciiLower p) "dohodou" = false →
      Js.trim text = a ++ " EUR/" ++ p →
      salary text = .ok ⟨.num (written a), .num (written a), .str "EUR", .str p⟩) ∧
    (∀ text : String, Js.includes (Js.trim text) "dohodou" = true →
      salary text = .ok noSalary) ∧
    (∀ text : String, Js.trim text = "" → salary text = .ok noSalary) := by
  refine ⟨?_, ?_, salary_of_dohodou, ?_⟩
  · intro text a b p ha hb hp hasmall hbsmall hno htrim
    exact salary_of_range text a b p ha hb hp hasmall hbsmall hno htrim
  · intro text a p ha hp hasmall hno htrim
    exact salary_of_single text a p ha hp hasmall hno htrim
  · intro text hempty
    unfold salary
    simp only [hempty, if_true]
    rfl

/-- C21 on the text `2 000 – 3 000 EUR/mesiac`, which gives 2000, 3000, `EUR` and
`mesiac`. -/
theorem salary_fields_witness :
    salary "2 000 – 3 000 EUR/mesiac" =
      .ok ⟨.num 2000, .num 3000, .str "EUR", .str "mesiac"⟩ :=
  salary_fields.1 "2 000 – 3 000 EUR/mesiac" "2 000" "3 000" "mesiac" (by decide) (by decide)
    (by decide) (by decide) (by decide) (by decide) (by decide)

end ProfesiaParser

/-! ## The state of the reporter after any sequence of calls -/

namespace Reporter

theorem mem_setOwn (counts : Counts) (k : String) (v : Count) (e : String × Count)
    (h : e ∈ setOwn counts k v) : e ∈ counts ∨ e = (k, v) := by
  induction counts with
  | nil =>
    unfold setOwn at h
    exact Or.inr (List.mem_singleton.1 h)
  | cons e0 rest ih =>
    obtain ⟨k0, v0⟩ := e0
    unfold setOwn at h
    by_cases h0 : k0 = k
    · rw [if_pos h0] at h
      rcases List.mem_cons.1 h with h | h
      · right
        rw [h, h0]
      · exact Or.inl (List.mem_cons_of_mem _ h)
    · rw [if_neg h0] at h
      rcases List.mem_cons.1 h with h | h
      · left
        rw [h]
        exact List.mem_cons_self _ _
      · rcases ih h with h | h
        · exact Or.inl (List.mem_cons_of_mem _ h)
        · exact Or.inr h

/-- The sum of the numbers after a value is stored under a key. -/
theorem total_setOwn (counts : Counts) (k : String) (v : Count) :
    total (setOwn counts k v) + ((List.lookup k counts).map Count.number).getD 0 =
      total counts + v.number := by
  induction counts with
  | nil =>
    unfold setOwn
    simp [total]
  | cons e0 rest ih =>
    obtain ⟨k0, v0⟩ := e0
    unfold setOwn
    rw [RobotsChecker.lookup_pair_cons]
    by_cases h0 : k0 = k
    · rw [if_pos h0, if_pos h0.symm]
      simp only [total, List.map_cons, List.sum_cons, Option.map_some', Option.getD_some]
      omega
    · have h1 : ¬ k = k0 := fun h => h0 h.symm
      rw [if_neg h0, if_neg h1]
      have hrest : total (setOwn rest k v) + ((List.lookup k rest).map Count.number).getD 0 =
          total rest + v.number := ih
      simp only [total, List.map_cons, List.sum_cons] at hrest ⊢
      omega

/-- One count stores numbers that are at least one and raises their sum by at most one. -/
theorem bump_numbers (counts : Counts) (key : String)
    (h : ∀ e ∈ counts, ∀ n, e.2 = .num n → 1 ≤ n) :
    (∀ e ∈ bump counts key, ∀ n, e.2 = .num n → 1 ≤ n) ∧
      total (bump counts key) ≤ total counts + 1 := by
  have hstore : ∀ v : Count, (∀ n, v = .num n → 1 ≤ n) →
      ∀ e ∈ setOwn counts key v, ∀ n, e.2 = .num n → 1 ≤ n := by
    intro v hv e he n hn
    rcases mem_setOwn counts key v e he with he | he
    · exact h e he n hn
    · rw [he] at hn
      exact hv n hn
  unfold bump
  cases hlook : List.lookup key counts with
  | none =>
    have hsum := fun v => total_setOwn counts key v
    simp only [hlook, Option.map_none', Option.getD_none, Nat.add_zero] at hsum
    by_cases hproto : key = "__proto__"
    · simp only [hproto, if_true]
      exact ⟨h, Nat.le_succ _⟩
    · by_cases hin : key ∈ inheritedFunctions
      · simp only [hproto, if_false, hin, if_true]
        refine ⟨hstore _ (fun n hn => by cases hn), ?_⟩
        rw [hsum]
        exact Nat.le_succ _
      · simp only [hproto, if_false, hin]
        refine ⟨hstore _ (fun n hn => by cases hn; exact Nat.le_refl _), ?_⟩
        rw [hsum]
        exact Nat.le_refl _
  | some old =>
    have hsum := fun v => total_setOwn counts key v
    simp only [hlook, Option.map_some', Option.getD_some] at hsum
    cases old with
    | num m =>
      show (∀ e ∈ setOwn counts key (.num (m + 1)), ∀ n, e.2 = .num n → 1 ≤ n) ∧
        total (setOwn counts key (.num (m + 1))) ≤ total counts + 1
      refine ⟨hstore _ (fun n hn => by cases hn; exact Nat.succ_le_succ (Nat.zero_le _)), ?_⟩
      have := hsum (.num (m + 1))
      simp only [Count.number] at this
      omega
    | text ones =>
      show (∀ e ∈ setOwn counts key (.text (ones + 1)), ∀ n, e.2 = .num n → 1 ≤ n) ∧
        total (setOwn counts key (.text (ones + 1))) ≤ total counts + 1
      refine ⟨hstore _ (fun n hn => by cases hn), ?_⟩
      have := hsum (.text (ones + 1))
      simp only [Count.number] at this
      omega

theorem bumpIfTruthy_numbers (counts : Counts) (v : JsVal)
    (h : ∀ e ∈ counts, ∀ n, e.2 = .num n → 1 ≤ n) :
    (∀ e ∈ bumpIfTruthy counts v, ∀ n, e.2 = .num n → 1 ≤ n) ∧
      total (bumpIfTruthy counts v) ≤ total counts + 1 := by
  unfold bumpIfTruthy
  split
  · exact bump_numbers counts _ h
  · exact ⟨h, Nat.le_succ _⟩

/-- One call keeps `failedUrls` no longer than `failed` and `salaries` no longer than
`totalJobs`. -/
theorem apply_lengths (r : Reporter) (op : Op)
    (h : r.failedUrls.length ≤ r.failed ∧ r.salaries.length ≤ r.totalJobs) :
    (r.apply op).failedUrls.length ≤ (r.apply op).failed ∧
      (r.apply op).salaries.length ≤ (r.apply op).totalJobs := by
  obtain ⟨h1, h2⟩ := h
  cases op with
  | addJob job =>
    refine ⟨h1, ?_⟩
    show (if job.salaryMin.isNumber && job.salaryMax.isNumber then
        r.salaries ++ [⟨job.salaryMin, job.salaryMax, job.salaryCurrency, job.salaryPeriod⟩]
      else r.salaries).length ≤ r.totalJobs + 1
    split
    · rw [List.length_append, List.length_singleton]
      omega
    · omega
  | addDuplicate => exact ⟨h1, h2⟩
  | addFailed url =>
    refine ⟨?_, h2⟩
    show (match url with
      | some u => if u ≠ "" then r.failedUrls ++ [u] else r.failedUrls
      | none => r.failedUrls).length ≤ r.failed + 1
    cases url with
    | none => exact Nat.le_succ_of_le h1
    | some u =>
      by_cases hu : u = ""
      · simp only [hu, ne_eq, not_true_eq_false, if_false]
        omega
      · simp only [ne_eq, hu, not_false_eq_true, if_true, List.length_append,
          List.length_singleton]
        omega

/-- The lengths of `failedUrls` and `salaries` after any sequence of calls on a fresh
reporter. -/
theorem lengths_after_calls (ops : List Op) :
    (ops.foldl apply fresh).failedUrls.length ≤ (ops.foldl apply fresh).failed ∧
      (ops.foldl apply fresh).salaries.length ≤ (ops.foldl apply fresh).totalJobs := by
  have hgen : ∀ (r : Reporter),
      r.failedUrls.length ≤ r.failed ∧ r.salaries.length ≤ r.totalJobs →
      (ops.foldl apply r).failedUrls.length ≤ (ops.foldl apply r).failed ∧
        (ops.foldl apply r).salaries.length ≤ (ops.foldl apply r).totalJobs := by
    induction ops with
    | nil => exact fun r h => h
    | cons op rest ih => exact fun r h => ih (r.apply op) (apply_lengths r op h)
  exact hgen fresh ⟨Nat.le_refl _, Nat.le_refl _⟩

/-- What each of the three calls leaves untouched. -/
theorem apply_frames (r : Reporter) (job : JobData) (url : Option String) :
    r.addDuplicate = { r with duplicates := r.duplicates + 1 } ∧
    r.addFailed url =
      { r with failed := (r.addFailed url).failed, failedUrls := (r.addFailed url).failedUrls } ∧
    (r.addJob job).duplicates = r.duplicates ∧ (r.addJob job).failed = r.failed ∧
    (r.addJob job).failedUrls = r.failedUrls :=
  ⟨rfl, rfl, rfl, rfl, rfl⟩

/-- One call keeps the numbers stored in `locations`, `companies` and `employmentTypes` at
least one and their sums at most `totalJobs`. -/
theorem apply_numbers (r : Reporter) (op : Op) (h : NumbersCounted r) :
    NumbersCounted (r.apply op) := by
  obtain ⟨⟨hl1, hl2⟩, ⟨hc1, hc2⟩, ⟨he1, he2⟩⟩ := h
  cases op with
  | addJob job =>
    obtain ⟨hl3, hl4⟩ := bumpIfTruthy_numbers r.locations job.location hl1
    obtain ⟨hc3, hc4⟩ := bumpIfTruthy_numbers r.companies job.companyName hc1
    obtain ⟨he3, he4⟩ := bumpIfTruthy_numbers r.employmentTypes job.employmentType he1
    exact ⟨⟨hl3, Nat.le_trans hl4 (Nat.succ_le_succ hl2)⟩,
      ⟨hc3, Nat.le_trans hc4 (Nat.succ_le_succ hc2)⟩,
      ⟨he3, Nat.le_trans he4 (Nat.succ_le_succ he2)⟩⟩
  | addDuplicate => exact ⟨⟨hl1, hl2⟩, ⟨hc1, hc2⟩, ⟨he1, he2⟩⟩
  | addFailed url => exact ⟨⟨hl1, hl2⟩, ⟨hc1, hc2⟩, ⟨he1, he2⟩⟩

/-- After any sequence of calls on a fresh reporter, every number stored in `locations`,
`companies` and `employmentTypes` is at least one and the numbers of each object sum to at
most `totalJobs`.  A value that is a text, stored under an inherited key, is not a number and
is left out of the sum. -/
theorem numbers_after_calls (ops : List Op) : NumbersCounted (ops.foldl apply fresh) := by
  have hgen : ∀ r : Reporter, NumbersCounted r → NumbersCounted (ops.foldl apply r) := by
    induction ops with
    | nil => exact fun r h => h
    | cons op rest ih => exact fun r h => ih (r.apply op) (apply_numbers r op h)
  refine hgen fresh ⟨⟨?_, Nat.le_refl _⟩, ⟨?_, Nat.le_refl _⟩, ⟨?_, Nat.le_refl _⟩⟩ <;>
    exact fun e he => by cases he

/-- C28 at a key that every object inherits: after the single call
`addJob` with a record whose `employmentType` is `toString` on a fresh reporter, the value stored in
`employmentTypes` is the text of the inherited function followed by the character `1`, so it
is not a number that is at least one, and the numbers stored in `employmentTypes` are none. -/
theorem invariant_inherited_key :
    ([Op.addJob { Examples.fields with employmentType := .str "toString" }].foldl apply
        fresh).employmentTypes = [("toString", .text 1)] ∧
    (¬ ∀ e ∈ ([Op.addJob { Examples.fields with employmentType := .str "toString" }].foldl
        apply fresh).employmentTypes, ∃ n, e.2 = .num n ∧ 1 ≤ n) ∧
    ([Op.addJob { Examples.fields with employmentType := .str "toString" }].foldl apply
        fresh).totalJobs = 1 := by
  refine ⟨by decide, ?_, by decide⟩
  intro h
  obtain ⟨n, hn, _⟩ := h ("toString", .text 1) (by decide)
  cases hn

end Reporter
